import Mathlib

/-! # Workflow engine: DAG builder, plan compiler, request runner, scheduler

A shallow embedding of `github.com/warriorguo/workflow` (packages `utils`,
`types`, `store/mem` and `runtime`).

Conventions of the embedding.

* A Go `map[string]T` is an association list searched from the head
  (`mapGet`, `mapSet`, `mapDelete`); a `range` over the map visits the list in
  order.
* Pointers to `dagEntity` objects are addresses into a heap (a list) that the
  engine owns; `vertexInfo.DAG` and `vertexEntity.dag` hold such addresses.
* The run contexts built by `generateRuntime` live in the `rcMap` of their
  `dagRuntime`; a resolved successor pointer (`nextRC`, `trueRC`, `falseRC`,
  `runningRC`) is the key of the target in that map, `Termination` is the nil
  pointer.
* `context.Context`, logging, mutexes and the worker pool are left out: the
  embedding is the synchronous mode (`TaskRunAsync = false`), one goroutine.
* `time.Time` and `time.Duration` are integers; one tick reads the clock once.
* `types.Data` is a value; a handler does not change its input in place.
* `utils.Serialize` / `utils.Unserialize` (`encoding/json`) are taken to be
  lossless on the three kinds of records the engine stores (`Blob`); the JSON
  form of a plan is modelled apart from the engine, by `Serialize` and
  `Unserialize`.
* A Go panic that nothing recovers is the outcome `panic`.
* Slices are values: a `utils.Path` shares no backing array with another.
  In Go the result of `Path.AddString` can share its array with an earlier
  result (see `Path.AddString`), which shows in the paths of the vertices of
  a DAG nested three deep or deeper.
* An error value has a cause: `NewRetryError(nil, b)` and its siblings, whose
  `Error()` dereferences nil, are left out.
* Recursion without a bound in the source (`checkLinkValid`, the compilation
  of nested plans) takes a `fuel`; the result `none` is a run that has not
  returned within it.
-/

namespace Workflow

/-! ## Go maps -/

/-- The Go lookup `v, exists := m[key]`. -/
def mapGet {α : Type} : List (String × α) → String → Option α
  | [], _ => none
  | (k, v) :: tl, key => if k = key then some v else mapGet tl key

/-- The Go assignment `m[key] = v`. -/
def mapSet {α : Type} : List (String × α) → String → α → List (String × α)
  | [], key, v => [(key, v)]
  | (k, w) :: tl, key, v =>
    if k = key then (k, v) :: tl else (k, w) :: mapSet tl key v

/-- The Go statement `delete(m, key)`. -/
def mapDelete {α : Type} : List (String × α) → String → List (String × α)
  | [], _ => []
  | (k, w) :: tl, key =>
    if k = key then mapDelete tl key else (k, w) :: mapDelete tl key

/-- The Go test `_, exists := m[key]`. -/
def mapHas {α : Type} (m : List (String × α)) (key : String) : Bool :=
  (mapGet m key).isSome

/-! ## utils/path.go -/

/-- The type `utils.Path`, a slice of strings. -/
abbrev Path := List String

/-- The constructor `utils.NewPath(s...)`. -/
def NewPath (s : List String) : Path := s

/-- The method `Path.AddString`, on paths as values: `p` followed by `s`.  In
Go the method is `append(*p, s...)`, which writes into the backing array of
`p` when the array has room.  The path of a DAG nested three deep has length
3 and capacity 4, so every call of `AddString` on it returns the same array:
in Go the vertices of such a DAG (and the DAGs nested in it) share one path,
which ends in the name written last.  Here every result has its own
segments; the two agree for the paths of a DAG that is not nested or nested
once. -/
def Path.AddString (p : Path) (s : String) : Path := p ++ [s]

/-- The method `Path.Export`. -/
def Path.Export (p : Path) : List String := p

/-- The method `Path.First`: the first segment and whether it exists. -/
def Path.First : Path → String × Bool
  | [] => ("", false)
  | s :: _ => (s, true)

/-- The method `Path.Next`: the path without its first segment. -/
def Path.Next : Path → Path
  | [] => []
  | _ :: tl => tl

/-! ## types: data, statuses, errors -/

/-- The type `types.Data`, a string-keyed bag of values. -/
abbrev Data := List (String × String)

/-- The constants of `types.StatusType`. -/
inductive StatusType where
  | None
  | Pending
  | Running
  | Paused
  | Retrying
  | Failed
  | Fatal
  | Finished
  deriving DecidableEq

/-- The numeric value of a status constant (`types/types.go`). -/
def StatusType.toInt : StatusType → Int
  | .None => 0
  | .Pending => 1
  | .Running => 2
  | .Paused => 3
  | .Retrying => 4
  | .Failed => 5
  | .Fatal => 9
  | .Finished => 10

/-- The error kinds of `juju/errors` that the engine raises; `plain` is an
error without a kind (`errors.Errorf`, `errors.New`). -/
inductive ErrKind where
  | NotFound
  | BadRequest
  | AlreadyExists
  | Forbidden
  | NotSupported
  | MethodNotAllowed
  | plain
  deriving DecidableEq

/-- Go `error` values.  `retry`, `fatal` and `pause` are the pointer types
`*types.RetryError`, `*types.FatalError`, `*types.PauseError`; `kind` is any
other error value; `trace e` is `errors.Trace(e)`, whose `Unwrap` gives `e`
back; `wrap prev e` is `errors.Wrapf(prev, e, ...)`, whose `Unwrap` gives
`prev`, and `wrapNil e` is `errors.Wrapf(nil, e, ...)`. -/
inductive Err where
  | retry (msg : String) (backoff : Int)
  | fatal (msg : String)
  | pause (msg : String)
  | kind (k : ErrKind) (msg : String)
  | trace (e : Err)
  | wrap (prev : Err) (e : Err)
  | wrapNil (e : Err)
  deriving DecidableEq

/-- The constructor `types.NewRetryError`. -/
def NewRetryError (cause : String) (backoff : Int) : Err := .retry cause backoff

/-- The constructor `types.NewFatalError`. -/
def NewFatalError (cause : String) : Err := .fatal cause

/-- The function `errors.Unwrap` of `juju/errors` (the standard library's):
the result of the error's `Unwrap` method, nil when it has none. -/
def Err.Unwrap : Err → Option Err
  | .trace e => some e
  | .wrap prev _ => some prev
  | _ => none

/-- Modelled from the spec: the constructor `types.NewPauseError(cause)`, which
the sources do not contain; like its two siblings it wraps the cause. -/
def NewPauseError (cause : String) : Err := .pause cause

/-- The result of a call that may fail or panic. -/
inductive Outcome (α : Type) where
  | ok (a : α)
  | error (e : Err)
  | panic (msg : String)
  deriving DecidableEq

/-- The error of an outcome, nil when there is none. -/
def Outcome.err {α : Type} : Outcome α → Option Err
  | .error e => some e
  | _ => none

/-- Whether an outcome is a result. -/
def Outcome.isOk {α : Type} : Outcome α → Bool
  | .ok _ => true
  | _ => false

/-! ## Handlers -/

/-- One invocation of a vertex handler: the request, the dotted address the
flow context reports (`GetCurrentVertex`) and the input. -/
structure Call where
  requestID : String
  vertex : Path
  input : Data
  deriving DecidableEq

/-- What a handler sees of `types.Context`, and the invocations made before
this one (a handler is a Go closure and may depend on them). -/
structure HandlerCtx where
  requestID : String
  currentVertex : Path
  history : List Call

/-- The type `types.NodeHandler`. -/
abbrev NodeHandler := HandlerCtx → Data → Outcome Data

/-- The type `types.BooleanHandler`. -/
abbrev BooleanHandler := HandlerCtx → Data → Outcome Bool

/-! ## runtime/dag_plan.go and runtime/dag.go: plans and the builder -/

/-- The constants of `vertexType`; `unset` is the zero value. -/
inductive vertexType where
  | unset
  | vertexNode
  | vertexCond
  | vertexDAG
  deriving DecidableEq

/-- The struct `vertexInfo` (`Typ` is its field `Type`); `DAG` is the address
of the referenced plan. -/
structure vertexInfo where
  Typ : vertexType
  TrueVertex : String
  FalseVertex : String
  DAG : Option Nat
  deriving DecidableEq

def makeNodeVertexInfo : vertexInfo := ⟨.vertexNode, "", "", none⟩

def makeDAGVertexInfo (dagPlan : Nat) : vertexInfo := ⟨.vertexDAG, "", "", some dagPlan⟩

def makeCondVertexInfo (trueVertex falseVertex : String) : vertexInfo :=
  ⟨.vertexCond, trueVertex, falseVertex, none⟩

/-- The struct `dagExecutePlan`. -/
structure dagExecutePlan where
  Name : String
  StartVertex : String
  Vertex : List (String × vertexInfo)
  Links : List (String × String)
  deriving DecidableEq

/-- The method `dagExecutePlan.visitNext`: the successors it hands to
`visitHandler` (the target of the link of `vertex`, or the two successors of
the Condition `vertex`); `none` when it returns false. -/
def dagExecutePlan.visitNext (dt : dagExecutePlan) (vertex : String) : Option (List String) :=
  match mapGet dt.Links vertex with
  | some v => some [v]
  | none =>
    match mapGet dt.Vertex vertex with
    | some v => if v.Typ = .vertexCond then some [v.TrueVertex, v.FalseVertex] else none
    | none => none

/-- The struct `vertexEntity`. -/
structure vertexEntity where
  name : String
  typ : vertexType
  handler : Option NodeHandler
  dag : Option Nat
  condHandler : Option BooleanHandler

/-- The index `globalVertex.vertex`. -/
abbrev globalVertex := List (String × vertexEntity)

def newGlobalVertex : globalVertex := []

def globalVertex.formatKey (dagName vertexName : String) : String :=
  dagName ++ "." ++ vertexName

/-- The method `globalVertex.register`: the new index, or `AlreadyExists`. -/
def globalVertex.register (gv : globalVertex) (dagName vertexName : String)
    (entity : vertexEntity) : globalVertex × Option Err :=
  let key := globalVertex.formatKey dagName vertexName
  if mapHas gv key then (gv, some (.kind .AlreadyExists vertexName))
  else (mapSet gv key entity, none)

def globalVertex.exists (gv : globalVertex) (dagName vertexName : String) : Bool :=
  mapHas gv (globalVertex.formatKey dagName vertexName)

def globalVertex.get (gv : globalVertex) (dagName vertexName : String) :
    Option vertexEntity :=
  mapGet gv (globalVertex.formatKey dagName vertexName)

/-- The constructor `newDAGEntity`: the plan part of a fresh `dagEntity`. -/
def newDAGEntity (name : String) : dagExecutePlan :=
  { Name := name, StartVertex := "", Vertex := [], Links := [] }

/-- The method `dagEntity.Node`; `gl` is `de.belongFlow.gl`. -/
def dagEntity.Node (gl : globalVertex) (de : dagExecutePlan) (vertex : String)
    (handler : Option NodeHandler) : globalVertex × dagExecutePlan × Option Err :=
  match handler with
  | none => (gl, de, some (.kind .BadRequest vertex))
  | some h =>
    let v : vertexEntity :=
      { name := vertex, typ := .vertexNode, handler := some h, dag := none,
        condHandler := none }
    match globalVertex.register gl de.Name vertex v with
    | (_, some err) => (gl, de, some (.trace err))
    | (gl1, none) =>
      let de1 := { de with Vertex := mapSet de.Vertex vertex makeNodeVertexInfo }
      let de2 := if de1.StartVertex = "" then { de1 with StartVertex := vertex } else de1
      (gl1, de2, none)

/-- The method `dagEntity.SubDAG`; `dagEntities` is the engine's table of
registered DAGs, read by `de.belongFlow.getDAG`. -/
def dagEntity.SubDAG (dagEntities : List (String × Nat)) (gl : globalVertex)
    (de : dagExecutePlan) (vertex dagName : String) :
    globalVertex × dagExecutePlan × Option Err :=
  match mapGet dagEntities dagName with
  | none => (gl, de, some (.kind .NotFound dagName))
  | some otherDagEntity =>
    let v : vertexEntity :=
      { name := vertex, typ := .vertexDAG, handler := none,
        dag := some otherDagEntity, condHandler := none }
    match globalVertex.register gl de.Name vertex v with
    | (_, some err) => (gl, de, some (.trace err))
    | (gl1, none) =>
      let de1 := if de.StartVertex = "" then { de with StartVertex := vertex } else de
      let de2 :=
        { de1 with Vertex := mapSet de1.Vertex vertex (makeDAGVertexInfo otherDagEntity) }
      (gl1, de2, none)

/-- The method `dagEntity.Condition`. -/
def dagEntity.Condition (gl : globalVertex) (de : dagExecutePlan)
    (vertex trueVertex falseVertex : String) (handler : Option BooleanHandler) :
    globalVertex × dagExecutePlan × Option Err :=
  match handler with
  | none => (gl, de, some (.kind .BadRequest vertex))
  | some h =>
    if !globalVertex.exists gl de.Name trueVertex then
      (gl, de, some (.kind .NotFound trueVertex))
    else if !globalVertex.exists gl de.Name falseVertex then
      (gl, de, some (.kind .NotFound falseVertex))
    else
      let v : vertexEntity :=
        { name := vertex, typ := .vertexCond, handler := none, dag := none,
          condHandler := some h }
      match globalVertex.register gl de.Name vertex v with
      | (_, some err) => (gl, de, some (.trace err))
      | (gl1, none) =>
        let de1 :=
          if de.StartVertex = "" ∨ trueVertex = de.StartVertex ∨ falseVertex = de.StartVertex
          then { de with StartVertex := vertex } else de
        let de2 :=
          { de1 with Vertex := mapSet de1.Vertex vertex (makeCondVertexInfo trueVertex falseVertex) }
        (gl1, de2, none)

/-- The function `checkLinkValid(links, from, to)`: follow `links` from
`frm`; `true` when the walk reaches `dst`, `false` when it leaves the map.
The Go loop has no bound: `none` is a walk that has not returned after
`fuel` iterations. -/
def checkLinkValid (links : List (String × String)) : Nat → String → String → Option Bool
  | 0, _, _ => none
  | fuel + 1, frm, dst =>
    match mapGet links frm with
    | none => some false
    | some nxt => if nxt = dst then some true else checkLinkValid links fuel nxt dst

/-- The method `dagEntity.Edge`; `none` when the cycle check does not return
within `fuel` iterations. -/
def dagEntity.Edge (gl : globalVertex) (de : dagExecutePlan) (fuel : Nat)
    (frm dst : String) : Option (dagExecutePlan × Option Err) :=
  match mapGet de.Links frm with
  | some link => some (de, some (.kind .AlreadyExists (frm ++ " to " ++ link)))
  | none =>
    match globalVertex.get gl de.Name frm with
    | none => some (de, some (.kind .NotFound frm))
    | some fromVertex =>
      if fromVertex.typ = .vertexCond then some (de, some (.kind .BadRequest frm))
      else if !globalVertex.exists gl de.Name dst then some (de, some (.kind .NotFound dst))
      else
        match checkLinkValid de.Links fuel dst frm with
        | none => none
        | some true => some (de, some (.kind .Forbidden (dst ++ " -> " ++ frm)))
        | some false =>
          let de1 := { de with Links := mapSet de.Links frm dst }
          let de2 := if dst = de1.StartVertex then { de1 with StartVertex := frm } else de1
          some (de2, none)

/-! ## store/mem/in_memory.go and the stored records -/

/-- The struct `types.NodeTraceRecord`; `Error` is the error whose stack the
source renders with `errors.ErrorStack`. -/
structure NodeTraceRecord where
  Path : List String
  Vertex : List String
  StartTime : Int
  EndTime : Int
  Error : Option Err
  Input : Data
  Output : Data
  deriving DecidableEq

/-- The struct `flowRerunContext`. -/
structure flowRerunContext where
  Status : StatusType
  Entrypoint : Path
  Data : Data
  deriving DecidableEq

/-- The values the engine stores, as `utils.Serialize` encodes them.  A plan
is written with every plan it refers to: `plan heap root` is the plan at
address `root` of `heap`. -/
inductive Blob where
  | plan (heap : List dagExecutePlan) (root : Nat)
  | rerun (c : flowRerunContext)
  | record (r : NodeTraceRecord)
  deriving DecidableEq

def DAGPlanPath : String := "/dag/"

def RunContextPath : String := "/run_context/"

def RecordPath : String := "/record/"

/-- The struct `memStore`; `mockErr` is what `mockErrHandler()` returns. -/
structure memStore where
  m : List (String × Blob)
  mockErr : Option Err

/-- The constructor `mem.NewMemStore`. -/
def NewMemStore : memStore := { m := [], mockErr := none }

/-- The key under which the memory store files a value: `pfx`, a bar, `key`. -/
def memStore.fullKey (pfx key : String) : String := pfx ++ "|" ++ key

def memStore.Get (s : memStore) (pfx key : String) : Option Blob × Option Err :=
  (mapGet s.m (memStore.fullKey pfx key), s.mockErr)

def memStore.Set (s : memStore) (pfx key : String) (value : Blob) : memStore × Option Err :=
  ({ s with m := mapSet s.m (memStore.fullKey pfx key) value }, s.mockErr)

def memStore.Remove (s : memStore) (pfx key : String) : memStore × Option Err :=
  ({ s with m := mapDelete s.m (memStore.fullKey pfx key) }, s.mockErr)

/-- The keys that `memStore.List` hands to its iterator: the stored keys that
start with `pfx` and a bar, without that start. -/
def memStore.matchedKeys (s : memStore) (pfx : String) : List String :=
  let p := (pfx ++ "|").data
  (s.m.filter (fun kv => p.isPrefixOf kv.1.data)).map
    (fun kv => String.mk (kv.1.data.drop p.length))

/-- The store and the log of handler invocations: the state outside the
engine that a step can change. -/
structure World where
  store : memStore
  calls : List Call

/-! ## runtime/flow_context.go -/

def maxDepth : Nat := 32

/-- The struct `flowContext`. -/
structure flowContext where
  requestID : String
  depth : Nat
  executePath : Path
  rcRecord : Option NodeTraceRecord

def recordSavePath (requestID : String) : String := RecordPath ++ requestID

def newFlowContext (requestID : String) : flowContext :=
  { requestID := requestID, depth := 0, executePath := [], rcRecord := none }

def flowContext.GetCurrentVertex (f : flowContext) : String :=
  String.intercalate "." f.executePath

def flowContext.startRecord (f : flowContext) (now : Int) (path : Path) (input : Data) :
    flowContext :=
  { f with
    executePath := [], depth := 0,
    rcRecord := some
      { Path := path, Vertex := [], StartTime := now, EndTime := 0, Error := none,
        Input := input, Output := [] } }

/-- The method `flowContext.saveRecord`; its error is only logged. -/
def flowContext.saveRecord (f : flowContext) (store : memStore) : memStore :=
  match f.rcRecord with
  | none => store
  | some r =>
    (store.Set (recordSavePath f.requestID) (String.intercalate "." r.Vertex) (.record r)).1

/-- The method `flowContext.endRecord` (`startRecord` has set `rcRecord`). -/
def flowContext.endRecord (f : flowContext) (store : memStore) (now : Int)
    (output : Data) (err : Option Err) : flowContext × memStore :=
  match f.rcRecord with
  | none => (f, store)
  | some r =>
    let r1 : NodeTraceRecord :=
      { r with Vertex := Path.Export f.executePath, EndTime := now, Error := err,
               Output := output }
    let f1 := { f with rcRecord := some r1 }
    (f1, f1.saveRecord store)

/-- The methods `flowContext.enterDAG` and `flowContext.enterNode` (their
bodies are the same): `false` when the depth check panics. -/
def flowContext.enter (f : flowContext) (name : String) : flowContext × Bool :=
  let f1 := { f with depth := f.depth + 1 }
  if f1.depth > maxDepth then (f1, false)
  else ({ f1 with executePath := Path.AddString f1.executePath name }, true)

/-- The methods `flowContext.exitDAG` and `flowContext.exitNode`. -/
def flowContext.exit (f : flowContext) : flowContext :=
  { f with depth := f.depth - 1 }

/-! ## runtime/node_runtime.go and runtime/dag_runtime.go -/

/-- A `runContext` pointer as a run context holds or returns it:
`Termination` (nil), the run context filed under `name` in the `rcMap` of the
enclosing `dagRuntime`, or the run context that returns it. -/
inductive RCRef where
  | Termination
  | vertex (name : String)
  | self
  deriving DecidableEq

/-- The constants of `nodeType`; `unset` is the zero value. -/
inductive nodeType where
  | unset
  | node
  | condition
  deriving DecidableEq

/-- The struct `nodeRuntime`: the fields of its `node` and `cond` parts, and
of `runtimeData` the two counters (`CurrentRunning` is back at its old value
when `runOnce` returns).  The embedded `utils.Concurrency` and
`utils.Backoff` are not part of the sources; `Acquire` and `Release` are
taken to return at once. -/
structure nodeRuntime where
  name : String
  path : Path
  nodeType : nodeType
  nodeHandler : Option NodeHandler
  nodeNextRC : RCRef
  nodeNextVertex : String
  condHandler : Option BooleanHandler
  condTrueRC : RCRef
  condTrueVertex : String
  condFalseRC : RCRef
  condFalseVertex : String
  SuccessTimes : Nat
  FailedTimes : Nat

def newNodeRuntime : nodeRuntime :=
  { name := "", path := [], nodeType := .unset, nodeHandler := none,
    nodeNextRC := .Termination, nodeNextVertex := "", condHandler := none,
    condTrueRC := .Termination, condTrueVertex := "", condFalseRC := .Termination,
    condFalseVertex := "", SuccessTimes := 0, FailedTimes := 0 }

mutual
/-- The interface `runContext`: a `*nodeRuntime` or a `*dagRuntime`. -/
inductive runContext where
  | node (n : nodeRuntime)
  | dag (d : dagRuntime)
/-- The struct `dagRuntime`, with the `rcMap` its run contexts live in;
`runningRC` is the key of the current one. -/
inductive dagRuntime where
  | mk (name : String) (path : Path) (rcMap : List (String × runContext))
      (runningRC : String) (nextRC : RCRef) (nextVertex : String)
end

def dagRuntime.name : dagRuntime → String
  | .mk name _ _ _ _ _ => name

def dagRuntime.path : dagRuntime → Path
  | .mk _ path _ _ _ _ => path

def dagRuntime.rcMap : dagRuntime → List (String × runContext)
  | .mk _ _ rcMap _ _ _ => rcMap

def dagRuntime.runningRC : dagRuntime → String
  | .mk _ _ _ runningRC _ _ => runningRC

def dagRuntime.nextRC : dagRuntime → RCRef
  | .mk _ _ _ _ nextRC _ => nextRC

def dagRuntime.nextVertex : dagRuntime → String
  | .mk _ _ _ _ _ nextVertex => nextVertex

/-- The result of `runOnce` on a run context: the successor and the data, an
error, or a panic that was not recovered. -/
abbrev StepOut := Outcome (RCRef × Data)

/-- The method `nodeRuntime.runHandler` with `runNode` and `runCond`: the
handler runs under `recover`, a panic (also the call of a nil handler) comes
back as a `FatalError`.  The invocation is appended to `calls`. -/
def nodeRuntime.runHandler (n : nodeRuntime) (fc : flowContext) (calls : List Call)
    (input : Data) : List Call × Outcome (RCRef × Data) :=
  let hctx : HandlerCtx :=
    { requestID := fc.requestID, currentVertex := fc.executePath, history := calls }
  let call : Call := { requestID := fc.requestID, vertex := fc.executePath, input := input }
  let recovered (r : String) : Outcome (RCRef × Data) :=
    .error (NewFatalError ("panic on " ++ fc.GetCurrentVertex ++ ": " ++ r))
  match n.nodeType with
  | .node =>
    match n.nodeHandler with
    | none => (calls, recovered "nil handler")
    | some h =>
      match h hctx input with
      | .ok output => (calls ++ [call], .ok (n.nodeNextRC, output))
      | .error e => (calls ++ [call], .error e)
      | .panic r => (calls ++ [call], recovered r)
  | .condition =>
    match n.condHandler with
    | none => (calls, recovered "nil handler")
    | some h =>
      match h hctx input with
      | .ok true => (calls ++ [call], .ok (n.condTrueRC, input))
      | .ok false => (calls ++ [call], .ok (n.condFalseRC, input))
      | .error e => (calls ++ [call], .error e)
      | .panic r => (calls ++ [call], recovered r)
  | .unset => (calls, .error (NewFatalError "should not reach here"))

/-- The method `nodeRuntime.runOnce`. -/
def nodeRuntime.runOnce (n : nodeRuntime) (fc : flowContext) (calls : List Call)
    (input : Data) : nodeRuntime × flowContext × List Call × StepOut :=
  match fc.enter n.name with
  | (fc1, false) => (n, fc1, calls, .panic "unexpect depth")
  | (fc1, true) =>
    match n.runHandler fc1 calls input with
    | (calls1, .ok r) => ({ n with SuccessTimes := n.SuccessTimes + 1 }, fc1.exit, calls1, .ok r)
    | (calls1, .error e) =>
      ({ n with FailedTimes := n.FailedTimes + 1 }, fc1.exit, calls1, .error e)
    | (calls1, .panic r) => (n, fc1.exit, calls1, .panic r)

mutual
/-- The method `runOnce` of the interface `runContext`. -/
def runContext.runOnce : runContext → flowContext → List Call → Data →
    runContext × flowContext × List Call × StepOut
  | .node n, fc, calls, input =>
    match n.runOnce fc calls input with
    | (n1, fc1, calls1, out) => (.node n1, fc1, calls1, out)
  | .dag d, fc, calls, input =>
    match dagRuntime.runOnce d fc calls input with
    | (d1, fc1, calls1, out) => (.dag d1, fc1, calls1, out)
/-- The methods `dagRuntime.runOnce` and `dagRuntime.runRC`. -/
def dagRuntime.runOnce : dagRuntime → flowContext → List Call → Data →
    dagRuntime × flowContext × List Call × StepOut
  | .mk name path rcMap runningRC nextRC nextVertex, fc, calls, input =>
    match fc.enter name with
    | (fc1, false) =>
      (.mk name path rcMap runningRC nextRC nextVertex, fc1, calls, .panic "unexpect depth")
    | (fc1, true) =>
      match runRunning rcMap runningRC fc1 calls input with
      | (rcMap1, fc2, calls1, .ok (.Termination, data)) =>
        (.mk name path rcMap1 runningRC nextRC nextVertex, fc2.exit, calls1, .ok (nextRC, data))
      | (rcMap1, fc2, calls1, .ok (.vertex next, data)) =>
        (.mk name path rcMap1 next nextRC nextVertex, fc2.exit, calls1, .ok (.self, data))
      | (rcMap1, fc2, calls1, .ok (.self, data)) =>
        (.mk name path rcMap1 runningRC nextRC nextVertex, fc2.exit, calls1, .ok (.self, data))
      | (rcMap1, fc2, calls1, .error err) =>
        (.mk name path rcMap1 runningRC nextRC nextVertex, fc2.exit, calls1, .error (.trace err))
      | (rcMap1, fc2, calls1, .panic r) =>
        (.mk name path rcMap1 runningRC nextRC nextVertex, fc2.exit, calls1, .panic r)
/-- The call `d.runningRC.runOnce(fc, input)`: the run context filed under
`key` runs one step in place; a key that is not in the map is a nil
`runningRC`, whose call panics. -/
def runRunning : List (String × runContext) → String → flowContext → List Call → Data →
    List (String × runContext) × flowContext × List Call × StepOut
  | [], _, fc, calls, _ => ([], fc, calls, .panic "nil pointer dereference")
  | (k, rc) :: tl, key, fc, calls, input =>
    if k = key then
      match runContext.runOnce rc fc calls input with
      | (rc1, fc1, calls1, out) => ((k, rc1) :: tl, fc1, calls1, out)
    else
      match runRunning tl key fc calls input with
      | (tl1, fc1, calls1, out) => ((k, rc) :: tl1, fc1, calls1, out)
end

mutual
/-- The method `getPath` of the interface `runContext`; `none` when it
dereferences a nil `runningRC`. -/
def runContext.getPath : runContext → Option Path
  | .node n => some n.path
  | .dag d => dagRuntime.getPath d
/-- The method `dagRuntime.getPath`. -/
def dagRuntime.getPath : dagRuntime → Option Path
  | .mk _ _ rcMap runningRC _ _ => getPathRunning rcMap runningRC
/-- The call `d.runningRC.getPath()`. -/
def getPathRunning : List (String × runContext) → String → Option Path
  | [], _ => none
  | (k, rc) :: tl, key => if k = key then runContext.getPath rc else getPathRunning tl key
end

/-! ## runtime/dag_plan.go: the plan compiler -/

/-- The method `generateNodeRunContext`, before its delayed visit. -/
def generateNodeRunContext (v : vertexEntity) (vertex : String) (info : vertexInfo)
    (nextVertex : String) (path : Path) : Outcome runContext :=
  let nr := { newNodeRuntime with name := vertex, path := Path.AddString path vertex }
  match info.Typ with
  | .vertexNode =>
    .ok (.node { nr with nodeType := .node, nodeHandler := v.handler,
                         nodeNextVertex := nextVertex })
  | .vertexCond =>
    .ok (.node { nr with nodeType := .condition, condHandler := v.condHandler,
                         condTrueVertex := info.TrueVertex,
                         condFalseVertex := info.FalseVertex })
  | _ => .error (.kind .NotSupported "unknown type")

/-- The method `generateRunContext`, before its delayed visit; `gen` is the
recursive call `info.DAG.generateRuntime(gl, path, entrypointPath)` on an
address. -/
def generateRunContext (gen : Nat → Path → Path → Option (Outcome dagRuntime))
    (gl : globalVertex) (dtName vertex : String) (info : vertexInfo)
    (nextVertex : String) (path entrypointPath : Path) : Option (Outcome runContext) :=
  match globalVertex.get gl dtName vertex with
  | none => some (.error (.kind .NotFound (dtName ++ " " ++ vertex)))
  | some v =>
    if v.typ ≠ info.Typ then some (.error (.kind .plain "unexpected unmatch type"))
    else if info.Typ = .vertexDAG then
      match info.DAG with
      | none => some (.panic "nil pointer dereference")
      | some addr =>
        match gen addr path entrypointPath with
        | none => none
        | some (.ok (.mk _ p m running nextRC _)) =>
          some (.ok (.dag (.mk vertex p m running nextRC nextVertex)))
        | some (.error e) => some (.error (.trace e))
        | some (.panic r) => some (.panic r)
    else some (generateNodeRunContext v vertex info nextVertex path)

/-- The first loop of `generateRuntime`: one run context per vertex, filed
in `rcMap`; it stops at the first error. -/
def generateRunContexts (gen : Nat → Path → Path → Option (Outcome dagRuntime))
    (gl : globalVertex) (dtName : String) (links : List (String × String))
    (dagPath entrypoint : Path) :
    List (String × vertexInfo) → List (String × runContext) →
    Option (Outcome (List (String × runContext)))
  | [], rcMap => some (.ok rcMap)
  | (vertex, info) :: tl, rcMap =>
    match generateRunContext gen gl dtName vertex info ((mapGet links vertex).getD "")
        dagPath entrypoint with
    | none => none
    | some (.error e) => some (.error (.trace e))
    | some (.panic r) => some (.panic r)
    | some (.ok rc) =>
      generateRunContexts gen gl dtName links dagPath entrypoint tl (mapSet rcMap vertex rc)

/-- The lookup of a successor name in a delayed visit: `Termination` for the
empty name, the run context of that name, or `none` (not found). -/
def resolveRC (m : List (String × runContext)) (name : String) : Option RCRef :=
  if name = "" then some .Termination
  else if mapHas m name then some (.vertex name) else none

/-- The delayed visit (`delayVisitHandler`) of one run context. -/
def delayVisit (m : List (String × runContext)) : runContext → Outcome runContext
  | .node n =>
    match n.nodeType with
    | .node =>
      match resolveRC m n.nodeNextVertex with
      | none => .error (.kind .NotFound n.nodeNextVertex)
      | some r => .ok (.node { n with nodeNextRC := r })
    | .condition =>
      match resolveRC m n.condTrueVertex with
      | none => .error (.kind .NotFound n.condTrueVertex)
      | some t =>
        match resolveRC m n.condFalseVertex with
        | none => .error (.kind .NotFound n.condFalseVertex)
        | some f => .ok (.node { n with condTrueRC := t, condFalseRC := f })
    | .unset => .ok (.node n)
  | .dag (.mk name path rcMap running _ nextVertex) =>
    match resolveRC m nextVertex with
    | none => .error (.kind .NotFound nextVertex)
    | some r => .ok (.dag (.mk name path rcMap running r nextVertex))

/-- The second loop of `generateRuntime`: every delayed visit, against the
complete `rcMap` `m`; it stops at the first error. -/
def delayVisits (m : List (String × runContext)) :
    List (String × runContext) → Outcome (List (String × runContext))
  | [] => .ok []
  | (k, rc) :: tl =>
    match delayVisit m rc with
    | .error e => .error (.trace e)
    | .panic r => .panic r
    | .ok rc1 =>
      match delayVisits m tl with
      | .ok tl1 => .ok ((k, rc1) :: tl1)
      | .error e => .error e
      | .panic r => .panic r

/-- The method `dagExecutePlan.generateRuntime` on the plan at address `dt`
of `heap`.  The recursion follows the addresses of sub-plans and has no bound
in the source: `none` is a compilation that nests deeper than `fuel`. -/
def generateRuntime (heap : List dagExecutePlan) (gl : globalVertex) :
    Nat → Nat → Path → Path → Option (Outcome dagRuntime)
  | 0, _, _, _ => none
  | fuel + 1, dt, parentDAGPath, entrypoint =>
    match heap.get? dt with
    | none => some (.panic "nil pointer dereference")
    | some plan =>
      let entrypoint1 := Path.Next entrypoint
      let dagPath := Path.AddString parentDAGPath plan.Name
      match generateRunContexts (generateRuntime heap gl fuel) gl plan.Name plan.Links
          dagPath entrypoint1 plan.Vertex [] with
      | none => none
      | some (.error e) => some (.error e)
      | some (.panic r) => some (.panic r)
      | some (.ok rcMap) =>
        match delayVisits rcMap rcMap with
        | .error e => some (.error e)
        | .panic r => some (.panic r)
        | .ok rcMap1 =>
          let entrypointVertex :=
            if (Path.First entrypoint1).2 then (Path.First entrypoint1).1 else plan.StartVertex
          if mapHas rcMap1 entrypointVertex then
            some (.ok (.mk plan.Name dagPath rcMap1 entrypointVertex .Termination ""))
          else some (.error (.kind .NotFound entrypointVertex))

/-! ## runtime/runner.go: the context runner -/

/-- The struct `contextRunner` (`store` is passed to each method; the
mutexes, `errCh` and the never-read `createTime` are left out). -/
structure contextRunner where
  lastErr : Option Err
  runningStatus : StatusType
  nextStatus : StatusType
  lastRunTime : Int
  nextRunTime : Int
  runningRC : Option runContext
  fc : flowContext
  currentData : Data

/-- The method `exportRerunContext`; it panics when `getPath` meets a nil
`runningRC` inside the runtime. -/
def contextRunner.exportRerunContext (r : contextRunner) : Outcome (Option flowRerunContext) :=
  match r.runningRC with
  | none => .ok none
  | some rc =>
    match rc.getPath with
    | none => .panic "nil pointer dereference"
    | some p => .ok (some { Status := r.runningStatus, Entrypoint := p, Data := r.currentData })

/-- The result of `errors.Trace` on the error of a store call. -/
def traceResult : Option Err → Outcome Unit
  | none => .ok ()
  | some e => .error (.trace e)

/-- The result of `errors.Trace` on what a call returned. -/
def traceOutcome : Outcome Unit → Outcome Unit
  | .error e => .error (.trace e)
  | out => out

/-- The method `saveContext`. -/
def contextRunner.saveContext (r : contextRunner) (store : memStore) :
    memStore × Outcome Unit :=
  match r.exportRerunContext with
  | .ok none =>
    match store.Remove RunContextPath r.fc.requestID with
    | (store1, err) => (store1, traceResult err)
  | .ok (some rerunC) =>
    match store.Set RunContextPath r.fc.requestID (.rerun rerunC) with
    | (store1, err) => (store1, traceResult err)
  | .error e => (store, .error e)
  | .panic msg => (store, .panic msg)

/-- The constructor `newContextRunner`. -/
def newContextRunner (requestID : String) (rc : Option runContext) (input : Data) :
    contextRunner :=
  { lastErr := none, runningStatus := .Pending, nextStatus := .None, lastRunTime := 0,
    nextRunTime := 0, runningRC := rc, fc := newFlowContext requestID,
    currentData := input }

/-- The method `canSetStatus`. -/
def canSetStatus (currentStatus status : StatusType) : Bool :=
  match status with
  | .Paused | .Retrying =>
    currentStatus = .Pending || currentStatus = .Retrying || currentStatus = .Paused ||
      currentStatus = .Running
  | .Fatal => currentStatus ≠ .Finished
  | _ => false

/-- The method `setNextStatus`: the runner, and `Forbidden` when refused. -/
def contextRunner.setNextStatus (r : contextRunner) (status : StatusType) :
    contextRunner × Option Err :=
  if !canSetStatus r.runningStatus status then
    (r, some (.kind .Forbidden "unsupport to set status"))
  else ({ r with nextStatus := status }, none)

/-- The method `assignNextStatus`. -/
def contextRunner.assignNextStatus (r : contextRunner) : contextRunner :=
  if r.nextStatus ≠ .None then
    if canSetStatus r.runningStatus r.nextStatus then
      { r with runningStatus := r.nextStatus, nextStatus := .None }
    else { r with nextStatus := .None }
  else r

/-- The method `canRun` at clock reading `now` (the runner mutex is free). -/
def contextRunner.canRun (r : contextRunner) (now : Int) : Bool :=
  if r.runningStatus = .Pending ∨ r.runningStatus = .Running ∨ r.runningStatus = .Retrying
  then decide (r.nextRunTime < now) else false

/-- The method `tryCheckCanRemove` (the runner mutex is free). -/
def contextRunner.tryCheckCanRemove (r : contextRunner) : Bool :=
  if r.runningStatus = .Failed ∨ r.runningStatus = .Finished then true else false

/-- The method `setStatus`. -/
def contextRunner.setStatus (r : contextRunner) (store : memStore) (status : StatusType) :
    contextRunner × memStore × Outcome Unit :=
  let r1 := { r with runningStatus := status }
  match r1.saveContext store with
  | (store1, out) => (r1, store1, traceOutcome out)

/-- The method `checkOnError` at clock reading `now`. -/
def contextRunner.checkOnError (r : contextRunner) (err : Err) (now : Int) : contextRunner :=
  let r1 := { r with lastErr := some err }
  match err.Unwrap with
  | some (.fatal _) => { r1 with runningStatus := .Fatal }
  | some (.retry _ backoff) =>
    { r1 with nextRunTime := now + backoff, runningStatus := .Retrying }
  | some (.pause _) => { r1 with runningStatus := .Paused }
  | _ => { r1 with runningStatus := .Failed }

/-- The method `contextRunner.runOnce` at clock reading `now`: the runner and
the world after the call, and what the call returns (a store error from
`saveContext`, or a panic that passes through it).  `runningRC` is the
top-level `dagRuntime` (`newContextRunner` is only called on one), whose
`nextRC` is nil: the successor it returns is itself or `Termination`. -/
def contextRunner.runOnce (r : contextRunner) (w : World) (now : Int) :
    contextRunner × World × Outcome Unit :=
  if !r.canRun now then (r, w, .ok ())
  else
    let r1 := { r with runningStatus := .Running, lastRunTime := now }
    match r1.runningRC with
    | none => (r1, w, .panic "nil pointer dereference")
    | some rc =>
      match rc.getPath with
      | none => (r1, w, .panic "nil pointer dereference")
      | some path =>
        let fc1 := r1.fc.startRecord now path r1.currentData
        match rc.runOnce fc1 w.calls r1.currentData with
        | (rc1, fc2, calls1, .panic msg) =>
          ({ r1 with runningRC := some rc1, fc := fc2 }, { w with calls := calls1 },
            .panic msg)
        | (rc1, fc2, calls1, .error err) =>
          match fc2.endRecord w.store now [] (some err) with
          | (fc3, store1) =>
            (({ r1 with runningRC := some rc1, fc := fc3 } : contextRunner).checkOnError err now,
              { store := store1, calls := calls1 }, .ok ())
        | (rc1, fc2, calls1, .ok (nextRC, output)) =>
          match fc2.endRecord w.store now output none with
          | (fc3, store1) =>
            let r2 : contextRunner :=
              { r1 with
                fc := fc3, currentData := output,
                runningRC := if nextRC = .Termination then none else some rc1 }
            let r3 := if nextRC = .Termination then { r2 with runningStatus := .Finished } else r2
            let r4 := r3.assignNextStatus
            match r4.saveContext store1 with
            | (store2, out) => (r4, { store := store2, calls := calls1 }, traceOutcome out)

/-! ## runtime/runner.go: the batch runner -/

/-- The struct `batchRunner` (without the worker pool). -/
structure batchRunner where
  asyncFlag : Bool
  runners : List (String × contextRunner)

def newBatchRunner (asyncFlag : Bool) : batchRunner := { asyncFlag := asyncFlag, runners := [] }

def batchRunner.exists (b : batchRunner) (key : String) : Bool := mapHas b.runners key

def batchRunner.get (b : batchRunner) (key : String) : Option contextRunner :=
  mapGet b.runners key

def batchRunner.remove (b : batchRunner) (key : String) : batchRunner :=
  { b with runners := mapDelete b.runners key }

def batchRunner.add (b : batchRunner) (key : String) (r : contextRunner) :
    batchRunner × Option Err :=
  if mapHas b.runners key then (b, some (.kind .AlreadyExists key))
  else ({ b with runners := mapSet b.runners key r }, none)

/-- The dispatch loop of `batchRunner.runOnce` (synchronous mode) from a
position of the runner map on; `runAmount` is the count so far.  It returns
at the first error, and breaks once `maxRunAmount` runners have run. -/
def batchRunner.dispatch (now : Int) (maxRunAmount : Int) :
    List (String × contextRunner) → Int → World →
    List (String × contextRunner) × World × Outcome Unit
  | [], _, w => ([], w, .ok ())
  | (key, r) :: tl, runAmount, w =>
    if !r.canRun now then
      match batchRunner.dispatch now maxRunAmount tl runAmount w with
      | (tl1, w1, out) => ((key, r) :: tl1, w1, out)
    else if runAmount + 1 > maxRunAmount then ((key, r) :: tl, w, .ok ())
    else
      match r.runOnce w now with
      | (r1, w1, .ok ()) =>
        match batchRunner.dispatch now maxRunAmount tl (runAmount + 1) w1 with
        | (tl1, w2, out) => ((key, r1) :: tl1, w2, out)
      | (r1, w1, .error e) => ((key, r1) :: tl, w1, .error (.trace (.trace e)))
      | (r1, w1, .panic msg) => ((key, r1) :: tl, w1, .panic msg)

/-- The keys of the runners on which the dispatch loop of
`batchRunner.runOnce` calls `r.runOnce`, in the order of the calls: the loop
of `batchRunner.dispatch`, keeping the keys instead of the runners. -/
def batchRunner.dispatched (now : Int) (maxRunAmount : Int) :
    List (String × contextRunner) → Int → World → List String
  | [], _, _ => []
  | (key, r) :: tl, runAmount, w =>
    if !r.canRun now then batchRunner.dispatched now maxRunAmount tl runAmount w
    else if runAmount + 1 > maxRunAmount then []
    else
      match r.runOnce w now with
      | (_, w1, .ok ()) => key :: batchRunner.dispatched now maxRunAmount tl (runAmount + 1) w1
      | (_, _, _) => [key]

/-- The calls of `r.runOnce` that the dispatch loop of `batchRunner.runOnce`
makes, in order: the key, the runner before the call and the world before
the call.  It is the loop of `batchRunner.dispatch`, keeping the calls
instead of their results. -/
def batchRunner.steps (now : Int) (maxRunAmount : Int) :
    List (String × contextRunner) → Int → World → List (String × contextRunner × World)
  | [], _, _ => []
  | (key, r) :: tl, runAmount, w =>
    if !r.canRun now then batchRunner.steps now maxRunAmount tl runAmount w
    else if runAmount + 1 > maxRunAmount then []
    else
      match r.runOnce w now with
      | (_, w1, .ok ()) => (key, r, w) :: batchRunner.steps now maxRunAmount tl (runAmount + 1) w1
      | (_, _, _) => [(key, r, w)]

/-- The method `batchRunner.runOnce` in synchronous mode (`asyncFlag` false;
`tryAsyncRunOnce` is not part of the embedding): the dispatch loop, then the
sweep of the runners that `tryCheckCanRemove`. -/
def batchRunner.runOnce (b : batchRunner) (w : World) (now : Int) (maxRunAmount : Int) :
    batchRunner × World × Outcome Unit :=
  if b.runners.length = 0 then (b, w, .ok ())
  else
    match batchRunner.dispatch now maxRunAmount b.runners 0 w with
    | (runners1, w1, .ok ()) =>
      ({ b with runners := runners1.filter (fun kr => !kr.2.tryCheckCanRemove) }, w1, .ok ())
    | (runners1, w1, out) => ({ b with runners := runners1 }, w1, out)

/-- The loop of `batchRunner.stopWait` from a position of the runner map on:
every runner is set to Paused and saved, and `retErr` collects the errors
(`errors.Wrapf(retErr, err, ...)`); it returns `retErr`.  A panic of
`saveContext` ends the loop. -/
def batchRunner.stopEach :
    List (String × contextRunner) → memStore → Option Err →
    List (String × contextRunner) × memStore × Outcome Unit
  | [], store, none => ([], store, .ok ())
  | [], store, some retErr => ([], store, .error retErr)
  | (key, r) :: tl, store, retErr =>
    match r.setStatus store .Paused with
    | (r1, store1, .panic msg) => ((key, r1) :: tl, store1, .panic msg)
    | (r1, store1, .ok ()) =>
      match batchRunner.stopEach tl store1 retErr with
      | (tl1, store2, out) => ((key, r1) :: tl1, store2, out)
    | (r1, store1, .error err) =>
      match batchRunner.stopEach tl store1
          (some (match retErr with
                 | none => Err.wrapNil err
                 | some prev => Err.wrap prev err)) with
      | (tl1, store2, out) => ((key, r1) :: tl1, store2, out)

/-- The method `batchRunner.stopWait`; in synchronous mode the worker pool
has no job to wait for. -/
def batchRunner.stopWait (b : batchRunner) (store : memStore) :
    batchRunner × memStore × Outcome Unit :=
  match batchRunner.stopEach b.runners store none with
  | (runners1, store1, out) => ({ b with runners := runners1 }, store1, out)

/-! ## runtime/flow.go, flow_execute.go, flow_store.go: the engine -/

/-- The struct `flow` with its embedded `flowExecute`.  `heap` holds the
`dagEntity` objects the engine has created, `dagEntities` maps a DAG name to
the address of its entity; `calls` is the log of handler invocations. -/
structure flow where
  running : Bool
  store : memStore
  calls : List Call
  concurrency : Int
  batchRunner : batchRunner
  gl : globalVertex
  dagEntities : List (String × Nat)
  heap : List dagExecutePlan

/-- The constructor `newFlow` with `AutoStart = false`. -/
def newFlow (store : memStore) (calls : List Call) (maxNodeConcurrency : Int)
    (taskRunAsync : Bool) : flow :=
  { running := true, store := store, calls := calls, concurrency := maxNodeConcurrency,
    batchRunner := newBatchRunner taskRunAsync, gl := newGlobalVertex, dagEntities := [],
    heap := [] }

/-- A call of one of the four methods of the interface `types.DAG`. -/
inductive BuilderOp where
  | Node (vertex : String) (handler : Option NodeHandler)
  | SubDAG (vertex dagName : String)
  | Condition (vertex trueVertex falseVertex : String) (handler : Option BooleanHandler)
  | Edge (frm dst : String)

/-- The type `types.DAGHandler`: a function that calls methods of the DAG it
is given, looks at what each returns, and returns an error or nil. -/
inductive DAGHandler where
  | ret (err : Option Err)
  | call (op : BuilderOp) (k : Option Err → DAGHandler)

/-- The handler that makes the calls `ops` in order and returns the first
error, traced (`if err := ...; err != nil { return errors.Trace(err) }`). -/
def DAGHandler.steps : List BuilderOp → DAGHandler
  | [] => .ret none
  | op :: tl =>
    .call op (fun err =>
      match err with
      | some e => .ret (some (.trace e))
      | none => DAGHandler.steps tl)

/-- One builder call on the `dagEntity` at address `addr`; `none` when the
cycle check of `Edge` does not return within `fuel` iterations. -/
def flow.applyOp (f : flow) (fuel : Nat) (addr : Nat) (op : BuilderOp) :
    Option (flow × Option Err) :=
  match f.heap.get? addr with
  | none => some (f, some (.kind .plain "no such entity"))
  | some de =>
    match op with
    | .Node vertex handler =>
      match dagEntity.Node f.gl de vertex handler with
      | (gl1, de1, err) => some ({ f with gl := gl1, heap := f.heap.set addr de1 }, err)
    | .SubDAG vertex dagName =>
      match dagEntity.SubDAG f.dagEntities f.gl de vertex dagName with
      | (gl1, de1, err) => some ({ f with gl := gl1, heap := f.heap.set addr de1 }, err)
    | .Condition vertex trueVertex falseVertex handler =>
      match dagEntity.Condition f.gl de vertex trueVertex falseVertex handler with
      | (gl1, de1, err) => some ({ f with gl := gl1, heap := f.heap.set addr de1 }, err)
    | .Edge frm dst =>
      match dagEntity.Edge f.gl de fuel frm dst with
      | none => none
      | some (de1, err) => some ({ f with heap := f.heap.set addr de1 }, err)

/-- The call `handler(dag)` for the entity at address `addr`. -/
def DAGHandler.run (fuel : Nat) (addr : Nat) : DAGHandler → flow → Option (flow × Option Err)
  | .ret err, f => some (f, err)
  | .call op k, f =>
    match f.applyOp fuel addr op with
    | none => none
    | some (f1, err) => DAGHandler.run fuel addr (k err) f1

/-- The method `flow.RegisterDAG`. -/
def flow.RegisterDAG (f : flow) (fuel : Nat) (name : String) (handler : DAGHandler) :
    Option (flow × Option Err) :=
  if !f.running then some (f, some (.kind .MethodNotAllowed "not running"))
  else
    let addr := f.heap.length
    let f1 := { f with heap := f.heap ++ [newDAGEntity name] }
    match handler.run fuel addr f1 with
    | none => none
    | some (f2, some err) => some (f2, some (.trace err))
    | some (f2, none) => some ({ f2 with dagEntities := mapSet f2.dagEntities name addr }, none)

/-- The method `flow.getDAG`: the address of the entity registered as `name`. -/
def flow.getDAG (f : flow) (name : String) : Option Nat := mapGet f.dagEntities name

/-- The method `flow.GetDAG`: the entity registered as `name`, on which the
caller can make builder calls (`applyOp` at the address). -/
def flow.GetDAG (f : flow) (name : String) : Option Nat := f.getDAG name

/-- The method `flow.savePlan` for the plan at address `plan` of `heap`. -/
def flow.savePlan (f : flow) (requestID : String) (heap : List dagExecutePlan) (plan : Nat) :
    flow × Option Err :=
  match f.store.Set DAGPlanPath requestID (.plan heap plan) with
  | (store1, err) => ({ f with store := store1 }, err.map Err.trace)

/-- The method `flow.removePlan`. -/
def flow.removePlan (f : flow) (requestID : String) : flow × Option Err :=
  match f.store.Remove DAGPlanPath requestID with
  | (store1, err) => ({ f with store := store1 }, err.map Err.trace)

/-- The method `flow.loadPlan`: the stored plan (a heap and an address) and
the stored rerun context, nil when there is none. -/
def flow.loadPlan (f : flow) (requestID : String) :
    Except Err ((List dagExecutePlan × Nat) × Option flowRerunContext) :=
  match f.store.Get DAGPlanPath requestID with
  | (_, some err) => .error (.trace err)
  | (none, none) => .error (.kind .NotFound requestID)
  | (some (.plan heap root), none) =>
    match f.store.Get RunContextPath requestID with
    | (_, some err) => .error (.trace err)
    | (none, none) => .ok ((heap, root), none)
    | (some (.rerun reRC), none) => .ok ((heap, root), some reRC)
    | (some _, none) => .error (.trace (.kind .plain "unserialize"))
  | (some _, none) => .error (.trace (.kind .plain "unserialize"))

/-- The method `flowExecute.startExecutePlan`. -/
def flow.startExecutePlan (f : flow) (requestID : String) (dr : dagRuntime) (params : Data) :
    flow × Option Err :=
  match f.batchRunner.add requestID (newContextRunner requestID (some (.dag dr)) params) with
  | (b1, err) => ({ f with batchRunner := b1 }, err)

def flow.hasExecutePlan (f : flow) (requestID : String) : Bool :=
  f.batchRunner.exists requestID

/-- The method `flow.launchDAG` for the plan at address `dag` of `heap`;
`none` when `generateRuntime` nests deeper than `fuel`. -/
def flow.launchDAG (f : flow) (fuel : Nat) (heap : List dagExecutePlan) (dag : Nat)
    (requestID : String) (params : Data) (entrypoint : Path)
    (preRunHandler : Option (flow → flow × Option Err)) : Option (flow × Outcome Unit) :=
  match generateRuntime heap f.gl fuel dag (NewPath []) entrypoint with
  | none => none
  | some (.panic r) => some (f, .panic r)
  | some (.error err) => some (f, .error (.trace err))
  | some (.ok dr) =>
    let pre : flow × Option Err :=
      match preRunHandler with
      | none => (f, none)
      | some h => h f
    match pre with
    | (f1, some err) => some (f1, .error (.trace err))
    | (f1, none) =>
      match f1.startExecutePlan requestID dr params with
      | (f2, some err) => some (f2, .error (.trace err))
      | (f2, none) => some (f2, .ok ())

/-- The method `flow.RunDAG`. -/
def flow.RunDAG (f : flow) (fuel : Nat) (dagName requestID : String) (params : Data) :
    Option (flow × Outcome Unit) :=
  if !f.running then some (f, .error (.kind .MethodNotAllowed "not running"))
  else
    match f.getDAG dagName with
    | none => some (f, .error (.kind .NotFound ""))
    | some dag =>
      if f.hasExecutePlan requestID then some (f, .error (.kind .AlreadyExists requestID))
      else
        match f.launchDAG fuel f.heap dag requestID params (NewPath [])
            (some (fun g => match g.savePlan requestID g.heap dag with
                            | (g1, err) => (g1, err.map Err.trace))) with
        | none => none
        | some (f1, .error err) =>
          match f1.removePlan requestID with
          | (f2, some lerr) => some (f2, .error (.trace (.wrap err lerr)))
          | (f2, none) => some (f2, .error (.trace err))
        | some (f1, out) => some (f1, out)

/-- The method `flow.rerunPlan`. -/
def flow.rerunPlan (f : flow) (fuel : Nat) (requestID : String) : Option (flow × Outcome Unit) :=
  if f.batchRunner.exists requestID then some (f, .error (.kind .AlreadyExists requestID))
  else
    match f.loadPlan requestID with
    | .error err => some (f, .error (.trace err))
    | .ok (_, none) => some (f, .error (.kind .NotFound requestID))
    | .ok ((heap, dag), some reRC) =>
      f.launchDAG fuel heap dag requestID reRC.Data reRC.Entrypoint none

/-- The iteration of `flow.reloadPlans` over the listed request ids: the map
`errs` gets one entry per id.  A panic of `rerunPlan` ends the iteration. -/
def flow.reloadEach (fuel : Nat) :
    List String → flow → List (String × Option Err) →
    Option (flow × Outcome (List (String × Option Err)))
  | [], f, errs => some (f, .ok errs)
  | requestID :: tl, f, errs =>
    match f.rerunPlan fuel requestID with
    | none => none
    | some (f1, .panic r) => some (f1, .panic r)
    | some (f1, .error err) =>
      flow.reloadEach fuel tl f1 (mapSet errs requestID (some (.trace err)))
    | some (f1, .ok ()) => flow.reloadEach fuel tl f1 (mapSet errs requestID none)

/-- The methods `flow.ReloadRequests` and `flow.reloadPlans`: the engine, the
map of errors (nil, here `none`, when it has no entry) and the error of
`store.List`. -/
def flow.ReloadRequests (f : flow) (fuel : Nat) :
    Option (flow × Outcome (Option (List (String × Option Err)) × Option Err)) :=
  match flow.reloadEach fuel (f.store.matchedKeys RunContextPath) f [] with
  | none => none
  | some (f1, .panic r) => some (f1, .panic r)
  | some (f1, .error e) => some (f1, .error e)
  | some (f1, .ok errs) =>
    some (f1, .ok (if errs.length = 0 then none else some errs, f.store.mockErr.map Err.trace))

/-- The methods `flow.RunOnce` and `flowExecute.runOnce` at clock reading
`now` (synchronous mode). -/
def flow.RunOnce (f : flow) (now : Int) : flow × Outcome Unit :=
  match f.batchRunner.runOnce { store := f.store, calls := f.calls } now f.concurrency with
  | (b1, w1, out) => ({ f with batchRunner := b1, store := w1.store, calls := w1.calls }, out)

/-- The method `flowExecute.setExecutePlanStatus`. -/
def flow.setExecutePlanStatus (f : flow) (requestID : String) (newStatus : StatusType) :
    flow × Option Err :=
  match f.batchRunner.get requestID with
  | none => (f, some (.kind .NotFound requestID))
  | some cr =>
    match cr.setNextStatus newStatus with
    | (cr1, err) =>
      ({ f with batchRunner :=
          { f.batchRunner with runners := mapSet f.batchRunner.runners requestID cr1 } }, err)

def flow.PauseRequest (f : flow) (requestID : String) : flow × Option Err :=
  f.setExecutePlanStatus requestID .Paused

def flow.ResumeRequest (f : flow) (requestID : String) : flow × Option Err :=
  f.setExecutePlanStatus requestID .Retrying

def flow.TerminateRequest (f : flow) (requestID : String) : flow × Option Err :=
  f.setExecutePlanStatus requestID .Fatal

/-- The struct `types.RequestStatus`. -/
structure RequestStatus where
  Status : StatusType
  LastError : Option Err
  LastVertexRecord : Option NodeTraceRecord

/-- The methods `flow.GetRequestStatus` and `getExecutePlanStatus`. -/
def flow.GetRequestStatus (f : flow) (requestID : String) : Except Err RequestStatus :=
  match f.batchRunner.get requestID with
  | none => .error (.kind .NotFound requestID)
  | some cr =>
    .ok { Status := cr.runningStatus, LastError := cr.lastErr, LastVertexRecord := cr.fc.rcRecord }

/-- The method `flow.Close` (there is no driver to wait for: `AutoStart` is
false). -/
def flow.Close (f : flow) : flow × Outcome Unit :=
  if !f.running then (f, .ok ())
  else
    match f.batchRunner.stopWait f.store with
    | (b1, store1, out) =>
      ({ f with running := false, batchRunner := b1, store := store1 }, out)

/-! ## utils/serialize.go: the JSON form of a plan -/

/-- Modelled from the spec: a JSON text by its structure, for the values that
the JSON form of a plan is made of: integers, strings and objects, the
members of an object in the order of the text.  `encoding/json` writes a
value in one way (no white space, one spelling for every character), so two
outputs of `json.Marshal` are byte-equal exactly when they are equal as values
of this type. -/
inductive JSON where
  | num (n : Int)
  | str (s : String)
  | obj (members : List (String × JSON))

mutual
/-- Equality of JSON values can be decided. -/
def JSON.decEq : (a b : JSON) → Decidable (a = b)
  | .num a, .num b =>
    if h : a = b then isTrue (by rw [h]) else isFalse (fun e => h (JSON.num.inj e))
  | .str a, .str b =>
    if h : a = b then isTrue (by rw [h]) else isFalse (fun e => h (JSON.str.inj e))
  | .obj a, .obj b =>
    match JSON.decEqMembers a b with
    | isTrue h => isTrue (by rw [h])
    | isFalse h => isFalse (fun e => h (JSON.obj.inj e))
  | .num _, .str _ => isFalse (fun e => JSON.noConfusion e)
  | .num _, .obj _ => isFalse (fun e => JSON.noConfusion e)
  | .str _, .num _ => isFalse (fun e => JSON.noConfusion e)
  | .str _, .obj _ => isFalse (fun e => JSON.noConfusion e)
  | .obj _, .num _ => isFalse (fun e => JSON.noConfusion e)
  | .obj _, .str _ => isFalse (fun e => JSON.noConfusion e)
/-- Equality of lists of members can be decided. -/
def JSON.decEqMembers : (a b : List (String × JSON)) → Decidable (a = b)
  | [], [] => isTrue rfl
  | [], _ :: _ => isFalse (fun e => List.noConfusion e)
  | _ :: _, [] => isFalse (fun e => List.noConfusion e)
  | (k, v) :: tl, (k', v') :: tl' =>
    if hk : k = k' then
      match JSON.decEq v v' with
      | isTrue hv =>
        match JSON.decEqMembers tl tl' with
        | isTrue ht => isTrue (by rw [hk, hv, ht])
        | isFalse ht => isFalse (fun e => ht (List.cons.inj e).2)
      | isFalse hv => isFalse (fun e => hv (Prod.mk.inj (List.cons.inj e).1).2)
    else isFalse (fun e => hk (Prod.mk.inj (List.cons.inj e).1).1)
end

instance : DecidableEq JSON := JSON.decEq

/-- The integer values of the constants of `vertexType` (runtime/dag.go). -/
def vertexType.code : vertexType → Int
  | .unset => 0
  | .vertexNode => 1
  | .vertexCond => 2
  | .vertexDAG => 3

/-- The `vertexType` of an integer, `none` for an integer that is not the
value of a constant (the embedding has no such `vertexType`). -/
def vertexType.ofCode (n : Int) : Option vertexType :=
  if n = 0 then some .unset
  else if n = 1 then some .vertexNode
  else if n = 2 then some .vertexCond
  else if n = 3 then some .vertexDAG
  else none

/-- Modelled from the spec: a struct field with the tag `json:",omitempty"`: the
member `name` with the value, left out when the field is `empty` (zero, the
empty string, a nil pointer, a map without entries). -/
def omitempty (name : String) (empty : Bool) (value : JSON) : List (String × JSON) :=
  if empty then [] else [(name, value)]

/-- Modelled from the spec: the keys of a Go map in the order in which
`json.Marshal` writes the map: sorted as strings (byte by byte in Go, which is
the order of the code points). -/
def sortedKeys {α : Type} (m : List (String × α)) : List String :=
  ((m.map Prod.fst).dedup).insertionSort (fun a b => a ≤ b)

/-- Modelled from the spec: the members that `json.Marshal` writes for the
keys `keys` of the map `m`, every value encoded by `enc`; `none` when the
encoding of a value gives none. -/
def encodeMap {α : Type} (enc : α → Option JSON) (m : List (String × α)) :
    List String → Option (List (String × JSON))
  | [] => some []
  | k :: tl =>
    match mapGet m k with
    | none => none
    | some v =>
      match enc v, encodeMap enc m tl with
      | some j, some rest => some ((k, j) :: rest)
      | _, _ => none

/-- Modelled from the spec: `json.Marshal` of a `*vertexInfo`, its fields in
the order of the struct, every field with `omitempty`; `encodePlan` encodes
the plan that the field `DAG` points to. -/
def encodeVertexInfo (encodePlan : Nat → Option JSON) (info : vertexInfo) : Option JSON :=
  let fields : List (String × JSON) :=
    omitempty "Type" (decide (info.Typ = .unset)) (.num info.Typ.code) ++
    omitempty "TrueVertex" (decide (info.TrueVertex = "")) (.str info.TrueVertex) ++
    omitempty "FalseVertex" (decide (info.FalseVertex = "")) (.str info.FalseVertex)
  match info.DAG with
  | none => some (.obj fields)
  | some a =>
    match encodePlan a with
    | none => none
    | some j => some (.obj (fields ++ [("DAG", j)]))

/-- Modelled from the spec: `json.Marshal` of a `dagExecutePlan`, its fields
in the order of the struct, every field with `omitempty`, the two maps with
their keys sorted; `sub` encodes the plans that the vertices point to. -/
def encodePlan (sub : Nat → Option JSON) (plan : dagExecutePlan) : Option JSON :=
  match encodeMap (encodeVertexInfo sub) plan.Vertex (sortedKeys plan.Vertex) with
  | none => none
  | some vertex =>
    some (.obj (
      omitempty "Name" (decide (plan.Name = "")) (.str plan.Name) ++
      omitempty "StartVertex" (decide (plan.StartVertex = "")) (.str plan.StartVertex) ++
      omitempty "Vertex" plan.Vertex.isEmpty (.obj vertex) ++
      omitempty "Links" plan.Links.isEmpty
        (.obj ((sortedKeys plan.Links).map
          (fun k => (k, JSON.str ((mapGet plan.Links k).getD "")))))))

/-- Modelled from the spec: the function `utils.Serialize` (a call of
`json.Marshal`) on the plan at address `addr` of `heap`, as `savePlan` calls
it.  The output is the JSON value of the plan with the plans its vertices
point to inside it; `none` when the plan has no output within `fuel` nested
plans (a plan that contains itself has none for any `fuel`: `json.Marshal`
returns an error for a cyclic value). -/
def Serialize (heap : List dagExecutePlan) : Nat → Nat → Option JSON
  | 0, _ => none
  | fuel + 1, addr =>
    match heap.get? addr with
    | none => none
    | some plan => encodePlan (Serialize heap fuel) plan

/-- The zero value of `dagExecutePlan`, which `loadPlan` hands to
`utils.Unserialize`. -/
def zeroPlan : dagExecutePlan := { Name := "", StartVertex := "", Vertex := [], Links := [] }

/-- The zero value of `vertexInfo`. -/
def zeroInfo : vertexInfo := { Typ := .unset, TrueVertex := "", FalseVertex := "", DAG := none }

/-- Modelled from the spec: the character under which `json.Unmarshal`
compares a key with the name of a field when it compares without regard to
case: the upper case of an ASCII letter; the Kelvin sign counts as `K` and the
long s as `S`. -/
def foldChar (c : Char) : Char :=
  if c = Char.ofNat 8490 then 'K' else if c = Char.ofNat 383 then 'S' else c.toUpper

/-- Modelled from the spec: a key with every character folded. -/
def foldKey (k : String) : String := String.mk (k.data.map foldChar)

/-- Modelled from the spec: the field of a struct that `json.Unmarshal` sets
for the key `k` of an object: the field of that name, else the first field
whose name is the key without regard to case; `none` when there is no such
field, and the member is skipped. -/
def matchField (names : List String) (k : String) : Option String :=
  if k ∈ names then some k else names.find? (fun n => decide (foldKey n = foldKey k))

/-- Modelled from the spec: `json.Unmarshal` of the members of an object into
a `vertexInfo`, in the order of the text: a member sets the field that
matches its key.  For `DAG`, `decodePlan` fills the plan that the field points
to, a new plan (allocated after the plans inside it) when the field is nil.
The result is `none` when `json.Unmarshal` returns an error (a value of the
wrong kind for the field) and for a `Type` that is not the value of a
constant, which the embedding has no `vertexType` for. -/
def decodeVertexInfo
    (decodePlan : JSON → dagExecutePlan → List dagExecutePlan →
      Option (List dagExecutePlan × dagExecutePlan)) :
    List (String × JSON) → vertexInfo → List dagExecutePlan →
    Option (List dagExecutePlan × vertexInfo)
  | [], info, heap => some (heap, info)
  | (k, v) :: tl, info, heap =>
    match matchField ["Type", "TrueVertex", "FalseVertex", "DAG"] k with
    | none => decodeVertexInfo decodePlan tl info heap
    | some field =>
      if field = "Type" then
        match v with
        | .num n =>
          match vertexType.ofCode n with
          | some t => decodeVertexInfo decodePlan tl { info with Typ := t } heap
          | none => none
        | _ => none
      else if field = "TrueVertex" then
        match v with
        | .str s => decodeVertexInfo decodePlan tl { info with TrueVertex := s } heap
        | _ => none
      else if field = "FalseVertex" then
        match v with
        | .str s => decodeVertexInfo decodePlan tl { info with FalseVertex := s } heap
        | _ => none
      else
        match info.DAG with
        | none =>
          match decodePlan v zeroPlan heap with
          | none => none
          | some (heap1, plan) =>
            decodeVertexInfo decodePlan tl { info with DAG := some heap1.length }
              (heap1 ++ [plan])
        | some a =>
          match heap.get? a with
          | none => none
          | some old =>
            match decodePlan v old heap with
            | none => none
            | some (heap1, plan) => decodeVertexInfo decodePlan tl info (heap1.set a plan)

/-- Modelled from the spec: `json.Unmarshal` of the members of an object into
a `map[string]*vertexInfo`: every member is decoded into a new `vertexInfo`
that is stored under the key. -/
def decodeVertexMap
    (decodePlan : JSON → dagExecutePlan → List dagExecutePlan →
      Option (List dagExecutePlan × dagExecutePlan)) :
    List (String × JSON) → List (String × vertexInfo) → List dagExecutePlan →
    Option (List dagExecutePlan × List (String × vertexInfo))
  | [], m, heap => some (heap, m)
  | (k, v) :: tl, m, heap =>
    match v with
    | .obj members =>
      match decodeVertexInfo decodePlan members zeroInfo heap with
      | none => none
      | some (heap1, info) => decodeVertexMap decodePlan tl (mapSet m k info) heap1
    | _ => none

/-- Modelled from the spec: `json.Unmarshal` of the members of an object into
a `map[string]string`. -/
def decodeLinks :
    List (String × JSON) → List (String × String) → Option (List (String × String))
  | [], m => some m
  | (k, v) :: tl, m =>
    match v with
    | .str s => decodeLinks tl (mapSet m k s)
    | _ => none

/-- Modelled from the spec: `json.Unmarshal` of the members of an object into
the `dagExecutePlan` `plan`, in the order of the text: a member sets the field
that matches its key, the members of `Vertex` and `Links` are added to the
map the field holds; `none` when `json.Unmarshal` returns an error. -/
def decodePlanMembers
    (decodePlan : JSON → dagExecutePlan → List dagExecutePlan →
      Option (List dagExecutePlan × dagExecutePlan)) :
    List (String × JSON) → dagExecutePlan → List dagExecutePlan →
    Option (List dagExecutePlan × dagExecutePlan)
  | [], plan, heap => some (heap, plan)
  | (k, v) :: tl, plan, heap =>
    match matchField ["Name", "StartVertex", "Vertex", "Links"] k with
    | none => decodePlanMembers decodePlan tl plan heap
    | some field =>
      if field = "Name" then
        match v with
        | .str s => decodePlanMembers decodePlan tl { plan with Name := s } heap
        | _ => none
      else if field = "StartVertex" then
        match v with
        | .str s => decodePlanMembers decodePlan tl { plan with StartVertex := s } heap
        | _ => none
      else if field = "Vertex" then
        match v with
        | .obj members =>
          match decodeVertexMap decodePlan members plan.Vertex heap with
          | none => none
          | some (heap1, m) => decodePlanMembers decodePlan tl { plan with Vertex := m } heap1
        | _ => none
      else
        match v with
        | .obj members =>
          match decodeLinks members plan.Links with
          | none => none
          | some m => decodePlanMembers decodePlan tl { plan with Links := m } heap
        | _ => none

/-- Modelled from the spec: `json.Unmarshal` of a JSON value into the
`dagExecutePlan` `plan`: the plan with the fields set, and `heap` with the
plans inside it added; `none` also when the text nests plans deeper than
`fuel`. -/
def decodePlan : Nat → JSON → dagExecutePlan → List dagExecutePlan →
    Option (List dagExecutePlan × dagExecutePlan)
  | 0, _, _, _ => none
  | fuel + 1, j, plan, heap =>
    match j with
    | .obj members => decodePlanMembers (decodePlan fuel) members plan heap
    | _ => none

/-- Modelled from the spec: the function `utils.Unserialize` (a call of
`json.Unmarshal`) into a new plan, as `loadPlan` calls it: the heap of the
decoded plans and the address of the plan in it. -/
def Unserialize (fuel : Nat) (j : JSON) : Option (List dagExecutePlan × Nat) :=
  match decodePlan fuel j zeroPlan [] with
  | none => none
  | some (heap, plan) => some (heap ++ [plan], heap.length)

/-! ## Predicates used by the statements -/

/-- What a step of a run context may change outside itself: it keeps the
request id of the flow context and appends invocations of that request. -/
def StepFrame (fc : flowContext) (calls : List Call)
    (fc' : flowContext) (calls' : List Call) : Prop :=
  fc'.requestID = fc.requestID ∧
    ∃ added, calls' = calls ++ added ∧ ∀ c ∈ added, c.requestID = fc.requestID

/-- The runner map as `startExecutePlan` fills it: every runner is filed
under the request id of its flow context, and no id is filed twice. -/
def batchRunner.Filed (b : batchRunner) : Prop :=
  (∀ kr ∈ b.runners, kr.2.fc.requestID = kr.1) ∧ (b.runners.map Prod.fst).Nodup

mutual
/-- The names a step of a run context enters (`enterDAG`, `enterNode`), down
to the vertex whose handler it runs; `none` when it meets a nil `runningRC`. -/
def runContext.vertexAddress : runContext → Option Path
  | .node n => some [n.name]
  | .dag d => dagRuntime.vertexAddress d
/-- The name of a `dagRuntime` and then the names its current run context enters. -/
def dagRuntime.vertexAddress : dagRuntime → Option Path
  | .mk name _ rcMap runningRC _ _ =>
    match vertexAddressRunning rcMap runningRC with
    | none => none
    | some p => some (name :: p)
/-- The names the run context filed under `key` enters. -/
def vertexAddressRunning : List (String × runContext) → String → Option Path
  | [], _ => none
  | (k, rc) :: tl, key =>
    if k = key then runContext.vertexAddress rc else vertexAddressRunning tl key
end

mutual
/-- A run context filed under `key` carries that name, and so does every run
context inside it. -/
def runContext.Named : runContext → String → Prop
  | .node n, key => n.name = key
  | .dag d, key => dagRuntime.name d = key ∧ dagRuntime.NamedMap d
/-- Every run context a `dagRuntime` holds is named after its key. -/
def dagRuntime.NamedMap : dagRuntime → Prop
  | .mk _ _ rcMap _ _ _ => namedEntries rcMap
/-- Every run context of the map is named after its key. -/
def namedEntries : List (String × runContext) → Prop
  | [] => True
  | (k, rc) :: tl => runContext.Named rc k ∧ namedEntries tl
end

/-- What a step of a run context does to the flow context: it keeps the trace
record, and when it returns (no panic) the execute path has grown by `addr`,
the names the step entered. -/
def StepPath (addr : Option Path) (fc : flowContext) (out : flowContext × StepOut) : Prop :=
  out.1.rcRecord = fc.rcRecord ∧
    ((∀ msg, out.2 ≠ .panic msg) →
      ∃ p, addr = some p ∧ out.1.executePath = fc.executePath ++ p)

/-- The links of a chain `v1 -> v2 -> ... -> vn`: every vertex has a link to
the next one, the last vertex has none. -/
def linkedChain (links : List (String × String)) : List String → Prop
  | [] => True
  | [a] => mapGet links a = none
  | a :: b :: tl => mapGet links a = some b ∧ linkedChain links (b :: tl)

/-- The plan of a linear DAG `v1 -> v2 -> ... -> vn` of nodes with the
handlers `vs` that starts at its head: the names are distinct and not empty,
the start vertex is `v1`, the vertices of the plan are these nodes, the index
of vertices has their handlers, and the links are those of the chain. -/
def LinearPlan (gl : globalVertex) (plan : dagExecutePlan)
    (vs : List (String × NodeHandler)) : Prop :=
  vs ≠ [] ∧ (vs.map Prod.fst).Nodup ∧ (∀ v ∈ vs, v.1 ≠ "") ∧
  plan.StartVertex = ((vs.map Prod.fst).head?).getD "" ∧
  (∀ kv ∈ plan.Vertex, kv.1 ∈ vs.map Prod.fst ∧ kv.2 = makeNodeVertexInfo) ∧
  (∀ v ∈ vs, mapHas plan.Vertex v.1 = true ∧
    ∃ e, globalVertex.get gl plan.Name v.1 = some e ∧ e.typ = .vertexNode ∧
      e.handler = some v.2) ∧
  linkedChain plan.Links (vs.map Prod.fst)

/-- The node runtime that `generateRuntime` makes of the node `v` of a plan,
before (`resolved` false) and after its delayed visit. -/
def compiledNodeRuntime (gl : globalVertex) (dagName : String) (links : List (String × String))
    (dagPath : Path) (resolved : Bool) (v : String) : nodeRuntime :=
  { newNodeRuntime with
    name := v, path := Path.AddString dagPath v, nodeType := .node,
    nodeHandler := (globalVertex.get gl dagName v).bind vertexEntity.handler,
    nodeNextVertex := (mapGet links v).getD "",
    nodeNextRC :=
      if resolved = true ∧ (mapGet links v).getD "" ≠ "" then .vertex ((mapGet links v).getD "")
      else .Termination }

/-- The same as a run context. -/
def compiledNode (gl : globalVertex) (dagName : String) (links : List (String × String))
    (dagPath : Path) (resolved : Bool) (v : String) : runContext :=
  .node (compiledNodeRuntime gl dagName links dagPath resolved v)

/-- The run contexts of a chain of nodes in the map of a `dagRuntime`: each
vertex is filed as a node of its name with its handler, whose successor is
the next vertex, `Termination` for the last. -/
def ChainMap (m : List (String × runContext)) : List (String × NodeHandler) → Prop
  | [] => True
  | (v, h) :: tl =>
    (∃ n, mapGet m v = some (.node n) ∧ n.name = v ∧ n.nodeType = .node ∧
      n.nodeHandler = some h ∧
      n.nodeNextRC = (match tl with
                      | [] => RCRef.Termination
                      | (v', _) :: _ => RCRef.vertex v')) ∧
    ChainMap m tl

/-- The log of invocations after a run of the chain `vs` of the DAG `dagName`
for the request `requestID`, from the log `calls`: the first handler gets
`input`, every other handler the output of the one before it; the run stops
at a handler that does not return data. -/
def chainCalls (requestID dagName : String) :
    List (String × NodeHandler) → Data → List Call → List Call
  | [], _, calls => calls
  | (v, h) :: tl, input, calls =>
    match h { requestID := requestID, currentVertex := [dagName, v], history := calls } input with
    | .ok output =>
      chainCalls requestID dagName tl output
        (calls ++ [{ requestID := requestID, vertex := [dagName, v], input := input }])
    | _ => calls ++ [{ requestID := requestID, vertex := [dagName, v], input := input }]

/-- The `Edge` calls that link each vertex of a chain to the next. -/
def edgeOps : List String → List BuilderOp
  | a :: b :: tl => .Edge a b :: edgeOps (b :: tl)
  | _ => []

/-- The builder calls of a linear DAG `v1 -> ... -> vn`, in the order of the
tests: `Node` for every vertex, then `Edge` from every vertex to the next. -/
def linearOps (vs : List (String × NodeHandler)) : List BuilderOp :=
  vs.map (fun v => BuilderOp.Node v.1 (some v.2)) ++ edgeOps (vs.map Prod.fst)

/-- The DAG handler that makes these calls and returns the first error. -/
def linearDAG (vs : List (String × NodeHandler)) : DAGHandler :=
  .steps (linearOps vs)

/-- The entity at address `addr` while the nodes of a linear DAG are being
declared: the nodes `done` are vertices of the plan and in the index of
vertices, the first of them is the start vertex, and there is no link yet. -/
def NodesDeclared (g : flow) (addr : Nat) (name : String)
    (done : List (String × NodeHandler)) : Prop :=
  ∃ de, g.heap.get? addr = some de ∧ de.Name = name ∧ de.Links = [] ∧
    de.StartVertex = ((done.map Prod.fst).head?).getD "" ∧
    (∀ kv ∈ de.Vertex, kv.1 ∈ done.map Prod.fst ∧ kv.2 = makeNodeVertexInfo) ∧
    (∀ v ∈ done, mapHas de.Vertex v.1 = true ∧
      ∃ e, globalVertex.get g.gl name v.1 = some e ∧ e.typ = .vertexNode ∧
        e.handler = some v.2)

/-- What the builder calls of one `RegisterDAG` leave as it was in the engine. -/
def SameEngine (f g : flow) : Prop :=
  g.running = f.running ∧ g.store = f.store ∧ g.calls = f.calls ∧
    g.concurrency = f.concurrency ∧ g.batchRunner = f.batchRunner ∧
    g.dagEntities = f.dagEntities ∧ g.heap.length = f.heap.length

/-- The vertex `b` can be reached from the vertex `a` along one or more links. -/
inductive Reaches (links : List (String × String)) : String → String → Prop where
  | step {a b : String} : mapGet links a = some b → Reaches links a b
  | next {a c b : String} : mapGet links a = some c → Reaches links c b → Reaches links a b

/-- The current vertex as the claim names it for an entrypoint path: the
second segment of the path when it has one, the start vertex of the plan when
the path is empty or has a single segment. -/
def selectedVertex (plan : dagExecutePlan) : Path → String
  | _ :: vertex :: _ => vertex
  | _ => plan.StartVertex

/-- A heap of plans in which every sub-DAG vertex carries the address of its
plan, and that address is lower than the address of the plan that refers to
it: the plans are finite trees, as the plans that `RegisterDAG` builds and
the plans that a decoder builds are. -/
def PlanTree (heap : List dagExecutePlan) : Prop :=
  ∀ i plan, heap.get? i = some plan → ∀ kv ∈ plan.Vertex, kv.2.Typ = .vertexDAG →
    ∃ a, kv.2.DAG = some a ∧ a < i

/-- The length of the longest heap of a plan in the store. -/
def memStore.planBound (s : memStore) : Nat :=
  (s.m.map (fun kv => match kv.2 with
                      | .plan heap _ => heap.length
                      | _ => 0)).foldr max 0

/-- What `rerunPlan` does for a request that is not resident, apart from
`startExecutePlan`: the error it returns, or the runner it creates; `none`
when `generateRuntime` nests deeper than `fuel`. -/
def flow.rerunOutcome (f : flow) (fuel : Nat) (requestID : String) :
    Option (Outcome contextRunner) :=
  match f.loadPlan requestID with
  | .error err => some (.error (.trace err))
  | .ok (_, none) => some (.error (.kind .NotFound requestID))
  | .ok ((heap, dag), some reRC) =>
    match generateRuntime heap f.gl fuel dag (NewPath []) reRC.Entrypoint with
    | none => none
    | some (.panic r) => some (.panic r)
    | some (.error err) => some (.error (.trace err))
    | some (.ok dr) => some (.ok (newContextRunner requestID (some (.dag dr)) reRC.Data))

/-- The plans of the engine are finite trees, and every registered DAG is a
plan of the heap. -/
def flow.HeapTree (f : flow) : Prop :=
  PlanTree f.heap ∧ ∀ name a, mapGet f.dagEntities name = some a → a < f.heap.length

/-- Every plan in the store is a finite tree whose root is in its heap. -/
def memStore.PlanTrees (s : memStore) : Prop :=
  ∀ kv ∈ s.m, ∀ heap root, kv.2 = .plan heap root → PlanTree heap ∧ root < heap.length

/-- The entity at address `addr` while its DAG handler runs: the plans are
finite trees, the registered DAGs are below `addr`, and `addr` is in the heap. -/
def flow.Building (g : flow) (addr : Nat) : Prop :=
  PlanTree g.heap ∧ (∀ name a, mapGet g.dagEntities name = some a → a < addr) ∧
    addr < g.heap.length

/-- The store `s1` holds no plan that the store `s` does not hold. -/
def memStore.NoNewPlan (s s1 : memStore) : Prop :=
  ∀ kv ∈ s1.m, ∀ heap root, kv.2 = .plan heap root → kv ∈ s.m

/-- What the builder call `op` does on a builder state (the index of vertices
`gl` and the plan `de` of the entity; `dagEntities` is the table of registered
DAGs): the index, the plan and the error it leaves; `none` when the cycle
check of `Edge` does not return within `fuel` iterations. -/
def BuilderOp.result (dagEntities : List (String × Nat)) (gl : globalVertex)
    (de : dagExecutePlan) (fuel : Nat) :
    BuilderOp → Option (globalVertex × dagExecutePlan × Option Err)
  | .Node vertex handler => some (dagEntity.Node gl de vertex handler)
  | .SubDAG vertex dagName => some (dagEntity.SubDAG dagEntities gl de vertex dagName)
  | .Condition vertex trueVertex falseVertex handler =>
    some (dagEntity.Condition gl de vertex trueVertex falseVertex handler)
  | .Edge frm dst =>
    match dagEntity.Edge gl de fuel frm dst with
    | none => none
    | some (de1, err) => some (gl, de1, err)
/-- The plan at address `a` of `heap` contains the plan at address `b`: it has
a sub-DAG vertex that refers to it, or to a plan that contains it. -/
inductive Contains (heap : List dagExecutePlan) : Nat → Nat → Prop where
  | direct {a b : Nat} {plan : dagExecutePlan} {kv : String × vertexInfo} :
      heap.get? a = some plan → kv ∈ plan.Vertex → kv.2.Typ = .vertexDAG →
      kv.2.DAG = some b → Contains heap a b
  | through {a b c : Nat} : Contains heap a b → Contains heap b c → Contains heap a c

/-- The engine after the calls `RegisterDAG(name, handler)` of `regs` in
order, whatever they return; `none` when one of them does not return. -/
def flow.registerAll (fuel : Nat) : List (String × DAGHandler) → flow → Option flow
  | [], f => some f
  | (name, handler) :: tl, f =>
    match f.RegisterDAG fuel name handler with
    | none => none
    | some (f1, _) => flow.registerAll fuel tl f1

/-- The vertex `v` has an incoming reference in the plan: it is the target of
an entry of `Links`, or the true or the false successor of a Condition. -/
def dagExecutePlan.Referenced (dt : dagExecutePlan) (v : String) : Prop :=
  (∃ x, mapGet dt.Links x = some v) ∨
    ∃ c info, mapGet dt.Vertex c = some info ∧ info.Typ = .vertexCond ∧
      (info.TrueVertex = v ∨ info.FalseVertex = v)

/-- The names the plan uses are declared, that is, the index of vertices has
them under the name of the DAG: the source and the target of every link,
every vertex and the two successors of every Condition, and the start vertex
once there is one or once the plan has a vertex. -/
def dagExecutePlan.Declared (dt : dagExecutePlan) (gl : globalVertex) : Prop :=
  (∀ x y, mapGet dt.Links x = some y →
    globalVertex.exists gl dt.Name x = true ∧ globalVertex.exists gl dt.Name y = true) ∧
  (∀ kv ∈ dt.Vertex, globalVertex.exists gl dt.Name kv.1 = true ∧
    (kv.2.Typ = .vertexCond →
      globalVertex.exists gl dt.Name kv.2.TrueVertex = true ∧
      globalVertex.exists gl dt.Name kv.2.FalseVertex = true)) ∧
  (dt.StartVertex ≠ "" → globalVertex.exists gl dt.Name dt.StartVertex = true) ∧
  (dt.Vertex ≠ [] → globalVertex.exists gl dt.Name dt.StartVertex = true)
/-- The vertices that can be reached from the start vertex of the plan: the
start vertex, and every successor (as `visitNext` gives them) of a vertex
that can be reached. -/
inductive dagExecutePlan.Reachable (dt : dagExecutePlan) : String → Prop where
  | start : dagExecutePlan.Reachable dt dt.StartVertex
  | next {a b : String} {l : List String} :
      dagExecutePlan.Reachable dt a → dt.visitNext a = some l → b ∈ l →
      dagExecutePlan.Reachable dt b

/-- The index of vertices and the plan agree: every vertex the index has
under the name of the DAG is a vertex of the plan, and every vertex of the
plan is in the index with the type the plan gives it, which is Node,
Condition, or sub-DAG with the address of a plan. -/
def dagExecutePlan.Indexed (dt : dagExecutePlan) (gl : globalVertex) : Prop :=
  (∀ v, globalVertex.exists gl dt.Name v = true → mapHas dt.Vertex v = true) ∧
  ∀ kv ∈ dt.Vertex, ∃ e, globalVertex.get gl dt.Name kv.1 = some e ∧ e.typ = kv.2.Typ ∧
    (kv.2.Typ = .vertexNode ∨ kv.2.Typ = .vertexCond ∨
      (kv.2.Typ = .vertexDAG ∧ ∃ a, kv.2.DAG = some a))

/-- The successor names of a run context before its delayed visit are empty
or among the names `has`: the delayed visit will resolve them. -/
def runContext.Resolves (has : String → Bool) : runContext → Prop
  | .node n =>
    (n.nodeType = .node → n.nodeNextVertex = "" ∨ has n.nodeNextVertex = true) ∧
    (n.nodeType = .condition →
      (n.condTrueVertex = "" ∨ has n.condTrueVertex = true) ∧
      (n.condFalseVertex = "" ∨ has n.condFalseVertex = true))
  | .dag (.mk _ _ _ _ _ nextVertex) => nextVertex = "" ∨ has nextVertex = true

/-- The decoder `dec` reads what the encoder `enc` writes: on the output of
`enc` for a plan it returns a plan, with the plans inside it added at the end
of the heap, and `enc2`, over every heap that has these plans and the plan,
writes the same output for it. -/
def RoundTrip (enc : Nat → Option JSON)
    (dec : JSON → dagExecutePlan → List dagExecutePlan →
      Option (List dagExecutePlan × dagExecutePlan))
    (enc2 : List dagExecutePlan → Nat → Option JSON) : Prop :=
  ∀ a j, enc a = some j → ∀ H0, ∃ H1 q, dec j zeroPlan H0 = some (H1, q) ∧ H0 <+: H1 ∧
    ∀ H2 c, H1 <+: H2 → H2.get? c = some q → enc2 H2 c = some j

/-- Every pointer to a plan in the vertices of the plan is in a vertex of
kind DAG. -/
def dagExecutePlan.Typed (plan : dagExecutePlan) : Prop :=
  ∀ kv ∈ plan.Vertex, ∀ b, kv.2.DAG = some b → kv.2.Typ = .vertexDAG

/-- Whether the vertex `v` has an incoming reference in the plan (`Referenced`,
computed). -/
def dagExecutePlan.hasReference (dt : dagExecutePlan) (v : String) : Bool :=
  dt.Links.any (fun kv => decide (mapGet dt.Links kv.1 = some v)) ||
  dt.Vertex.any (fun kv =>
    decide (mapGet dt.Vertex kv.1 = some kv.2) && decide (kv.2.Typ = .vertexCond) &&
      (decide (kv.2.TrueVertex = v) || decide (kv.2.FalseVertex = v)))

/-- Whether the builder call, made on the plan `de` and returning `err`, is an
`Edge` that returns nil, into the start vertex of the plan, from the start
vertex itself or from a vertex with an incoming reference. -/
def BuilderOp.movesStartOntoReferenced (de : dagExecutePlan) (err : Option Err) :
    BuilderOp → Bool
  | .Edge frm dst =>
    err.isNone && decide (dst = de.StartVertex) && (decide (frm = dst) || de.hasReference frm)
  | _ => false

/-- Whether every builder call that the handler makes on the entity at `addr`,
from the engine `f` on, passes the test `q` (on the plan the call is made on
and the error it returns). -/
def DAGHandler.everyCall (q : dagExecutePlan → Option Err → BuilderOp → Bool)
    (fuel addr : Nat) : DAGHandler → flow → Bool
  | .ret _, _ => true
  | .call op k, f =>
    match f.applyOp fuel addr op with
    | none => true
    | some (f1, err) =>
      (match f.heap.get? addr with
        | none => true
        | some de => q de err op) &&
      DAGHandler.everyCall q fuel addr (k err) f1

/-- The engine with the new entity `name` that `RegisterDAG` hands to the DAG
handler, at the address that is the length of the heap. -/
def flow.withNewEntity (f : flow) (name : String) : flow :=
  { f with heap := f.heap ++ [newDAGEntity name] }

/-! ## Test fixtures (runtime/flow_common_test.go, runtime/flow_faulty_test.go) -/

namespace Fixture

/-- A node handler that returns its input. -/
def okNode : NodeHandler := fun _ input => .ok input

/-- A node handler that returns the error `e`. -/
def failNode (e : Err) : NodeHandler := fun _ _ => .error e

/-- The DAG of `singleDAG.testDAG`: `node1 -> node2 -> node3`. -/
def singleDAG : DAGHandler :=
  .steps [.Node "node1" (some okNode), .Node "node2" (some okNode), .Node "node3" (some okNode),
          .Edge "node1" "node2", .Edge "node2" "node3"]

/-- The DAG of `subDAG.testDAG`: one vertex `subdag` that runs the DAG `test1`. -/
def subDAG : DAGHandler := .steps [.SubDAG "subdag" "test1"]

/-- A DAG of one vertex `A` whose handler returns the error `e`. -/
def failDAG (e : Err) : DAGHandler := .steps [.Node "A" (some (failNode e))]

/-- A DAG `A -> B` whose vertex `B` returns the error `e`. -/
def thenFailDAG (e : Err) : DAGHandler :=
  .steps [.Node "A" (some okNode), .Node "B" (some (failNode e)), .Edge "A" "B"]

/-- A DAG of one vertex `sub` that runs the DAG `inner`. -/
def outerDAG : DAGHandler := .steps [.SubDAG "sub" "inner"]

/-- The engine of the tests: memory store, synchronous, no auto start. -/
def engine : flow := newFlow NewMemStore [] 100000 false

/-- A call of the engine's interface in a test. -/
inductive Cmd where
  | RegisterDAG (name : String) (handler : DAGHandler)
  | RunDAG (dagName requestID : String) (params : Data)
  | RunOnce (now : Int)
  | PauseRequest (requestID : String)
  | ResumeRequest (requestID : String)

/-- The engine after the calls of a test, `none` when one of them fails. -/
def exec : List Cmd → flow → Option flow
  | [], f => some f
  | .RegisterDAG name handler :: tl, f =>
    match f.RegisterDAG 8 name handler with
    | some (f1, none) => exec tl f1
    | _ => none
  | .RunDAG dagName requestID params :: tl, f =>
    match f.RunDAG 8 dagName requestID params with
    | some (f1, .ok ()) => exec tl f1
    | _ => none
  | .RunOnce now :: tl, f =>
    match f.RunOnce now with
    | (f1, .ok ()) => exec tl f1
    | _ => none
  | .PauseRequest requestID :: tl, f =>
    match f.PauseRequest requestID with
    | (f1, none) => exec tl f1
    | _ => none
  | .ResumeRequest requestID :: tl, f =>
    match f.ResumeRequest requestID with
    | (f1, none) => exec tl f1
    | _ => none

/-- The engine after the calls, the fresh engine when one of them fails. -/
def after (cmds : List Cmd) : flow := (exec cmds engine).getD engine

/-- A new engine on the store of `f` (a restart), after the calls `cmds`. -/
def restart (f : flow) (cmds : List Cmd) : flow :=
  (exec cmds (newFlow f.store f.calls 100000 false)).getD engine

/-- What a test reads of a runner: status, path of the current vertex, data,
last error and next run time. -/
structure Observation where
  status : StatusType
  path : Option Path
  data : Data
  lastErr : Option Err
  nextRunTime : Int
  deriving DecidableEq

def observeRunner (r : contextRunner) : Observation :=
  { status := r.runningStatus, path := r.runningRC.bind runContext.getPath,
    data := r.currentData, lastErr := r.lastErr, nextRunTime := r.nextRunTime }

/-- The runner of a request as a test reads it, `none` when the request is
not resident. -/
def observe (f : flow) (requestID : String) : Option Observation :=
  (f.batchRunner.get requestID).map observeRunner

/-- The errors `ReloadRequests` reports and whether it panicked or ran out of fuel. -/
def reloadErrs (f : flow) : Option (Option (List (String × Option Err))) :=
  match f.ReloadRequests 8 with
  | some (_, .ok (errs, _)) => some errs
  | _ => none

/-- The engine after `ReloadRequests`. -/
def reloaded (f : flow) : flow :=
  match f.ReloadRequests 8 with
  | some (f1, _) => f1
  | none => f

/-- The runner of a request after one call of `contextRunner.runOnce` at
clock reading `now`, observed like `observe`. -/
def observeStep (f : flow) (requestID : String) (now : Int) : Option Observation :=
  (f.batchRunner.get requestID).map (fun r =>
    observeRunner (r.runOnce { store := f.store, calls := f.calls } now).1)

/-- TestRerunFlow up to its first tick. -/
def singleFlow : List Cmd :=
  [.RegisterDAG "test" singleDAG, .RunDAG "test" "test-require-id" [], .RunOnce 1]

/-- TestSubDAGFlow up to its first tick. -/
def subDAGFlow : List Cmd :=
  [.RegisterDAG "test1" singleDAG, .RegisterDAG "test2" subDAG,
   .RunDAG "test2" "test-require-id" [], .RunOnce 1]


/-- The run context `generateNodeRunContext` builds for a node `name` of the
DAG `test` with successor `next`. -/
def nodeRT (name next : String) (h : NodeHandler) : nodeRuntime :=
  { newNodeRuntime with
    name := name, path := ["test", name], nodeType := .node, nodeHandler := some h,
    nodeNextVertex := next,
    nodeNextRC := if next = "" then .Termination else .vertex next }

/-- The runtime of the DAG `node1 -> node2` of succeeding nodes, at `node1`. -/
def linearDAGRuntime : dagRuntime :=
  .mk "test" ["test"]
    [("node1", .node (nodeRT "node1" "node2" okNode)),
     ("node2", .node (nodeRT "node2" "" okNode))]
    "node1" .Termination ""

/-- The same runtime as a run context. -/
def linearRuntime : runContext := .dag linearDAGRuntime

/-- The runtime of a DAG of one vertex `A` whose handler returns `e`. -/
def failingRuntime (e : Err) : runContext :=
  .dag (.mk "test" ["test"] [("A", .node (nodeRT "A" "" (failNode e)))] "A" .Termination "")

/-- A runner as `RunDAG` creates it, on `linearRuntime`. -/
def pendingRunner (requestID : String) : contextRunner :=
  newContextRunner requestID (some linearRuntime) []

/-- The same runner, paused. -/
def pausedRunner (requestID : String) : contextRunner :=
  { pendingRunner requestID with runningStatus := .Paused }

/-- The empty store and no invocation yet. -/
def world : World := { store := NewMemStore, calls := [] }

/-- A scheduler with a paused request `r1` and a pending request `r2`. -/
def batch : batchRunner :=
  { asyncFlag := false, runners := [("r1", pausedRunner "r1"), ("r2", pendingRunner "r2")] }

/-- The engine of the tests with the scheduler `batch`. -/
def batchFlow : flow := { engine with batchRunner := batch }

/-- The DAG `inner` of scenario S6: `A -> B -> C`. -/
def innerDAG : DAGHandler :=
  .steps [.Node "A" (some okNode), .Node "B" (some okNode), .Node "C" (some okNode),
          .Edge "A" "B", .Edge "B" "C"]

/-- The DAG `outer` of scenario S6: `X -> sub`, where `sub` runs the DAG `inner`. -/
def outerXDAG : DAGHandler :=
  .steps [.Node "X" (some okNode), .SubDAG "sub" "inner", .Edge "X" "sub"]

/-- Scenario S6 up to the launch of the request `r1`. -/
def nestedFlow : List Cmd :=
  [.RegisterDAG "inner" innerDAG, .RegisterDAG "outer" outerXDAG, .RunDAG "outer" "r1" []]

/-- What `GetRequestStatus` reports: the status, or the error. -/
def reportedStatus (f : flow) (requestID : String) : StatusType ⊕ Err :=
  match f.GetRequestStatus requestID with
  | .ok s => .inl s.Status
  | .error e => .inr e

/-- The engine after ticks at the clock readings `ts`, whatever they return. -/
def ticks (ts : List Int) (f : flow) : flow :=
  ts.foldl (fun g t => (g.RunOnce t).1) f

/-- A scheduler with two pending requests. -/
def pendingBatch : batchRunner :=
  { asyncFlag := false, runners := [("r1", pendingRunner "r1"), ("r2", pendingRunner "r2")] }

/-- TestSingleFlow after its second tick. -/
def singleFlowTwoTicks : flow :=
  after [.RegisterDAG "test" singleDAG, .RunDAG "test" "test-require-id" [], .RunOnce 1,
         .RunOnce 2]

/-- The builder state of `failRegFlow.testDAG` after `node1` and `node2` have
been declared: the index of vertices and the plan of the DAG `test`. -/
def twoNodes : globalVertex × dagExecutePlan :=
  let s1 := dagEntity.Node newGlobalVertex (newDAGEntity "test") "node1" (some okNode)
  let s2 := dagEntity.Node s1.1 s1.2.1 "node2" (some okNode)
  (s2.1, s2.2.1)

/-- The same state after `Edge("node1", "node2")`. -/
def twoNodesLinked : globalVertex × dagExecutePlan :=
  match dagEntity.Edge twoNodes.1 twoNodes.2 8 "node1" "node2" with
  | some (de, _) => (twoNodes.1, de)
  | none => twoNodes

/-- The state `twoNodes` after `Edge("node1", "node1")`. -/
def twoNodesLooped : globalVertex × dagExecutePlan :=
  match dagEntity.Edge twoNodes.1 twoNodes.2 8 "node1" "node1" with
  | some (de, _) => (twoNodes.1, de)
  | none => twoNodes

/-- A node handler that panics with the value `msg`. -/
def panicNode (msg : String) : NodeHandler := fun _ _ => .panic msg

/-- The runtime of a DAG of one vertex `A` whose handler panics with `msg`. -/
def panickingRuntime (msg : String) : runContext :=
  .dag (.mk "test" ["test"] [("A", .node (nodeRT "A" "" (panicNode msg)))] "A" .Termination "")

/-- A condition handler that returns `b`. -/
def constCond (b : Bool) : BooleanHandler := fun _ _ => .ok b

/-- A DAG handler that makes the calls `ops` in order, only asserts on what
they return, and returns nil. -/
def asserting : List BuilderOp → DAGHandler
  | [] => .ret none
  | op :: tl => .call op (fun _ => asserting tl)

/-- The DAG of `failRegFlow.testDAG`. -/
def failRegDAG : DAGHandler :=
  asserting
    [.Edge "node1" "node2", .Node "node1" (some okNode), .Node "node1" (some okNode),
     .Edge "node1" "node2", .Edge "node2" "node1", .Node "node2" (some okNode),
     .Node "node2" (some okNode), .Edge "node1" "node2", .Edge "node1" "node2",
     .Edge "node2" "node1", .Node "node2" (some okNode), .Node "node2" (some okNode),
     .Condition "cond" "node1" "node2" (some (constCond false)), .Node "node3" (some okNode),
     .Edge "node2" "node3", .Node "node4" (some okNode), .Edge "node3" "node4",
     .Node "node5" (some okNode), .Edge "node4" "node5"]

/-- The engine after `RegisterDAG(name, handler)`, whatever the call returns. -/
def registered (f : flow) (name : String) (handler : DAGHandler) : flow :=
  match f.RegisterDAG 8 name handler with
  | some (f1, _) => f1
  | none => f

/-- The engine with the variable `setError` of TestFailCondition set to `err`:
the store returns `err` from every call. -/
def withStoreErr (f : flow) (err : Option Err) : flow :=
  { f with store := { f.store with mockErr := err } }

/-- TestFailCondition up to the launch of its first request: the five
registrations that fail, the registration of `failRegFlow.testDAG`, `RunDAG`. -/
def failConditionFlow : flow :=
  let f1 := registered engine "test" (.call (.SubDAG "subdag" "test1") .ret)
  let f2 := registered f1 "test" (.call (.Node "node1" none) .ret)
  let f3 := registered f2 "test" (.call (.Edge "node1" "node2") .ret)
  let f4 := registered f3 "test" (.call (.Condition "cond" "node1" "node2" none) .ret)
  let f5 := registered f4 "test"
    (.call (.Condition "cond" "node1" "node2" (some (constCond false))) .ret)
  let f6 := registered f5 "test" failRegDAG
  match f6.RunDAG 8 "test" "test-require-id" [] with
  | some (f7, _) => f7
  | none => f6

/-- What successive ticks at the clock readings `ts` return. -/
def tickOutcomes : List Int → flow → List (Outcome Unit)
  | [], _ => []
  | t :: ts, f => (f.RunOnce t).2 :: tickOutcomes ts (f.RunOnce t).1

/-- TestRerunFlow with a pause asked for before its first tick: the tick runs
`node1`, applies the pause and stores the rerun context with status `Paused`. -/
def pausedFlow : List Cmd :=
  [.RegisterDAG "test" singleDAG, .RunDAG "test" "test-require-id" [],
   .PauseRequest "test-require-id", .RunOnce 1]

/-- A condition handler that returns true on its first invocation at its
vertex in a request, and false on every later one (a closure that counts). -/
def firstTime : BooleanHandler := fun ctx _ =>
  .ok (ctx.history.all (fun c => c.vertex != ctx.currentVertex))

/-- The DAG `inner` of the loop scenario: `A -> B`. -/
def abDAG : DAGHandler :=
  .steps [.Node "A" (some okNode), .Node "B" (some okNode), .Edge "A" "B"]

/-- The DAG `outer` of the loop scenario: `sub -> again`, where `sub` runs the
DAG `inner` and the Condition `again` goes back to `sub` when its handler
returns true, to `done` otherwise. -/
def loopDAG : DAGHandler :=
  .steps [.Node "done" (some okNode), .SubDAG "sub" "inner",
          .Condition "again" "sub" "done" (some firstTime), .Edge "sub" "again"]

/-- The loop scenario up to the launch of the request `r1`. -/
def loopFlow : List Cmd :=
  [.RegisterDAG "inner" abDAG, .RegisterDAG "outer" loopDAG, .RunDAG "outer" "r1" []]
/-- A DAG handler that declares the node `x` and then fails on an edge to a
vertex that is not declared. -/
def leakDAG : DAGHandler := .steps [.Node "x" (some okNode), .Edge "x" "nope"]

/-- A DAG of the one node `x`. -/
def nodeXDAG : DAGHandler := .steps [.Node "x" (some okNode)]

/-- A DAG handler that declares the node `a` and the edge `a -> x`, without
declaring `x`. -/
def edgeToXDAG : DAGHandler := .steps [.Node "a" (some okNode), .Edge "a" "x"]
/-- The engine of the tests after `RegisterDAG("a", ...)` of the one node `x`
and, on the DAG that `GetDAG("a")` returns, `SubDAG("self", "a")`. -/
def selfReferring : flow :=
  let g := registered engine "a" nodeXDAG
  match g.GetDAG "a" with
  | none => g
  | some addr =>
    match g.applyOp 8 addr (.SubDAG "self" "a") with
    | some (g1, _) => g1
    | none => g

/-- A DAG that repeats its first vertex: `work -> again`, where the Condition
`again` goes back to `work` when its handler returns true, to `done`
otherwise. -/
def retryDAG : DAGHandler :=
  .steps [.Node "work" (some okNode), .Node "done" (some okNode),
          .Condition "again" "work" "done" (some firstTime), .Edge "work" "again"]

/-- The DAG `retryDAG` registered as `retry`, up to the launch of `r1`. -/
def retryFlow : List Cmd := [.RegisterDAG "retry" retryDAG, .RunDAG "retry" "r1" []]

/-- The DAG `b -> c -> a`, declared in the order: the nodes `a`, `b`, `c`,
the edge `b -> c`, the edge `c -> a`. -/
def chainDAG : DAGHandler :=
  .steps [.Node "a" (some okNode), .Node "b" (some okNode), .Node "c" (some okNode),
          .Edge "b" "c", .Edge "c" "a"]

/-- The DAG `chainDAG` registered as `chain`, up to the launch of `r1`. -/
def chainFlow : List Cmd := [.RegisterDAG "chain" chainDAG, .RunDAG "chain" "r1" []]

/-- Two chains that are not connected: `a -> b` and `c -> d`. -/
def twoChainsDAG : DAGHandler :=
  .steps [.Node "a" (some okNode), .Node "b" (some okNode), .Node "c" (some okNode),
          .Node "d" (some okNode), .Edge "a" "b", .Edge "c" "d"]

/-- The plan that the calls of `twoChainsDAG` build on an entity `two`. -/
def twoChainsPlan : dagExecutePlan :=
  { Name := "two", StartVertex := "a",
    Vertex := [("a", makeNodeVertexInfo), ("b", makeNodeVertexInfo),
               ("c", makeNodeVertexInfo), ("d", makeNodeVertexInfo)],
    Links := [("a", "b"), ("c", "d")] }

/-- The plan that the calls of `singleDAG` build on an entity `test`. -/
def singlePlan : dagExecutePlan :=
  { Name := "test", StartVertex := "node1",
    Vertex := [("node1", makeNodeVertexInfo), ("node2", makeNodeVertexInfo),
               ("node3", makeNodeVertexInfo)],
    Links := [("node1", "node2"), ("node2", "node3")] }

/-- A DAG handler that declares nothing and returns nil. -/
def emptyDAG : DAGHandler := .ret none

/-- A DAG of one vertex `sub` that runs the DAG `empty`. -/
def overEmptyDAG : DAGHandler := .steps [.SubDAG "sub" "empty"]

/-- The engine of the tests after the registration of `emptyDAG` as `empty`
and of `overEmptyDAG` as `outer`. -/
def overEmpty : flow := registered (registered engine "empty" emptyDAG) "outer" overEmptyDAG

/-- The runtime of a sub-DAG vertex with the successor `after`, standing at
`node2`, the last vertex of its inner DAG. -/
def lastVertexRuntime : dagRuntime :=
  .mk "sub" ["outer", "inner"] [("node2", .node (nodeRT "node2" "" okNode))] "node2"
    (.vertex "after") "after"

/-- The linear DAG `a -> b -> c` with its vertices declared last to first:
the nodes `c`, `b`, `a`, the edge `a -> b`, the edge `b -> c`. -/
def lastFirstDAG : DAGHandler :=
  .steps [.Node "c" (some okNode), .Node "b" (some okNode), .Node "a" (some okNode),
          .Edge "a" "b", .Edge "b" "c"]

/-- The DAG `lastFirstDAG` registered as `chain`, up to the launch of `r1`. -/
def lastFirstFlow : List Cmd := [.RegisterDAG "chain" lastFirstDAG, .RunDAG "chain" "r1" []]

/-- A DAG handler that declares the node `a` and the Condition `k` with the
successors `x` and `a`, without declaring `x`. -/
def condOnXDAG : DAGHandler :=
  .steps [.Node "a" (some okNode), .Condition "k" "x" "a" (some (constCond true))]

/-- A DAG handler that declares the node `a` and the edge `x -> a`, without
declaring `x`. -/
def edgeFromXDAG : DAGHandler := .steps [.Node "a" (some okNode), .Edge "x" "a"]

/-- A DAG of the one node `c`. -/
def nodeCDAG : DAGHandler := .steps [.Node "c" (some okNode)]

/-- A DAG of the one node `b.c`. -/
def nodeBCDAG : DAGHandler := .steps [.Node "b.c" (some okNode)]

end Fixture

/-! ## Lemmas: Go maps and store keys -/

theorem mapGet_mapSet_same {α : Type} (m : List (String × α)) (k : String) (v : α) :
    mapGet (mapSet m k v) k = some v := by
  induction m with
  | nil => simp [mapSet, mapGet]
  | cons hd tl ih =>
    obtain ⟨k1, v1⟩ := hd
    by_cases h : k1 = k <;> simp [mapSet, mapGet, h, ih]

theorem mapGet_mapSet_ne {α : Type} (m : List (String × α)) (k k' : String) (v : α)
    (h : k' ≠ k) : mapGet (mapSet m k v) k' = mapGet m k' := by
  induction m with
  | nil => simp [mapSet, mapGet, Ne.symm h]
  | cons hd tl ih =>
    obtain ⟨k1, v1⟩ := hd
    by_cases h1 : k1 = k
    · subst h1
      simp [mapSet, mapGet, Ne.symm h]
    · by_cases h2 : k1 = k'
      · subst h2
        simp [mapSet, mapGet, h1]
      · simp [mapSet, mapGet, h1, h2, ih]

theorem mapGet_mapDelete_same {α : Type} (m : List (String × α)) (k : String) :
    mapGet (mapDelete m k) k = none := by
  induction m with
  | nil => simp [mapDelete, mapGet]
  | cons hd tl ih =>
    obtain ⟨k1, v1⟩ := hd
    by_cases h : k1 = k <;> simp [mapDelete, mapGet, h, ih]

theorem mapGet_mapDelete_ne {α : Type} (m : List (String × α)) (k k' : String)
    (h : k' ≠ k) : mapGet (mapDelete m k) k' = mapGet m k' := by
  induction m with
  | nil => simp [mapDelete, mapGet]
  | cons hd tl ih =>
    obtain ⟨k1, v1⟩ := hd
    by_cases h1 : k1 = k
    · subst h1
      simp [mapDelete, mapGet, Ne.symm h, ih]
    · by_cases h2 : k1 = k'
      · subst h2
        simp [mapDelete, mapGet, h1]
      · simp [mapDelete, mapGet, h1, h2, ih]

theorem mapGet_of_mem_nodup {α : Type} (m : List (String × α)) (k : String) (v : α)
    (hnd : (m.map Prod.fst).Nodup) (hmem : (k, v) ∈ m) : mapGet m k = some v := by
  induction m with
  | nil => simp at hmem
  | cons hd tl ih =>
    obtain ⟨k1, v1⟩ := hd
    simp only [List.map_cons, List.nodup_cons] at hnd
    rcases List.mem_cons.mp hmem with h | h
    · cases h
      simp [mapGet]
    · have hk : k1 ≠ k := by
        intro e
        subst e
        exact hnd.1 (List.mem_map.mpr ⟨(k1, v), h, rfl⟩)
      simp [mapGet, hk, ih hnd.2 h]

theorem mapGet_filter {α : Type} (m : List (String × α)) (p : String × α → Bool) (k : String)
    (v : α) (h : mapGet m k = some v) (hp : p (k, v) = true) :
    mapGet (m.filter p) k = some v := by
  induction m with
  | nil => simp [mapGet] at h
  | cons hd tl ih =>
    obtain ⟨k1, v1⟩ := hd
    by_cases hk : k1 = k
    · subst hk
      simp [mapGet] at h
      subst h
      simp [List.filter, hp, mapGet]
    · simp [mapGet, hk] at h
      by_cases hq : p (k1, v1) = true
      · simp [List.filter, hq, mapGet, hk, ih h]
      · simp [List.filter, hq, ih h]

theorem mapHas_false_iff_not_mem {α : Type} (m : List (String × α)) (k : String) :
    mapHas m k = false ↔ k ∉ m.map Prod.fst := by
  induction m with
  | nil => simp [mapHas, mapGet]
  | cons hd tl ih =>
    obtain ⟨k1, v1⟩ := hd
    by_cases h : k1 = k
    · subst h
      simp [mapHas, mapGet]
    · have h' : ¬ k = k1 := fun e => h e.symm
      simp only [mapHas, mapGet, h, if_false, List.map_cons, List.mem_cons, h', false_or]
      exact ih

theorem mapSet_of_not_has {α : Type} (m : List (String × α)) (k : String) (v : α)
    (h : mapHas m k = false) : mapSet m k v = m ++ [(k, v)] := by
  induction m with
  | nil => rfl
  | cons hd tl ih =>
    obtain ⟨k1, v1⟩ := hd
    by_cases hk : k1 = k
    · subst hk
      simp [mapHas, mapGet] at h
    · have ht : mapHas tl k = false := by simpa [mapHas, mapGet, hk] using h
      simp [mapSet, hk, ih ht]

theorem mapSet_keys_of_get {α : Type} (m : List (String × α)) (k : String) (v w : α)
    (h : mapGet m k = some w) : (mapSet m k v).map Prod.fst = m.map Prod.fst := by
  induction m with
  | nil => simp [mapGet] at h
  | cons hd tl ih =>
    obtain ⟨k1, v1⟩ := hd
    by_cases hk : k1 = k
    · simp [mapSet, hk]
    · simp only [mapGet, hk, if_false] at h
      simp [mapSet, hk, ih h]

theorem mem_mapSet {α : Type} (m : List (String × α)) (k : String) (v : α) (kv : String × α)
    (h : kv ∈ mapSet m k v) : kv ∈ m ∨ kv = (k, v) := by
  induction m with
  | nil =>
    simp only [mapSet, List.mem_singleton] at h
    exact Or.inr h
  | cons hd tl ih =>
    obtain ⟨k1, v1⟩ := hd
    by_cases hk : k1 = k
    · simp only [mapSet, hk, if_true, List.mem_cons] at h
      rcases h with h | h
      · exact Or.inr h
      · exact Or.inl (List.mem_cons_of_mem _ h)
    · simp only [mapSet, hk, if_false, List.mem_cons] at h
      rcases h with h | h
      · exact Or.inl (h ▸ List.mem_cons_self _ _)
      · rcases ih h with h1 | h1
        · exact Or.inl (List.mem_cons_of_mem _ h1)
        · exact Or.inr h1

/-- The memory store files two keys of one keyspace under different full keys. -/
theorem fullKey_inj (pfx k k' : String) (h : memStore.fullKey pfx k = memStore.fullKey pfx k') :
    k = k' := by
  have h1 := congrArg String.data h
  simp [memStore.fullKey, String.data_append] at h1
  exact String.ext h1

/-- A rerun context and a plan are never filed under the same full key. -/
theorem fullKey_rerun_ne_plan (k k' : String) :
    memStore.fullKey RunContextPath k ≠ memStore.fullKey DAGPlanPath k' := by
  intro h
  have h1 := congrArg String.data h
  simp [memStore.fullKey, String.data_append, RunContextPath, DAGPlanPath] at h1

/-- A trace record and a rerun context are never filed under the same full key. -/
theorem fullKey_record_ne_rerun (id v k : String) :
    memStore.fullKey (recordSavePath id) v ≠ memStore.fullKey RunContextPath k := by
  intro h
  have h1 := congrArg String.data h
  simp [memStore.fullKey, String.data_append, RunContextPath, recordSavePath, RecordPath] at h1

/-! ## Lemmas: run contexts -/

/-- The step of the current run context of a `dagRuntime`, when it is in the map. -/
theorem runRunning_of_get (rcMap : List (String × runContext)) (key : String) (rc : runContext)
    (fc : flowContext) (calls : List Call) (input : Data)
    (h : mapGet rcMap key = some rc) :
    runRunning rcMap key fc calls input =
      (mapSet rcMap key (rc.runOnce fc calls input).1, (rc.runOnce fc calls input).2.1,
        (rc.runOnce fc calls input).2.2.1, (rc.runOnce fc calls input).2.2.2) := by
  induction rcMap with
  | nil => simp [mapGet] at h
  | cons hd tl ih =>
    obtain ⟨k, v⟩ := hd
    by_cases hk : k = key
    · simp [mapGet, hk] at h
      subst h
      simp [runRunning, mapSet, hk]
    · simp [mapGet, hk] at h
      simp [runRunning, mapSet, hk, ih h]

theorem getPathRunning_of_get (rcMap : List (String × runContext)) (key : String)
    (rc : runContext) (h : mapGet rcMap key = some rc) :
    getPathRunning rcMap key = rc.getPath := by
  induction rcMap with
  | nil => simp [mapGet] at h
  | cons hd tl ih =>
    obtain ⟨k, v⟩ := hd
    by_cases hk : k = key
    · simp [mapGet, hk] at h
      subst h
      simp [getPathRunning, hk]
    · simp [mapGet, hk] at h
      simp [getPathRunning, hk, ih h]

theorem enter_requestID (fc : flowContext) (name : String) :
    (fc.enter name).1.requestID = fc.requestID := by
  simp only [flowContext.enter]
  split <;> rfl

theorem enter_startRecord (fc : flowContext) (now : Int) (path : Path) (input : Data)
    (name : String) :
    ((fc.startRecord now path input).enter name).2 = true := by
  simp [flowContext.enter, flowContext.startRecord, maxDepth]

theorem enter_enter_startRecord (fc : flowContext) (now : Int) (path : Path) (input : Data)
    (name name2 : String) :
    (((fc.startRecord now path input).enter name).1.enter name2).2 = true := by
  simp [flowContext.enter, flowContext.startRecord, maxDepth]

theorem runHandler_frame (n : nodeRuntime) (fc : flowContext) (calls : List Call) (input : Data) :
    ∃ added, (n.runHandler fc calls input).1 = calls ++ added ∧
      ∀ c ∈ added, c.requestID = fc.requestID := by
  unfold nodeRuntime.runHandler
  cases n.nodeType with
  | unset => exact ⟨[], by simp⟩
  | node =>
    cases n.nodeHandler with
    | none => exact ⟨[], by simp⟩
    | some h =>
      simp only []
      cases h _ input <;> exact ⟨[_], rfl, by simp⟩
  | condition =>
    cases n.condHandler with
    | none => exact ⟨[], by simp⟩
    | some h =>
      simp only []
      cases h _ input with
      | ok b => cases b <;> exact ⟨[_], rfl, by simp⟩
      | error e => exact ⟨[_], rfl, by simp⟩
      | panic r => exact ⟨[_], rfl, by simp⟩

theorem nodeRuntime_runOnce_frame (n : nodeRuntime) (fc : flowContext) (calls : List Call)
    (input : Data) :
    StepFrame fc calls (n.runOnce fc calls input).2.1 (n.runOnce fc calls input).2.2.1 := by
  unfold nodeRuntime.runOnce
  have he := enter_requestID fc n.name
  rcases hE : fc.enter n.name with ⟨fc1, b⟩
  rw [hE] at he
  simp only at he
  cases b with
  | false => exact ⟨he, [], by simp⟩
  | true =>
    simp only []
    obtain ⟨added, h1, h2⟩ := runHandler_frame n fc1 calls input
    rcases hH : n.runHandler fc1 calls input with ⟨calls1, out⟩
    rw [hH] at h1
    simp only at h1
    have h2' : ∀ c ∈ added, c.requestID = fc.requestID := fun c hc => (h2 c hc).trans he
    cases out <;> simp only [] <;>
      exact ⟨by simpa [flowContext.exit] using he, added, h1, h2'⟩

theorem StepFrame.trans {fc fc1 fc2 : flowContext} {calls calls1 calls2 : List Call}
    (h1 : StepFrame fc calls fc1 calls1) (h2 : StepFrame fc1 calls1 fc2 calls2) :
    StepFrame fc calls fc2 calls2 := by
  obtain ⟨e1, a1, c1, m1⟩ := h1
  obtain ⟨e2, a2, c2, m2⟩ := h2
  refine ⟨e2.trans e1, a1 ++ a2, by rw [c2, c1, List.append_assoc], ?_⟩
  intro c hc
  rcases List.mem_append.mp hc with h | h
  · exact m1 c h
  · exact (m2 c h).trans e1

theorem StepFrame.enter (fc : flowContext) (calls : List Call) (name : String) :
    StepFrame fc calls (fc.enter name).1 calls :=
  ⟨enter_requestID fc name, [], by simp, by simp⟩

theorem StepFrame.exit {fc fc1 : flowContext} {calls calls1 : List Call}
    (h : StepFrame fc calls fc1 calls1) : StepFrame fc calls fc1.exit calls1 := by
  obtain ⟨e1, a1, c1, m1⟩ := h
  exact ⟨by simpa [flowContext.exit] using e1, a1, c1, m1⟩

/-- A step of a run context keeps the request id of the flow context and only appends invocations of that request. -/
theorem runContext_runOnce_frame :
    (∀ (rc : runContext) (fc : flowContext) (calls : List Call) (input : Data),
      StepFrame fc calls (rc.runOnce fc calls input).2.1 (rc.runOnce fc calls input).2.2.1) ∧
    (∀ (d : dagRuntime) (fc : flowContext) (calls : List Call) (input : Data),
      StepFrame fc calls (d.runOnce fc calls input).2.1 (d.runOnce fc calls input).2.2.1) ∧
    (∀ (m : List (String × runContext)) (key : String) (fc : flowContext) (calls : List Call)
      (input : Data),
      StepFrame fc calls (runRunning m key fc calls input).2.1
        (runRunning m key fc calls input).2.2.1) := by
  refine runContext.runOnce.mutual_induct
    (fun rc fc calls input =>
      StepFrame fc calls (rc.runOnce fc calls input).2.1 (rc.runOnce fc calls input).2.2.1)
    (fun d fc calls input =>
      StepFrame fc calls (d.runOnce fc calls input).2.1 (d.runOnce fc calls input).2.2.1)
    (fun m key fc calls input =>
      StepFrame fc calls (runRunning m key fc calls input).2.1
        (runRunning m key fc calls input).2.2.1)
    ?_ ?_ ?_ ?_ ?_ ?_ ?_ ?_ ?_ ?_ ?_
  · intro n fc calls input n1 fc1 calls1 out h
    have := nodeRuntime_runOnce_frame n fc calls input
    simp only [runContext.runOnce, h] at this ⊢
    exact this
  · intro d fc calls input d1 fc1 calls1 out h ih
    simp only [runContext.runOnce, h] at ih ⊢
    exact ih
  · intro name path rcMap runningRC nextRC nextVertex fc calls input fc1 hE
    have := StepFrame.enter fc calls name
    simp only [dagRuntime.runOnce, hE] at this ⊢
    exact this
  · intro name path rcMap runningRC nextRC nextVertex fc calls input fc1 hE rcMap1 fc2 calls1
      data hR ih
    have h0 := StepFrame.enter fc calls name
    simp only [hE] at h0
    simp only [hR] at ih
    simp only [dagRuntime.runOnce, hE, hR]
    exact (h0.trans ih).exit
  · intro name path rcMap runningRC nextRC nextVertex fc calls input fc1 hE rcMap1 fc2 calls1
      next data hR ih
    have h0 := StepFrame.enter fc calls name
    simp only [hE] at h0
    simp only [hR] at ih
    simp only [dagRuntime.runOnce, hE, hR]
    exact (h0.trans ih).exit
  · intro name path rcMap runningRC nextRC nextVertex fc calls input fc1 hE rcMap1 fc2 calls1
      data hR ih
    have h0 := StepFrame.enter fc calls name
    simp only [hE] at h0
    simp only [hR] at ih
    simp only [dagRuntime.runOnce, hE, hR]
    exact (h0.trans ih).exit
  · intro name path rcMap runningRC nextRC nextVertex fc calls input fc1 hE rcMap1 fc2 calls1
      err hR ih
    have h0 := StepFrame.enter fc calls name
    simp only [hE] at h0
    simp only [hR] at ih
    simp only [dagRuntime.runOnce, hE, hR]
    exact (h0.trans ih).exit
  · intro name path rcMap runningRC nextRC nextVertex fc calls input fc1 hE rcMap1 fc2 calls1
      r hR ih
    have h0 := StepFrame.enter fc calls name
    simp only [hE] at h0
    simp only [hR] at ih
    simp only [dagRuntime.runOnce, hE, hR]
    exact (h0.trans ih).exit
  · intro x fc calls input
    simp only [runRunning]
    exact ⟨rfl, [], by simp, by simp⟩
  · intro rc tl key fc calls input rc1 fc1 calls1 out h ih
    simp only [h] at ih
    simp only [runRunning, h, if_true]
    exact ih
  · intro k rc tl key fc calls input hk tl1 fc1 calls1 out h ih
    simp only [h] at ih
    simp only [runRunning, h, hk, if_false]
    exact ih

/-- The successor a `dagRuntime` returns is its own `nextRC` or itself. -/
theorem dagRuntime_runOnce_ref (d d1 : dagRuntime) (fc fc1 : flowContext)
    (calls calls1 : List Call) (input data : Data) (ref : RCRef)
    (h : d.runOnce fc calls input = (d1, fc1, calls1, .ok (ref, data))) :
    ref = d.nextRC ∨ ref = .self := by
  obtain ⟨name, path, rcMap, running, nextRC, nextVertex⟩ := d
  unfold dagRuntime.runOnce at h
  rcases hE : fc.enter name with ⟨fcE, b⟩
  rw [hE] at h
  cases b with
  | false => simp at h
  | true =>
    simp only at h
    rcases hR : runRunning rcMap running fcE calls input with ⟨m1, fcR, callsR, out⟩
    rw [hR] at h
    cases out with
    | error e => cases h
    | panic r => cases h
    | ok res =>
      obtain ⟨ref2, data2⟩ := res
      cases ref2 with
      | Termination =>
        simp only [Prod.mk.injEq, Outcome.ok.injEq] at h
        left
        exact h.2.2.2.1.symm
      | vertex next =>
        simp only [Prod.mk.injEq, Outcome.ok.injEq] at h
        right
        exact h.2.2.2.1.symm
      | self =>
        simp only [Prod.mk.injEq, Outcome.ok.injEq] at h
        right
        exact h.2.2.2.1.symm

/-- A step of a `dagRuntime` keeps its name, path, `nextRC` and `nextVertex`. -/
theorem dagRuntime_runOnce_nextRC (d : dagRuntime) (fc : flowContext)
    (calls : List Call) (input : Data) :
    (d.runOnce fc calls input).1.nextRC = d.nextRC := by
  obtain ⟨name, path, rcMap, running, nextRC, nextVertex⟩ := d
  unfold dagRuntime.runOnce
  rcases hE : fc.enter name with ⟨fcE, b⟩
  cases b with
  | false => rfl
  | true =>
    simp only
    rcases hR : runRunning rcMap running fcE calls input with ⟨m1, fcR, callsR, out⟩
    cases out with
    | error e => rfl
    | panic r => rfl
    | ok res =>
      obtain ⟨ref2, data2⟩ := res
      cases ref2 <;> rfl

theorem step_eta {α : Type} (x : α × flowContext × List Call × StepOut) (o : StepOut)
    (h : x.2.2.2 = o) : x = (x.1, x.2.1, x.2.2.1, o) := by
  subst h
  rfl

/-! ## Lemmas: the context runner -/

theorem canRun_false_of_paused (r : contextRunner) (now : Int)
    (h : r.runningStatus = .Paused) : r.canRun now = false := by
  simp [contextRunner.canRun, h]

theorem runOnce_of_not_canRun (r : contextRunner) (w : World) (now : Int)
    (h : r.canRun now = false) : r.runOnce w now = (r, w, .ok ()) := by
  simp [contextRunner.runOnce, h]

theorem runOnce_nil (r : contextRunner) (w : World) (now : Int)
    (hrun : r.canRun now = true) (hrc : r.runningRC = none) :
    r.runOnce w now =
      ({ r with runningStatus := .Running, lastRunTime := now }, w,
        .panic "nil pointer dereference") := by
  unfold contextRunner.runOnce
  simp only [hrun, hrc]
  simp

theorem runOnce_nopath (r : contextRunner) (w : World) (now : Int) (rc : runContext)
    (hrun : r.canRun now = true) (hrc : r.runningRC = some rc) (hpath : rc.getPath = none) :
    r.runOnce w now =
      ({ r with runningStatus := .Running, lastRunTime := now }, w,
        .panic "nil pointer dereference") := by
  unfold contextRunner.runOnce
  simp only [hrun, hrc, hpath]
  simp

theorem runOnce_panic (r : contextRunner) (w : World) (now : Int)
    (rc rc1 : runContext) (path : Path) (fc2 : flowContext) (calls1 : List Call) (msg : String)
    (hrun : r.canRun now = true)
    (hrc : r.runningRC = some rc) (hpath : rc.getPath = some path)
    (hstep : rc.runOnce (r.fc.startRecord now path r.currentData) w.calls r.currentData
      = (rc1, fc2, calls1, .panic msg)) :
    r.runOnce w now =
      ({ r with runningStatus := .Running, lastRunTime := now, runningRC := some rc1, fc := fc2 },
        { w with calls := calls1 }, .panic msg) := by
  unfold contextRunner.runOnce
  simp only [hrun, hrc, hpath, hstep]
  simp

/-- The runner after a step whose run context returned an error. -/
theorem runOnce_error (r : contextRunner) (w : World) (now : Int)
    (rc rc1 : runContext) (path : Path) (fc2 : flowContext) (calls1 : List Call) (err : Err)
    (hrun : r.canRun now = true)
    (hrc : r.runningRC = some rc) (hpath : rc.getPath = some path)
    (hstep : rc.runOnce (r.fc.startRecord now path r.currentData) w.calls r.currentData
      = (rc1, fc2, calls1, .error err)) :
    r.runOnce w now =
      ((({ r with runningStatus := .Running, lastRunTime := now, runningRC := some rc1,
                  fc := (fc2.endRecord w.store now [] (some err)).1 } : contextRunner).checkOnError
          err now),
        { store := (fc2.endRecord w.store now [] (some err)).2, calls := calls1 }, .ok ()) := by
  unfold contextRunner.runOnce
  simp only [hrun, hrc, hpath, hstep]
  simp

/-- The runner after a step whose run context returned a successor. -/
theorem runOnce_ok (r : contextRunner) (w : World) (now : Int)
    (rc rc1 : runContext) (path : Path) (fc2 : flowContext) (calls1 : List Call)
    (nextRC : RCRef) (output : Data)
    (hrun : r.canRun now = true)
    (hrc : r.runningRC = some rc) (hpath : rc.getPath = some path)
    (hstep : rc.runOnce (r.fc.startRecord now path r.currentData) w.calls r.currentData
      = (rc1, fc2, calls1, .ok (nextRC, output))) :
    r.runOnce w now =
      ((({ r with
            runningStatus := if nextRC = .Termination then .Finished else .Running,
            lastRunTime := now, fc := (fc2.endRecord w.store now output none).1,
            currentData := output,
            runningRC := if nextRC = .Termination then none else some rc1 } :
            contextRunner).assignNextStatus),
        { store := ((({ r with
            runningStatus := if nextRC = .Termination then .Finished else .Running,
            lastRunTime := now, fc := (fc2.endRecord w.store now output none).1,
            currentData := output,
            runningRC := if nextRC = .Termination then none else some rc1 } :
            contextRunner).assignNextStatus).saveContext (fc2.endRecord w.store now output none).2).1,
          calls := calls1 },
        traceOutcome ((({ r with
            runningStatus := if nextRC = .Termination then .Finished else .Running,
            lastRunTime := now, fc := (fc2.endRecord w.store now output none).1,
            currentData := output,
            runningRC := if nextRC = .Termination then none else some rc1 } :
            contextRunner).assignNextStatus).saveContext (fc2.endRecord w.store now output none).2).2) := by
  unfold contextRunner.runOnce
  simp only [hrun, hrc, hpath, hstep]
  by_cases hn : nextRC = .Termination <;> simp [hn]

theorem endRecord_requestID (fc : flowContext) (store : memStore) (now : Int) (output : Data)
    (err : Option Err) : (fc.endRecord store now output err).1.requestID = fc.requestID := by
  unfold flowContext.endRecord
  cases fc.rcRecord <;> rfl

theorem endRecord_mockErr (fc : flowContext) (store : memStore) (now : Int) (output : Data)
    (err : Option Err) : (fc.endRecord store now output err).2.mockErr = store.mockErr := by
  unfold flowContext.endRecord
  cases fc.rcRecord <;> simp [flowContext.saveRecord, memStore.Set]

theorem endRecord_rerun (fc : flowContext) (store : memStore) (now : Int) (output : Data)
    (err : Option Err) (k : String) :
    mapGet (fc.endRecord store now output err).2.m (memStore.fullKey RunContextPath k)
      = mapGet store.m (memStore.fullKey RunContextPath k) := by
  unfold flowContext.endRecord
  cases fc.rcRecord with
  | none => rfl
  | some r =>
    simp only [flowContext.saveRecord, memStore.Set]
    exact mapGet_mapSet_ne _ _ _ _ (Ne.symm (fullKey_record_ne_rerun _ _ _))

theorem saveContext_mockErr (r : contextRunner) (store : memStore) :
    (r.saveContext store).1.mockErr = store.mockErr := by
  unfold contextRunner.saveContext
  cases r.exportRerunContext with
  | ok c => cases c <;> simp [memStore.Set, memStore.Remove]
  | error e => rfl
  | panic msg => rfl

theorem saveContext_rerun_other (r : contextRunner) (store : memStore) (id : String)
    (h : id ≠ r.fc.requestID) :
    mapGet (r.saveContext store).1.m (memStore.fullKey RunContextPath id)
      = mapGet store.m (memStore.fullKey RunContextPath id) := by
  have hk : memStore.fullKey RunContextPath id ≠ memStore.fullKey RunContextPath r.fc.requestID :=
    fun e => h (fullKey_inj _ _ _ e)
  unfold contextRunner.saveContext
  cases r.exportRerunContext with
  | ok c =>
    cases c with
    | none => simpa [memStore.Remove] using mapGet_mapDelete_ne _ _ _ hk
    | some c => simpa [memStore.Set] using mapGet_mapSet_ne _ _ _ _ hk
  | error e => rfl
  | panic msg => rfl

theorem saveContext_get_some (r : contextRunner) (store : memStore) (rc : runContext) (p : Path)
    (hrc : r.runningRC = some rc) (hp : rc.getPath = some p) :
    ((r.saveContext store).1.Get RunContextPath r.fc.requestID).1 =
      some (.rerun { Status := r.runningStatus, Entrypoint := p, Data := r.currentData }) := by
  simp [contextRunner.saveContext, contextRunner.exportRerunContext, hrc, hp, memStore.Set,
    memStore.Get, mapGet_mapSet_same]

theorem saveContext_get_none (r : contextRunner) (store : memStore)
    (hrc : r.runningRC = none) :
    ((r.saveContext store).1.Get RunContextPath r.fc.requestID).1 = none := by
  simp [contextRunner.saveContext, contextRunner.exportRerunContext, hrc, memStore.Remove,
    memStore.Get, mapGet_mapDelete_same]

theorem saveContext_result_some (r : contextRunner) (store : memStore) (rc : runContext)
    (p : Path) (hrc : r.runningRC = some rc) (hp : rc.getPath = some p) :
    (r.saveContext store).2 = traceResult store.mockErr := by
  simp [contextRunner.saveContext, contextRunner.exportRerunContext, hrc, hp, memStore.Set]

theorem saveContext_result_none (r : contextRunner) (store : memStore)
    (hrc : r.runningRC = none) :
    (r.saveContext store).2 = traceResult store.mockErr := by
  simp [contextRunner.saveContext, contextRunner.exportRerunContext, hrc, memStore.Remove]

theorem assignNextStatus_fc (r : contextRunner) : r.assignNextStatus.fc = r.fc := by
  unfold contextRunner.assignNextStatus
  split
  · split <;> rfl
  · rfl

theorem assignNextStatus_runningRC (r : contextRunner) :
    r.assignNextStatus.runningRC = r.runningRC := by
  unfold contextRunner.assignNextStatus
  split
  · split <;> rfl
  · rfl

theorem assignNextStatus_currentData (r : contextRunner) :
    r.assignNextStatus.currentData = r.currentData := by
  unfold contextRunner.assignNextStatus
  split
  · split <;> rfl
  · rfl

theorem assignNextStatus_running (r : contextRunner) (h : r.runningStatus = .Running) :
    r.assignNextStatus.runningStatus =
      (match r.nextStatus with
       | .Paused => StatusType.Paused
       | .Retrying => StatusType.Retrying
       | .Fatal => StatusType.Fatal
       | _ => StatusType.Running) := by
  unfold contextRunner.assignNextStatus
  cases hn : r.nextStatus <;> simp [canSetStatus, h]

theorem assignNextStatus_finished (r : contextRunner) (h : r.runningStatus = .Finished) :
    r.assignNextStatus.runningStatus = .Finished := by
  unfold contextRunner.assignNextStatus
  cases hn : r.nextStatus <;> simp [canSetStatus, h]

theorem checkOnError_fc (r : contextRunner) (err : Err) (now : Int) :
    (r.checkOnError err now).fc = r.fc := by
  unfold contextRunner.checkOnError
  split <;> rfl

theorem filter_calls_append (calls added : List Call) (id fcid : String)
    (h : ∀ c ∈ added, c.requestID = fcid) (hne : id ≠ fcid) :
    (calls ++ added).filter (fun c => decide (c.requestID = id))
      = calls.filter (fun c => decide (c.requestID = id)) := by
  rw [List.filter_append]
  have : added.filter (fun c => decide (c.requestID = id)) = [] := by
    rw [List.filter_eq_nil_iff]
    intro c hc
    simp [h c hc, Ne.symm hne]
  rw [this, List.append_nil]

/-- What a step of a runner may change: no rerun context and no invocation of
another request id. -/
theorem contextRunner_runOnce_frame (r : contextRunner) (w : World) (now : Int) :
    (r.runOnce w now).1.fc.requestID = r.fc.requestID ∧
    (r.runOnce w now).2.1.store.mockErr = w.store.mockErr ∧
    ∀ id, id ≠ r.fc.requestID →
      mapGet (r.runOnce w now).2.1.store.m (memStore.fullKey RunContextPath id)
        = mapGet w.store.m (memStore.fullKey RunContextPath id) ∧
      (r.runOnce w now).2.1.calls.filter (fun c => decide (c.requestID = id))
        = w.calls.filter (fun c => decide (c.requestID = id)) := by
  by_cases hrun : r.canRun now = true
  swap
  · rw [runOnce_of_not_canRun r w now (by simpa using hrun)]
    exact ⟨rfl, rfl, fun id _ => ⟨rfl, rfl⟩⟩
  cases hrc : r.runningRC with
  | none =>
    rw [runOnce_nil r w now hrun hrc]
    exact ⟨rfl, rfl, fun id _ => ⟨rfl, rfl⟩⟩
  | some rc =>
    cases hpath : rc.getPath with
    | none =>
      rw [runOnce_nopath r w now rc hrun hrc hpath]
      exact ⟨rfl, rfl, fun id _ => ⟨rfl, rfl⟩⟩
    | some path =>
      have hf := runContext_runOnce_frame.1 rc (r.fc.startRecord now path r.currentData)
        w.calls r.currentData
      rcases hstep : rc.runOnce (r.fc.startRecord now path r.currentData) w.calls r.currentData
        with ⟨rc1, fc2, calls1, out⟩
      rw [hstep] at hf
      obtain ⟨hid, added, hcalls, hadded⟩ := hf
      simp only [flowContext.startRecord] at hid hadded
      simp only at hid hcalls
      cases out with
      | panic msg =>
        rw [runOnce_panic r w now rc rc1 path fc2 calls1 msg hrun hrc hpath hstep]
        refine ⟨hid, rfl, fun id hne => ⟨rfl, ?_⟩⟩
        simp only [hcalls]
        exact filter_calls_append _ _ _ _ hadded hne
      | error err =>
        rw [runOnce_error r w now rc rc1 path fc2 calls1 err hrun hrc hpath hstep]
        refine ⟨?_, ?_, fun id hne => ⟨?_, ?_⟩⟩
        · rw [checkOnError_fc]
          simp [endRecord_requestID, hid]
        · exact endRecord_mockErr _ _ _ _ _
        · exact endRecord_rerun _ _ _ _ _ _
        · simp only [hcalls]
          exact filter_calls_append _ _ _ _ hadded hne
      | ok res =>
        obtain ⟨nextRC, output⟩ := res
        rw [runOnce_ok r w now rc rc1 path fc2 calls1 nextRC output hrun hrc hpath hstep]
        refine ⟨?_, ?_, fun id hne => ⟨?_, ?_⟩⟩
        · rw [assignNextStatus_fc]
          simp [endRecord_requestID, hid]
        · simp only []
          rw [saveContext_mockErr]
          exact endRecord_mockErr _ _ _ _ _
        · simp only []
          rw [saveContext_rerun_other]
          · exact endRecord_rerun _ _ _ _ _ _
          · rw [assignNextStatus_fc]
            simpa [endRecord_requestID, hid] using hne
        · simp only [hcalls]
          exact filter_calls_append _ _ _ _ hadded hne

/-! ## Lemmas: the batch runner -/

/-- The dispatch loop leaves a runner that cannot run as it is. -/
theorem dispatch_get (now maxRunAmount : Int) (key : String) (r : contextRunner)
    (hr : r.canRun now = false) :
    ∀ (l : List (String × contextRunner)) (runAmount : Int) (w : World),
      mapGet l key = some r →
      mapGet (batchRunner.dispatch now maxRunAmount l runAmount w).1 key = some r := by
  intro l
  induction l with
  | nil => intro runAmount w h; simp [mapGet] at h
  | cons hd tl ih =>
    intro runAmount w h
    obtain ⟨k, r'⟩ := hd
    unfold batchRunner.dispatch
    by_cases hc : r'.canRun now = true
    · have hk : k ≠ key := by
        intro e
        subst e
        simp [mapGet] at h
        subst h
        rw [hr] at hc
        cases hc
      simp only [mapGet, hk, if_false] at h
      simp only [hc, Bool.not_true, Bool.false_eq_true, if_false]
      split
      · simp [mapGet, hk, h]
      · rcases hstep : r'.runOnce w now with ⟨r1, w1, out⟩
        cases out with
        | ok u => simp [mapGet, hk, ih _ _ h]
        | error e => simp [mapGet, hk, h]
        | panic msg => simp [mapGet, hk, h]
    · have hc' : r'.canRun now = false := by simpa using hc
      simp only [hc', Bool.not_false, if_true]
      by_cases hk : k = key
      · subst hk
        simp [mapGet] at h
        subst h
        simp [mapGet]
      · simp only [mapGet, hk, if_false] at h
        simp [mapGet, hk, ih _ _ h]

/-- The dispatch loop changes no rerun context and adds no invocation of a
request none of whose runners can run. -/
theorem dispatch_frame (now maxRunAmount : Int) (key : String) :
    ∀ (l : List (String × contextRunner)) (runAmount : Int) (w : World),
      (∀ kr ∈ l, kr.2.canRun now = true → kr.2.fc.requestID ≠ key) →
      mapGet (batchRunner.dispatch now maxRunAmount l runAmount w).2.1.store.m
          (memStore.fullKey RunContextPath key)
        = mapGet w.store.m (memStore.fullKey RunContextPath key) ∧
      (batchRunner.dispatch now maxRunAmount l runAmount w).2.1.calls.filter
          (fun c => decide (c.requestID = key))
        = w.calls.filter (fun c => decide (c.requestID = key)) := by
  intro l
  induction l with
  | nil => intro runAmount w _; simp [batchRunner.dispatch]
  | cons hd tl ih =>
    intro runAmount w H
    obtain ⟨k, r'⟩ := hd
    have Htl : ∀ kr ∈ tl, kr.2.canRun now = true → kr.2.fc.requestID ≠ key :=
      fun kr hkr => H kr (List.mem_cons_of_mem _ hkr)
    unfold batchRunner.dispatch
    by_cases hc : r'.canRun now = true
    · simp only [hc, Bool.not_true, Bool.false_eq_true, if_false]
      split
      · exact ⟨rfl, rfl⟩
      · have hne : key ≠ r'.fc.requestID := Ne.symm (H (k, r') (List.mem_cons_self _ _) hc)
        have hf := (contextRunner_runOnce_frame r' w now).2.2 key hne
        rcases hstep : r'.runOnce w now with ⟨r1, w1, out⟩
        rw [hstep] at hf
        simp only at hf
        cases out with
        | ok u =>
          have := ih (runAmount + 1) w1 Htl
          simp only []
          exact ⟨this.1.trans hf.1, this.2.trans hf.2⟩
        | error e => exact hf
        | panic msg => exact hf
    · have hc' : r'.canRun now = false := by simpa using hc
      simp only [hc', Bool.not_false, if_true]
      exact ih runAmount w Htl

/-- The empty scheduler is filed. -/
theorem Filed_new (asyncFlag : Bool) : (newBatchRunner asyncFlag).Filed := by
  constructor
  · intro kr hkr
    simp [newBatchRunner] at hkr
  · simp [newBatchRunner]

/-- `batchRunner.add` of a runner under its request id keeps the scheduler filed. -/
theorem Filed_add (b : batchRunner) (key : String) (r : contextRunner)
    (hb : b.Filed) (hr : r.fc.requestID = key) : (b.add key r).1.Filed := by
  unfold batchRunner.add
  by_cases hh : mapHas b.runners key = true
  · simpa [hh] using hb
  · have hh' : mapHas b.runners key = false := by simpa using hh
    simp only [hh', Bool.false_eq_true, if_false]
    rw [show ({ b with runners := mapSet b.runners key r } : batchRunner).Filed ↔
      (∀ kr ∈ mapSet b.runners key r, kr.2.fc.requestID = kr.1) ∧
        ((mapSet b.runners key r).map Prod.fst).Nodup from Iff.rfl]
    rw [mapSet_of_not_has _ _ _ hh']
    constructor
    · intro kr hkr
      rcases List.mem_append.mp hkr with h | h
      · exact hb.1 kr h
      · simp only [List.mem_singleton] at h
        subst h
        exact hr
    · rw [List.map_append, List.nodup_append]
      refine ⟨hb.2, by simp, ?_⟩
      intro a ha hb'
      simp only [List.map_cons, List.map_nil, List.mem_singleton] at hb'
      subst hb'
      exact (mapHas_false_iff_not_mem _ _).mp hh' ha

/-- The dispatch loop keeps the keys of the runner map and the request id of
every runner. -/
theorem dispatch_keys (now maxRunAmount : Int) :
    ∀ (l : List (String × contextRunner)) (runAmount : Int) (w : World),
      List.Forall₂ (fun a b => a.1 = b.1 ∧ b.2.fc.requestID = a.2.fc.requestID) l
        (batchRunner.dispatch now maxRunAmount l runAmount w).1 := by
  have hrefl : ∀ l : List (String × contextRunner),
      List.Forall₂ (fun a b => a.1 = b.1 ∧ b.2.fc.requestID = a.2.fc.requestID) l l := by
    intro l
    induction l with
    | nil => exact List.Forall₂.nil
    | cons hd tl ih => exact List.Forall₂.cons ⟨rfl, rfl⟩ ih
  intro l
  induction l with
  | nil => intro runAmount w; simp [batchRunner.dispatch]
  | cons hd tl ih =>
    intro runAmount w
    obtain ⟨k, r'⟩ := hd
    unfold batchRunner.dispatch
    by_cases hc : r'.canRun now = true
    · simp only [hc, Bool.not_true, Bool.false_eq_true, if_false]
      split
      · exact hrefl _
      · have hf := (contextRunner_runOnce_frame r' w now).1
        rcases hstep : r'.runOnce w now with ⟨r1, w1, out⟩
        rw [hstep] at hf
        simp only at hf
        cases out with
        | ok u => exact List.Forall₂.cons ⟨rfl, hf⟩ (ih _ _)
        | error e => exact List.Forall₂.cons ⟨rfl, hf⟩ (hrefl _)
        | panic msg => exact List.Forall₂.cons ⟨rfl, hf⟩ (hrefl _)
    · have hc' : r'.canRun now = false := by simpa using hc
      simp only [hc', Bool.not_false, if_true]
      exact List.Forall₂.cons ⟨rfl, rfl⟩ (ih _ _)

theorem Filed_of_forall₂ (l l' : List (String × contextRunner))
    (h : List.Forall₂ (fun a b => a.1 = b.1 ∧ b.2.fc.requestID = a.2.fc.requestID) l l')
    (hl : (∀ kr ∈ l, kr.2.fc.requestID = kr.1) ∧ (l.map Prod.fst).Nodup) :
    (∀ kr ∈ l', kr.2.fc.requestID = kr.1) ∧ (l'.map Prod.fst).Nodup := by
  induction h with
  | nil => exact hl
  | cons hab _ ih =>
    rename_i a b l1 l2 hrest
    have hkeys : l2.map Prod.fst = l1.map Prod.fst := by
      clear ih hl
      induction hrest with
      | nil => rfl
      | cons h1 _ ih2 => simp [h1.1, ih2]
    simp only [List.map_cons, List.nodup_cons] at hl
    have htl := ih ⟨fun kr hkr => hl.1 kr (List.mem_cons_of_mem _ hkr), hl.2.2⟩
    constructor
    · intro kr hkr
      rcases List.mem_cons.mp hkr with h | h
      · subst h
        rw [hab.2, ← hab.1]
        exact hl.1 a (List.mem_cons_self _ _)
      · exact htl.1 kr h
    · simp only [List.map_cons, List.nodup_cons]
      refine ⟨?_, htl.2⟩
      rw [hkeys, ← hab.1]
      exact hl.2.1

/-- A tick keeps the scheduler filed. -/
theorem Filed_runOnce (b : batchRunner) (w : World) (now maxRunAmount : Int) (hb : b.Filed) :
    (b.runOnce w now maxRunAmount).1.Filed := by
  unfold batchRunner.runOnce
  by_cases hlen : b.runners.length = 0
  · simpa [hlen] using hb
  · simp only [hlen, if_false]
    have hk := dispatch_keys now maxRunAmount b.runners 0 w
    rcases hdisp : batchRunner.dispatch now maxRunAmount b.runners 0 w with ⟨runners1, w1, out⟩
    rw [hdisp] at hk
    simp only at hk
    have h1 := Filed_of_forall₂ _ _ hk hb
    cases out with
    | ok u =>
      constructor
      · intro kr hkr
        exact h1.1 kr (List.mem_of_mem_filter hkr)
      · exact (h1.2.sublist ((List.filter_sublist _).map Prod.fst))
    | error e => exact h1
    | panic msg => exact h1

/-! ## Lemmas: the plan compiler and the engine -/

theorem generateRunContext_mono
    (gen1 gen2 : Nat → Path → Path → Option (Outcome dagRuntime))
    (hgen : ∀ a p e x, gen1 a p e = some x → gen2 a p e = some x)
    (gl : globalVertex) (dtName vertex : String) (info : vertexInfo) (nextVertex : String)
    (path entrypointPath : Path) (y : Outcome runContext)
    (h : generateRunContext gen1 gl dtName vertex info nextVertex path entrypointPath = some y) :
    generateRunContext gen2 gl dtName vertex info nextVertex path entrypointPath = some y := by
  unfold generateRunContext at h ⊢
  cases hv : globalVertex.get gl dtName vertex with
  | none => simpa [hv] using h
  | some v =>
    simp only [hv] at h ⊢
    by_cases ht : v.typ ≠ info.Typ
    · simpa [ht] using h
    · simp only [ht, if_false] at h ⊢
      by_cases hd : info.Typ = .vertexDAG
      · simp only [hd, if_true] at h ⊢
        cases ha : info.DAG with
        | none => simpa [ha] using h
        | some addr =>
          simp only [ha] at h ⊢
          cases h1 : gen1 addr path entrypointPath with
          | none => simp [h1] at h
          | some x =>
            rw [hgen _ _ _ _ h1]
            simpa [h1] using h
      · simpa [hd] using h

theorem generateRunContexts_mono
    (gen1 gen2 : Nat → Path → Path → Option (Outcome dagRuntime))
    (hgen : ∀ a p e x, gen1 a p e = some x → gen2 a p e = some x)
    (gl : globalVertex) (dtName : String) (links : List (String × String))
    (dagPath entrypoint : Path) :
    ∀ (vs : List (String × vertexInfo)) (rcMap : List (String × runContext))
      (y : Outcome (List (String × runContext))),
      generateRunContexts gen1 gl dtName links dagPath entrypoint vs rcMap = some y →
      generateRunContexts gen2 gl dtName links dagPath entrypoint vs rcMap = some y := by
  intro vs
  induction vs with
  | nil => intro rcMap y h; simpa [generateRunContexts] using h
  | cons hd tl ih =>
    intro rcMap y h
    obtain ⟨vertex, info⟩ := hd
    unfold generateRunContexts at h ⊢
    cases h1 : generateRunContext gen1 gl dtName vertex info ((mapGet links vertex).getD "")
        dagPath entrypoint with
    | none => simp [h1] at h
    | some out =>
      rw [generateRunContext_mono gen1 gen2 hgen _ _ _ _ _ _ _ _ h1]
      rw [h1] at h
      cases out with
      | ok rc => exact ih _ _ h
      | error e => exact h
      | panic r => exact h

/-- More fuel does not change what `generateRuntime` returns. -/
theorem generateRuntime_mono (heap : List dagExecutePlan) (gl : globalVertex) :
    ∀ (fuel dt : Nat) (p e : Path) (x : Outcome dagRuntime),
      generateRuntime heap gl fuel dt p e = some x →
      generateRuntime heap gl (fuel + 1) dt p e = some x := by
  intro fuel
  induction fuel with
  | zero => intro dt p e x h; simp [generateRuntime] at h
  | succ n ih =>
    intro dt p e x h
    unfold generateRuntime at h ⊢
    cases hp : heap.get? dt with
    | none =>
      rw [hp] at h
      exact h
    | some plan =>
      rw [hp] at h
      simp only at h ⊢
      cases h1 : generateRunContexts (generateRuntime heap gl n) gl plan.Name plan.Links
          (Path.AddString p plan.Name) (Path.Next e) plan.Vertex [] with
      | none => simp [h1] at h
      | some out =>
        rw [generateRunContexts_mono _ _ ih _ _ _ _ _ _ _ _ h1]
        rw [h1] at h
        exact h

theorem generateRuntime_mono_le (heap : List dagExecutePlan) (gl : globalVertex)
    (fuel fuel' dt : Nat) (p e : Path) (x : Outcome dagRuntime) (hle : fuel ≤ fuel')
    (h : generateRuntime heap gl fuel dt p e = some x) :
    generateRuntime heap gl fuel' dt p e = some x := by
  induction hle with
  | refl => exact h
  | step _ ih => exact generateRuntime_mono heap gl _ dt p e x ih

/-- The runtime `generateRuntime` returns for a plan has no successor of its
own: its `nextRC` is `Termination`. -/
theorem generateRuntime_nextRC (heap : List dagExecutePlan) (gl : globalVertex)
    (fuel dt : Nat) (p e : Path) (d : dagRuntime)
    (h : generateRuntime heap gl fuel dt p e = some (.ok d)) : d.nextRC = .Termination := by
  cases fuel with
  | zero => simp [generateRuntime] at h
  | succ n =>
    unfold generateRuntime at h
    cases hp : heap.get? dt with
    | none => rw [hp] at h; simp at h
    | some plan =>
      rw [hp] at h
      simp only at h
      rcases hg : generateRunContexts (generateRuntime heap gl n) gl plan.Name plan.Links
          (Path.AddString p plan.Name) (Path.Next e) plan.Vertex [] with _ | out
      · rw [hg] at h; simp at h
      · rw [hg] at h
        cases out with
        | error x => cases h
        | panic x => cases h
        | ok rcMap =>
          simp only at h
          cases hd : delayVisits rcMap rcMap with
          | error x => rw [hd] at h; simp at h
          | panic x => rw [hd] at h; simp at h
          | ok rcMap1 =>
            rw [hd] at h
            simp only at h
            split at h <;> split at h <;> first
              | (cases h; rfl)
              | cases h

theorem launch_eta (x : Option (flow × Outcome Unit))
    (h : x.map (fun p => p.2.isOk) = some true) : ∃ f', x = some (f', .ok ()) := by
  cases x with
  | none => cases h
  | some p =>
    obtain ⟨f', o⟩ := p
    cases o with
    | ok u => exact ⟨f', rfl⟩
    | error e => simp [Outcome.isOk] at h
    | panic r => simp [Outcome.isOk] at h

/-! ## Lemmas: steps, the dispatch loop and the compiler, continued -/

/-- A step of a node that returns a successor has invoked its handler once. -/
theorem runHandler_ok_call (n : nodeRuntime) (fc : flowContext) (calls : List Call)
    (input : Data) (res : RCRef × Data)
    (h : (n.runHandler fc calls input).2 = .ok res) :
    (n.runHandler fc calls input).1
      = calls ++ [{ requestID := fc.requestID, vertex := fc.executePath, input := input }] := by
  unfold nodeRuntime.runHandler at h ⊢
  cases hT : n.nodeType with
  | unset => rw [hT] at h; simp [NewFatalError] at h
  | node =>
    rw [hT] at h
    simp only at h ⊢
    cases hH : n.nodeHandler with
    | none => rw [hH] at h; simp at h
    | some hd =>
      rw [hH] at h
      simp only at h ⊢
      split at h <;> rfl
  | condition =>
    rw [hT] at h
    simp only at h ⊢
    cases hH : n.condHandler with
    | none => rw [hH] at h; simp at h
    | some hd =>
      rw [hH] at h
      simp only at h ⊢
      split at h <;> rfl

/-- A step of a node that returns a successor has invoked one handler. -/
theorem nodeRuntime_runOnce_ok_call (n : nodeRuntime) (fc : flowContext) (calls : List Call)
    (input : Data) (res : RCRef × Data)
    (h : (n.runOnce fc calls input).2.2.2 = .ok res) :
    ∃ c, (n.runOnce fc calls input).2.2.1 = calls ++ [c] := by
  unfold nodeRuntime.runOnce at h ⊢
  rcases hE : fc.enter n.name with ⟨fc1, b⟩
  rw [hE] at h
  cases b with
  | false => simp at h
  | true =>
    simp only at h ⊢
    have hc := runHandler_ok_call n fc1 calls input
    rcases hH : n.runHandler fc1 calls input with ⟨calls1, out⟩
    rw [hH] at h hc
    cases out with
    | ok r => exact ⟨_, hc r rfl⟩
    | error e => simp at h
    | panic r => simp at h

/-- A step of a run context that returns a successor has invoked one handler. -/
theorem runContext_runOnce_ok_call :
    (∀ (rc : runContext) (fc : flowContext) (calls : List Call) (input : Data),
      (∃ res, (rc.runOnce fc calls input).2.2.2 = .ok res) →
      ∃ c, (rc.runOnce fc calls input).2.2.1 = calls ++ [c]) ∧
    (∀ (d : dagRuntime) (fc : flowContext) (calls : List Call) (input : Data),
      (∃ res, (d.runOnce fc calls input).2.2.2 = .ok res) →
      ∃ c, (d.runOnce fc calls input).2.2.1 = calls ++ [c]) ∧
    (∀ (m : List (String × runContext)) (key : String) (fc : flowContext) (calls : List Call)
      (input : Data),
      (∃ res, (runRunning m key fc calls input).2.2.2 = .ok res) →
      ∃ c, (runRunning m key fc calls input).2.2.1 = calls ++ [c]) := by
  refine runContext.runOnce.mutual_induct
    (fun rc fc calls input =>
      (∃ res, (rc.runOnce fc calls input).2.2.2 = .ok res) →
      ∃ c, (rc.runOnce fc calls input).2.2.1 = calls ++ [c])
    (fun d fc calls input =>
      (∃ res, (d.runOnce fc calls input).2.2.2 = .ok res) →
      ∃ c, (d.runOnce fc calls input).2.2.1 = calls ++ [c])
    (fun m key fc calls input =>
      (∃ res, (runRunning m key fc calls input).2.2.2 = .ok res) →
      ∃ c, (runRunning m key fc calls input).2.2.1 = calls ++ [c])
    ?_ ?_ ?_ ?_ ?_ ?_ ?_ ?_ ?_ ?_ ?_
  · intro n fc calls input n1 fc1 calls1 out h
    rintro ⟨res, hres⟩
    simp only [runContext.runOnce, h] at hres ⊢
    have := nodeRuntime_runOnce_ok_call n fc calls input res (by rw [h]; exact hres)
    rw [h] at this
    exact this
  · intro d fc calls input d1 fc1 calls1 out h ih
    simp only [runContext.runOnce, h] at ih ⊢
    exact ih
  · intro name path rcMap runningRC nextRC nextVertex fc calls input fc1 hE
    rintro ⟨res, hres⟩
    simp [dagRuntime.runOnce, hE] at hres
  · intro name path rcMap runningRC nextRC nextVertex fc calls input fc1 hE rcMap1 fc2 calls1
      data hR ih
    intro _
    simp only [hR] at ih
    simp only [dagRuntime.runOnce, hE, hR]
    exact ih ⟨_, rfl⟩
  · intro name path rcMap runningRC nextRC nextVertex fc calls input fc1 hE rcMap1 fc2 calls1
      next data hR ih
    intro _
    simp only [hR] at ih
    simp only [dagRuntime.runOnce, hE, hR]
    exact ih ⟨_, rfl⟩
  · intro name path rcMap runningRC nextRC nextVertex fc calls input fc1 hE rcMap1 fc2 calls1
      data hR ih
    intro _
    simp only [hR] at ih
    simp only [dagRuntime.runOnce, hE, hR]
    exact ih ⟨_, rfl⟩
  · intro name path rcMap runningRC nextRC nextVertex fc calls input fc1 hE rcMap1 fc2 calls1
      err hR ih
    rintro ⟨res, hres⟩
    simp [dagRuntime.runOnce, hE, hR] at hres
  · intro name path rcMap runningRC nextRC nextVertex fc calls input fc1 hE rcMap1 fc2 calls1
      r hR ih
    rintro ⟨res, hres⟩
    simp [dagRuntime.runOnce, hE, hR] at hres
  · intro x fc calls input
    rintro ⟨res, hres⟩
    simp [runRunning] at hres
  · intro rc tl key fc calls input rc1 fc1 calls1 out h ih
    simp only [h] at ih
    simp only [runRunning, h, if_true]
    exact ih
  · intro k rc tl key fc calls input hk tl1 fc1 calls1 out h ih
    simp only [h] at ih
    simp only [runRunning, h, hk, if_false]
    exact ih

/-- The dispatch loop keeps the keys of the runner map. -/
theorem dispatch_map_fst (now maxRunAmount : Int) (l : List (String × contextRunner))
    (runAmount : Int) (w : World) :
    (batchRunner.dispatch now maxRunAmount l runAmount w).1.map Prod.fst = l.map Prod.fst := by
  have h := dispatch_keys now maxRunAmount l runAmount w
  generalize (batchRunner.dispatch now maxRunAmount l runAmount w).1 = l' at h
  induction h with
  | nil => rfl
  | cons hab _ ih => simp [hab.1, ih]

/-- The number of runners the dispatch loop runs, from a count `runAmount`
that has not passed `maxRunAmount`. -/
theorem dispatched_length (now maxRunAmount : Int) :
    ∀ (l : List (String × contextRunner)) (runAmount : Int) (w : World),
      runAmount ≤ maxRunAmount →
      ((batchRunner.dispatched now maxRunAmount l runAmount w).length : Int)
          ≤ maxRunAmount - runAmount ∧
        ((batchRunner.dispatch now maxRunAmount l runAmount w).2.2 = .ok () →
          ((batchRunner.dispatched now maxRunAmount l runAmount w).length : Int)
            = min (maxRunAmount - runAmount) (l.countP (fun kr => kr.2.canRun now))) := by
  intro l
  induction l with
  | nil =>
    intro runAmount w hle
    simp only [batchRunner.dispatched, List.length_nil, List.countP_nil, Nat.cast_zero]
    constructor
    · omega
    · intro _
      omega
  | cons hd tl ih =>
    intro runAmount w hle
    obtain ⟨k, r⟩ := hd
    unfold batchRunner.dispatched batchRunner.dispatch
    by_cases hc : r.canRun now = true
    · simp only [hc, Bool.not_true, Bool.false_eq_true, if_false, List.countP_cons_of_pos]
      by_cases hfull : runAmount + 1 > maxRunAmount
      · simp only [hfull, if_true, List.length_nil, Nat.cast_zero]
        constructor
        · omega
        · intro _
          push_cast
          omega
      · simp only [hfull, if_false]
        rcases hstep : r.runOnce w now with ⟨r1, w1, out⟩
        cases out with
        | ok u =>
          have := ih (runAmount + 1) w1 (by omega)
          simp only [List.length_cons, Nat.cast_add, Nat.cast_one]
          constructor
          · omega
          · intro hok
            have h2 := this.2 hok
            omega
        | error e =>
          simp only [List.length_cons, List.length_nil, Nat.cast_one, Nat.cast_zero, zero_add]
          constructor
          · omega
          · intro h
            cases h
        | panic msg =>
          simp only [List.length_cons, List.length_nil, Nat.cast_one, Nat.cast_zero, zero_add]
          constructor
          · omega
          · intro h
            cases h
    · have hc' : r.canRun now = false := by simpa using hc
      simp only [hc', Bool.not_false, if_true]
      have := ih runAmount w hle
      rw [List.countP_cons_of_neg _ _ (by simp [hc'])]
      exact this

/-- The dispatch loop leaves every runner it does not run as it is. -/
theorem dispatch_untouched (now maxRunAmount : Int) :
    ∀ (l : List (String × contextRunner)) (runAmount : Int) (w : World),
      List.Forall₂
        (fun a b => a.1 = b.1 ∧
          (a.1 ∉ batchRunner.dispatched now maxRunAmount l runAmount w → b = a))
        l (batchRunner.dispatch now maxRunAmount l runAmount w).1 := by
  have hrefl : ∀ (l : List (String × contextRunner)) (P : String → Prop),
      List.Forall₂ (fun a b => a.1 = b.1 ∧ (P a.1 → b = a)) l l := by
    intro l P
    induction l with
    | nil => exact List.Forall₂.nil
    | cons hd tl ih => exact List.Forall₂.cons ⟨rfl, fun _ => rfl⟩ ih
  intro l
  induction l with
  | nil => intro runAmount w; simp [batchRunner.dispatch]
  | cons hd tl ih =>
    intro runAmount w
    obtain ⟨k, r⟩ := hd
    unfold batchRunner.dispatched batchRunner.dispatch
    by_cases hc : r.canRun now = true
    · simp only [hc, Bool.not_true, Bool.false_eq_true, if_false]
      by_cases hfull : runAmount + 1 > maxRunAmount
      · simp only [hfull, if_true]
        exact hrefl _ (fun x => x ∉ ([] : List String))
      · simp only [hfull, if_false]
        rcases hstep : r.runOnce w now with ⟨r1, w1, out⟩
        cases out with
        | ok u =>
          simp only []
          refine List.Forall₂.cons ⟨rfl, fun h => absurd (List.mem_cons_self _ _) h⟩ ?_
          exact (ih (runAmount + 1) w1).imp
            (fun a b hab => ⟨hab.1, fun h => hab.2 (fun hm => h (List.mem_cons_of_mem _ hm))⟩)
        | error e =>
          simp only []
          refine List.Forall₂.cons ⟨rfl, fun h => absurd (List.mem_cons_self _ _) h⟩ ?_
          exact hrefl _ (fun x => x ∉ [k])
        | panic msg =>
          simp only []
          refine List.Forall₂.cons ⟨rfl, fun h => absurd (List.mem_cons_self _ _) h⟩ ?_
          exact hrefl _ (fun x => x ∉ [k])
    · have hc' : r.canRun now = false := by simpa using hc
      simp only [hc', Bool.not_false, if_true]
      exact List.Forall₂.cons ⟨rfl, fun _ => rfl⟩ (ih runAmount w)

/-- What `batchRunner.runOnce` returns is what its dispatch loop returns. -/
theorem batchRunner_runOnce_outcome (b : batchRunner) (w : World) (now maxRunAmount : Int) :
    (b.runOnce w now maxRunAmount).2.2
      = (batchRunner.dispatch now maxRunAmount b.runners 0 w).2.2 := by
  unfold batchRunner.runOnce
  by_cases hlen : b.runners.length = 0
  · have hnil : b.runners = [] := List.length_eq_zero.mp hlen
    simp [hlen, hnil, batchRunner.dispatch]
  · simp only [hlen, if_false]
    rcases hdisp : batchRunner.dispatch now maxRunAmount b.runners 0 w with ⟨runners1, w1, out⟩
    cases out <;> rfl

/-- The runner map after a call of `batchRunner.runOnce` that returns nil:
the map after the dispatch loop without the runners that can be removed. -/
theorem batchRunner_runOnce_runners (b : batchRunner) (w : World) (now maxRunAmount : Int)
    (hok : (b.runOnce w now maxRunAmount).2.2 = .ok ()) :
    (b.runOnce w now maxRunAmount).1.runners
      = (batchRunner.dispatch now maxRunAmount b.runners 0 w).1.filter
          (fun kr => !kr.2.tryCheckCanRemove) := by
  unfold batchRunner.runOnce at hok ⊢
  by_cases hlen : b.runners.length = 0
  · have hnil : b.runners = [] := List.length_eq_zero.mp hlen
    simp [hlen, hnil, batchRunner.dispatch]
  · simp only [hlen, if_false] at hok ⊢
    rcases hdisp : batchRunner.dispatch now maxRunAmount b.runners 0 w with ⟨runners1, w1, out⟩
    rw [hdisp] at hok
    cases out with
    | ok u => rfl
    | error e => cases hok
    | panic msg => cases hok

/-- The dispatch loop runs only resident runners that can run. -/
theorem dispatched_mem (now maxRunAmount : Int) :
    ∀ (l : List (String × contextRunner)) (runAmount : Int) (w : World),
      ∀ key ∈ batchRunner.dispatched now maxRunAmount l runAmount w,
        ∃ r, (key, r) ∈ l ∧ r.canRun now = true := by
  intro l
  induction l with
  | nil => intro runAmount w key h; simp [batchRunner.dispatched] at h
  | cons hd tl ih =>
    intro runAmount w key h
    obtain ⟨k, r⟩ := hd
    unfold batchRunner.dispatched at h
    by_cases hc : r.canRun now = true
    · simp only [hc, Bool.not_true, Bool.false_eq_true, if_false] at h
      by_cases hfull : runAmount + 1 > maxRunAmount
      · simp [hfull] at h
      · simp only [hfull, if_false] at h
        rcases hstep : r.runOnce w now with ⟨r1, w1, out⟩
        rw [hstep] at h
        cases out with
        | ok u =>
          simp only [List.mem_cons] at h
          rcases h with h | h
          · subst h
            exact ⟨r, List.mem_cons_self _ _, hc⟩
          · obtain ⟨r', hm, hr'⟩ := ih _ _ key h
            exact ⟨r', List.mem_cons_of_mem _ hm, hr'⟩
        | error e =>
          simp only [List.mem_singleton] at h
          subst h
          exact ⟨r, List.mem_cons_self _ _, hc⟩
        | panic msg =>
          simp only [List.mem_singleton] at h
          subst h
          exact ⟨r, List.mem_cons_self _ _, hc⟩
    · have hc' : r.canRun now = false := by simpa using hc
      simp only [hc', Bool.not_false, if_true] at h
      obtain ⟨r', hm, hr'⟩ := ih _ _ key h
      exact ⟨r', List.mem_cons_of_mem _ hm, hr'⟩

theorem mapGet_none_iff_not_mem {α : Type} (m : List (String × α)) (k : String) :
    mapGet m k = none ↔ k ∉ m.map Prod.fst := by
  rw [← mapHas_false_iff_not_mem]
  simp [mapHas]

/-- A filter that drops the entry of a key leaves no entry of that key. -/
theorem mapGet_filter_none {α : Type} (m : List (String × α)) (p : String × α → Bool)
    (k : String) (v : α) (hnd : (m.map Prod.fst).Nodup) (h : mapGet m k = some v)
    (hp : p (k, v) = false) : mapGet (m.filter p) k = none := by
  induction m with
  | nil => simp [mapGet] at h
  | cons hd tl ih =>
    obtain ⟨k1, v1⟩ := hd
    simp only [List.map_cons, List.nodup_cons] at hnd
    by_cases hk : k1 = k
    · subst hk
      simp [mapGet] at h
      subst h
      simp only [List.filter, hp]
      rw [mapGet_none_iff_not_mem]
      intro hm
      exact hnd.1 ((List.filter_sublist _).map Prod.fst |>.subset hm)
    · simp [mapGet, hk] at h
      by_cases hq : p (k1, v1) = true
      · simp [List.filter, hq, mapGet, hk, ih hnd.2 h]
      · simp [List.filter, hq, ih hnd.2 h]

/-- A tick files no runner: a key that is not resident stays so. -/
theorem batchRunner_runOnce_get_none (b : batchRunner) (w : World) (now maxRunAmount : Int)
    (key : String) (h : b.get key = none) : (b.runOnce w now maxRunAmount).1.get key = none := by
  simp only [batchRunner.get] at h ⊢
  rw [mapGet_none_iff_not_mem] at h ⊢
  unfold batchRunner.runOnce
  by_cases hlen : b.runners.length = 0
  · simpa [hlen] using h
  · simp only [hlen, if_false]
    have hk := dispatch_map_fst now maxRunAmount b.runners 0 w
    rcases hdisp : batchRunner.dispatch now maxRunAmount b.runners 0 w with ⟨runners1, w1, out⟩
    rw [hdisp] at hk
    simp only at hk
    cases out with
    | ok u =>
      intro hm
      apply h
      rw [← hk]
      exact ((List.filter_sublist _).map Prod.fst).subset hm
    | error e => simpa [hk] using h
    | panic msg => simpa [hk] using h

/-- After any number of ticks a request that is not resident is still not resident. -/
theorem ticks_get_none (ts : List Int) (requestID : String) :
    ∀ f : flow, f.batchRunner.get requestID = none →
      (Fixture.ticks ts f).batchRunner.get requestID = none := by
  induction ts with
  | nil => intro f h; exact h
  | cons t tl ih =>
    intro f h
    simp only [Fixture.ticks, List.foldl_cons]
    apply ih
    simp only [flow.RunOnce]
    exact batchRunner_runOnce_get_none _ _ _ _ _ h

theorem mapGet_mem {α : Type} (m : List (String × α)) (k : String) (v : α)
    (h : mapGet m k = some v) : (k, v) ∈ m := by
  induction m with
  | nil => simp [mapGet] at h
  | cons hd tl ih =>
    obtain ⟨k1, v1⟩ := hd
    by_cases hk : k1 = k
    · simp [mapGet, hk] at h
      subst h
      subst hk
      exact List.mem_cons_self _ _
    · simp only [mapGet, hk, if_false] at h
      exact List.mem_cons_of_mem _ (ih h)

theorem enter_rcRecord (fc : flowContext) (name : String) :
    (fc.enter name).1.rcRecord = fc.rcRecord := by
  simp only [flowContext.enter]
  split <;> rfl

theorem enter_executePath (fc : flowContext) (name : String) (h : (fc.enter name).2 = true) :
    (fc.enter name).1.executePath = fc.executePath ++ [name] := by
  simp only [flowContext.enter] at h ⊢
  split at h
  · cases h
  · rename_i hd
    simp only [hd, if_false, Path.AddString]

theorem nodeRuntime_runOnce_path (n : nodeRuntime) (fc : flowContext) (calls : List Call)
    (input : Data) :
    StepPath (some [n.name]) fc
      ((n.runOnce fc calls input).2.1, (n.runOnce fc calls input).2.2.2) := by
  unfold nodeRuntime.runOnce
  have hr := enter_rcRecord fc n.name
  have hp := enter_executePath fc n.name
  rcases hE : fc.enter n.name with ⟨fc1, b⟩
  rw [hE] at hr hp
  simp only at hr hp
  cases b with
  | false => exact ⟨hr, fun h => absurd rfl (h _)⟩
  | true =>
    simp only []
    rcases hH : n.runHandler fc1 calls input with ⟨calls1, out⟩
    cases out <;> simp only [] <;>
      exact ⟨by simpa [flowContext.exit] using hr,
        fun _ => ⟨_, rfl, by simpa [flowContext.exit] using hp rfl⟩⟩

/-- A step of a run context keeps the trace record of the flow context, and
when it returns it has appended to the execute path the names it entered. -/
theorem runContext_runOnce_path :
    (∀ (rc : runContext) (fc : flowContext) (calls : List Call) (input : Data),
      StepPath rc.vertexAddress fc
        ((rc.runOnce fc calls input).2.1, (rc.runOnce fc calls input).2.2.2)) ∧
    (∀ (d : dagRuntime) (fc : flowContext) (calls : List Call) (input : Data),
      StepPath d.vertexAddress fc
        ((d.runOnce fc calls input).2.1, (d.runOnce fc calls input).2.2.2)) ∧
    (∀ (m : List (String × runContext)) (key : String) (fc : flowContext) (calls : List Call)
      (input : Data),
      StepPath (vertexAddressRunning m key) fc
        ((runRunning m key fc calls input).2.1, (runRunning m key fc calls input).2.2.2)) := by
  have hdag : ∀ (name : String) (rcMap : List (String × runContext)) (runningRC : String)
      (fc fc1 fc2 : flowContext) (out0 out : StepOut),
      fc.enter name = (fc1, true) →
      StepPath (vertexAddressRunning rcMap runningRC) fc1 (fc2, out0) →
      ((∀ msg, out ≠ .panic msg) → ∀ msg, out0 ≠ .panic msg) →
      StepPath (match vertexAddressRunning rcMap runningRC with
                | none => none
                | some p => some (name :: p)) fc (fc2.exit, out) := by
    intro name rcMap runningRC fc fc1 fc2 out0 out hE ih hout
    have hr := enter_rcRecord fc name
    have hp := enter_executePath fc name
    rw [hE] at hr hp
    simp only at hr hp
    refine ⟨by simpa [flowContext.exit] using ih.1.trans hr, fun hne => ?_⟩
    obtain ⟨addr, ha, hpath⟩ := ih.2 (hout hne)
    refine ⟨name :: addr, by rw [ha], ?_⟩
    simp only [flowContext.exit]
    rw [hpath, hp trivial, List.append_assoc]
    rfl
  refine runContext.runOnce.mutual_induct
    (fun rc fc calls input =>
      StepPath rc.vertexAddress fc
        ((rc.runOnce fc calls input).2.1, (rc.runOnce fc calls input).2.2.2))
    (fun d fc calls input =>
      StepPath d.vertexAddress fc
        ((d.runOnce fc calls input).2.1, (d.runOnce fc calls input).2.2.2))
    (fun m key fc calls input =>
      StepPath (vertexAddressRunning m key) fc
        ((runRunning m key fc calls input).2.1, (runRunning m key fc calls input).2.2.2))
    ?_ ?_ ?_ ?_ ?_ ?_ ?_ ?_ ?_ ?_ ?_
  · intro n fc calls input n1 fc1 calls1 out h
    have := nodeRuntime_runOnce_path n fc calls input
    simp only [runContext.runOnce, runContext.vertexAddress, h] at this ⊢
    exact this
  · intro d fc calls input d1 fc1 calls1 out h ih
    simp only [runContext.runOnce, runContext.vertexAddress, h] at ih ⊢
    exact ih
  · intro name path rcMap runningRC nextRC nextVertex fc calls input fc1 hE
    have hr := enter_rcRecord fc name
    rw [hE] at hr
    simp only [dagRuntime.runOnce, hE]
    exact ⟨hr, fun h => absurd rfl (h _)⟩
  · intro name path rcMap runningRC nextRC nextVertex fc calls input fc1 hE rcMap1 fc2 calls1
      data hR ih
    simp only [hR] at ih
    simp only [dagRuntime.runOnce, hE, hR, dagRuntime.vertexAddress]
    exact hdag name rcMap runningRC fc fc1 fc2 _ _ hE ih (fun _ msg h => by cases h)
  · intro name path rcMap runningRC nextRC nextVertex fc calls input fc1 hE rcMap1 fc2 calls1
      next data hR ih
    simp only [hR] at ih
    simp only [dagRuntime.runOnce, hE, hR, dagRuntime.vertexAddress]
    exact hdag name rcMap runningRC fc fc1 fc2 _ _ hE ih (fun _ msg h => by cases h)
  · intro name path rcMap runningRC nextRC nextVertex fc calls input fc1 hE rcMap1 fc2 calls1
      data hR ih
    simp only [hR] at ih
    simp only [dagRuntime.runOnce, hE, hR, dagRuntime.vertexAddress]
    exact hdag name rcMap runningRC fc fc1 fc2 _ _ hE ih (fun _ msg h => by cases h)
  · intro name path rcMap runningRC nextRC nextVertex fc calls input fc1 hE rcMap1 fc2 calls1
      err hR ih
    simp only [hR] at ih
    simp only [dagRuntime.runOnce, hE, hR, dagRuntime.vertexAddress]
    exact hdag name rcMap runningRC fc fc1 fc2 _ _ hE ih (fun _ msg h => by cases h)
  · intro name path rcMap runningRC nextRC nextVertex fc calls input fc1 hE rcMap1 fc2 calls1
      r hR ih
    simp only [hR] at ih
    simp only [dagRuntime.runOnce, hE, hR, dagRuntime.vertexAddress]
    exact hdag name rcMap runningRC fc fc1 fc2 _ _ hE ih (fun h msg _ => absurd rfl (h r))
  · intro x fc calls input
    simp only [runRunning]
    exact ⟨rfl, fun h => absurd rfl (h _)⟩
  · intro rc tl key fc calls input rc1 fc1 calls1 out h ih
    simp only [h] at ih
    simp only [runRunning, h, if_true, vertexAddressRunning]
    exact ih
  · intro k rc tl key fc calls input hk tl1 fc1 calls1 out h ih
    simp only [h] at ih
    simp only [runRunning, h, hk, if_false, vertexAddressRunning]
    exact ih

theorem namedEntries_mapSet (m : List (String × runContext)) (k : String) (rc : runContext)
    (hm : namedEntries m) (hrc : rc.Named k) : namedEntries (mapSet m k rc) := by
  induction m with
  | nil => exact ⟨hrc, trivial⟩
  | cons hd tl ih =>
    obtain ⟨k1, rc1⟩ := hd
    simp only [namedEntries] at hm
    by_cases hk : k1 = k
    · subst hk
      simp only [mapSet, if_true, namedEntries]
      exact ⟨hrc, hm.2⟩
    · simp only [mapSet, hk, if_false, namedEntries]
      exact ⟨hm.1, ih hm.2⟩

theorem delayVisit_named (m : List (String × runContext)) (rc rc1 : runContext) (k : String)
    (h : delayVisit m rc = .ok rc1) (hn : rc.Named k) : rc1.Named k := by
  cases rc with
  | node n =>
    simp only [delayVisit] at h
    split at h
    · split at h
      · cases h
      · cases h
        exact hn
    · split at h
      · cases h
      · split at h
        · cases h
        · cases h
          exact hn
    · cases h
      exact hn
  | dag d =>
    obtain ⟨name, path, rcMap, running, nextRC, nextVertex⟩ := d
    simp only [delayVisit] at h
    split at h
    · cases h
    · cases h
      exact hn

theorem delayVisits_named (m : List (String × runContext)) :
    ∀ (l l1 : List (String × runContext)), delayVisits m l = .ok l1 →
      namedEntries l → namedEntries l1 := by
  intro l
  induction l with
  | nil =>
    intro l1 h _
    simp only [delayVisits] at h
    cases h
    trivial
  | cons hd tl ih =>
    intro l1 h hn
    obtain ⟨k, rc⟩ := hd
    simp only [namedEntries] at hn
    unfold delayVisits at h
    cases hv : delayVisit m rc with
    | error e => rw [hv] at h; cases h
    | panic r => rw [hv] at h; cases h
    | ok rc1 =>
      rw [hv] at h
      simp only at h
      cases ht : delayVisits m tl with
      | error e => rw [ht] at h; cases h
      | panic r => rw [ht] at h; cases h
      | ok tl1 =>
        rw [ht] at h
        cases h
        exact ⟨delayVisit_named m rc rc1 k hv hn.1, ih tl1 ht hn.2⟩

theorem generateRunContext_named
    (gen : Nat → Path → Path → Option (Outcome dagRuntime))
    (hgen : ∀ a p e d, gen a p e = some (.ok d) → d.NamedMap)
    (gl : globalVertex) (dtName vertex : String) (info : vertexInfo) (nextVertex : String)
    (path entrypointPath : Path) (rc : runContext)
    (h : generateRunContext gen gl dtName vertex info nextVertex path entrypointPath
      = some (.ok rc)) : rc.Named vertex := by
  unfold generateRunContext at h
  cases hv : globalVertex.get gl dtName vertex with
  | none => simp [hv] at h
  | some v =>
    simp only [hv] at h
    by_cases ht : v.typ ≠ info.Typ
    · simp [ht] at h
    · simp only [ht, if_false] at h
      by_cases hd : info.Typ = .vertexDAG
      · simp only [hd, if_true] at h
        cases ha : info.DAG with
        | none => simp [ha] at h
        | some addr =>
          simp only [ha] at h
          cases h1 : gen addr path entrypointPath with
          | none => simp [h1] at h
          | some x =>
            rw [h1] at h
            cases x with
            | error e => simp at h
            | panic r => simp at h
            | ok d =>
              have hd' := hgen _ _ _ _ h1
              obtain ⟨name, p, m, running, nextRC, nv⟩ := d
              simp only [Option.some.injEq, Outcome.ok.injEq] at h
              subst h
              exact ⟨rfl, hd'⟩
      · simp only [hd, if_false, Option.some.injEq] at h
        unfold generateNodeRunContext at h
        split at h
        · cases h
          rfl
        · cases h
          rfl
        · cases h

theorem generateRunContexts_named
    (gen : Nat → Path → Path → Option (Outcome dagRuntime))
    (hgen : ∀ a p e d, gen a p e = some (.ok d) → d.NamedMap)
    (gl : globalVertex) (dtName : String) (links : List (String × String))
    (dagPath entrypoint : Path) :
    ∀ (vs : List (String × vertexInfo)) (rcMap rcMap1 : List (String × runContext)),
      generateRunContexts gen gl dtName links dagPath entrypoint vs rcMap = some (.ok rcMap1) →
      namedEntries rcMap → namedEntries rcMap1 := by
  intro vs
  induction vs with
  | nil =>
    intro rcMap rcMap1 h hn
    simp only [generateRunContexts, Option.some.injEq, Outcome.ok.injEq] at h
    subst h
    exact hn
  | cons hd tl ih =>
    intro rcMap rcMap1 h hn
    obtain ⟨vertex, info⟩ := hd
    unfold generateRunContexts at h
    cases h1 : generateRunContext gen gl dtName vertex info ((mapGet links vertex).getD "")
        dagPath entrypoint with
    | none => simp [h1] at h
    | some out =>
      rw [h1] at h
      cases out with
      | ok rc =>
        exact ih _ _ h (namedEntries_mapSet _ _ _ hn
          (generateRunContext_named gen hgen _ _ _ _ _ _ _ _ h1))
      | error e => simp at h
      | panic r => simp at h

/-- The runtime `generateRuntime` returns carries the name of its plan, and
every run context inside it is named after the vertex it is filed under. -/
theorem generateRuntime_named (heap : List dagExecutePlan) (gl : globalVertex) :
    ∀ (fuel dt : Nat) (p e : Path) (d : dagRuntime),
      generateRuntime heap gl fuel dt p e = some (.ok d) →
      d.NamedMap ∧ ∃ plan, heap.get? dt = some plan ∧ d.name = plan.Name := by
  intro fuel
  induction fuel with
  | zero => intro dt p e d h; simp [generateRuntime] at h
  | succ n ih =>
    intro dt p e d h
    unfold generateRuntime at h
    cases hp : heap.get? dt with
    | none => rw [hp] at h; simp at h
    | some plan =>
      rw [hp] at h
      simp only at h
      rcases hg : generateRunContexts (generateRuntime heap gl n) gl plan.Name plan.Links
          (Path.AddString p plan.Name) (Path.Next e) plan.Vertex [] with _ | out
      · rw [hg] at h; simp at h
      · rw [hg] at h
        cases out with
        | error x => cases h
        | panic x => cases h
        | ok rcMap =>
          simp only at h
          have hn := generateRunContexts_named _ (fun a p e d hd => (ih a p e d hd).1)
            _ _ _ _ _ _ _ _ hg trivial
          cases hd : delayVisits rcMap rcMap with
          | error x => rw [hd] at h; simp at h
          | panic x => rw [hd] at h; simp at h
          | ok rcMap1 =>
            rw [hd] at h
            simp only at h
            have hn1 := delayVisits_named rcMap rcMap rcMap1 hd hn
            split at h <;> split at h <;> first
              | (cases h; exact ⟨hn1, plan, rfl, rfl⟩)
              | cases h

/-- The record `endRecord` completes and stores, under the dotted execute path. -/
theorem endRecord_get (fc : flowContext) (store : memStore) (now : Int) (output : Data)
    (err : Option Err) (rec : NodeTraceRecord) (h : fc.rcRecord = some rec) :
    (fc.endRecord store now output err).1.rcRecord
      = some { rec with Vertex := fc.executePath, EndTime := now, Error := err,
                        Output := output } ∧
    mapGet (fc.endRecord store now output err).2.m
        (memStore.fullKey (recordSavePath fc.requestID) (String.intercalate "." fc.executePath))
      = some (.record { rec with Vertex := fc.executePath, EndTime := now, Error := err,
                                 Output := output }) := by
  simp [flowContext.endRecord, h, flowContext.saveRecord, memStore.Set, Path.Export,
    mapGet_mapSet_same]

/-- The method `saveContext` changes no trace record. -/
theorem saveContext_record (r : contextRunner) (store : memStore) (id k : String) :
    mapGet (r.saveContext store).1.m (memStore.fullKey (recordSavePath id) k)
      = mapGet store.m (memStore.fullKey (recordSavePath id) k) := by
  have hk := fullKey_record_ne_rerun id k r.fc.requestID
  unfold contextRunner.saveContext
  cases r.exportRerunContext with
  | ok c =>
    cases c with
    | none => simpa [memStore.Remove] using mapGet_mapDelete_ne _ _ _ hk
    | some c => simpa [memStore.Set] using mapGet_mapSet_ne _ _ _ _ hk
  | error e => rfl
  | panic msg => rfl

/-! ## Lemmas: linear DAGs -/

theorem mapHas_mapSet {α : Type} (m : List (String × α)) (k x : String) (v : α) :
    mapHas (mapSet m k v) x = true ↔ (x = k ∨ mapHas m x = true) := by
  by_cases hx : k = x
  · subst hx
    simp [mapHas, mapGet_mapSet_same]
  · have hx' : ¬ x = k := fun e => hx e.symm
    simp [mapHas, mapGet_mapSet_ne m k x v hx', hx']

/-- The run context `generateRunContext` makes of a node. -/
theorem generateRunContext_node
    (gen : Nat → Path → Path → Option (Outcome dagRuntime))
    (gl : globalVertex) (dtName vertex : String) (links : List (String × String))
    (path entrypointPath : Path) (e : vertexEntity)
    (hget : globalVertex.get gl dtName vertex = some e) (htyp : e.typ = .vertexNode) :
    generateRunContext gen gl dtName vertex makeNodeVertexInfo ((mapGet links vertex).getD "")
        path entrypointPath
      = some (.ok (compiledNode gl dtName links path false vertex)) := by
  simp [generateRunContext, hget, htyp, makeNodeVertexInfo, generateNodeRunContext, compiledNode,
    compiledNodeRuntime, newNodeRuntime]

/-- The first loop of `generateRuntime` on a plan of nodes. -/
theorem generateRunContexts_nodes
    (gen : Nat → Path → Path → Option (Outcome dagRuntime))
    (gl : globalVertex) (dtName : String) (links : List (String × String))
    (dagPath entrypoint : Path) :
    ∀ (V : List (String × vertexInfo)) (acc : List (String × runContext)),
      (∀ kv ∈ V, kv.2 = makeNodeVertexInfo ∧
        ∃ e, globalVertex.get gl dtName kv.1 = some e ∧ e.typ = .vertexNode) →
      (∀ kr ∈ acc, kr.2 = compiledNode gl dtName links dagPath false kr.1) →
      ∃ rcMap, generateRunContexts gen gl dtName links dagPath entrypoint V acc
          = some (.ok rcMap) ∧
        (∀ kr ∈ rcMap, kr.2 = compiledNode gl dtName links dagPath false kr.1) ∧
        ∀ x, mapHas rcMap x = true ↔ (mapHas acc x = true ∨ x ∈ V.map Prod.fst) := by
  intro V
  induction V with
  | nil =>
    intro acc _ hacc
    exact ⟨acc, rfl, hacc, fun x => by simp⟩
  | cons hd tl ih =>
    intro acc hV hacc
    obtain ⟨vertex, info⟩ := hd
    obtain ⟨hinfo, e, hget, htyp⟩ := hV (vertex, info) (List.mem_cons_self _ _)
    simp only at hinfo hget
    subst hinfo
    unfold generateRunContexts
    rw [generateRunContext_node gen gl dtName vertex links dagPath entrypoint e hget htyp]
    simp only
    obtain ⟨rcMap, h1, h2, h3⟩ := ih (mapSet acc vertex (compiledNode gl dtName links dagPath false vertex))
      (fun kv hkv => hV kv (List.mem_cons_of_mem _ hkv))
      (fun kr hkr => by
        rcases mem_mapSet _ _ _ _ hkr with h | h
        · exact hacc kr h
        · subst h
          rfl)
    refine ⟨rcMap, h1, h2, fun x => ?_⟩
    rw [h3 x, mapHas_mapSet]
    simp only [List.map_cons, List.mem_cons]
    tauto

/-- The second loop of `generateRuntime` on a map of nodes whose successors are in `m`. -/
theorem delayVisits_nodes (gl : globalVertex) (dtName : String) (links : List (String × String))
    (dagPath : Path) (m : List (String × runContext)) :
    ∀ (l : List (String × runContext)),
      (∀ kr ∈ l, kr.2 = compiledNode gl dtName links dagPath false kr.1 ∧
        ((mapGet links kr.1).getD "" = "" ∨ mapHas m ((mapGet links kr.1).getD "") = true)) →
      delayVisits m l
        = .ok (l.map (fun kr => (kr.1, compiledNode gl dtName links dagPath true kr.1))) := by
  intro l
  induction l with
  | nil => intro _; rfl
  | cons hd tl ih =>
    intro hl
    obtain ⟨k, rc⟩ := hd
    obtain ⟨hrc, hnext⟩ := hl (k, rc) (List.mem_cons_self _ _)
    simp only at hrc hnext
    subst hrc
    unfold delayVisits
    rw [ih (fun kr hkr => hl kr (List.mem_cons_of_mem _ hkr))]
    have hv : delayVisit m (compiledNode gl dtName links dagPath false k)
        = .ok (compiledNode gl dtName links dagPath true k) := by
      by_cases he : (mapGet links k).getD "" = ""
      · simp [delayVisit, compiledNode, compiledNodeRuntime, resolveRC, he]
      · have hm : mapHas m ((mapGet links k).getD "") = true := by
          rcases hnext with h | h
          · exact absurd h he
          · exact h
        simp [delayVisit, compiledNode, compiledNodeRuntime, resolveRC, he, hm]
    rw [hv]
    rfl

theorem mapGet_map_snd {α : Type} (l : List (String × α)) (f : String → α) (x : String) :
    mapGet (l.map (fun kr => (kr.1, f kr.1))) x = if mapHas l x = true then some (f x) else none := by
  induction l with
  | nil => simp [mapGet, mapHas]
  | cons hd tl ih =>
    obtain ⟨k, v⟩ := hd
    by_cases hk : k = x
    · subst hk
      simp [mapGet, mapHas]
    · simp only [List.map_cons, mapGet, hk, if_false, ih]
      simp [mapHas, mapGet, hk]

theorem mapHas_of_mem {α : Type} (m : List (String × α)) (kv : String × α) (h : kv ∈ m) :
    mapHas m kv.1 = true := by
  induction m with
  | nil => simp at h
  | cons hd tl ih =>
    obtain ⟨k1, v1⟩ := hd
    by_cases hk : k1 = kv.1
    · simp [mapHas, mapGet, hk]
    · rcases List.mem_cons.mp h with h1 | h1
      · subst h1
        exact absurd rfl hk
      · have := ih h1
        simpa [mapHas, mapGet, hk] using this

theorem mem_of_mapHas {α : Type} (m : List (String × α)) (k : String) (h : mapHas m k = true) :
    k ∈ m.map Prod.fst := by
  by_contra hn
  rw [← mapHas_false_iff_not_mem] at hn
  rw [hn] at h
  cases h

theorem mapHas_map_snd {α : Type} (l : List (String × α)) (f : String → α) (x : String) :
    mapHas (l.map (fun kr => (kr.1, f kr.1))) x = mapHas l x := by
  have h := mapGet_map_snd l f x
  unfold mapHas at h ⊢
  rw [h]
  cases (mapGet l x).isSome <;> rfl

/-- In a chain every vertex has no link or a link to a vertex of the chain. -/
theorem linkedChain_next (links : List (String × String)) :
    ∀ (names : List String) (x : String), linkedChain links names → x ∈ names →
      mapGet links x = none ∨ ∃ y ∈ names, mapGet links x = some y := by
  intro names
  induction names with
  | nil => intro x _ hx; simp at hx
  | cons a tl ih =>
    intro x hl hx
    cases tl with
    | nil =>
      simp only [List.mem_singleton] at hx
      subst hx
      exact Or.inl hl
    | cons b tl2 =>
      simp only [linkedChain] at hl
      rcases List.mem_cons.mp hx with h | h
      · subst h
        exact Or.inr ⟨b, by simp, hl.1⟩
      · rcases ih x hl.2 h with h1 | ⟨y, hy, h1⟩
        · exact Or.inl h1
        · exact Or.inr ⟨y, List.mem_cons_of_mem _ hy, h1⟩

/-- The map of compiled nodes is the map of a chain, for the vertices of the chain. -/
theorem chainMap_of_compiled (gl : globalVertex) (dtName : String)
    (links : List (String × String)) (dagPath : Path) (rcMap : List (String × runContext)) :
    ∀ (l : List (String × NodeHandler)),
      (∀ v ∈ l, v.1 ≠ "" ∧ mapHas rcMap v.1 = true ∧
        (globalVertex.get gl dtName v.1).bind vertexEntity.handler = some v.2) →
      linkedChain links (l.map Prod.fst) →
      ChainMap (rcMap.map (fun kr => (kr.1, compiledNode gl dtName links dagPath true kr.1))) l := by
  intro l
  induction l with
  | nil => intro _ _; trivial
  | cons hd tl ih =>
    intro hl hlinks
    obtain ⟨v, h⟩ := hd
    obtain ⟨hne, hhas, hh⟩ := hl (v, h) (List.mem_cons_self _ _)
    simp only at hne hhas hh
    have htl : ∀ v ∈ tl, v.1 ≠ "" ∧ mapHas rcMap v.1 = true ∧
        (globalVertex.get gl dtName v.1).bind vertexEntity.handler = some v.2 :=
      fun v hv => hl v (List.mem_cons_of_mem _ hv)
    cases tl with
    | nil =>
      simp only [List.map_cons, List.map_nil, linkedChain] at hlinks
      have hget := mapGet_map_snd rcMap (compiledNode gl dtName links dagPath true) v
      rw [if_pos hhas] at hget
      exact ⟨⟨compiledNodeRuntime gl dtName links dagPath true v, hget, rfl, rfl, hh,
        by simp [compiledNodeRuntime, hlinks]⟩, trivial⟩
    | cons hd2 tl2 =>
      obtain ⟨v', h'⟩ := hd2
      simp only [List.map_cons, linkedChain] at hlinks
      have hne' := (hl (v', h') (by simp)).1
      simp only at hne'
      have hget := mapGet_map_snd rcMap (compiledNode gl dtName links dagPath true) v
      rw [if_pos hhas] at hget
      exact ⟨⟨compiledNodeRuntime gl dtName links dagPath true v, hget, rfl, rfl, hh,
        by simp [compiledNodeRuntime, hlinks.1, hne']⟩, ih htl hlinks.2⟩

/-- The runtime `generateRuntime` returns for the plan of a linear DAG. -/
theorem generateRuntime_linear (heap : List dagExecutePlan) (gl : globalVertex) (fuel addr : Nat)
    (plan : dagExecutePlan) (vs : List (String × NodeHandler))
    (hplan : heap.get? addr = some plan) (hlin : LinearPlan gl plan vs) :
    ∃ m, generateRuntime heap gl (fuel + 1) addr (NewPath []) (NewPath [])
        = some (.ok (.mk plan.Name [plan.Name] m (((vs.map Prod.fst).head?).getD "")
            .Termination "")) ∧
      ChainMap m vs := by
  obtain ⟨hne, hnd, hnames, hstart, hV, hvs, hlinks⟩ := hlin
  have hglV : ∀ kv ∈ plan.Vertex, kv.2 = makeNodeVertexInfo ∧
      ∃ e, globalVertex.get gl plan.Name kv.1 = some e ∧ e.typ = .vertexNode := by
    intro kv hkv
    obtain ⟨hmem, hinfo⟩ := hV kv hkv
    obtain ⟨v, hv, hv1⟩ := List.mem_map.mp hmem
    obtain ⟨_, e, he, ht, _⟩ := hvs v hv
    exact ⟨hinfo, e, by rw [← hv1]; exact he, ht⟩
  obtain ⟨rcMap, hgen, hentries, hhas⟩ := generateRunContexts_nodes
    (generateRuntime heap gl fuel) gl plan.Name plan.Links (Path.AddString (NewPath []) plan.Name)
    (Path.Next (NewPath [])) plan.Vertex [] hglV (fun kr hkr => by simp at hkr)
  have hhas' : ∀ x, mapHas rcMap x = true ↔ x ∈ plan.Vertex.map Prod.fst := by
    intro x
    rw [hhas x]
    simp [mapHas, mapGet]
  have hvsHas : ∀ v ∈ vs, mapHas rcMap v.1 = true := by
    intro v hv
    rw [hhas']
    exact mem_of_mapHas _ _ (hvs v hv).1
  have hdelay := delayVisits_nodes gl plan.Name plan.Links (Path.AddString (NewPath []) plan.Name)
    rcMap rcMap (fun kr hkr => by
      refine ⟨hentries kr hkr, ?_⟩
      have hk : kr.1 ∈ vs.map Prod.fst := by
        have := (hhas' kr.1).mp (mapHas_of_mem _ _ hkr)
        obtain ⟨kv, hkv, hkv1⟩ := List.mem_map.mp this
        rw [← hkv1]
        exact (hV kv hkv).1
      rcases linkedChain_next _ _ _ hlinks hk with h | ⟨y, hy, h⟩
      · left
        simp [h]
      · right
        obtain ⟨v, hv, hv1⟩ := List.mem_map.mp hy
        simp only [h, Option.getD_some]
        rw [← hv1]
        exact hvsHas v hv)
  refine ⟨_, ?_, chainMap_of_compiled gl plan.Name plan.Links
    (Path.AddString (NewPath []) plan.Name) rcMap vs (fun v hv => ?_) hlinks⟩
  · unfold generateRuntime
    rw [hplan]
    simp only [hgen, hdelay]
    have hfirst : (Path.First (Path.Next (NewPath []))).2 = false := rfl
    simp only [hfirst, Bool.false_eq_true, if_false]
    have hsv : mapHas (rcMap.map (fun kr =>
        (kr.1, compiledNode gl plan.Name plan.Links (Path.AddString (NewPath []) plan.Name)
          true kr.1))) plan.StartVertex = true := by
      cases vs with
      | nil => exact absurd rfl hne
      | cons hd tl =>
        have := hvsHas hd (List.mem_cons_self _ _)
        rw [hstart]
        simp only [List.map_cons, List.head?_cons, Option.getD_some]
        rw [mapHas_map_snd]
        exact this
    rw [if_pos hsv, hstart]
    rfl
  · obtain ⟨hhasV, e, he, _, hh⟩ := hvs v hv
    exact ⟨hnames v hv, hvsHas v hv, by simp [he, hh]⟩

/-- The call of a node handler that returns data. -/
theorem runHandler_node_ok (n : nodeRuntime) (h : NodeHandler) (fc : flowContext)
    (calls : List Call) (input output : Data)
    (hT : n.nodeType = .node) (hH : n.nodeHandler = some h)
    (hh : h { requestID := fc.requestID, currentVertex := fc.executePath, history := calls } input
      = .ok output) :
    n.runHandler fc calls input
      = (calls ++ [{ requestID := fc.requestID, vertex := fc.executePath, input := input }],
         .ok (n.nodeNextRC, output)) := by
  unfold nodeRuntime.runHandler
  simp only [hT, hH, hh]

theorem ChainMap_mapSet_other (m : List (String × runContext)) (k : String) (rc : runContext) :
    ∀ (l : List (String × NodeHandler)), ChainMap m l → k ∉ l.map Prod.fst →
      ChainMap (mapSet m k rc) l := by
  intro l
  induction l with
  | nil => intro _ _; trivial
  | cons hd tl ih =>
    intro hc hk
    obtain ⟨v, h⟩ := hd
    simp only [List.map_cons, List.mem_cons, not_or] at hk
    obtain ⟨⟨n, hget, hrest⟩, htl⟩ := hc
    refine ⟨⟨n, ?_, hrest⟩, ih htl hk.2⟩
    rw [mapGet_mapSet_ne _ _ _ _ (Ne.symm hk.1)]
    exact hget

/-- One step of the runtime of a chain at its vertex `v`, in the flow context
of a runner's step: the handler of `v` is invoked on the input, and the
runtime moves to the next vertex or returns `Termination`. -/
theorem chain_dag_step (name : String) (path : Path) (m : List (String × runContext))
    (v : String) (h : NodeHandler) (tl : List (String × NodeHandler))
    (fc : flowContext) (now : Int) (p : Path) (calls : List Call) (input output : Data)
    (hchain : ChainMap m ((v, h) :: tl))
    (hh : h { requestID := fc.requestID, currentVertex := [name, v], history := calls } input
      = .ok output) :
    ∃ n fc2, mapGet m v = some (.node n) ∧
      dagRuntime.runOnce (.mk name path m v .Termination "") (fc.startRecord now p input)
          calls input
        = (.mk name path (mapSet m v (.node { n with SuccessTimes := n.SuccessTimes + 1 }))
             (((tl.head?).map Prod.fst).getD v) .Termination "",
           fc2, calls ++ [{ requestID := fc.requestID, vertex := [name, v], input := input }],
           .ok (if tl.isEmpty = true then RCRef.Termination else RCRef.self, output)) := by
  obtain ⟨⟨n, hget, hname, hT, hH, hnext⟩, _⟩ := hchain
  have hE1 := enter_startRecord fc now p input name
  have hE2 := enter_enter_startRecord fc now p input name n.name
  have hid : (((fc.startRecord now p input).enter name).1.enter n.name).1.requestID
      = fc.requestID := by
    rw [enter_requestID, enter_requestID]
    rfl
  have hpath : (((fc.startRecord now p input).enter name).1.enter n.name).1.executePath
      = [name, v] := by
    rw [enter_executePath _ _ hE2, enter_executePath _ _ hE1, hname]
    rfl
  have hhandler := runHandler_node_ok n h
    (((fc.startRecord now p input).enter name).1.enter n.name).1 calls input output hT hH
    (by rw [hid, hpath]; exact hh)
  rw [hid, hpath] at hhandler
  have hnode : (runContext.node n).runOnce ((fc.startRecord now p input).enter name).1 calls input
      = (.node { n with SuccessTimes := n.SuccessTimes + 1 },
         (((fc.startRecord now p input).enter name).1.enter n.name).1.exit,
         calls ++ [{ requestID := fc.requestID, vertex := [name, v], input := input }],
         .ok (n.nodeNextRC, output)) := by
    simp only [runContext.runOnce, nodeRuntime.runOnce]
    rw [show ((fc.startRecord now p input).enter name).1.enter n.name
      = ((((fc.startRecord now p input).enter name).1.enter n.name).1, true) from
      Prod.ext rfl hE2]
    simp only [hhandler]
  refine ⟨n, ((((fc.startRecord now p input).enter name).1.enter n.name).1.exit).exit, hget, ?_⟩
  unfold dagRuntime.runOnce
  rw [show (fc.startRecord now p input).enter name
    = (((fc.startRecord now p input).enter name).1, true) from Prod.ext rfl hE1]
  simp only [runRunning_of_get _ _ _ _ _ _ hget, hnode, hnext]
  cases tl with
  | nil => rfl
  | cons hd tl2 =>
    obtain ⟨v', h'⟩ := hd
    rfl

theorem assignNextStatus_none (r : contextRunner) (h : r.nextStatus = .None) :
    r.assignNextStatus = r := by
  simp [contextRunner.assignNextStatus, h]

/-- One step of a runner on the runtime of a chain at its vertex `v`. -/
theorem chain_runner_step (r : contextRunner) (w : World) (now : Int)
    (name : String) (path : Path) (m : List (String × runContext))
    (v : String) (h : NodeHandler) (tl : List (String × NodeHandler)) (output : Data)
    (hrc : r.runningRC = some (.dag (.mk name path m v .Termination "")))
    (hchain : ChainMap m ((v, h) :: tl)) (hnd : v ∉ tl.map Prod.fst)
    (hrun : r.canRun now = true) (hnext : r.nextStatus = .None)
    (hstore : w.store.mockErr = none)
    (hh : h { requestID := r.fc.requestID, currentVertex := [name, v], history := w.calls }
      r.currentData = .ok output) :
    (r.runOnce w now).2.2 = .ok () ∧
    (r.runOnce w now).2.1.calls
      = w.calls ++ [{ requestID := r.fc.requestID, vertex := [name, v], input := r.currentData }] ∧
    (r.runOnce w now).1.nextStatus = .None ∧
    (r.runOnce w now).1.nextRunTime = r.nextRunTime ∧
    (r.runOnce w now).1.currentData = output ∧
    (tl = [] → (r.runOnce w now).1.runningStatus = .Finished) ∧
    (tl ≠ [] → (r.runOnce w now).1.runningStatus = .Running ∧
      ∃ m1, (r.runOnce w now).1.runningRC
          = some (.dag (.mk name path m1 (((tl.head?).map Prod.fst).getD v) .Termination "")) ∧
        ChainMap m1 tl) := by
  obtain ⟨⟨n0, hget0, _⟩, htl⟩ := id hchain
  have hpath : (runContext.dag (.mk name path m v .Termination "")).getPath = some n0.path := by
    simp [runContext.getPath, dagRuntime.getPath, getPathRunning_of_get _ _ _ hget0]
  obtain ⟨n, fc2, hget, hstep⟩ := chain_dag_step name path m v h tl r.fc now n0.path w.calls
    r.currentData output hchain hh
  have hstep' : (runContext.dag (.mk name path m v .Termination "")).runOnce
      (r.fc.startRecord now n0.path r.currentData) w.calls r.currentData
      = (.dag (.mk name path (mapSet m v (.node { n with SuccessTimes := n.SuccessTimes + 1 }))
            (((tl.head?).map Prod.fst).getD v) .Termination ""),
         fc2, w.calls ++ [{ requestID := r.fc.requestID, vertex := [name, v],
                            input := r.currentData }],
         .ok (if tl.isEmpty = true then RCRef.Termination else RCRef.self, output)) := by
    simp [runContext.runOnce, hstep]
  rw [runOnce_ok r w now _ _ n0.path fc2 _ _ output hrun hrc hpath hstep']
  have hm1 : ChainMap (mapSet m v (.node { n with SuccessTimes := n.SuccessTimes + 1 })) tl :=
    ChainMap_mapSet_other _ _ _ _ htl hnd
  cases tl with
  | nil =>
    have hT : (if ([] : List (String × NodeHandler)).isEmpty = true then RCRef.Termination
        else RCRef.self) = .Termination := rfl
    rw [hT, assignNextStatus_none]
    · refine ⟨?_, rfl, hnext, rfl, rfl, fun _ => rfl, fun h => absurd rfl h⟩
      simp only [if_true]
      rw [saveContext_result_none _ _ rfl, endRecord_mockErr, hstore]
      rfl
    · exact hnext
  | cons hd tl2 =>
    obtain ⟨v', h'⟩ := hd
    have hT : (if ((v', h') :: tl2).isEmpty = true then RCRef.Termination else RCRef.self)
        = .self := rfl
    rw [hT, assignNextStatus_none]
    · obtain ⟨⟨n', hget', _⟩, _⟩ := id hm1
      refine ⟨?_, ?_, ?_, ?_, ?_, ?_, ?_⟩
      rotate_left
      · rfl
      · exact hnext
      · rfl
      · rfl
      · intro h
        cases h
      · intro _
        exact ⟨rfl, _, rfl, hm1⟩
      have hS : (if RCRef.self = RCRef.Termination then (none : Option runContext)
          else some (.dag (.mk name path
            (mapSet m v (.node { n with SuccessTimes := n.SuccessTimes + 1 }))
            (((((v', h') :: tl2).head?).map Prod.fst).getD v) .Termination "")))
          = some (.dag (.mk name path
            (mapSet m v (.node { n with SuccessTimes := n.SuccessTimes + 1 }))
            v' .Termination "")) := rfl
      rw [saveContext_result_some _ _ _ n'.path hS
        (by simp [runContext.getPath, dagRuntime.getPath, getPathRunning_of_get _ _ _ hget']),
        endRecord_mockErr, hstore]
      rfl
    · exact hnext

/-- A tick of an engine with one resident runner, which can run and whose step returns nil. -/
theorem tick_single (g : flow) (now : Int) (key : String) (r : contextRunner)
    (hrunners : g.batchRunner.runners = [(key, r)]) (hrun : r.canRun now = true)
    (hconc : 1 ≤ g.concurrency)
    (hok : (r.runOnce { store := g.store, calls := g.calls } now).2.2 = .ok ()) :
    (g.RunOnce now).1.batchRunner.runners
      = (if (r.runOnce { store := g.store, calls := g.calls } now).1.tryCheckCanRemove = true
         then [] else [(key, (r.runOnce { store := g.store, calls := g.calls } now).1)]) ∧
    (g.RunOnce now).1.calls = (r.runOnce { store := g.store, calls := g.calls } now).2.1.calls ∧
    (g.RunOnce now).1.store = (r.runOnce { store := g.store, calls := g.calls } now).2.1.store ∧
    (g.RunOnce now).1.concurrency = g.concurrency := by
  have hfull : ¬ (0 + 1 > g.concurrency) := by omega
  rcases hstep : r.runOnce { store := g.store, calls := g.calls } now with ⟨r1, w1, out⟩
  rw [hstep] at hok
  simp only at hok
  subst hok
  have hrun1 : flow.RunOnce g now
      = ({ g with batchRunner := { g.batchRunner with
                    runners := [(key, r1)].filter (fun kr => !kr.2.tryCheckCanRemove) },
                  store := w1.store, calls := w1.calls }, .ok ()) := by
    simp only [flow.RunOnce, batchRunner.runOnce, hrunners, List.length_singleton,
      batchRunner.dispatch, hrun, hfull, hstep, one_ne_zero, if_false, Bool.not_true,
      Bool.false_eq_true]
  rw [hrun1]
  refine ⟨?_, rfl, rfl, rfl⟩
  by_cases hrm : r1.tryCheckCanRemove = true
  · simp [List.filter, hrm]
  · simp [List.filter, hrm]

theorem ticks_idle (ts : List Int) :
    ∀ g : flow, g.batchRunner.runners = [] → (Fixture.ticks ts g).calls = g.calls := by
  induction ts with
  | nil => intro g _; rfl
  | cons t tl ih =>
    intro g hg
    simp only [Fixture.ticks, List.foldl_cons]
    have h1 : (g.RunOnce t).1.batchRunner.runners = [] := by
      simp [flow.RunOnce, batchRunner.runOnce, hg]
    have h2 : (g.RunOnce t).1.calls = g.calls := by
      simp [flow.RunOnce, batchRunner.runOnce, hg]
    exact (ih _ h1).trans h2

/-- The ticks of an engine whose only runner is on the runtime of a chain,
at its vertex `v`: each tick runs the next handler of the chain on the output
of the one before. -/
theorem chain_run (key name : String) (path : Path) :
    ∀ (ts : List Int) (v : String) (h : NodeHandler) (tl : List (String × NodeHandler))
      (g : flow) (r : contextRunner) (m : List (String × runContext)),
      g.batchRunner.runners = [(key, r)] → r.fc.requestID = key →
      (r.runningStatus = .Pending ∨ r.runningStatus = .Running) →
      r.nextRunTime = 0 → r.nextStatus = .None →
      r.runningRC = some (.dag (.mk name path m v .Termination "")) →
      ChainMap m ((v, h) :: tl) → (((v, h) :: tl).map Prod.fst).Nodup →
      g.store.mockErr = none → 1 ≤ g.concurrency →
      (∀ x ∈ (v, h) :: tl, ∀ ctx input, ∃ out, x.2 ctx input = .ok out) →
      (∀ t ∈ ts, 0 < t) →
      (Fixture.ticks ts g).calls
        = chainCalls key name (((v, h) :: tl).take ts.length) r.currentData g.calls := by
  intro ts
  induction ts with
  | nil => intro v h tl g r m _ _ _ _ _ _ _ _ _ _ _ _; rfl
  | cons t ts ih =>
    intro v h tl g r m hrunners hid hst hnrt hnext hrc hchain hnd hstore hconc hok hts
    obtain ⟨out, hout⟩ := hok (v, h) (List.mem_cons_self _ _)
      { requestID := key, currentVertex := [name, v], history := g.calls } r.currentData
    simp only at hout
    have hrun : r.canRun t = true := by
      have ht := hts t (List.mem_cons_self _ _)
      rcases hst with hs | hs <;> simp [contextRunner.canRun, hs, hnrt, ht]
    simp only [List.map_cons, List.nodup_cons] at hnd
    obtain ⟨hok1, hcalls, hnext1, hnrt1, hdata1, hfin, hmore⟩ :=
      chain_runner_step r { store := g.store, calls := g.calls } t name path m v h tl out hrc
        hchain hnd.1 hrun hnext hstore (by rw [hid]; exact hout)
    obtain ⟨hrs, hgc, hgs, hgconc⟩ := tick_single g t key r hrunners hrun hconc hok1
    have hfr := contextRunner_runOnce_frame r { store := g.store, calls := g.calls } t
    simp only [Fixture.ticks, List.foldl_cons, List.length_cons, List.take_succ_cons, chainCalls,
      hout]
    rw [hid] at hcalls
    cases tl with
    | nil =>
      have hrem : (r.runOnce { store := g.store, calls := g.calls } t).1.tryCheckCanRemove
          = true := by
        simp [contextRunner.tryCheckCanRemove, hfin rfl]
      rw [hrem, if_pos rfl] at hrs
      have := ticks_idle ts _ hrs
      simp only [Fixture.ticks] at this
      rw [this, hgc, hcalls]
      simp [chainCalls]
    | cons hd tl2 =>
      obtain ⟨v', h'⟩ := hd
      obtain ⟨hstatus, m1, hrc1, hchain1⟩ := hmore (by simp)
      have hrem : (r.runOnce { store := g.store, calls := g.calls } t).1.tryCheckCanRemove
          = false := by
        simp [contextRunner.tryCheckCanRemove, hstatus]
      rw [hrem] at hrs
      simp only [Bool.false_eq_true, if_false] at hrs
      have := ih v' h' tl2 (g.RunOnce t).1
        (r.runOnce { store := g.store, calls := g.calls } t).1 m1 hrs (hfr.1.trans hid)
        (Or.inr hstatus) (hnrt1.trans hnrt) hnext1 hrc1 hchain1 hnd.2
        (by rw [hgs, hfr.2.1]; exact hstore) (by rw [hgconc]; exact hconc)
        (fun x hx => hok x (List.mem_cons_of_mem _ hx))
        (fun t' ht' => hts t' (List.mem_cons_of_mem _ ht'))
      simp only [Fixture.ticks] at this
      rw [this, hdata1, hgc, hcalls]

/-- The invocations a run of a chain adds when every handler returns data:
one per vertex, in the order of the chain, all of the request. -/
theorem chainCalls_vertices (key name : String) :
    ∀ (l : List (String × NodeHandler)) (input : Data) (calls : List Call),
      (∀ x ∈ l, ∀ ctx input, ∃ out, x.2 ctx input = .ok out) →
      ∃ added, chainCalls key name l input calls = calls ++ added ∧
        added.map Call.vertex = l.map (fun x => [name, x.1]) ∧
        ∀ c ∈ added, c.requestID = key := by
  intro l
  induction l with
  | nil =>
    intro input calls _
    exact ⟨[], by simp [chainCalls], rfl, by simp⟩
  | cons hd tl ih =>
    intro input calls hok
    obtain ⟨v, h⟩ := hd
    obtain ⟨out, hout⟩ := hok (v, h) (List.mem_cons_self _ _)
      { requestID := key, currentVertex := [name, v], history := calls } input
    simp only at hout
    obtain ⟨added, h1, h2, h3⟩ := ih out
      (calls ++ [{ requestID := key, vertex := [name, v], input := input }])
      (fun x hx => hok x (List.mem_cons_of_mem _ hx))
    refine ⟨{ requestID := key, vertex := [name, v], input := input } :: added, ?_, ?_, ?_⟩
    · simp only [chainCalls, hout]
      rw [h1, List.append_assoc]
      rfl
    · simp [h2]
    · intro c hc
      rcases List.mem_cons.mp hc with hc1 | hc1
      · subst hc1
        rfl
      · exact h3 c hc1

/-- The launch of a request on the plan of a linear DAG by an engine with no
resident runner and a store that returns no error. -/
theorem RunDAG_linear (f : flow) (fuel : Nat) (dagName requestID : String) (params : Data)
    (addr : Nat) (plan : dagExecutePlan) (vs : List (String × NodeHandler))
    (hrunning : f.running = true) (hreg : f.getDAG dagName = some addr)
    (hplan : f.heap.get? addr = some plan) (hlin : LinearPlan f.gl plan vs)
    (hidle : f.batchRunner.runners = []) (hstore : f.store.mockErr = none) :
    ∃ f0 m, f.RunDAG (fuel + 1) dagName requestID params = some (f0, .ok ()) ∧
      f0.batchRunner.runners
        = [(requestID, newContextRunner requestID
            (some (.dag (.mk plan.Name [plan.Name] m (((vs.map Prod.fst).head?).getD "")
              .Termination ""))) params)] ∧
      ChainMap m vs ∧ f0.calls = f.calls ∧ f0.store.mockErr = none ∧
      f0.concurrency = f.concurrency := by
  obtain ⟨m, hgen, hchain⟩ := generateRuntime_linear f.heap f.gl fuel addr plan vs hplan hlin
  have hex : f.hasExecutePlan requestID = false := by
    simp [flow.hasExecutePlan, batchRunner.exists, hidle, mapHas, mapGet]
  have hex' : mapHas f.batchRunner.runners requestID = false := by
    simp [hidle, mapHas, mapGet]
  refine ⟨{ f with
      store := { f.store with
        m := mapSet f.store.m (memStore.fullKey DAGPlanPath requestID) (.plan f.heap addr) },
      batchRunner := { f.batchRunner with
        runners := mapSet f.batchRunner.runners requestID
          (newContextRunner requestID
            (some (.dag (.mk plan.Name [plan.Name] m (((vs.map Prod.fst).head?).getD "")
              .Termination ""))) params) } }, m, ?_, ?_, hchain, rfl, hstore, rfl⟩
  · simp only [flow.RunDAG, hrunning, hreg, hex, flow.launchDAG, hgen, flow.savePlan,
      memStore.Set, hstore, flow.startExecutePlan, batchRunner.add, hex', Option.map_none',
      Bool.not_true, Bool.false_eq_true, if_false]
  · simp [hidle, mapSet]

/-! ## Lemmas: the builder of a linear DAG -/

theorem formatKey_inj (dagName v v' : String)
    (h : globalVertex.formatKey dagName v = globalVertex.formatKey dagName v') : v = v' := by
  have h1 := congrArg String.data h
  simp [globalVertex.formatKey, String.data_append] at h1
  exact String.ext h1

theorem steps_cons_run (fuel addr : Nat) (op : BuilderOp) (ops : List BuilderOp) (g g1 : flow)
    (h : g.applyOp fuel addr op = some (g1, none)) :
    (DAGHandler.steps (op :: ops)).run fuel addr g = (DAGHandler.steps ops).run fuel addr g1 := by
  simp only [DAGHandler.steps, DAGHandler.run, h]

theorem heap_get_set (heap : List dagExecutePlan) (addr : Nat) (de de1 : dagExecutePlan)
    (h : heap.get? addr = some de) : (heap.set addr de1).get? addr = some de1 := by
  have hi : addr < heap.length := by
    rcases Nat.lt_or_ge addr heap.length with h1 | h1
    · exact h1
    · rw [List.get?_eq_none.mpr h1] at h
      cases h
  simp [List.get?_eq_getElem?, hi]

/-- The call `Node(v, h)` on an entity whose declared nodes are `done`, for a
new name `v` that is not empty. -/
theorem applyOp_node (g : flow) (fuel addr : Nat) (name : String)
    (done : List (String × NodeHandler)) (v : String) (h : NodeHandler)
    (hinv : NodesDeclared g addr name done)
    (hnew : globalVertex.exists g.gl name v = false)
    (hdone : ∀ x ∈ done, x.1 ≠ "" ∧ x.1 ≠ v) :
    ∃ g1, g.applyOp fuel addr (.Node v (some h)) = some (g1, none) ∧
      NodesDeclared g1 addr name (done ++ [(v, h)]) ∧ SameEngine g g1 ∧
      ∀ x, x ≠ v → globalVertex.exists g1.gl name x = globalVertex.exists g.gl name x := by
  obtain ⟨de, hde, hname, hlinks, hstart, hV, hdn⟩ := hinv
  have hreg : mapHas g.gl (globalVertex.formatKey de.Name v) = false := by
    rw [hname]
    exact hnew
  refine ⟨{ g with
      gl := mapSet g.gl (globalVertex.formatKey de.Name v)
        { name := v, typ := .vertexNode, handler := some h, dag := none, condHandler := none },
      heap := g.heap.set addr
        (if de.StartVertex = "" then
          { de with Vertex := mapSet de.Vertex v makeNodeVertexInfo, StartVertex := v }
         else { de with Vertex := mapSet de.Vertex v makeNodeVertexInfo }) }, ?_, ?_, ?_, ?_⟩
  · simp only [flow.applyOp, hde, dagEntity.Node, globalVertex.register, hreg,
      Bool.false_eq_true, if_false]
  · refine ⟨_, heap_get_set _ _ _ _ hde, ?_, ?_, ?_, ?_, ?_⟩
    · by_cases hs : de.StartVertex = "" <;> simp [hs, hname]
    · by_cases hs : de.StartVertex = "" <;> simp [hs, hlinks]
    · cases done with
      | nil =>
        have hs : de.StartVertex = "" := by simpa using hstart
        simp [hs]
      | cons d0 dtl =>
        have hs : de.StartVertex = d0.1 := by simpa using hstart
        have hne : d0.1 ≠ "" := (hdone d0 (List.mem_cons_self _ _)).1
        simp [hne, hs]
    · intro kv hkv
      have hkv' : kv ∈ mapSet de.Vertex v makeNodeVertexInfo := by
        by_cases hs : de.StartVertex = "" <;> simpa [hs] using hkv
      rcases mem_mapSet _ _ _ _ hkv' with hm | hm
      · obtain ⟨h1, h2⟩ := hV kv hm
        exact ⟨by simp only [List.map_append, List.mem_append]; exact Or.inl h1, h2⟩
      · subst hm
        exact ⟨List.mem_map.mpr ⟨(v, h), List.mem_append.mpr (Or.inr (List.mem_singleton.mpr rfl)),
          rfl⟩, rfl⟩
    · intro x hx
      have hVx : ∀ y, mapHas (if de.StartVertex = "" then
            { de with Vertex := mapSet de.Vertex v makeNodeVertexInfo, StartVertex := v }
           else { de with Vertex := mapSet de.Vertex v makeNodeVertexInfo }).Vertex y = true ↔
          (y = v ∨ mapHas de.Vertex y = true) := by
        intro y
        by_cases hs : de.StartVertex = "" <;> simp only [hs, if_true, if_false] <;>
          exact mapHas_mapSet _ _ _ _
      rcases List.mem_append.mp hx with hx1 | hx1
      · obtain ⟨h1, e, he, ht, hh⟩ := hdn x hx1
        refine ⟨(hVx x.1).mpr (Or.inr h1), e, ?_, ht, hh⟩
        simp only [globalVertex.get]
        rw [mapGet_mapSet_ne]
        · exact he
        · intro hk
          rw [hname] at hk
          exact (hdone x hx1).2 (formatKey_inj _ _ _ hk)
      · simp only [List.mem_singleton] at hx1
        subst hx1
        refine ⟨(hVx v).mpr (Or.inl rfl),
          { name := v, typ := .vertexNode, handler := some h, dag := none, condHandler := none },
          ?_, rfl, rfl⟩
        simp only [globalVertex.get]
        rw [← hname]
        exact mapGet_mapSet_same _ _ _
  · exact ⟨rfl, rfl, rfl, rfl, rfl, rfl, by simp⟩
  · intro x hx
    simp only [globalVertex.exists]
    cases hb : mapHas g.gl (globalVertex.formatKey name x) with
    | true =>
      rw [mapHas_mapSet]
      exact Or.inr hb
    | false =>
      by_contra hc
      have hc' : mapHas (mapSet g.gl (globalVertex.formatKey de.Name v)
          { name := v, typ := .vertexNode, handler := some h, dag := none, condHandler := none })
          (globalVertex.formatKey name x) = true := by
        simpa using hc
      rw [mapHas_mapSet] at hc'
      rcases hc' with h1 | h1
      · rw [hname] at h1
        exact hx (formatKey_inj _ _ _ h1)
      · rw [hb] at h1
        cases h1

theorem SameEngine.andThen {f g k : flow} (h1 : SameEngine f g) (h2 : SameEngine g k) :
    SameEngine f k :=
  ⟨h2.1.trans h1.1, h2.2.1.trans h1.2.1, h2.2.2.1.trans h1.2.2.1, h2.2.2.2.1.trans h1.2.2.2.1,
    h2.2.2.2.2.1.trans h1.2.2.2.2.1, h2.2.2.2.2.2.1.trans h1.2.2.2.2.2.1,
    h2.2.2.2.2.2.2.trans h1.2.2.2.2.2.2⟩

/-- The `Node` calls of a linear DAG, one after the other. -/
theorem nodes_declared (fuel addr : Nat) (name : String) (rest : List BuilderOp) :
    ∀ (todo done : List (String × NodeHandler)) (g : flow),
      NodesDeclared g addr name done →
      (∀ v ∈ todo, globalVertex.exists g.gl name v.1 = false) →
      ((done ++ todo).map Prod.fst).Nodup → (∀ v ∈ done ++ todo, v.1 ≠ "") →
      ∃ g1, (DAGHandler.steps (todo.map (fun v => BuilderOp.Node v.1 (some v.2)) ++ rest)).run
            fuel addr g
          = (DAGHandler.steps rest).run fuel addr g1 ∧
        NodesDeclared g1 addr name (done ++ todo) ∧ SameEngine g g1 := by
  intro todo
  induction todo with
  | nil =>
    intro done g hinv _ _ _
    exact ⟨g, rfl, by simpa using hinv, rfl, rfl, rfl, rfl, rfl, rfl, rfl⟩
  | cons hd tl ih =>
    intro done g hinv hnew hnd hne
    obtain ⟨v, h⟩ := hd
    have hnd2 : ((done.map Prod.fst) ++ v :: tl.map Prod.fst).Nodup := by
      simpa using hnd
    have hdone : ∀ x ∈ done, x.1 ≠ "" ∧ x.1 ≠ v := by
      intro x hx
      refine ⟨hne x (List.mem_append.mpr (Or.inl hx)), ?_⟩
      intro e
      have h1 : x.1 ∈ done.map Prod.fst := List.mem_map.mpr ⟨x, hx, rfl⟩
      have h2 := (List.nodup_append.mp hnd2).2.2
      exact h2 h1 (by rw [e]; exact List.mem_cons_self _ _)
    obtain ⟨g1, happly, hinv1, hsame1, hex1⟩ := applyOp_node g fuel addr name done v h hinv
      (hnew (v, h) (List.mem_cons_self _ _)) hdone
    have hvtl : ∀ x ∈ tl, x.1 ≠ v := by
      intro x hx e
      have h2 := ((List.nodup_append.mp hnd2).2.1)
      simp only [List.nodup_cons] at h2
      exact h2.1 (by rw [← e]; exact List.mem_map.mpr ⟨x, hx, rfl⟩)
    have happ : done ++ [(v, h)] ++ tl = done ++ (v, h) :: tl := by
      rw [List.append_assoc]
      rfl
    obtain ⟨g2, hrun2, hinv2, hsame2⟩ := ih (done ++ [(v, h)]) g1 hinv1
      (fun x hx => by
        rw [hex1 x.1 (hvtl x hx)]
        exact hnew x (List.mem_cons_of_mem _ hx))
      (by rw [happ]; exact hnd) (by rw [happ]; exact hne)
    rw [happ] at hinv2
    refine ⟨g2, ?_, hinv2, hsame1.andThen hsame2⟩
    simp only [List.map_cons, List.cons_append]
    rw [steps_cons_run fuel addr _ _ g g1 happly]
    exact hrun2

/-- The `Edge` calls of a chain whose vertices are declared nodes without a
link, none of them after the first being the start vertex. -/
theorem edges_linked (fuel addr : Nat) (name : String) :
    ∀ (names : List String) (g : flow) (de : dagExecutePlan),
      g.heap.get? addr = some de → de.Name = name → names.Nodup →
      (∀ x ∈ names, mapGet de.Links x = none) →
      (∀ x ∈ names, ∃ e, globalVertex.get g.gl name x = some e ∧ e.typ = .vertexNode) →
      (∀ x ∈ names.tail, x ≠ de.StartVertex) →
      ∃ g1 de1, (DAGHandler.steps (edgeOps names)).run (fuel + 1) addr g = some (g1, none) ∧
        g1.heap.get? addr = some de1 ∧ de1.Name = name ∧ de1.Vertex = de.Vertex ∧
        de1.StartVertex = de.StartVertex ∧ linkedChain de1.Links names ∧
        (∀ x, x ∉ names → mapGet de1.Links x = mapGet de.Links x) ∧
        g1.gl = g.gl ∧ SameEngine g g1 := by
  intro names
  induction names with
  | nil =>
    intro g de hde hname _ _ _ _
    exact ⟨g, de, rfl, hde, hname, rfl, rfl, trivial, fun _ _ => rfl, rfl,
      rfl, rfl, rfl, rfl, rfl, rfl, rfl⟩
  | cons a tl ih =>
    intro g de hde hname hnd hnone hgl hstart
    cases tl with
    | nil =>
      exact ⟨g, de, rfl, hde, hname, rfl, rfl, hnone a (List.mem_singleton.mpr rfl),
        fun _ _ => rfl, rfl, rfl, rfl, rfl, rfl, rfl, rfl, rfl⟩
    | cons b tl2 =>
      have hnd0 := hnd
      rw [List.nodup_cons] at hnd
      obtain ⟨ea, hea, hta⟩ := hgl a (List.mem_cons_self _ _)
      obtain ⟨eb, heb, _⟩ := hgl b (by simp)
      have hab : a ≠ b := fun e => hnd.1 (by rw [e]; exact List.mem_cons_self _ _)
      have hexb : globalVertex.exists g.gl de.Name b = true := by
        rw [hname]
        simp only [globalVertex.exists, mapHas]
        rw [show mapGet g.gl (globalVertex.formatKey name b) = some eb from heb]
        rfl
      have hbs : b ≠ de.StartVertex := hstart b (by simp)
      have hea2 : globalVertex.get g.gl de.Name a = some ea := by rw [hname]; exact hea
      have happly : g.applyOp (fuel + 1) addr (.Edge a b)
          = some ({ g with heap := g.heap.set addr { de with Links := mapSet de.Links a b } },
              none) := by
        simp only [flow.applyOp, hde, dagEntity.Edge, hnone a (List.mem_cons_self _ _), hea2, hta,
          hexb, checkLinkValid, hnone b (List.mem_cons_of_mem _ (List.mem_cons_self _ _)), hbs,
          reduceCtorEq, if_false, Bool.not_true, Bool.false_eq_true]
      obtain ⟨g1, de1, hrun1, hde1, hname1, hV1, hS1, hchain1, hframe1, hgl1, hsame1⟩ :=
        ih { g with heap := g.heap.set addr { de with Links := mapSet de.Links a b } }
          { de with Links := mapSet de.Links a b } (heap_get_set _ _ _ _ hde) hname hnd.2
          (fun x hx => by
            have hxa : x ≠ a := fun e => hnd.1 (by rw [← e]; exact hx)
            simp only
            rw [mapGet_mapSet_ne _ _ _ _ hxa]
            exact hnone x (List.mem_cons_of_mem _ hx))
          (fun x hx => hgl x (List.mem_cons_of_mem _ hx))
          (fun x hx => hstart x (by
            simp only [List.tail_cons] at hx ⊢
            exact List.mem_cons_of_mem _ hx))
      refine ⟨g1, de1, ?_, hde1, hname1, hV1, hS1, ⟨?_, hchain1⟩, ?_, hgl1, ?_⟩
      · simp only [edgeOps]
        rw [steps_cons_run (fuel + 1) addr _ _ g _ happly]
        exact hrun1
      · rw [hframe1 a hnd.1]
        exact mapGet_mapSet_same _ _ _
      · intro x hx
        simp only [List.mem_cons, not_or] at hx
        rw [hframe1 x (by simp only [List.mem_cons, not_or]; exact hx.2)]
        exact mapGet_mapSet_ne _ _ _ _ hx.1
      · have h0 : SameEngine g
            { g with heap := g.heap.set addr { de with Links := mapSet de.Links a b } } :=
          ⟨rfl, rfl, rfl, rfl, rfl, rfl, by simp⟩
        exact h0.andThen hsame1

/-- The registration of a linear DAG by `Node` and `Edge` calls: the engine
files the plan of a linear DAG under the name and is otherwise as before. -/
theorem RegisterDAG_linear (f : flow) (fuel : Nat) (name : String)
    (vs : List (String × NodeHandler))
    (hrunning : f.running = true) (hne : vs ≠ []) (hnd : (vs.map Prod.fst).Nodup)
    (hnames : ∀ v ∈ vs, v.1 ≠ "")
    (hfresh : ∀ v ∈ vs, globalVertex.exists f.gl name v.1 = false) :
    ∃ f1 addr plan, f.RegisterDAG (fuel + 1) name (linearDAG vs) = some (f1, none) ∧
      f1.getDAG name = some addr ∧ f1.heap.get? addr = some plan ∧ plan.Name = name ∧
      LinearPlan f1.gl plan vs ∧ f1.running = true ∧ f1.store = f.store ∧ f1.calls = f.calls ∧
      f1.concurrency = f.concurrency ∧ f1.batchRunner = f.batchRunner := by
  have hinit : NodesDeclared { f with heap := f.heap ++ [newDAGEntity name] } f.heap.length name
      [] := by
    refine ⟨newDAGEntity name, by simp, rfl, rfl, rfl, ?_, ?_⟩
    · intro kv hkv
      simp [newDAGEntity] at hkv
    · intro v hv
      cases hv
  obtain ⟨g1, hrun1, hdecl, hsame1⟩ := nodes_declared (fuel + 1) f.heap.length name
    (edgeOps (vs.map Prod.fst)) vs [] { f with heap := f.heap ++ [newDAGEntity name] } hinit
    hfresh (by rw [List.nil_append]; exact hnd) (by rw [List.nil_append]; exact hnames)
  simp only [List.nil_append] at hdecl
  obtain ⟨de, hde, hname, hlinks, hstart, hV, hdn⟩ := hdecl
  have htail : ∀ x ∈ (vs.map Prod.fst).tail, x ≠ de.StartVertex := by
    rw [hstart]
    cases hvs : vs.map Prod.fst with
    | nil => intro x hx; simp at hx
    | cons a tl =>
      rw [hvs] at hnd
      simp only [List.nodup_cons] at hnd
      intro x hx e
      simp only [List.tail_cons, List.head?_cons, Option.getD_some] at hx e
      exact hnd.1 (e ▸ hx)
  obtain ⟨g2, de2, hrun2, hde2, hname2, hV2, hS2, hchain, _, hgl2, hsame2⟩ :=
    edges_linked fuel f.heap.length name (vs.map Prod.fst) g1 de hde hname hnd
      (fun x _ => by rw [hlinks]; rfl)
      (fun x hx => by
        obtain ⟨v, hv, hv1⟩ := List.mem_map.mp hx
        obtain ⟨_, e, he, ht, _⟩ := hdn v hv
        exact ⟨e, by rw [← hv1]; exact he, ht⟩)
      htail
  have hsame := hsame1.andThen hsame2
  obtain ⟨hr, hst, hc, hcc, hb, _, _⟩ := hsame
  refine ⟨{ g2 with dagEntities := mapSet g2.dagEntities name f.heap.length }, f.heap.length, de2,
    ?_, mapGet_mapSet_same _ _ _, hde2, hname2, ?_, hr.trans hrunning, hst, hc, hcc, hb⟩
  · rw [hrun2] at hrun1
    unfold flow.RegisterDAG
    simp only [hrunning, Bool.not_true, Bool.false_eq_true, if_false, linearDAG, linearOps]
    simp only [hrunning] at hrun1
    rw [hrun1]
  · refine ⟨hne, hnd, hnames, hS2.trans hstart, ?_, ?_, hchain⟩
    · rw [hV2]
      exact hV
    · intro v hv
      obtain ⟨h1, e, he, ht, hh⟩ := hdn v hv
      rw [hV2, hname2]
      exact ⟨h1, e, by simp only [hgl2]; exact he, ht, hh⟩

/-- The run of a request on a registered plan of a linear DAG whose handlers
all return data, on an engine with no other resident request. -/
theorem linear_plan_run (f : flow) (fuel : Nat)
    (dagName requestID : String) (params : Data) (addr : Nat) (plan : dagExecutePlan)
    (vs : List (String × NodeHandler)) (ts : List Int)
    (hrunning : f.running = true) (hreg : f.getDAG dagName = some addr)
    (hplan : f.heap.get? addr = some plan) (hlin : LinearPlan f.gl plan vs)
    (hidle : f.batchRunner.runners = []) (hstore : f.store.mockErr = none)
    (hconc : 1 ≤ f.concurrency)
    (hok : ∀ v ∈ vs, ∀ ctx input, ∃ out, v.2 ctx input = .ok out)
    (hts : ∀ t ∈ ts, 0 < t) :
    ∃ f0 added, f.RunDAG (fuel + 1) dagName requestID params = some (f0, .ok ()) ∧
      (Fixture.ticks ts f0).calls
        = chainCalls requestID plan.Name (vs.take ts.length) params f.calls ∧
      (Fixture.ticks ts f0).calls = f.calls ++ added ∧
      added.map Call.vertex = (vs.take ts.length).map (fun v => [plan.Name, v.1]) ∧
      ∀ c ∈ added, c.requestID = requestID := by
  obtain ⟨f0, m, hrun, hrunners, hchain, hcalls, hstore0, hconc0⟩ :=
    RunDAG_linear f fuel dagName requestID params addr plan vs hrunning hreg hplan hlin hidle
      hstore
  obtain ⟨hne, hnd, _, _, _, _, _⟩ := id hlin
  cases vs with
  | nil => exact absurd rfl hne
  | cons hd tl =>
    obtain ⟨v, h⟩ := hd
    have hrun1 := chain_run requestID plan.Name [plan.Name] ts v h tl f0 _ m hrunners rfl
      (Or.inl rfl) rfl rfl rfl hchain hnd hstore0 (by rw [hconc0]; exact hconc) hok hts
    simp only [newContextRunner] at hrun1
    rw [hcalls] at hrun1
    obtain ⟨added, ha1, ha2, ha3⟩ := chainCalls_vertices requestID plan.Name
      (((v, h) :: tl).take ts.length) params f.calls
      (fun x hx => hok x (List.mem_of_mem_take hx))
    exact ⟨f0, added, hrun, hrun1, hrun1.trans ha1, ha2, ha3⟩

/-! ## Lemmas: the cycle check of `Edge` -/

/-- When `checkLinkValid` answers `true`, the walk has reached the target. -/
theorem checkLinkValid_true (links : List (String × String)) :
    ∀ (fuel : Nat) (a b : String), checkLinkValid links fuel a b = some true →
      Reaches links a b := by
  intro fuel
  induction fuel with
  | zero => intro a b h; simp [checkLinkValid] at h
  | succ n ih =>
    intro a b h
    unfold checkLinkValid at h
    cases hget : mapGet links a with
    | none => simp [hget] at h
    | some nxt =>
      simp only [hget] at h
      by_cases hnb : nxt = b
      · subst hnb
        exact .step hget
      · simp only [hnb, if_false] at h
        exact .next hget (ih nxt b h)

/-- When `checkLinkValid` answers `false`, no path of links leads to the target. -/
theorem checkLinkValid_false (links : List (String × String)) :
    ∀ (fuel : Nat) (a b : String), checkLinkValid links fuel a b = some false →
      ¬ Reaches links a b := by
  intro fuel
  induction fuel with
  | zero => intro a b h; simp [checkLinkValid] at h
  | succ n ih =>
    intro a b h hr
    unfold checkLinkValid at h
    cases hget : mapGet links a with
    | none =>
      cases hr with
      | step h1 => rw [hget] at h1; cases h1
      | next h1 _ => rw [hget] at h1; cases h1
    | some nxt =>
      simp only [hget] at h
      by_cases hnb : nxt = b
      · simp [hnb] at h
      · simp only [hnb, if_false] at h
        cases hr with
        | step h1 =>
          rw [hget] at h1
          exact hnb (Option.some.inj h1)
        | next h1 h2 =>
          rw [hget] at h1
          cases Option.some.inj h1
          exact ih nxt b h h2

/-- When the target can be reached, `checkLinkValid` answers `true` once the
fuel covers the path. -/
theorem checkLinkValid_of_reaches (links : List (String × String)) (a b : String)
    (h : Reaches links a b) :
    ∃ n, ∀ fuel, n ≤ fuel → checkLinkValid links fuel a b = some true := by
  induction h with
  | step h1 =>
    refine ⟨1, fun fuel hf => ?_⟩
    obtain ⟨m, rfl⟩ : ∃ m, fuel = m + 1 := ⟨fuel - 1, by omega⟩
    simp [checkLinkValid, h1]
  | @next a c b h1 _ ih =>
    obtain ⟨n, hn⟩ := ih
    refine ⟨n + 1, fun fuel hf => ?_⟩
    obtain ⟨m, rfl⟩ : ∃ m, fuel = m + 1 := ⟨fuel - 1, by omega⟩
    unfold checkLinkValid
    simp only [h1]
    by_cases hcb : c = b
    · simp [hcb]
    · simp only [hcb, if_false]
      exact hn m (by omega)

/-- On a link from a vertex to itself the walk for another target does not end. -/
theorem checkLinkValid_self_loop (links : List (String × String)) (a b : String)
    (hloop : mapGet links a = some a) (hab : a ≠ b) :
    ∀ fuel, checkLinkValid links fuel a b = none := by
  intro fuel
  induction fuel with
  | zero => rfl
  | succ n ih =>
    unfold checkLinkValid
    simp [hloop, hab, ih]

/-! ## Lemmas: a failing step of a top-level vertex -/

/-- The runner after a step in which the handler of a vertex of the top-level
DAG ended in the error `e` (returned, or recovered from a panic). -/
theorem runOnce_top_level_error (r : contextRunner) (w : World) (now : Int)
    (name : String) (path : Path) (rcMap : List (String × runContext)) (running : String)
    (nextRC : RCRef) (nextVertex : String) (n : nodeRuntime) (e : Err) (calls1 : List Call)
    (hrun : r.canRun now = true)
    (hrc : r.runningRC = some (.dag (.mk name path rcMap running nextRC nextVertex)))
    (hvertex : mapGet rcMap running = some (.node n))
    (hhandler : n.runHandler
        (((r.fc.startRecord now n.path r.currentData).enter name).1.enter n.name).1
        w.calls r.currentData = (calls1, .error e)) :
    r.runOnce w now =
      ((({ r with
            runningStatus := .Running, lastRunTime := now,
            runningRC := some (.dag (.mk name path
              (mapSet rcMap running (.node { n with FailedTimes := n.FailedTimes + 1 }))
              running nextRC nextVertex)),
            fc := (((((r.fc.startRecord now n.path r.currentData).enter name).1.enter
              n.name).1.exit).exit.endRecord w.store now [] (some (.trace e))).1 } :
            contextRunner).checkOnError (.trace e) now),
        { store := (((((r.fc.startRecord now n.path r.currentData).enter name).1.enter
              n.name).1.exit).exit.endRecord w.store now [] (some (.trace e))).2,
          calls := calls1 }, .ok ()) := by
  have hpath : (runContext.dag (.mk name path rcMap running nextRC nextVertex)).getPath
      = some n.path := by
    simp [runContext.getPath, dagRuntime.getPath, getPathRunning_of_get _ _ _ hvertex]
  have hE1 := enter_startRecord r.fc now n.path r.currentData name
  have hE2 := enter_enter_startRecord r.fc now n.path r.currentData name n.name
  have hnode : (runContext.node n).runOnce
      ((r.fc.startRecord now n.path r.currentData).enter name).1 w.calls r.currentData
      = (.node { n with FailedTimes := n.FailedTimes + 1 },
         (((r.fc.startRecord now n.path r.currentData).enter name).1.enter n.name).1.exit,
         calls1, .error e) := by
    simp only [runContext.runOnce, nodeRuntime.runOnce]
    rw [show ((r.fc.startRecord now n.path r.currentData).enter name).1.enter n.name
      = ((((r.fc.startRecord now n.path r.currentData).enter name).1.enter n.name).1, true) from
      Prod.ext rfl hE2]
    simp only [hhandler]
  have hstep : (runContext.dag (.mk name path rcMap running nextRC nextVertex)).runOnce
      (r.fc.startRecord now n.path r.currentData) w.calls r.currentData
      = (.dag (.mk name path
          (mapSet rcMap running (.node { n with FailedTimes := n.FailedTimes + 1 }))
          running nextRC nextVertex),
         ((((r.fc.startRecord now n.path r.currentData).enter name).1.enter n.name).1.exit).exit,
         calls1, .error (.trace e)) := by
    simp only [runContext.runOnce, dagRuntime.runOnce]
    rw [show (r.fc.startRecord now n.path r.currentData).enter name
      = (((r.fc.startRecord now n.path r.currentData).enter name).1, true) from
      Prod.ext rfl hE1]
    simp only [runRunning_of_get _ _ _ _ _ _ hvertex, hnode]
  exact runOnce_error r w now _ _ _ _ _ _ hrun hrc hpath hstep

/-- The flow context inside a vertex of the top-level DAG. -/
theorem enter_enter_startRecord_ctx (fc : flowContext) (now : Int) (path : Path) (input : Data)
    (name vertex : String) :
    (((fc.startRecord now path input).enter name).1.enter vertex).1.requestID = fc.requestID ∧
    (((fc.startRecord now path input).enter name).1.enter vertex).1.executePath
      = [name, vertex] := by
  simp [flowContext.startRecord, flowContext.enter, maxDepth, Path.AddString]

/-! ## Lemmas: the vertices of a compiled runtime -/

/-- The first loop of `generateRuntime` files a run context under the name of
every vertex, and under no other name. -/
theorem generateRunContexts_keys
    (gen : Nat → Path → Path → Option (Outcome dagRuntime))
    (gl : globalVertex) (dtName : String) (links : List (String × String))
    (dagPath entrypoint : Path) :
    ∀ (V : List (String × vertexInfo)) (acc rcMap : List (String × runContext)),
      generateRunContexts gen gl dtName links dagPath entrypoint V acc = some (.ok rcMap) →
      ∀ x, mapHas rcMap x = (mapHas acc x || mapHas V x) := by
  intro V
  induction V with
  | nil =>
    intro acc rcMap h x
    simp only [generateRunContexts, Option.some.injEq, Outcome.ok.injEq] at h
    subst h
    simp [mapHas, mapGet]
  | cons hd tl ih =>
    intro acc rcMap h x
    obtain ⟨vertex, info⟩ := hd
    unfold generateRunContexts at h
    cases hrc : generateRunContext gen gl dtName vertex info ((mapGet links vertex).getD "")
        dagPath entrypoint with
    | none => simp [hrc] at h
    | some out =>
      cases out with
      | error e => simp [hrc] at h
      | panic r => simp [hrc] at h
      | ok rc =>
        simp only [hrc] at h
        rw [ih _ _ h x]
        by_cases hx : vertex = x
        · subst hx
          simp [mapHas, mapGet, mapGet_mapSet_same]
        · have hx' : ¬ x = vertex := fun h => hx h.symm
          simp [mapHas, mapGet, hx, mapGet_mapSet_ne acc vertex x rc hx']

/-- The second loop of `generateRuntime` keeps the names of the map. -/
theorem delayVisits_keys (m : List (String × runContext)) :
    ∀ (l l1 : List (String × runContext)), delayVisits m l = .ok l1 →
      l1.map Prod.fst = l.map Prod.fst := by
  intro l
  induction l with
  | nil =>
    intro l1 h
    simp only [delayVisits, Outcome.ok.injEq] at h
    subst h
    rfl
  | cons hd tl ih =>
    intro l1 h
    obtain ⟨k, rc⟩ := hd
    unfold delayVisits at h
    cases hv : delayVisit m rc with
    | error e => simp [hv] at h
    | panic r => simp [hv] at h
    | ok rc1 =>
      simp only [hv] at h
      cases ht : delayVisits m tl with
      | error e => simp [ht] at h
      | panic r => simp [ht] at h
      | ok tl1 =>
        simp only [ht, Outcome.ok.injEq] at h
        subst h
        simp [ih tl1 ht]

/-- Whether a name is filed in a map depends on the names of the map only. -/
theorem mapHas_congr_keys {α β : Type} (l : List (String × α)) (l' : List (String × β))
    (h : l'.map Prod.fst = l.map Prod.fst) (x : String) : mapHas l' x = mapHas l x := by
  induction l generalizing l' with
  | nil =>
    cases l' with
    | nil => rfl
    | cons hd tl => simp at h
  | cons hd tl ih =>
    cases l' with
    | nil => simp at h
    | cons hd' tl' =>
      obtain ⟨k, v⟩ := hd
      obtain ⟨k', v'⟩ := hd'
      simp only [List.map_cons, List.cons.injEq] at h
      obtain ⟨hk, htl⟩ := h
      subst hk
      have := ih tl' htl
      simp only [mapHas, mapGet] at this ⊢
      by_cases hx : k' = x
      · simp [hx]
      · simp [hx, this]

/-- The compilation of a plan reads only what follows the first segment of
the entrypoint path. -/
theorem generateRuntime_next (heap : List dagExecutePlan) (gl : globalVertex) (fuel dt : Nat)
    (parentDAGPath e e' : Path) (h : Path.Next e = Path.Next e') :
    generateRuntime heap gl fuel dt parentDAGPath e
      = generateRuntime heap gl fuel dt parentDAGPath e' := by
  cases fuel with
  | zero => rfl
  | succ n =>
    unfold generateRuntime
    simp only [h]

/-- The first loop of `generateRuntime` reads only what follows the first
segment of the path it hands to the sub-plans. -/
theorem generateRunContexts_next (heap : List dagExecutePlan) (gl : globalVertex) (fuel : Nat)
    (dtName : String) (links : List (String × String)) (dagPath e e' : Path)
    (h : Path.Next e = Path.Next e') :
    ∀ (V : List (String × vertexInfo)) (acc : List (String × runContext)),
      generateRunContexts (generateRuntime heap gl fuel) gl dtName links dagPath e V acc
        = generateRunContexts (generateRuntime heap gl fuel) gl dtName links dagPath e' V acc := by
  intro V
  induction V with
  | nil => intro acc; rfl
  | cons hd tl ih =>
    intro acc
    obtain ⟨vertex, info⟩ := hd
    unfold generateRunContexts
    have hrc : generateRunContext (generateRuntime heap gl fuel) gl dtName vertex info
        ((mapGet links vertex).getD "") dagPath e
        = generateRunContext (generateRuntime heap gl fuel) gl dtName vertex info
            ((mapGet links vertex).getD "") dagPath e' := by
      unfold generateRunContext
      cases globalVertex.get gl dtName vertex with
      | none => rfl
      | some v =>
        simp only
        cases info.DAG with
        | none => rfl
        | some addr =>
          simp only [generateRuntime_next heap gl fuel addr dagPath e e' h]
    rw [hrc]
    cases generateRunContext (generateRuntime heap gl fuel) gl dtName vertex info
        ((mapGet links vertex).getD "") dagPath e' with
    | none => rfl
    | some out =>
      cases out with
      | ok rc => exact ih _
      | error err => rfl
      | panic r => rfl

/-- The vertex that `generateRuntime` selects is the one the claim names. -/
theorem selectedVertex_eq (plan : dagExecutePlan) (e : Path) :
    (if (Path.First (Path.Next e)).2 = true then (Path.First (Path.Next e)).1
      else plan.StartVertex) = selectedVertex plan e := by
  cases e with
  | nil => rfl
  | cons a tl =>
    cases tl with
    | nil => rfl
    | cons b tl' => rfl
/-- What `generateRuntime` returns once its two loops have succeeded. -/
theorem generateRuntime_select (heap : List dagExecutePlan) (gl : globalVertex)
    (fuel dt : Nat) (parentDAGPath e : Path) (plan : dagExecutePlan)
    (m0 m1 : List (String × runContext))
    (hplan : heap.get? dt = some plan)
    (hgen : generateRunContexts (generateRuntime heap gl fuel) gl plan.Name plan.Links
      (Path.AddString parentDAGPath plan.Name) (Path.Next e) plan.Vertex [] = some (.ok m0))
    (hdelay : delayVisits m0 m0 = .ok m1) :
    (∀ x, mapHas m1 x = mapHas plan.Vertex x) ∧
    generateRuntime heap gl (fuel + 1) dt parentDAGPath e =
      if mapHas plan.Vertex (selectedVertex plan e) = true then
        some (.ok (.mk plan.Name (Path.AddString parentDAGPath plan.Name) m1
          (selectedVertex plan e) .Termination ""))
      else some (.error (.kind .NotFound (selectedVertex plan e))) := by
  have hkeys : ∀ x, mapHas m1 x = mapHas plan.Vertex x := by
    intro x
    rw [mapHas_congr_keys m0 m1 (delayVisits_keys m0 m0 m1 hdelay) x,
      generateRunContexts_keys _ _ _ _ _ _ _ _ _ hgen x]
    simp [mapHas, mapGet]
  refine ⟨hkeys, ?_⟩
  unfold generateRuntime
  simp only [hplan, hgen, hdelay, selectedVertex_eq, hkeys]

/-- A compilation that succeeds has run its two loops. -/
theorem generateRuntime_ok_loops (heap : List dagExecutePlan) (gl : globalVertex)
    (fuel dt : Nat) (parentDAGPath e : Path) (plan : dagExecutePlan) (d : dagRuntime)
    (hplan : heap.get? dt = some plan)
    (hok : generateRuntime heap gl (fuel + 1) dt parentDAGPath e = some (.ok d)) :
    ∃ m0 m1,
      generateRunContexts (generateRuntime heap gl fuel) gl plan.Name plan.Links
        (Path.AddString parentDAGPath plan.Name) (Path.Next e) plan.Vertex [] = some (.ok m0) ∧
      delayVisits m0 m0 = .ok m1 := by
  unfold generateRuntime at hok
  simp only [hplan] at hok
  cases hgen : generateRunContexts (generateRuntime heap gl fuel) gl plan.Name plan.Links
      (Path.AddString parentDAGPath plan.Name) (Path.Next e) plan.Vertex [] with
  | none => simp [hgen] at hok
  | some out =>
    cases out with
    | error err => simp [hgen] at hok
    | panic r => simp [hgen] at hok
    | ok m0 =>
      simp only [hgen] at hok
      cases hdelay : delayVisits m0 m0 with
      | error err => simp [hdelay] at hok
      | panic r => simp [hdelay] at hok
      | ok m1 => exact ⟨m0, m1, rfl, hdelay⟩

/-! ## Lemmas: `stopWait` -/

theorem setStatus_runner (r : contextRunner) (store : memStore) (s : StatusType) :
    (r.setStatus store s).1 = { r with runningStatus := s } := rfl

theorem setStatus_store (r : contextRunner) (store : memStore) (s : StatusType) :
    (r.setStatus store s).2.1 = (({ r with runningStatus := s } : contextRunner).saveContext store).1 :=
  rfl

theorem setStatus_outcome (r : contextRunner) (store : memStore) (s : StatusType) :
    (r.setStatus store s).2.2
      = traceOutcome (({ r with runningStatus := s } : contextRunner).saveContext store).2 := rfl

/-- The loop of `stopWait` returns nil only when it started without an error. -/
theorem stopEach_ok_retErr :
    ∀ (l : List (String × contextRunner)) (store : memStore) (retErr : Option Err),
      (batchRunner.stopEach l store retErr).2.2 = .ok () → retErr = none := by
  intro l
  induction l with
  | nil =>
    intro store retErr h
    cases retErr with
    | none => rfl
    | some e => simp [batchRunner.stopEach] at h
  | cons hd tl ih =>
    intro store retErr h
    obtain ⟨key, r⟩ := hd
    unfold batchRunner.stopEach at h
    rcases hset : r.setStatus store .Paused with ⟨r1, store1, out⟩
    rw [hset] at h
    cases out with
    | panic msg => simp at h
    | ok u => exact ih _ _ h
    | error err =>
      have := ih _ _ h
      simp at this

/-- The runners after the loop of `stopWait`, when no panic ended it: every
runner is Paused and otherwise as it was. -/
theorem stopEach_runners :
    ∀ (l : List (String × contextRunner)) (store : memStore) (retErr : Option Err),
      (∀ msg, (batchRunner.stopEach l store retErr).2.2 ≠ .panic msg) →
      (batchRunner.stopEach l store retErr).1
        = l.map (fun kr => (kr.1, { kr.2 with runningStatus := .Paused })) := by
  intro l
  induction l with
  | nil =>
    intro store retErr _
    cases retErr <;> rfl
  | cons hd tl ih =>
    intro store retErr h
    obtain ⟨key, r⟩ := hd
    unfold batchRunner.stopEach at h ⊢
    have hr := setStatus_runner r store .Paused
    rcases hset : r.setStatus store .Paused with ⟨r1, store1, out⟩
    rw [hset] at h hr
    simp only at hr
    subst hr
    cases out with
    | panic msg => exact absurd rfl (h msg)
    | ok u =>
      simp only [List.map_cons]
      rw [ih store1 retErr h]
    | error err =>
      simp only [List.map_cons]
      rw [ih store1 _ h]

/-- The loop of `stopWait` leaves the rerun context of a request it does not
hold as it is. -/
theorem stopEach_rerun_other :
    ∀ (l : List (String × contextRunner)) (store : memStore) (retErr : Option Err) (id : String),
      (∀ kr ∈ l, kr.2.fc.requestID ≠ id) →
      mapGet (batchRunner.stopEach l store retErr).2.1.m (memStore.fullKey RunContextPath id)
        = mapGet store.m (memStore.fullKey RunContextPath id) := by
  intro l
  induction l with
  | nil =>
    intro store retErr id _
    cases retErr <;> rfl
  | cons hd tl ih =>
    intro store retErr id hl
    obtain ⟨key, r⟩ := hd
    have hne : id ≠ r.fc.requestID := fun e => hl (key, r) (List.mem_cons_self _ _) e.symm
    have hs := setStatus_store r store .Paused
    have hsave := saveContext_rerun_other ({ r with runningStatus := .Paused }) store id hne
    unfold batchRunner.stopEach
    rcases hset : r.setStatus store .Paused with ⟨r1, store1, out⟩
    rw [hset] at hs
    simp only at hs
    rw [← hs] at hsave
    have htl : ∀ kr ∈ tl, kr.2.fc.requestID ≠ id :=
      fun kr hkr => hl kr (List.mem_cons_of_mem _ hkr)
    cases out with
    | panic msg => exact hsave
    | ok u =>
      simp only
      rw [ih store1 retErr id htl, hsave]
    | error err =>
      simp only
      rw [ih store1 _ id htl, hsave]

/-- The loop of `stopWait` keeps the behaviour of the store. -/
theorem stopEach_mockErr :
    ∀ (l : List (String × contextRunner)) (store : memStore) (retErr : Option Err),
      (batchRunner.stopEach l store retErr).2.1.mockErr = store.mockErr := by
  intro l
  induction l with
  | nil =>
    intro store retErr
    cases retErr <;> rfl
  | cons hd tl ih =>
    intro store retErr
    obtain ⟨key, r⟩ := hd
    have hs := setStatus_store r store .Paused
    have hm := saveContext_mockErr ({ r with runningStatus := .Paused }) store
    unfold batchRunner.stopEach
    rcases hset : r.setStatus store .Paused with ⟨r1, store1, out⟩
    rw [hset] at hs
    simp only at hs
    rw [← hs] at hm
    cases out with
    | panic msg => exact hm
    | ok u =>
      simp only
      rw [ih store1 retErr, hm]
    | error err =>
      simp only
      rw [ih store1 _, hm]

/-- After a loop of `stopWait` that returns nil, the store has the rerun
context of every runner with a current vertex: Paused, at the path of that
vertex, with the data of the runner; and the store has returned no error. -/
theorem stopEach_ok_saved :
    ∀ (l : List (String × contextRunner)) (store : memStore) (retErr : Option Err),
      (∀ kr ∈ l, kr.2.fc.requestID = kr.1) → (l.map Prod.fst).Nodup →
      (batchRunner.stopEach l store retErr).2.2 = .ok () →
      ∀ kr ∈ l,
        store.mockErr = none ∧
        ∀ rc p, kr.2.runningRC = some rc → rc.getPath = some p →
          mapGet (batchRunner.stopEach l store retErr).2.1.m
              (memStore.fullKey RunContextPath kr.1)
            = some (.rerun { Status := .Paused, Entrypoint := p, Data := kr.2.currentData }) := by
  intro l
  induction l with
  | nil => intro store retErr _ _ _ kr hkr; simp at hkr
  | cons hd tl ih =>
    intro store retErr hid hnd hok kr hkr
    obtain ⟨key, r⟩ := hd
    have hrid : r.fc.requestID = key := hid (key, r) (List.mem_cons_self _ _)
    have hidtl : ∀ kr ∈ tl, kr.2.fc.requestID = kr.1 :=
      fun kr hkr => hid kr (List.mem_cons_of_mem _ hkr)
    simp only [List.map_cons, List.nodup_cons] at hnd
    have hs := setStatus_store r store .Paused
    have ho := setStatus_outcome r store .Paused
    have hm := saveContext_mockErr ({ r with runningStatus := .Paused }) store
    unfold batchRunner.stopEach at hok ⊢
    rcases hset : r.setStatus store .Paused with ⟨r1, store1, out⟩
    rw [hset] at hs ho hok
    simp only at hs ho
    rw [← hs] at hm
    cases out with
    | panic msg => simp at hok
    | error err =>
      have := stopEach_ok_retErr _ _ _ hok
      simp at this
    | ok u =>
      simp only at hok ⊢
      have hmock : store.mockErr = none := by
        cases hexp : ({ r with runningStatus := .Paused } : contextRunner).exportRerunContext with
        | ok c =>
          cases hme : store.mockErr with
          | none => rfl
          | some e =>
            cases c <;>
              simp [contextRunner.saveContext, hexp, memStore.Set, memStore.Remove, hme,
                traceResult, traceOutcome] at ho
        | error e => simp [contextRunner.saveContext, hexp, traceOutcome] at ho
        | panic msg => simp [contextRunner.saveContext, hexp, traceOutcome] at ho
      rcases List.mem_cons.mp hkr with h | h
      · subst h
        refine ⟨hmock, fun rc p hrc hp => ?_⟩
        simp only
        rw [stopEach_rerun_other tl store1 retErr key (fun kr' hkr' e => by
          have hk' : kr'.1 = key := by rw [← hidtl kr' hkr']; exact e
          exact hnd.1 (List.mem_map.mpr ⟨kr', hkr', hk'⟩))]
        have hsave := saveContext_get_some ({ r with runningStatus := .Paused }) store rc p hrc hp
        simp only [memStore.Get] at hsave
        rw [← hs] at hsave
        rw [← hrid]
        exact hsave
      · have := ih store1 retErr hidtl hnd.2 hok kr h
        exact ⟨hmock, this.2⟩

/-! ## Lemmas: store errors in a tick -/

/-- The method `exportRerunContext` returns no error. -/
theorem exportRerunContext_ne_error (r : contextRunner) (e : Err) :
    r.exportRerunContext ≠ .error e := by
  unfold contextRunner.exportRerunContext
  cases r.runningRC with
  | none => intro h; cases h
  | some rc =>
    simp only
    cases rc.getPath with
    | none => intro h; cases h
    | some p => intro h; cases h

/-- An error that `contextRunner.runOnce` returns is the error of the store,
traced by `saveContext` and by `runOnce`. -/
theorem runOnce_error_store (r : contextRunner) (w : World) (now : Int) (x : Err)
    (h : (r.runOnce w now).2.2 = .error x) :
    ∃ e, w.store.mockErr = some e ∧ x = .trace (.trace e) := by
  by_cases hrun : r.canRun now = true
  swap
  · rw [runOnce_of_not_canRun r w now (by simpa using hrun)] at h
    cases h
  cases hrc : r.runningRC with
  | none => rw [runOnce_nil r w now hrun hrc] at h; cases h
  | some rc =>
    cases hpath : rc.getPath with
    | none => rw [runOnce_nopath r w now rc hrun hrc hpath] at h; cases h
    | some path =>
      rcases hstep : rc.runOnce (r.fc.startRecord now path r.currentData) w.calls r.currentData
        with ⟨rc1, fc2, calls1, out⟩
      cases out with
      | panic msg => rw [runOnce_panic r w now rc rc1 path fc2 calls1 msg hrun hrc hpath hstep] at h; cases h
      | error err => rw [runOnce_error r w now rc rc1 path fc2 calls1 err hrun hrc hpath hstep] at h; cases h
      | ok res =>
        obtain ⟨nextRC, output⟩ := res
        rw [runOnce_ok r w now rc rc1 path fc2 calls1 nextRC output hrun hrc hpath hstep] at h
        simp only at h
        generalize hr4 : (({ r with
            runningStatus := if nextRC = .Termination then .Finished else .Running,
            lastRunTime := now, fc := (fc2.endRecord w.store now output none).1,
            currentData := output,
            runningRC := if nextRC = .Termination then none else some rc1 } :
            contextRunner).assignNextStatus) = r4 at h
        have hm := endRecord_mockErr fc2 w.store now output none
        unfold contextRunner.saveContext at h
        cases hexp : r4.exportRerunContext with
        | ok c =>
          rw [hexp] at h
          cases hme : w.store.mockErr with
          | none =>
            cases c <;>
              simp [memStore.Set, memStore.Remove, hm, hme, traceResult, traceOutcome] at h
          | some e =>
            refine ⟨e, rfl, ?_⟩
            cases c <;>
              simp [memStore.Set, memStore.Remove, hm, hme, traceResult, traceOutcome] at h <;>
              exact h.symm
        | error e => exact absurd hexp (exportRerunContext_ne_error r4 e)
        | panic msg => rw [hexp] at h; simp [traceOutcome] at h

/-- A step whose run context returns a successor is saved: with a store that
returns the error `e`, `contextRunner.runOnce` returns `e` traced twice (or
panics inside `saveContext`). -/
theorem runOnce_store_fails (r : contextRunner) (w : World) (now : Int)
    (rc rc1 : runContext) (path : Path) (fc2 : flowContext) (calls1 : List Call)
    (nextRC : RCRef) (output : Data) (e : Err)
    (hrun : r.canRun now = true)
    (hrc : r.runningRC = some rc) (hpath : rc.getPath = some path)
    (hstep : rc.runOnce (r.fc.startRecord now path r.currentData) w.calls r.currentData
      = (rc1, fc2, calls1, .ok (nextRC, output)))
    (hmock : w.store.mockErr = some e) :
    (r.runOnce w now).2.2 = .error (.trace (.trace e)) ∨
      ∃ msg, (r.runOnce w now).2.2 = .panic msg := by
  cases hout : (r.runOnce w now).2.2 with
  | panic msg => exact Or.inr ⟨msg, rfl⟩
  | error x =>
    obtain ⟨e', he', hx⟩ := runOnce_error_store r w now x hout
    rw [hmock] at he'
    cases Option.some.inj he'
    exact Or.inl (by rw [hx])
  | ok u =>
    exfalso
    rw [runOnce_ok r w now rc rc1 path fc2 calls1 nextRC output hrun hrc hpath hstep] at hout
    simp only at hout
    generalize hr4 : (({ r with
        runningStatus := if nextRC = .Termination then .Finished else .Running,
        lastRunTime := now, fc := (fc2.endRecord w.store now output none).1,
        currentData := output,
        runningRC := if nextRC = .Termination then none else some rc1 } :
        contextRunner).assignNextStatus) = r4 at hout
    have hm := endRecord_mockErr fc2 w.store now output none
    unfold contextRunner.saveContext at hout
    cases hexp : r4.exportRerunContext with
    | ok c =>
      rw [hexp] at hout
      cases c <;>
        simp [memStore.Set, memStore.Remove, hm, hmock, traceResult, traceOutcome] at hout
    | error e1 => rw [hexp] at hout; simp [traceOutcome] at hout
    | panic msg => rw [hexp] at hout; simp [traceOutcome] at hout

/-- The dispatch loop returns the first result of a step that is not nil,
traced twice when it is an error; it returns nil when every step does. -/
theorem steps_outcome (now maxRunAmount : Int) :
    ∀ (l : List (String × contextRunner)) (runAmount : Int) (w : World),
      (∀ s ∈ batchRunner.steps now maxRunAmount l runAmount w,
        s.2.2.store.mockErr = w.store.mockErr ∧
        (∀ x, (s.2.1.runOnce s.2.2 now).2.2 = .error x →
          (batchRunner.dispatch now maxRunAmount l runAmount w).2.2
            = .error (.trace (.trace x))) ∧
        (∀ msg, (s.2.1.runOnce s.2.2 now).2.2 = .panic msg →
          (batchRunner.dispatch now maxRunAmount l runAmount w).2.2 = .panic msg)) ∧
      (∀ x, (batchRunner.dispatch now maxRunAmount l runAmount w).2.2 = .error x →
        ∃ s ∈ batchRunner.steps now maxRunAmount l runAmount w, ∃ y,
          (s.2.1.runOnce s.2.2 now).2.2 = .error y ∧ x = .trace (.trace y)) := by
  intro l
  induction l with
  | nil =>
    intro runAmount w
    simp [batchRunner.steps, batchRunner.dispatch]
  | cons hd tl ih =>
    intro runAmount w
    obtain ⟨k, r⟩ := hd
    unfold batchRunner.steps batchRunner.dispatch
    by_cases hc : r.canRun now = true
    · simp only [hc, Bool.not_true, Bool.false_eq_true, if_false]
      by_cases hfull : runAmount + 1 > maxRunAmount
      · simp [hfull]
      · simp only [hfull, if_false]
        have hframe := (contextRunner_runOnce_frame r w now).2.1
        rcases hstep : r.runOnce w now with ⟨r1, w1, out⟩
        rw [hstep] at hframe
        simp only at hframe
        cases out with
        | ok u =>
          obtain ⟨ih1, ih2⟩ := ih (runAmount + 1) w1
          simp only
          constructor
          · intro s hs
            rcases List.mem_cons.mp hs with h | h
            · subst h
              refine ⟨rfl, fun x hx => ?_, fun msg hm => ?_⟩
              · have hx' : (r.runOnce w now).2.2 = .error x := hx
                rw [hstep] at hx'
                cases hx'
              · have hm' : (r.runOnce w now).2.2 = .panic msg := hm
                rw [hstep] at hm'
                cases hm'
            · obtain ⟨h1, h2, h3⟩ := ih1 s h
              exact ⟨by rw [h1, hframe], h2, h3⟩
          · intro x hx
            obtain ⟨s, hs, y, hy, hxy⟩ := ih2 x hx
            exact ⟨s, List.mem_cons_of_mem _ hs, y, hy, hxy⟩
        | error e =>
          simp only
          constructor
          · intro s hs
            simp only [List.mem_singleton] at hs
            subst hs
            refine ⟨rfl, fun x hx => ?_, fun msg hm => ?_⟩
            · have hx' : (r.runOnce w now).2.2 = .error x := hx
              rw [hstep] at hx'
              cases hx'
              rfl
            · have hm' : (r.runOnce w now).2.2 = .panic msg := hm
              rw [hstep] at hm'
              cases hm'
          · intro x hx
            refine ⟨(k, r, w), List.mem_singleton.mpr rfl, e,
              (by rw [hstep] : (r.runOnce w now).2.2 = .error e), ?_⟩
            cases hx
            rfl
        | panic msg =>
          simp only
          constructor
          · intro s hs
            simp only [List.mem_singleton] at hs
            subst hs
            refine ⟨rfl, fun x hx => ?_, fun msg' hm => ?_⟩
            · have hx' : (r.runOnce w now).2.2 = .error x := hx
              rw [hstep] at hx'
              cases hx'
            · have hm' : (r.runOnce w now).2.2 = .panic msg' := hm
              rw [hstep] at hm'
              cases hm'
              rfl
          · intro x hx
            cases hx
    · have hc' : r.canRun now = false := by simpa using hc
      simp only [hc', Bool.not_false, if_true]
      obtain ⟨ih1, ih2⟩ := ih runAmount w
      exact ⟨ih1, ih2⟩

/-- The steps of the dispatch loop are steps of resident runners that can
run, and their keys are the keys the loop dispatches. -/
theorem steps_mem (now maxRunAmount : Int) :
    ∀ (l : List (String × contextRunner)) (runAmount : Int) (w : World),
      (∀ s ∈ batchRunner.steps now maxRunAmount l runAmount w,
        (s.1, s.2.1) ∈ l ∧ s.2.1.canRun now = true) ∧
      (batchRunner.steps now maxRunAmount l runAmount w).map (fun s => s.1)
        = batchRunner.dispatched now maxRunAmount l runAmount w := by
  intro l
  induction l with
  | nil => intro runAmount w; simp [batchRunner.steps, batchRunner.dispatched]
  | cons hd tl ih =>
    intro runAmount w
    obtain ⟨k, r⟩ := hd
    unfold batchRunner.steps batchRunner.dispatched
    by_cases hc : r.canRun now = true
    · simp only [hc, Bool.not_true, Bool.false_eq_true, if_false]
      by_cases hfull : runAmount + 1 > maxRunAmount
      · simp [hfull]
      · simp only [hfull, if_false]
        rcases hstep : r.runOnce w now with ⟨r1, w1, out⟩
        cases out with
        | ok u =>
          obtain ⟨ih1, ih2⟩ := ih (runAmount + 1) w1
          simp only [List.map_cons, ih2, and_true]
          intro s hs
          rcases List.mem_cons.mp hs with h | h
          · subst h
            exact ⟨List.mem_cons_self _ _, hc⟩
          · exact ⟨List.mem_cons_of_mem _ (ih1 s h).1, (ih1 s h).2⟩
        | error e =>
          simp only [List.map_cons, List.map_nil, and_true]
          intro s hs
          simp only [List.mem_singleton] at hs
          subst hs
          exact ⟨List.mem_cons_self _ _, hc⟩
        | panic msg =>
          simp only [List.map_cons, List.map_nil, and_true]
          intro s hs
          simp only [List.mem_singleton] at hs
          subst hs
          exact ⟨List.mem_cons_self _ _, hc⟩
    · have hc' : r.canRun now = false := by simpa using hc
      simp only [hc', Bool.not_false, if_true]
      obtain ⟨ih1, ih2⟩ := ih runAmount w
      exact ⟨fun s hs => ⟨List.mem_cons_of_mem _ (ih1 s hs).1, (ih1 s hs).2⟩, ih2⟩
/-- The dispatch loop keeps the behaviour of the store. -/
theorem dispatch_mockErr (now maxRunAmount : Int) :
    ∀ (l : List (String × contextRunner)) (runAmount : Int) (w : World),
      (batchRunner.dispatch now maxRunAmount l runAmount w).2.1.store.mockErr
        = w.store.mockErr := by
  intro l
  induction l with
  | nil => intro runAmount w; rfl
  | cons hd tl ih =>
    intro runAmount w
    obtain ⟨k, r⟩ := hd
    unfold batchRunner.dispatch
    by_cases hc : r.canRun now = true
    · simp only [hc, Bool.not_true, Bool.false_eq_true, if_false]
      by_cases hfull : runAmount + 1 > maxRunAmount
      · simp [hfull]
      · simp only [hfull, if_false]
        have hframe := (contextRunner_runOnce_frame r w now).2.1
        rcases hstep : r.runOnce w now with ⟨r1, w1, out⟩
        rw [hstep] at hframe
        simp only at hframe
        cases out with
        | ok u =>
          simp only
          rw [ih (runAmount + 1) w1, hframe]
        | error e => exact hframe
        | panic msg => exact hframe
    · have hc' : r.canRun now = false := by simpa using hc
      simp only [hc', Bool.not_false, if_true]
      exact ih runAmount w

/-- A tick keeps the behaviour of the store. -/
theorem batchRunner_runOnce_store (b : batchRunner) (w : World) (now maxRunAmount : Int) :
    (b.runOnce w now maxRunAmount).2.1.store.mockErr = w.store.mockErr := by
  unfold batchRunner.runOnce
  by_cases hlen : b.runners.length = 0
  · simp [hlen]
  · simp only [hlen, if_false]
    have := dispatch_mockErr now maxRunAmount b.runners 0 w
    rcases hdisp : batchRunner.dispatch now maxRunAmount b.runners 0 w with ⟨runners1, w1, out⟩
    rw [hdisp] at this
    cases out <;> exact this

/-! ## Lemmas: the compilation of a stored plan returns -/

/-- The second loop of `generateRuntime` does not panic. -/
theorem delayVisits_no_panic (m : List (String × runContext)) :
    ∀ (l : List (String × runContext)) (msg : String), delayVisits m l ≠ .panic msg := by
  have hv : ∀ (rc : runContext) (msg : String), delayVisit m rc ≠ .panic msg := by
    intro rc msg h
    cases rc with
    | node n =>
      cases hnt : n.nodeType with
      | unset => simp [delayVisit, hnt] at h
      | node =>
        cases hr : resolveRC m n.nodeNextVertex with
        | none => simp [delayVisit, hnt, hr] at h
        | some r => simp [delayVisit, hnt, hr] at h
      | condition =>
        cases ht : resolveRC m n.condTrueVertex with
        | none => simp [delayVisit, hnt, ht] at h
        | some t =>
          cases hf : resolveRC m n.condFalseVertex with
          | none => simp [delayVisit, hnt, ht, hf] at h
          | some f => simp [delayVisit, hnt, ht, hf] at h
    | dag d =>
      obtain ⟨name, path, rcMap, running, nextRC, nextVertex⟩ := d
      cases hr : resolveRC m nextVertex <;> simp [delayVisit, hr] at h
  intro l
  induction l with
  | nil => intro msg h; cases h
  | cons hd tl ih =>
    intro msg h
    obtain ⟨k, rc⟩ := hd
    unfold delayVisits at h
    cases hd1 : delayVisit m rc with
    | panic r => exact hv rc r hd1
    | error e => rw [hd1] at h; cases h
    | ok rc1 =>
      rw [hd1] at h
      simp only at h
      cases ht : delayVisits m tl with
      | panic r => exact ih r ht
      | error e => rw [ht] at h; cases h
      | ok tl1 => rw [ht] at h; cases h

/-- The first loop of `generateRuntime` returns without a panic when the
compilation of every sub-plan does. -/
theorem generateRunContexts_returns
    (gen : Nat → Path → Path → Option (Outcome dagRuntime))
    (gl : globalVertex) (dtName : String) (links : List (String × String))
    (dagPath entrypoint : Path) :
    ∀ (V : List (String × vertexInfo)) (acc : List (String × runContext)),
      (∀ kv ∈ V, kv.2.Typ = .vertexDAG → ∃ a, kv.2.DAG = some a ∧
        ∀ p e, ∃ out, gen a p e = some out ∧ ∀ msg, out ≠ .panic msg) →
      ∃ out, generateRunContexts gen gl dtName links dagPath entrypoint V acc = some out ∧
        ∀ msg, out ≠ .panic msg := by
  intro V
  induction V with
  | nil =>
    intro acc _
    exact ⟨.ok acc, rfl, fun msg h => by cases h⟩
  | cons hd tl ih =>
    intro acc hV
    obtain ⟨vertex, info⟩ := hd
    have htl := fun acc' => ih acc' (fun kv hkv => hV kv (List.mem_cons_of_mem _ hkv))
    have hrc : ∃ out, generateRunContext gen gl dtName vertex info
        ((mapGet links vertex).getD "") dagPath entrypoint = some out ∧
        ∀ msg, out ≠ .panic msg := by
      unfold generateRunContext
      cases globalVertex.get gl dtName vertex with
      | none => exact ⟨_, rfl, fun msg h => by cases h⟩
      | some v =>
        simp only
        by_cases ht : v.typ ≠ info.Typ
        · rw [if_pos ht]
          exact ⟨_, rfl, fun msg h => by cases h⟩
        · rw [if_neg ht]
          by_cases hd : info.Typ = .vertexDAG
          · rw [if_pos hd]
            obtain ⟨a, ha, hgen⟩ := hV (vertex, info) (List.mem_cons_self _ _) hd
            simp only at ha
            rw [ha]
            simp only
            obtain ⟨out, hout, hnp⟩ := hgen dagPath entrypoint
            rw [hout]
            cases out with
            | ok d =>
              obtain ⟨name, p, m, running, nextRC, nv⟩ := d
              exact ⟨_, rfl, fun msg h => by cases h⟩
            | error e => exact ⟨_, rfl, fun msg h => by cases h⟩
            | panic r => exact absurd rfl (hnp r)
          · rw [if_neg hd]
            refine ⟨_, rfl, ?_⟩
            unfold generateNodeRunContext
            cases info.Typ <;> intro msg h <;> cases h
    obtain ⟨out, hout, hnp⟩ := hrc
    unfold generateRunContexts
    rw [hout]
    cases out with
    | ok rc => exact htl _
    | error e => exact ⟨_, rfl, fun msg h => by cases h⟩
    | panic r => exact absurd rfl (hnp r)

/-- The compilation of a plan of a heap of finite trees returns without a
panic, given fuel above the address of the plan. -/
theorem generateRuntime_returns (heap : List dagExecutePlan) (gl : globalVertex)
    (htree : PlanTree heap) :
    ∀ (fuel dt : Nat) (p e : Path), dt < fuel → dt < heap.length →
      ∃ out, generateRuntime heap gl fuel dt p e = some out ∧ ∀ msg, out ≠ .panic msg := by
  intro fuel
  induction fuel with
  | zero => intro dt p e h; omega
  | succ n ih =>
    intro dt p e hfuel hlen
    obtain ⟨plan, hplan⟩ : ∃ plan, heap.get? dt = some plan := by
      cases h : heap.get? dt with
      | none =>
        rw [List.get?_eq_none] at h
        omega
      | some plan => exact ⟨plan, rfl⟩
    have hloop := generateRunContexts_returns (generateRuntime heap gl n) gl plan.Name plan.Links
      (Path.AddString p plan.Name) (Path.Next e) plan.Vertex []
      (fun kv hkv hd => by
        obtain ⟨a, ha, hlt⟩ := htree dt plan hplan kv hkv hd
        exact ⟨a, ha, fun p' e' => ih a p' e' (by omega) (by omega)⟩)
    obtain ⟨out, hout, hnp⟩ := hloop
    unfold generateRuntime
    simp only [hplan, hout]
    cases out with
    | panic r => exact absurd rfl (hnp r)
    | error err => exact ⟨_, rfl, fun msg h => by cases h⟩
    | ok rcMap =>
      simp only
      cases hdv : delayVisits rcMap rcMap with
      | panic r => exact absurd hdv (delayVisits_no_panic rcMap rcMap r)
      | error err => exact ⟨_, rfl, fun msg h => by cases h⟩
      | ok rcMap1 =>
        simp only
        generalize (if (Path.First (Path.Next e)).2 = true then (Path.First (Path.Next e)).1
          else plan.StartVertex) = sel
        by_cases hsel : mapHas rcMap1 sel = true
        · rw [if_pos hsel]
          exact ⟨_, rfl, fun msg h => by cases h⟩
        · rw [if_neg hsel]
          exact ⟨_, rfl, fun msg h => by cases h⟩
/-! ## Lemmas: `ReloadRequests` -/

/-- The method `rerunPlan` in terms of `rerunOutcome`. -/
theorem rerunPlan_eq (f : flow) (fuel : Nat) (requestID : String) :
    f.rerunPlan fuel requestID =
      if f.batchRunner.exists requestID = true then
        some (f, .error (.kind .AlreadyExists requestID))
      else
        match f.rerunOutcome fuel requestID with
        | none => none
        | some (.ok r) =>
          some ({ f with batchRunner :=
                    { f.batchRunner with runners := mapSet f.batchRunner.runners requestID r } },
                .ok ())
        | some (.error e) => some (f, .error e)
        | some (.panic msg) => some (f, .panic msg) := by
  unfold flow.rerunPlan flow.rerunOutcome
  by_cases hex : f.batchRunner.exists requestID = true
  · simp [hex]
  · have hex' : f.batchRunner.exists requestID = false := by simpa using hex
    simp only [hex', Bool.false_eq_true, if_false]
    cases hload : f.loadPlan requestID with
    | error err => rfl
    | ok res =>
      obtain ⟨⟨heap, dag⟩, reRC⟩ := res
      cases reRC with
      | none => rfl
      | some reRC =>
        simp only [flow.launchDAG]
        cases hgen : generateRuntime heap f.gl fuel dag (NewPath []) reRC.Entrypoint with
        | none => rfl
        | some out =>
          cases out with
          | panic r => rfl
          | error err => rfl
          | ok dr =>
            have hadd : mapHas f.batchRunner.runners requestID = false := hex'
            simp [flow.startExecutePlan, batchRunner.add, hadd]

/-- What `rerunPlan` does for a request depends on the store and on the index
of vertices only. -/
theorem rerunOutcome_congr (f g : flow) (fuel : Nat) (requestID : String)
    (hstore : g.store = f.store) (hgl : g.gl = f.gl) :
    g.rerunOutcome fuel requestID = f.rerunOutcome fuel requestID := by
  unfold flow.rerunOutcome flow.loadPlan
  rw [hstore, hgl]
/-- The iteration of `reloadPlans` over distinct request ids that have no
entry yet: it changes the runner map only, adds one entry per id in the order
of the ids, and handles every id as `rerunPlan` does on the engine before
the iteration. -/
theorem reloadEach_spec (fuel : Nat) :
    ∀ (ids : List String) (g g1 : flow) (errs errs1 : List (String × Option Err)),
      ids.Nodup → (∀ id ∈ ids, mapHas errs id = false) →
      flow.reloadEach fuel ids g errs = some (g1, .ok errs1) →
      g1 = { g with batchRunner := { g.batchRunner with runners := g1.batchRunner.runners } } ∧
      errs1.map Prod.fst = errs.map Prod.fst ++ ids ∧
      (∀ k, k ∉ ids → mapGet errs1 k = mapGet errs k ∧
        mapGet g1.batchRunner.runners k = mapGet g.batchRunner.runners k) ∧
      ∀ id ∈ ids,
        (mapHas g.batchRunner.runners id = true →
          mapGet errs1 id = some (some (.trace (.kind .AlreadyExists id))) ∧
          mapGet g1.batchRunner.runners id = mapGet g.batchRunner.runners id) ∧
        (mapHas g.batchRunner.runners id = false →
          (∃ r, g.rerunOutcome fuel id = some (.ok r) ∧ mapGet errs1 id = some none ∧
            mapGet g1.batchRunner.runners id = some r) ∨
          (∃ e, g.rerunOutcome fuel id = some (.error e) ∧
            mapGet errs1 id = some (some (.trace e)) ∧
            mapGet g1.batchRunner.runners id = none)) := by
  intro ids
  induction ids with
  | nil =>
    intro g g1 errs errs1 _ _ h
    simp only [flow.reloadEach, Option.some.injEq, Prod.mk.injEq, Outcome.ok.injEq] at h
    obtain ⟨hg, he⟩ := h
    subst hg he
    refine ⟨rfl, by simp, fun k _ => ⟨rfl, rfl⟩, fun id hid => ?_⟩
    simp at hid
  | cons id tl ih =>
    intro g g1 errs errs1 hnd hfresh h
    have hidtl : id ∉ tl := (List.nodup_cons.mp hnd).1
    have hndtl : tl.Nodup := (List.nodup_cons.mp hnd).2
    have hfid : mapHas errs id = false := hfresh id (List.mem_cons_self _ _)
    have key : ∀ (g0 : flow) (entry : Option Err),
        g0 = { g with batchRunner :=
                { g.batchRunner with runners := g0.batchRunner.runners } } →
        (∀ k, k ≠ id →
          mapGet g0.batchRunner.runners k = mapGet g.batchRunner.runners k) →
        flow.reloadEach fuel tl g0 (mapSet errs id entry) = some (g1, .ok errs1) →
        (g1 = { g with batchRunner :=
                  { g.batchRunner with runners := g1.batchRunner.runners } } ∧
          errs1.map Prod.fst = errs.map Prod.fst ++ id :: tl ∧
          (∀ k, k ∉ id :: tl → mapGet errs1 k = mapGet errs k ∧
            mapGet g1.batchRunner.runners k = mapGet g.batchRunner.runners k) ∧
          ∀ x ∈ tl,
            (mapHas g.batchRunner.runners x = true →
              mapGet errs1 x = some (some (.trace (.kind .AlreadyExists x))) ∧
              mapGet g1.batchRunner.runners x = mapGet g.batchRunner.runners x) ∧
            (mapHas g.batchRunner.runners x = false →
              (∃ r, g.rerunOutcome fuel x = some (.ok r) ∧ mapGet errs1 x = some none ∧
                mapGet g1.batchRunner.runners x = some r) ∨
              (∃ e, g.rerunOutcome fuel x = some (.error e) ∧
                mapGet errs1 x = some (some (.trace e)) ∧
                mapGet g1.batchRunner.runners x = none))) ∧
        mapGet errs1 id = some entry ∧
        mapGet g1.batchRunner.runners id = mapGet g0.batchRunner.runners id := by
      intro g0 entry hg0 hrun0 hrest
      have hfresh1 : ∀ k ∈ tl, mapHas (mapSet errs id entry) k = false := by
        intro k hk
        have hne : k ≠ id := fun e => hidtl (e ▸ hk)
        have := hfresh k (List.mem_cons_of_mem _ hk)
        simp only [mapHas] at this ⊢
        rw [mapGet_mapSet_ne errs id k entry hne]
        exact this
      obtain ⟨hg, hk, hother, hids⟩ := ih g0 g1 (mapSet errs id entry) errs1 hndtl hfresh1 hrest
      have hstore0 : g0.store = g.store := by rw [hg0]
      have hgl0 : g0.gl = g.gl := by rw [hg0]
      refine ⟨⟨?_, ?_, ?_, ?_⟩, ?_, ?_⟩
      · rw [hg, hg0]
      · rw [hk, mapSet_of_not_has errs id entry hfid]
        simp
      · intro k hk'
        have hne : k ≠ id := fun e => hk' (e ▸ List.mem_cons_self _ _)
        have hnt : k ∉ tl := fun e => hk' (List.mem_cons_of_mem _ e)
        obtain ⟨h1, h2⟩ := hother k hnt
        exact ⟨by rw [h1, mapGet_mapSet_ne errs id k entry hne], by rw [h2, hrun0 k hne]⟩
      · intro x hx
        have hne : x ≠ id := fun e => hidtl (e ▸ hx)
        have hhas : mapHas g0.batchRunner.runners x = mapHas g.batchRunner.runners x := by
          simp only [mapHas, hrun0 x hne]
        obtain ⟨h1, h2⟩ := hids x hx
        rw [hhas, hrun0 x hne] at h1
        rw [hhas, rerunOutcome_congr g g0 fuel x hstore0 hgl0] at h2
        exact ⟨h1, h2⟩
      · rw [(hother id hidtl).1, mapGet_mapSet_same]
      · exact (hother id hidtl).2
    unfold flow.reloadEach at h
    rw [rerunPlan_eq] at h
    by_cases hex : g.batchRunner.exists id = true
    · rw [if_pos hex] at h
      simp only at h
      obtain ⟨⟨h1, h2, h3, h4⟩, h5, h6⟩ := key g _ rfl (fun k _ => rfl) h
      refine ⟨h1, h2, h3, fun x hx => ?_⟩
      rcases List.mem_cons.mp hx with hxid | hxtl
      · subst hxid
        refine ⟨fun _ => ⟨h5, h6⟩, fun hno => ?_⟩
        simp only [batchRunner.exists] at hex
        rw [hex] at hno
        cases hno
      · exact h4 x hxtl
    · have hex' : mapHas g.batchRunner.runners id = false := by
        simpa [batchRunner.exists] using hex
      rw [if_neg hex] at h
      cases hout : g.rerunOutcome fuel id with
      | none => rw [hout] at h; cases h
      | some out =>
        rw [hout] at h
        cases out with
        | panic msg => simp at h
        | error e =>
          simp only at h
          obtain ⟨⟨h1, h2, h3, h4⟩, h5, h6⟩ := key g _ rfl (fun k _ => rfl) h
          refine ⟨h1, h2, h3, fun x hx => ?_⟩
          rcases List.mem_cons.mp hx with hxid | hxtl
          · subst hxid
            refine ⟨fun hyes => ?_, fun _ => Or.inr ⟨e, hout, h5, ?_⟩⟩
            · rw [hex'] at hyes
              cases hyes
            · rw [h6]
              simpa [mapHas] using hex'
          · exact h4 x hxtl
        | ok r =>
          simp only at h
          obtain ⟨⟨h1, h2, h3, h4⟩, h5, h6⟩ := key
            { g with batchRunner :=
                { g.batchRunner with runners := mapSet g.batchRunner.runners id r } } _ rfl
            (fun k hk => mapGet_mapSet_ne _ _ _ _ hk) h
          refine ⟨h1, h2, h3, fun x hx => ?_⟩
          rcases List.mem_cons.mp hx with hxid | hxtl
          · subst hxid
            refine ⟨fun hyes => ?_, fun _ => Or.inl ⟨r, hout, h5, ?_⟩⟩
            · rw [hex'] at hyes
              cases hyes
            · rw [h6]
              exact mapGet_mapSet_same _ _ _
          · exact h4 x hxtl
/-- The keys `memStore.List` hands out for a prefix are the keys under which
the store holds a value for that prefix. -/
theorem mem_matchedKeys (s : memStore) (pfx id : String) :
    id ∈ s.matchedKeys pfx ↔ mapHas s.m (memStore.fullKey pfx id) = true := by
  unfold memStore.matchedKeys
  simp only [List.mem_map, List.mem_filter]
  constructor
  · rintro ⟨kv, ⟨hkv, hp⟩, hid⟩
    have hpre : (pfx ++ "|").data <+: kv.1.data := List.isPrefixOf_iff_prefix.mp hp
    have hdata : kv.1.data = (pfx ++ "|").data ++ id.data := by
      rw [← hid]
      exact (List.prefix_iff_eq_append.mp hpre).symm
    have hkey : kv.1 = memStore.fullKey pfx id := by
      apply String.ext
      rw [hdata]
      simp [memStore.fullKey, String.data_append]
    rw [← hkey]
    exact mapHas_of_mem s.m kv hkv
  · intro h
    obtain ⟨kv, hkv, hk⟩ := List.mem_map.mp (mem_of_mapHas _ _ h)
    have hdata : kv.1.data = (pfx ++ "|").data ++ id.data := by
      rw [hk]
      simp [memStore.fullKey, String.data_append]
    refine ⟨kv, ⟨hkv, ?_⟩, ?_⟩
    · rw [List.isPrefixOf_iff_prefix, hdata]
      exact List.prefix_append _ _
    · rw [hdata, List.drop_left]

/-- A store with distinct keys hands out distinct keys for a prefix. -/
theorem matchedKeys_nodup (s : memStore) (pfx : String) (h : (s.m.map Prod.fst).Nodup) :
    (s.matchedKeys pfx).Nodup := by
  unfold memStore.matchedKeys
  have hsub : ((s.m.filter (fun kv => (pfx ++ "|").data.isPrefixOf kv.1.data)).map
      Prod.fst).Nodup :=
    h.sublist ((List.filter_sublist _).map Prod.fst)
  have hcomp : (s.m.filter (fun kv => (pfx ++ "|").data.isPrefixOf kv.1.data)).map
      (fun kv => String.mk (kv.1.data.drop (pfx ++ "|").data.length))
      = ((s.m.filter (fun kv => (pfx ++ "|").data.isPrefixOf kv.1.data)).map Prod.fst).map
          (fun k => String.mk (k.data.drop (pfx ++ "|").data.length)) := by
    rw [List.map_map]
    rfl
  simp only
  rw [hcomp]
  refine List.Nodup.map_on ?_ hsub
  intro k hk k' hk' heq
  obtain ⟨kv, hkv, rfl⟩ := List.mem_map.mp hk
  obtain ⟨kv', hkv', rfl⟩ := List.mem_map.mp hk'
  have hp := List.isPrefixOf_iff_prefix.mp (List.mem_filter.mp hkv).2
  have hp' := List.isPrefixOf_iff_prefix.mp (List.mem_filter.mp hkv').2
  have hd : kv.1.data.drop (pfx ++ "|").data.length
      = kv'.1.data.drop (pfx ++ "|").data.length := by
    have := congrArg String.data heq
    exact this
  apply String.ext
  rw [← List.prefix_iff_eq_append.mp hp, ← List.prefix_iff_eq_append.mp hp', hd]

/-- The heap of a stored plan is no longer than the bound of the store. -/
theorem planBound_le (s : memStore) (k : String) (heap : List dagExecutePlan) (root : Nat)
    (h : (k, Blob.plan heap root) ∈ s.m) : heap.length ≤ s.planBound := by
  unfold memStore.planBound
  generalize s.m = m at h
  induction m with
  | nil => simp at h
  | cons hd tl ih =>
    simp only [List.map_cons, List.foldr_cons]
    rcases List.mem_cons.mp h with h1 | h1
    · subst h1
      exact le_max_left _ _
    · exact le_trans (ih h1) (le_max_right _ _)

/-- With fuel above the heaps of the stored plans, which are finite trees,
`rerunPlan` returns for every request, without a panic. -/
theorem rerunOutcome_returns (f : flow) (fuel : Nat) (requestID : String)
    (htree : ∀ kv ∈ f.store.m, ∀ heap root, kv.2 = .plan heap root →
      PlanTree heap ∧ root < heap.length)
    (hfuel : f.store.planBound ≤ fuel) :
    ∃ out, f.rerunOutcome fuel requestID = some out ∧ ∀ msg, out ≠ .panic msg := by
  unfold flow.rerunOutcome
  cases hload : f.loadPlan requestID with
  | error err => exact ⟨_, rfl, fun msg h => by cases h⟩
  | ok res =>
    obtain ⟨⟨heap, dag⟩, reRC⟩ := res
    cases reRC with
    | none => exact ⟨_, rfl, fun msg h => by cases h⟩
    | some reRC =>
      have hmem : (memStore.fullKey DAGPlanPath requestID, Blob.plan heap dag) ∈ f.store.m := by
        unfold flow.loadPlan memStore.Get at hload
        cases hme : f.store.mockErr with
        | some e => simp [hme] at hload
        | none =>
          simp only [hme] at hload
          cases hget : mapGet f.store.m (memStore.fullKey DAGPlanPath requestID) with
          | none => simp [hget] at hload
          | some b =>
            cases b with
            | rerun c => simp [hget] at hload
            | record r => simp [hget] at hload
            | plan heap' root' =>
              simp only [hget] at hload
              cases hget2 : mapGet f.store.m (memStore.fullKey RunContextPath requestID) with
              | none => simp [hget2] at hload
              | some b2 =>
                cases b2 with
                | plan h2 r2 => simp [hget2] at hload
                | record r => simp [hget2] at hload
                | rerun c =>
                  simp only [hget2, Except.ok.injEq, Prod.mk.injEq] at hload
                  obtain ⟨⟨h1, h2⟩, _⟩ := hload
                  subst h1 h2
                  exact mapGet_mem _ _ _ hget
      obtain ⟨ht, hroot⟩ := htree _ hmem heap dag rfl
      have hlen := planBound_le f.store _ heap dag hmem
      obtain ⟨out, hout, hnp⟩ := generateRuntime_returns heap f.gl ht fuel dag (NewPath [])
        reRC.Entrypoint (by omega) hroot
      simp only [hout]
      cases out with
      | panic r => exact absurd rfl (hnp r)
      | error err => exact ⟨_, rfl, fun msg h => by cases h⟩
      | ok dr => exact ⟨_, rfl, fun msg h => by cases h⟩

/-- The iteration of `reloadPlans` returns its map when `rerunPlan` returns
for every id without a panic. -/
theorem reloadEach_returns (f : flow) (fuel : Nat)
    (hall : ∀ id, ∃ out, f.rerunOutcome fuel id = some out ∧ ∀ msg, out ≠ .panic msg) :
    ∀ (ids : List String) (g : flow) (errs : List (String × Option Err)),
      g.store = f.store → g.gl = f.gl →
      ∃ g1 errs1, flow.reloadEach fuel ids g errs = some (g1, .ok errs1) := by
  intro ids
  induction ids with
  | nil => intro g errs _ _; exact ⟨g, errs, rfl⟩
  | cons id tl ih =>
    intro g errs hstore hgl
    unfold flow.reloadEach
    rw [rerunPlan_eq]
    by_cases hex : g.batchRunner.exists id = true
    · rw [if_pos hex]
      exact ih g _ hstore hgl
    · rw [if_neg hex]
      obtain ⟨out, hout, hnp⟩ := hall id
      rw [rerunOutcome_congr f g fuel id hstore hgl, hout]
      cases out with
      | panic r => exact absurd rfl (hnp r)
      | error e => exact ih g _ hstore hgl
      | ok r => exact ih _ _ hstore hgl

/-! ## Lemmas: the plans of the engine and of the store are finite trees -/

/-- The plans stay finite trees when the plan at `addr` gets vertices that
refer to plans below `addr`. -/
theorem PlanTree_set (heap : List dagExecutePlan) (addr : Nat) (de de1 : dagExecutePlan)
    (hde : heap.get? addr = some de)
    (hV : ∀ kv ∈ de1.Vertex, kv ∈ de.Vertex ∨
      (kv.2.Typ = .vertexDAG → ∃ a, kv.2.DAG = some a ∧ a < addr))
    (ht : PlanTree heap) : PlanTree (heap.set addr de1) := by
  intro i plan hget kv hkv hd
  by_cases hi : i = addr
  · subst hi
    rw [heap_get_set heap i de de1 hde] at hget
    cases Option.some.inj hget
    rcases hV kv hkv with h | h
    · exact ht i de hde kv h hd
    · exact h hd
  · have : (heap.set addr de1).get? i = heap.get? i := by
      simp [List.get?_eq_getElem?, List.getElem?_set, Ne.symm hi]
    rw [this] at hget
    exact ht i plan hget kv hkv hd

/-- A builder call keeps the plans finite trees. -/
theorem applyOp_building (g g1 : flow) (fuel addr : Nat) (op : BuilderOp) (err : Option Err)
    (h : g.applyOp fuel addr op = some (g1, err)) (hb : g.Building addr) :
    g1.Building addr := by
  obtain ⟨ht, hreg, hlen⟩ := hb
  obtain ⟨de, hde⟩ : ∃ de, g.heap.get? addr = some de := by
    cases hg : g.heap.get? addr with
    | none =>
      rw [List.get?_eq_none] at hg
      omega
    | some de => exact ⟨de, rfl⟩
  have hfin : ∀ (gl1 : globalVertex) (de1 : dagExecutePlan),
      (∀ kv ∈ de1.Vertex, kv ∈ de.Vertex ∨
        (kv.2.Typ = .vertexDAG → ∃ a, kv.2.DAG = some a ∧ a < addr)) →
      flow.Building { g with gl := gl1, heap := g.heap.set addr de1 } addr := by
    intro gl1 de1 hV
    exact ⟨PlanTree_set g.heap addr de de1 hde hV ht, hreg, by simpa using hlen⟩
  have hnew : ∀ (m : List (String × vertexInfo)) (vertex : String) (info : vertexInfo),
      (∀ kv ∈ m, kv ∈ de.Vertex) →
      (info.Typ = .vertexDAG → ∃ a, info.DAG = some a ∧ a < addr) →
      ∀ kv ∈ mapSet m vertex info, kv ∈ de.Vertex ∨
        (kv.2.Typ = .vertexDAG → ∃ a, kv.2.DAG = some a ∧ a < addr) := by
    intro m vertex info hm hinfo kv hkv
    rcases mem_mapSet _ _ _ _ hkv with h1 | h1
    · exact Or.inl (hm kv h1)
    · subst h1
      exact Or.inr hinfo
  unfold flow.applyOp at h
  rw [hde] at h
  cases op with
  | Node vertex handler =>
    simp only [Option.some.injEq, Prod.mk.injEq] at h
    obtain ⟨hg1, _⟩ := h
    subst hg1
    refine hfin _ _ ?_
    unfold dagEntity.Node
    cases handler with
    | none => exact fun kv hkv => Or.inl hkv
    | some hh =>
      simp only
      cases hreg1 : globalVertex.register g.gl de.Name vertex
          { name := vertex, typ := .vertexNode, handler := some hh, dag := none,
            condHandler := none } with
      | mk gl1 e =>
        cases e with
        | some e1 => exact fun kv hkv => Or.inl hkv
        | none =>
          simp only
          have hV := hnew de.Vertex vertex makeNodeVertexInfo (fun kv hkv => hkv)
            (fun hc => by simp [makeNodeVertexInfo] at hc)
          by_cases hs : de.StartVertex = "" <;> simpa [hs] using hV
  | SubDAG vertex dagName =>
    simp only [Option.some.injEq, Prod.mk.injEq] at h
    obtain ⟨hg1, _⟩ := h
    subst hg1
    refine hfin _ _ ?_
    unfold dagEntity.SubDAG
    cases hget : mapGet g.dagEntities dagName with
    | none => exact fun kv hkv => Or.inl hkv
    | some other =>
      simp only
      cases hreg1 : globalVertex.register g.gl de.Name vertex
          { name := vertex, typ := .vertexDAG, handler := none, dag := some other,
            condHandler := none } with
      | mk gl1 e =>
        cases e with
        | some e1 => exact fun kv hkv => Or.inl hkv
        | none =>
          simp only
          have hV := hnew de.Vertex vertex (makeDAGVertexInfo other) (fun kv hkv => hkv)
            (fun _ => ⟨other, rfl, hreg dagName other hget⟩)
          by_cases hs : de.StartVertex = "" <;> simpa [hs] using hV
  | Condition vertex trueVertex falseVertex handler =>
    simp only [Option.some.injEq, Prod.mk.injEq] at h
    obtain ⟨hg1, _⟩ := h
    subst hg1
    refine hfin _ _ ?_
    unfold dagEntity.Condition
    cases handler with
    | none => exact fun kv hkv => Or.inl hkv
    | some hh =>
      simp only
      split
      · exact fun kv hkv => Or.inl hkv
      · split
        · exact fun kv hkv => Or.inl hkv
        · cases hreg1 : globalVertex.register g.gl de.Name vertex
              { name := vertex, typ := .vertexCond, handler := none, dag := none,
                condHandler := some hh } with
          | mk gl1 e =>
            cases e with
            | some e1 => exact fun kv hkv => Or.inl hkv
            | none =>
              simp only
              have hV := hnew de.Vertex vertex (makeCondVertexInfo trueVertex falseVertex)
                (fun kv hkv => hkv) (fun hc => by simp [makeCondVertexInfo] at hc)
              split <;> simpa using hV
  | Edge frm dst =>
    cases hedge : dagEntity.Edge g.gl de fuel frm dst with
    | none => simp [hedge] at h
    | some res =>
      obtain ⟨de1, e⟩ := res
      simp only [hedge, Option.some.injEq, Prod.mk.injEq] at h
      obtain ⟨hg1, _⟩ := h
      subst hg1
      have hVe : de1.Vertex = de.Vertex := by
        unfold dagEntity.Edge at hedge
        cases hl : mapGet de.Links frm with
        | some link =>
          simp only [hl, Option.some.injEq, Prod.mk.injEq] at hedge
          rw [← hedge.1]
        | none =>
          simp only [hl] at hedge
          cases hgv : globalVertex.get g.gl de.Name frm with
          | none =>
            simp only [hgv, Option.some.injEq, Prod.mk.injEq] at hedge
            rw [← hedge.1]
          | some fv =>
            simp only [hgv] at hedge
            split at hedge
            · simp only [Option.some.injEq, Prod.mk.injEq] at hedge
              rw [← hedge.1]
            · split at hedge
              · simp only [Option.some.injEq, Prod.mk.injEq] at hedge
                rw [← hedge.1]
              · cases hc : checkLinkValid de.Links fuel dst frm with
                | none => simp [hc] at hedge
                | some b =>
                  cases b with
                  | true =>
                    simp only [hc, Option.some.injEq, Prod.mk.injEq] at hedge
                    rw [← hedge.1]
                  | false =>
                    simp only [hc, Option.some.injEq, Prod.mk.injEq] at hedge
                    rw [← hedge.1]
                    split <;> rfl
      exact ⟨PlanTree_set g.heap addr de de1 hde (fun kv hkv => Or.inl (hVe ▸ hkv)) ht, hreg,
        by simpa using hlen⟩

/-- A DAG handler keeps the plans finite trees. -/
theorem run_building (fuel addr : Nat) :
    ∀ (handler : DAGHandler) (g g1 : flow) (err : Option Err),
      handler.run fuel addr g = some (g1, err) → g.Building addr → g1.Building addr := by
  intro handler
  induction handler with
  | ret e =>
    intro g g1 err h hb
    simp only [DAGHandler.run, Option.some.injEq, Prod.mk.injEq] at h
    rw [← h.1]
    exact hb
  | call op k ih =>
    intro g g1 err h hb
    unfold DAGHandler.run at h
    cases hop : g.applyOp fuel addr op with
    | none => simp [hop] at h
    | some res =>
      obtain ⟨g0, e0⟩ := res
      simp only [hop] at h
      exact ih e0 g0 g1 err h (applyOp_building g g0 fuel addr op e0 hop hb)

/-- A new engine has finite trees: it has no plan. -/
theorem newFlow_heapTree (store : memStore) (calls : List Call) (maxNodeConcurrency : Int)
    (taskRunAsync : Bool) : (newFlow store calls maxNodeConcurrency taskRunAsync).HeapTree := by
  constructor
  · intro i plan h
    simp [newFlow] at h
  · intro name a h
    simp [newFlow, mapGet] at h

/-- `RegisterDAG` keeps the plans of the engine finite trees, whatever its
handler does and returns. -/
theorem RegisterDAG_heapTree (f f1 : flow) (fuel : Nat) (name : String) (handler : DAGHandler)
    (err : Option Err) (h : f.RegisterDAG fuel name handler = some (f1, err))
    (hf : f.HeapTree) : f1.HeapTree := by
  unfold flow.RegisterDAG at h
  cases hrun : f.running with
  | false =>
    simp only [hrun, Bool.not_false, if_true, Option.some.injEq, Prod.mk.injEq] at h
    rw [← h.1]
    exact hf
  | true =>
    simp only [hrun, Bool.not_true, Bool.false_eq_true, if_false] at h
    have hb0 : flow.Building { f with heap := f.heap ++ [newDAGEntity name] } f.heap.length := by
      refine ⟨?_, hf.2, by simp⟩
      intro i plan hget kv hkv hd
      have hget' : (f.heap ++ [newDAGEntity name]).get? i = some plan := hget
      by_cases hi : i < f.heap.length
      · have : (f.heap ++ [newDAGEntity name]).get? i = f.heap.get? i := by
          simp [List.get?_eq_getElem?, List.getElem?_append_left hi]
        rw [this] at hget'
        exact hf.1 i plan hget' kv hkv hd
      · have hi' : i = f.heap.length := by
          have hlt : i < (f.heap ++ [newDAGEntity name]).length := by
            by_contra hge
            rw [List.get?_eq_none.mpr (by omega)] at hget'
            cases hget'
          simp at hlt
          omega
        subst hi'
        have : (f.heap ++ [newDAGEntity name]).get? f.heap.length
            = some (newDAGEntity name) := by
          simp [List.get?_eq_getElem?]
        rw [this] at hget'
        have hp : plan = newDAGEntity name := (Option.some.inj hget').symm
        subst hp
        cases hkv
    cases hr : handler.run fuel f.heap.length
        { f with heap := f.heap ++ [newDAGEntity name] } with
    | none =>
      simp only [hrun] at hr
      rw [hr] at h
      cases h
    | some res =>
      obtain ⟨f2, e2⟩ := res
      have hb2 := run_building fuel f.heap.length handler _ f2 e2 hr hb0
      simp only [hrun] at hr
      rw [hr] at h
      cases e2 with
      | some e =>
        simp only [Option.some.injEq, Prod.mk.injEq] at h
        rw [← h.1]
        exact ⟨hb2.1, fun nm a ha => lt_trans (hb2.2.1 nm a ha) hb2.2.2⟩
      | none =>
        simp only [Option.some.injEq, Prod.mk.injEq] at h
        rw [← h.1]
        refine ⟨hb2.1, fun nm a ha => ?_⟩
        have ha' : mapGet (mapSet f2.dagEntities name f.heap.length) nm = some a := ha
        by_cases hn : name = nm
        · subst hn
          rw [mapGet_mapSet_same] at ha'
          cases Option.some.inj ha'
          exact hb2.2.2
        · rw [mapGet_mapSet_ne _ _ _ _ (fun e => hn e.symm)] at ha'
          exact lt_trans (hb2.2.1 nm a ha') hb2.2.2
theorem mem_mapDelete {α : Type} (m : List (String × α)) (k : String) (kv : String × α)
    (h : kv ∈ mapDelete m k) : kv ∈ m := by
  induction m with
  | nil => simp [mapDelete] at h
  | cons hd tl ih =>
    obtain ⟨k1, v1⟩ := hd
    unfold mapDelete at h
    by_cases hk : k1 = k
    · rw [if_pos hk] at h
      exact List.mem_cons_of_mem _ (ih h)
    · rw [if_neg hk] at h
      rcases List.mem_cons.mp h with h1 | h1
      · rw [h1]
        exact List.mem_cons_self _ _
      · exact List.mem_cons_of_mem _ (ih h1)

theorem noNewPlan_refl (s : memStore) : s.NoNewPlan s := fun _ hkv _ _ _ => hkv

theorem noNewPlan_trans {s s1 s2 : memStore} (h1 : s.NoNewPlan s1) (h2 : s1.NoNewPlan s2) :
    s.NoNewPlan s2 :=
  fun kv hkv heap root hp => h1 kv (h2 kv hkv heap root hp) heap root hp

/-- A store that gets no new plan keeps finite trees. -/
theorem planTrees_of_noNewPlan {s s1 : memStore} (hs : s.PlanTrees) (h : s.NoNewPlan s1) :
    s1.PlanTrees :=
  fun kv hkv heap root hp => hs kv (h kv hkv heap root hp) heap root hp

theorem set_noNewPlan (s : memStore) (pfx key : String) (v : Blob)
    (hv : ∀ heap root, v ≠ .plan heap root) : s.NoNewPlan (s.Set pfx key v).1 := by
  intro kv hkv heap root hp
  rcases mem_mapSet _ _ _ _ hkv with h | h
  · exact h
  · subst h
    exact absurd hp (hv heap root)

theorem remove_noNewPlan (s : memStore) (pfx key : String) :
    s.NoNewPlan (s.Remove pfx key).1 :=
  fun _ hkv _ _ _ => mem_mapDelete _ _ _ hkv

theorem endRecord_noNewPlan (fc : flowContext) (store : memStore) (now : Int) (output : Data)
    (err : Option Err) : store.NoNewPlan (fc.endRecord store now output err).2 := by
  unfold flowContext.endRecord
  cases fc.rcRecord with
  | none => exact noNewPlan_refl store
  | some r =>
    simp only [flowContext.saveRecord]
    exact set_noNewPlan store _ _ _ (fun heap root h => by cases h)

theorem saveContext_noNewPlan (r : contextRunner) (store : memStore) :
    store.NoNewPlan (r.saveContext store).1 := by
  unfold contextRunner.saveContext
  cases r.exportRerunContext with
  | ok c =>
    cases c with
    | none => exact remove_noNewPlan store _ _
    | some c => exact set_noNewPlan store _ _ _ (fun heap root h => by cases h)
  | error e => exact noNewPlan_refl store
  | panic msg => exact noNewPlan_refl store

/-- A step of a runner writes no plan. -/
theorem contextRunner_runOnce_noNewPlan (r : contextRunner) (w : World) (now : Int) :
    w.store.NoNewPlan (r.runOnce w now).2.1.store := by
  by_cases hrun : r.canRun now = true
  swap
  · rw [runOnce_of_not_canRun r w now (by simpa using hrun)]
    exact noNewPlan_refl _
  cases hrc : r.runningRC with
  | none =>
    rw [runOnce_nil r w now hrun hrc]
    exact noNewPlan_refl _
  | some rc =>
    cases hpath : rc.getPath with
    | none =>
      rw [runOnce_nopath r w now rc hrun hrc hpath]
      exact noNewPlan_refl _
    | some path =>
      rcases hstep : rc.runOnce (r.fc.startRecord now path r.currentData) w.calls r.currentData
        with ⟨rc1, fc2, calls1, out⟩
      cases out with
      | panic msg =>
        rw [runOnce_panic r w now rc rc1 path fc2 calls1 msg hrun hrc hpath hstep]
        exact noNewPlan_refl _
      | error err =>
        rw [runOnce_error r w now rc rc1 path fc2 calls1 err hrun hrc hpath hstep]
        exact endRecord_noNewPlan _ _ _ _ _
      | ok res =>
        obtain ⟨nextRC, output⟩ := res
        rw [runOnce_ok r w now rc rc1 path fc2 calls1 nextRC output hrun hrc hpath hstep]
        exact noNewPlan_trans (endRecord_noNewPlan _ _ _ _ _) (saveContext_noNewPlan _ _)

/-- The dispatch loop writes no plan. -/
theorem dispatch_noNewPlan (now maxRunAmount : Int) :
    ∀ (l : List (String × contextRunner)) (runAmount : Int) (w : World),
      w.store.NoNewPlan (batchRunner.dispatch now maxRunAmount l runAmount w).2.1.store := by
  intro l
  induction l with
  | nil => intro runAmount w; exact noNewPlan_refl _
  | cons hd tl ih =>
    intro runAmount w
    obtain ⟨k, r⟩ := hd
    unfold batchRunner.dispatch
    by_cases hc : r.canRun now = true
    · simp only [hc, Bool.not_true, Bool.false_eq_true, if_false]
      by_cases hfull : runAmount + 1 > maxRunAmount
      · simp only [hfull, if_true]
        exact noNewPlan_refl _
      · simp only [hfull, if_false]
        have hstep1 := contextRunner_runOnce_noNewPlan r w now
        rcases hstep : r.runOnce w now with ⟨r1, w1, out⟩
        rw [hstep] at hstep1
        cases out with
        | ok u => exact noNewPlan_trans hstep1 (ih (runAmount + 1) w1)
        | error e => exact hstep1
        | panic msg => exact hstep1
    · have hc' : r.canRun now = false := by simpa using hc
      simp only [hc', Bool.not_false, if_true]
      exact ih runAmount w

/-- A tick keeps the stored plans finite trees. -/
theorem RunOnce_planTrees (f : flow) (now : Int) (hs : f.store.PlanTrees) :
    (f.RunOnce now).1.store.PlanTrees := by
  have hd := dispatch_noNewPlan now f.concurrency f.batchRunner.runners 0
    { store := f.store, calls := f.calls }
  have hstore : (f.RunOnce now).1.store = f.store ∨
      (f.RunOnce now).1.store = (batchRunner.dispatch now f.concurrency f.batchRunner.runners 0
        { store := f.store, calls := f.calls }).2.1.store := by
    unfold flow.RunOnce batchRunner.runOnce
    by_cases hlen : f.batchRunner.runners.length = 0
    · left
      simp [hlen]
    · right
      simp only [hlen, if_false]
      rcases hdisp : batchRunner.dispatch now f.concurrency f.batchRunner.runners 0
        { store := f.store, calls := f.calls } with ⟨runners1, w1, out⟩
      cases out <;> rfl
  rcases hstore with h | h
  · rw [h]
    exact hs
  · rw [h]
    exact planTrees_of_noNewPlan hs hd

/-- What `RunDAG` leaves in the store are finite trees, and it keeps the
plans of the engine. -/
theorem RunDAG_planTrees (f f1 : flow) (fuel : Nat) (dagName requestID : String) (params : Data)
    (out : Outcome Unit) (h : f.RunDAG fuel dagName requestID params = some (f1, out))
    (hf : f.HeapTree) (hs : f.store.PlanTrees) :
    f1.store.PlanTrees ∧ f1.HeapTree := by
  have hset : ∀ dag, f.getDAG dagName = some dag →
      (f.store.Set DAGPlanPath requestID (.plan f.heap dag)).1.PlanTrees := by
    intro dag hdag kv hkv heap root hp
    rcases mem_mapSet _ _ _ _ hkv with h1 | h1
    · exact hs kv h1 heap root hp
    · subst h1
      cases hp
      exact ⟨hf.1, hf.2 dagName dag hdag⟩
  unfold flow.RunDAG at h
  cases hrun : f.running with
  | false =>
    simp only [hrun, Bool.not_false, if_true, Option.some.injEq, Prod.mk.injEq] at h
    rw [← h.1]
    exact ⟨hs, hf⟩
  | true =>
    simp only [hrun, Bool.not_true, Bool.false_eq_true, if_false] at h
    cases hdag : f.getDAG dagName with
    | none =>
      simp only [hdag, Option.some.injEq, Prod.mk.injEq] at h
      rw [← h.1]
      exact ⟨hs, hf⟩
    | some dag =>
      simp only [hdag] at h
      by_cases hex : f.hasExecutePlan requestID = true
      · simp only [hex, if_true, Option.some.injEq, Prod.mk.injEq] at h
        rw [← h.1]
        exact ⟨hs, hf⟩
      · simp only [hex, if_false, Bool.false_eq_true] at h
        unfold flow.launchDAG at h
        have hdel : ∀ (m : List (String × Blob)) (me : Option Err),
            (∀ kv ∈ m, ∀ heap root, kv.2 = .plan heap root →
              PlanTree heap ∧ root < heap.length) →
            memStore.PlanTrees
              { m := mapDelete m (memStore.fullKey DAGPlanPath requestID), mockErr := me } :=
          fun m me hm kv hkv heap root hp => hm kv (mem_mapDelete _ _ _ hkv) heap root hp
        cases hgen : generateRuntime f.heap f.gl fuel dag (NewPath []) (NewPath []) with
        | none => simp [hgen] at h
        | some res =>
          cases res with
          | panic r =>
            simp only [hgen, Option.some.injEq, Prod.mk.injEq] at h
            rw [← h.1]
            exact ⟨hs, hf⟩
          | error err =>
            cases hme : f.store.mockErr with
            | some e =>
              simp only [hgen, flow.removePlan, memStore.Remove, hme, Option.map_some',
                Option.some.injEq, Prod.mk.injEq] at h
              rw [← h.1]
              exact ⟨hdel _ _ hs, hf⟩
            | none =>
              simp only [hgen, flow.removePlan, memStore.Remove, hme, Option.map_none',
                Option.some.injEq, Prod.mk.injEq] at h
              rw [← h.1]
              exact ⟨hdel _ _ hs, hf⟩
          | ok dr =>
            have hst := hset dag hdag
            cases hme : f.store.mockErr with
            | some e =>
              simp only [hgen, flow.savePlan, flow.startExecutePlan, memStore.Set, hme,
                Option.map_some', flow.removePlan, memStore.Remove, Option.some.injEq,
                Prod.mk.injEq] at h
              rw [← h.1]
              exact ⟨hdel _ _ hst, hf⟩
            | none =>
              simp only [hgen, flow.savePlan, flow.startExecutePlan, memStore.Set, hme,
                Option.map_none'] at h hst
              have hadd : mapHas f.batchRunner.runners requestID = false := by
                simpa [flow.hasExecutePlan, batchRunner.exists] using hex
              simp only [batchRunner.add, hadd, Bool.false_eq_true, if_false, Option.some.injEq,
                Prod.mk.injEq] at h
              rw [← h.1]
              exact ⟨hst, hf⟩

/-! ## Lemmas: what a builder call does -/

/-- What a `Node` call that returns nil has done. -/
theorem Node_inv_ok (gl gl1 : globalVertex) (de de1 : dagExecutePlan) (v : String)
    (handler : Option NodeHandler) (h : dagEntity.Node gl de v handler = (gl1, de1, none)) :
    ∃ hd, handler = some hd ∧ globalVertex.exists gl de.Name v = false ∧
      gl1 = mapSet gl (globalVertex.formatKey de.Name v)
        { name := v, typ := .vertexNode, handler := some hd, dag := none, condHandler := none } ∧
      de1 = { de with Vertex := mapSet de.Vertex v makeNodeVertexInfo,
                      StartVertex := if de.StartVertex = "" then v else de.StartVertex } := by
  cases handler with
  | none => simp [dagEntity.Node] at h
  | some hd =>
    cases hk : mapHas gl (globalVertex.formatKey de.Name v) with
    | true => simp [dagEntity.Node, globalVertex.register, hk] at h
    | false =>
      simp only [dagEntity.Node, globalVertex.register, hk, Bool.false_eq_true, if_false,
        Prod.mk.injEq, and_true] at h
      refine ⟨hd, rfl, hk, h.1.symm, ?_⟩
      rw [← h.2]
      by_cases hs : de.StartVertex = "" <;> simp [hs]

/-- A `Node` call that fails has changed nothing. -/
theorem Node_inv_err (gl gl1 : globalVertex) (de de1 : dagExecutePlan) (v : String)
    (handler : Option NodeHandler) (err : Err)
    (h : dagEntity.Node gl de v handler = (gl1, de1, some err)) : gl1 = gl ∧ de1 = de := by
  cases handler with
  | none =>
    simp only [dagEntity.Node, Prod.mk.injEq] at h
    exact ⟨h.1.symm, h.2.1.symm⟩
  | some hd =>
    cases hk : mapHas gl (globalVertex.formatKey de.Name v) with
    | true =>
      simp only [dagEntity.Node, globalVertex.register, hk, if_true, Prod.mk.injEq] at h
      exact ⟨h.1.symm, h.2.1.symm⟩
    | false => simp [dagEntity.Node, globalVertex.register, hk] at h

/-- What a `SubDAG` call that returns nil has done. -/
theorem SubDAG_inv_ok (dagEntities : List (String × Nat)) (gl gl1 : globalVertex)
    (de de1 : dagExecutePlan) (v dagName : String)
    (h : dagEntity.SubDAG dagEntities gl de v dagName = (gl1, de1, none)) :
    ∃ other, mapGet dagEntities dagName = some other ∧
      globalVertex.exists gl de.Name v = false ∧
      gl1 = mapSet gl (globalVertex.formatKey de.Name v)
        { name := v, typ := .vertexDAG, handler := none, dag := some other,
          condHandler := none } ∧
      de1 = { de with Vertex := mapSet de.Vertex v (makeDAGVertexInfo other),
                      StartVertex := if de.StartVertex = "" then v else de.StartVertex } := by
  cases hg : mapGet dagEntities dagName with
  | none => simp [dagEntity.SubDAG, hg] at h
  | some other =>
    cases hk : mapHas gl (globalVertex.formatKey de.Name v) with
    | true => simp [dagEntity.SubDAG, hg, globalVertex.register, hk] at h
    | false =>
      simp only [dagEntity.SubDAG, hg, globalVertex.register, hk, Bool.false_eq_true, if_false,
        Prod.mk.injEq, and_true] at h
      refine ⟨other, rfl, hk, h.1.symm, ?_⟩
      rw [← h.2]
      by_cases hs : de.StartVertex = "" <;> simp [hs]

/-- A `SubDAG` call that fails has changed nothing. -/
theorem SubDAG_inv_err (dagEntities : List (String × Nat)) (gl gl1 : globalVertex)
    (de de1 : dagExecutePlan) (v dagName : String) (err : Err)
    (h : dagEntity.SubDAG dagEntities gl de v dagName = (gl1, de1, some err)) :
    gl1 = gl ∧ de1 = de := by
  cases hg : mapGet dagEntities dagName with
  | none =>
    simp only [dagEntity.SubDAG, hg, Prod.mk.injEq] at h
    exact ⟨h.1.symm, h.2.1.symm⟩
  | some other =>
    cases hk : mapHas gl (globalVertex.formatKey de.Name v) with
    | true =>
      simp only [dagEntity.SubDAG, hg, globalVertex.register, hk, if_true, Prod.mk.injEq] at h
      exact ⟨h.1.symm, h.2.1.symm⟩
    | false => simp [dagEntity.SubDAG, hg, globalVertex.register, hk] at h

/-- What a `Condition` call that returns nil has done. -/
theorem Condition_inv_ok (gl gl1 : globalVertex) (de de1 : dagExecutePlan) (v t f : String)
    (handler : Option BooleanHandler)
    (h : dagEntity.Condition gl de v t f handler = (gl1, de1, none)) :
    ∃ hd, handler = some hd ∧ globalVertex.exists gl de.Name t = true ∧
      globalVertex.exists gl de.Name f = true ∧ globalVertex.exists gl de.Name v = false ∧
      gl1 = mapSet gl (globalVertex.formatKey de.Name v)
        { name := v, typ := .vertexCond, handler := none, dag := none,
          condHandler := some hd } ∧
      de1 = { de with Vertex := mapSet de.Vertex v (makeCondVertexInfo t f),
                      StartVertex :=
                        if de.StartVertex = "" ∨ t = de.StartVertex ∨ f = de.StartVertex then v
                        else de.StartVertex } := by
  cases handler with
  | none => simp [dagEntity.Condition] at h
  | some hd =>
    cases ht : globalVertex.exists gl de.Name t with
    | false => simp [dagEntity.Condition, ht] at h
    | true =>
      cases hf : globalVertex.exists gl de.Name f with
      | false => simp [dagEntity.Condition, ht, hf] at h
      | true =>
        cases hk : mapHas gl (globalVertex.formatKey de.Name v) with
        | true => simp [dagEntity.Condition, ht, hf, globalVertex.register, hk] at h
        | false =>
          simp only [dagEntity.Condition, ht, hf, globalVertex.register, hk, if_false,
            Bool.not_true, Bool.false_eq_true, Prod.mk.injEq, and_true] at h
          refine ⟨hd, rfl, rfl, rfl, hk, h.1.symm, ?_⟩
          rw [← h.2]
          by_cases hs : de.StartVertex = "" ∨ t = de.StartVertex ∨ f = de.StartVertex
          · simp only [if_pos hs]
          · simp only [if_neg hs]

/-- A `Condition` call that fails has changed nothing. -/
theorem Condition_inv_err (gl gl1 : globalVertex) (de de1 : dagExecutePlan) (v t f : String)
    (handler : Option BooleanHandler) (err : Err)
    (h : dagEntity.Condition gl de v t f handler = (gl1, de1, some err)) :
    gl1 = gl ∧ de1 = de := by
  cases handler with
  | none =>
    simp only [dagEntity.Condition, Prod.mk.injEq] at h
    exact ⟨h.1.symm, h.2.1.symm⟩
  | some hd =>
    cases ht : globalVertex.exists gl de.Name t with
    | false =>
      simp only [dagEntity.Condition, ht, Bool.not_false, if_true, Prod.mk.injEq] at h
      exact ⟨h.1.symm, h.2.1.symm⟩
    | true =>
      cases hf : globalVertex.exists gl de.Name f with
      | false =>
        simp only [dagEntity.Condition, ht, hf, Bool.not_true, Bool.false_eq_true, if_false,
          Bool.not_false, if_true, Prod.mk.injEq] at h
        exact ⟨h.1.symm, h.2.1.symm⟩
      | true =>
        cases hk : mapHas gl (globalVertex.formatKey de.Name v) with
        | true =>
          simp only [dagEntity.Condition, ht, hf, globalVertex.register, hk, if_true,
            Bool.not_true, Bool.false_eq_true, if_false, Prod.mk.injEq] at h
          exact ⟨h.1.symm, h.2.1.symm⟩
        | false => simp [dagEntity.Condition, ht, hf, globalVertex.register, hk] at h

/-- What an `Edge` call that returns nil has done. -/
theorem Edge_inv_ok (gl : globalVertex) (de de1 : dagExecutePlan) (fuel : Nat)
    (frm dst : String) (h : dagEntity.Edge gl de fuel frm dst = some (de1, none)) :
    mapGet de.Links frm = none ∧
      (∃ fv, globalVertex.get gl de.Name frm = some fv ∧ fv.typ ≠ .vertexCond) ∧
      globalVertex.exists gl de.Name dst = true ∧
      checkLinkValid de.Links fuel dst frm = some false ∧
      de1 = { de with Links := mapSet de.Links frm dst,
                      StartVertex := if dst = de.StartVertex then frm else de.StartVertex } := by
  cases hl : mapGet de.Links frm with
  | some link => simp [dagEntity.Edge, hl] at h
  | none =>
    cases hg : globalVertex.get gl de.Name frm with
    | none => simp [dagEntity.Edge, hl, hg] at h
    | some fv =>
      by_cases hc : fv.typ = .vertexCond
      · simp [dagEntity.Edge, hl, hg, hc] at h
      · cases hd : globalVertex.exists gl de.Name dst with
        | false => simp [dagEntity.Edge, hl, hg, hc, hd] at h
        | true =>
          cases hw : checkLinkValid de.Links fuel dst frm with
          | none => simp [dagEntity.Edge, hl, hg, hc, hd, hw] at h
          | some b =>
            cases b with
            | true => simp [dagEntity.Edge, hl, hg, hc, hd, hw] at h
            | false =>
              simp only [dagEntity.Edge, hl, hg, hc, hd, hw, if_false, Bool.not_true,
                Bool.false_eq_true, Option.some.injEq, Prod.mk.injEq, and_true] at h
              refine ⟨rfl, ⟨fv, rfl, hc⟩, rfl, rfl, ?_⟩
              rw [← h]
              by_cases hs : dst = de.StartVertex <;> simp [hs]

/-- An `Edge` call that fails has changed nothing. -/
theorem Edge_inv_err (gl : globalVertex) (de de1 : dagExecutePlan) (fuel : Nat)
    (frm dst : String) (err : Err)
    (h : dagEntity.Edge gl de fuel frm dst = some (de1, some err)) : de1 = de := by
  cases hl : mapGet de.Links frm with
  | some link =>
    simp only [dagEntity.Edge, hl, Option.some.injEq, Prod.mk.injEq] at h
    exact h.1.symm
  | none =>
    cases hg : globalVertex.get gl de.Name frm with
    | none =>
      simp only [dagEntity.Edge, hl, hg, Option.some.injEq, Prod.mk.injEq] at h
      exact h.1.symm
    | some fv =>
      by_cases hc : fv.typ = .vertexCond
      · simp only [dagEntity.Edge, hl, hg, hc, if_true, Option.some.injEq, Prod.mk.injEq] at h
        exact h.1.symm
      · cases hd : globalVertex.exists gl de.Name dst with
        | false =>
          simp only [dagEntity.Edge, hl, hg, hc, hd, if_false, Bool.not_false, if_true,
            Option.some.injEq, Prod.mk.injEq] at h
          exact h.1.symm
        | true =>
          cases hw : checkLinkValid de.Links fuel dst frm with
          | none => simp [dagEntity.Edge, hl, hg, hc, hd, hw] at h
          | some b =>
            cases b with
            | true =>
              simp only [dagEntity.Edge, hl, hg, hc, hd, hw, if_false, Bool.not_true,
                Bool.false_eq_true, Option.some.injEq, Prod.mk.injEq] at h
              exact h.1.symm
            | false => simp [dagEntity.Edge, hl, hg, hc, hd, hw] at h
/-! ## Lemmas: the runner that a reload creates -/

/-- A compilation that succeeds has compiled a plan of the heap, and its
runtime stands at the vertex the entrypoint selects, which is a vertex of
that plan. -/
theorem generateRuntime_ok_running (heap : List dagExecutePlan) (gl : globalVertex)
    (fuel dt : Nat) (p e : Path) (d : dagRuntime)
    (h : generateRuntime heap gl fuel dt p e = some (.ok d)) :
    ∃ plan, heap.get? dt = some plan ∧ d.runningRC = selectedVertex plan e ∧
      d.name = plan.Name ∧ mapHas plan.Vertex (selectedVertex plan e) = true := by
  cases fuel with
  | zero => simp [generateRuntime] at h
  | succ n =>
    cases hp : heap.get? dt with
    | none =>
      unfold generateRuntime at h
      simp only [hp] at h
      cases h
    | some plan =>
      obtain ⟨m0, m1, hgen, hdelay⟩ := generateRuntime_ok_loops heap gl n dt p e plan d hp h
      have hsel := (generateRuntime_select heap gl n dt p e plan m0 m1 hp hgen hdelay).2
      rw [h] at hsel
      by_cases hv : mapHas plan.Vertex (selectedVertex plan e) = true
      · rw [if_pos hv] at hsel
        simp only [Option.some.injEq, Outcome.ok.injEq] at hsel
        subst hsel
        exact ⟨plan, rfl, rfl, rfl, hv⟩
      · rw [if_neg hv] at hsel
        cases hsel
/-- A call of `ReloadRequests` that returns has run the iteration of
`reloadPlans` over the listed ids. -/
theorem ReloadRequests_ok (f f1 : flow) (fuel : Nat)
    (errs : Option (List (String × Option Err))) (err : Option Err)
    (h : f.ReloadRequests fuel = some (f1, .ok (errs, err))) :
    ∃ errs0, flow.reloadEach fuel (f.store.matchedKeys RunContextPath) f []
        = some (f1, .ok errs0) ∧ errs.getD [] = errs0 ∧
      err = f.store.mockErr.map Err.trace := by
  unfold flow.ReloadRequests at h
  cases heach : flow.reloadEach fuel (f.store.matchedKeys RunContextPath) f [] with
  | none => simp [heach] at h
  | some res =>
    obtain ⟨g, out⟩ := res
    cases out with
    | panic r => simp [heach] at h
    | error e => simp [heach] at h
    | ok errs0 =>
      simp only [heach, Option.some.injEq, Prod.mk.injEq, Outcome.ok.injEq] at h
      obtain ⟨hg, he1, he2⟩ := h
      subst hg
      refine ⟨errs0, rfl, ?_, he2.symm⟩
      rw [← he1]
      by_cases hlen : errs0.length = 0
      · simp [hlen, List.length_eq_zero.mp hlen]
      · simp [hlen]

/-! ## Lemmas: properties that every builder call keeps -/

/-- The call `applyOp` is the builder call on the entity at the address. -/
theorem applyOp_eq (f : flow) (fuel addr : Nat) (op : BuilderOp) :
    f.applyOp fuel addr op =
      match f.heap.get? addr with
      | none => some (f, some (.kind .plain "no such entity"))
      | some de =>
        match op.result f.dagEntities f.gl de fuel with
        | none => none
        | some (gl1, de1, err) => some ({ f with gl := gl1, heap := f.heap.set addr de1 }, err) := by
  unfold flow.applyOp
  cases hde : f.heap.get? addr with
  | none => rfl
  | some de =>
    cases op with
    | Node v h => rfl
    | SubDAG v n => rfl
    | Condition v t e h => rfl
    | Edge frm dst =>
      simp only [BuilderOp.result]
      cases hE : dagEntity.Edge f.gl de fuel frm dst with
      | none => rfl
      | some r =>
        obtain ⟨de1, err⟩ := r
        rfl

/-- A builder call that fails leaves the builder state as it was. -/
theorem result_err (D : List (String × Nat)) (gl gl1 : globalVertex) (de de1 : dagExecutePlan)
    (fuel : Nat) (op : BuilderOp) (err : Err)
    (h : op.result D gl de fuel = some (gl1, de1, some err)) : gl1 = gl ∧ de1 = de := by
  cases op with
  | Node v hd =>
    simp only [BuilderOp.result, Option.some.injEq] at h
    exact Node_inv_err gl gl1 de de1 v hd err h
  | SubDAG v n =>
    simp only [BuilderOp.result, Option.some.injEq] at h
    exact SubDAG_inv_err D gl gl1 de de1 v n err h
  | Condition v t e hd =>
    simp only [BuilderOp.result, Option.some.injEq] at h
    exact Condition_inv_err gl gl1 de de1 v t e hd err h
  | Edge frm dst =>
    simp only [BuilderOp.result] at h
    cases hE : dagEntity.Edge gl de fuel frm dst with
    | none => simp [hE] at h
    | some r =>
      obtain ⟨de2, err2⟩ := r
      simp only [hE, Option.some.injEq, Prod.mk.injEq] at h
      obtain ⟨h1, h2, h3⟩ := h
      subst h1 h2 h3
      exact ⟨rfl, Edge_inv_err gl de de2 fuel frm dst err hE⟩

/-- A builder call keeps the name of the plan, and every entry of the index. -/
theorem result_frame (D : List (String × Nat)) (gl gl1 : globalVertex) (de de1 : dagExecutePlan)
    (fuel : Nat) (op : BuilderOp) (err : Option Err)
    (h : op.result D gl de fuel = some (gl1, de1, err)) :
    de1.Name = de.Name ∧ ∀ k e, mapGet gl k = some e → mapGet gl1 k = some e := by
  cases err with
  | some e =>
    obtain ⟨h1, h2⟩ := result_err D gl gl1 de de1 fuel op e h
    subst h1 h2
    exact ⟨rfl, fun _ _ hk => hk⟩
  | none =>
    have hgrow : ∀ (key : String) (ent : vertexEntity), mapHas gl key = false →
        ∀ k e, mapGet gl k = some e → mapGet (mapSet gl key ent) k = some e := by
      intro key ent hkey k e hk
      have hne : k ≠ key := by
        intro e1
        subst e1
        simp [mapHas, hk] at hkey
      rw [mapGet_mapSet_ne _ _ _ _ hne]
      exact hk
    cases op with
    | Node v hd =>
      simp only [BuilderOp.result, Option.some.injEq] at h
      obtain ⟨_, _, hk, hgl, hde⟩ := Node_inv_ok gl gl1 de de1 v hd h
      subst hgl hde
      exact ⟨rfl, hgrow _ _ hk⟩
    | SubDAG v n =>
      simp only [BuilderOp.result, Option.some.injEq] at h
      obtain ⟨_, _, hk, hgl, hde⟩ := SubDAG_inv_ok D gl gl1 de de1 v n h
      subst hgl hde
      exact ⟨rfl, hgrow _ _ hk⟩
    | Condition v t e hd =>
      simp only [BuilderOp.result, Option.some.injEq] at h
      obtain ⟨_, _, _, _, hk, hgl, hde⟩ := Condition_inv_ok gl gl1 de de1 v t e hd h
      subst hgl hde
      exact ⟨rfl, hgrow _ _ hk⟩
    | Edge frm dst =>
      simp only [BuilderOp.result] at h
      cases hE : dagEntity.Edge gl de fuel frm dst with
      | none => simp [hE] at h
      | some r =>
        obtain ⟨de2, err2⟩ := r
        simp only [hE, Option.some.injEq, Prod.mk.injEq] at h
        obtain ⟨h1, h2, h3⟩ := h
        subst h1 h2 h3
        obtain ⟨_, _, _, _, hde⟩ := Edge_inv_ok gl de de2 fuel frm dst hE
        subst hde
        exact ⟨rfl, fun _ _ hk => hk⟩

/-- What `applyOp` leaves as it was: the engine apart from the index and the
heap, the entries of the index, and the entities at the other addresses. -/
theorem applyOp_frame (f f1 : flow) (fuel addr : Nat) (op : BuilderOp) (err : Option Err)
    (h : f.applyOp fuel addr op = some (f1, err)) :
    SameEngine f f1 ∧ (∀ k e, mapGet f.gl k = some e → mapGet f1.gl k = some e) ∧
      (∀ i, i ≠ addr → f1.heap.get? i = f.heap.get? i) := by
  rw [applyOp_eq] at h
  cases hde : f.heap.get? addr with
  | none =>
    simp only [hde, Option.some.injEq, Prod.mk.injEq] at h
    rw [← h.1]
    exact ⟨⟨rfl, rfl, rfl, rfl, rfl, rfl, rfl⟩, fun _ _ hk => hk, fun _ _ => rfl⟩
  | some de =>
    simp only [hde] at h
    cases hr : op.result f.dagEntities f.gl de fuel with
    | none => simp [hr] at h
    | some r =>
      obtain ⟨gl1, de1, err1⟩ := r
      simp only [hr, Option.some.injEq, Prod.mk.injEq] at h
      obtain ⟨hf, he⟩ := h
      subst hf he
      refine ⟨⟨rfl, rfl, rfl, rfl, rfl, rfl, by simp⟩,
        (result_frame f.dagEntities f.gl gl1 de de1 fuel op err1 hr).2, ?_⟩
      intro i hi
      simp only [List.get?_eq_getElem?]
      exact List.getElem?_set_ne (Ne.symm hi)

/-- What the calls of a DAG handler leave as it was. -/
theorem run_frame (fuel addr : Nat) :
    ∀ (handler : DAGHandler) (g g1 : flow) (err : Option Err),
      handler.run fuel addr g = some (g1, err) →
      SameEngine g g1 ∧ (∀ k e, mapGet g.gl k = some e → mapGet g1.gl k = some e) ∧
        (∀ i, i ≠ addr → g1.heap.get? i = g.heap.get? i) := by
  intro handler
  induction handler with
  | ret e =>
    intro g g1 err h
    simp only [DAGHandler.run, Option.some.injEq, Prod.mk.injEq] at h
    rw [← h.1]
    exact ⟨⟨rfl, rfl, rfl, rfl, rfl, rfl, rfl⟩, fun _ _ hk => hk, fun _ _ => rfl⟩
  | call op k ih =>
    intro g g1 err h
    unfold DAGHandler.run at h
    cases ha : g.applyOp fuel addr op with
    | none => simp [ha] at h
    | some r =>
      obtain ⟨g2, e2⟩ := r
      simp only [ha] at h
      obtain ⟨hs1, hg1, hh1⟩ := applyOp_frame g g2 fuel addr op e2 ha
      obtain ⟨hs2, hg2, hh2⟩ := ih e2 g2 g1 err h
      exact ⟨hs1.andThen hs2, fun k e hk => hg2 k e (hg1 k e hk),
        fun i hi => (hh2 i hi).trans (hh1 i hi)⟩

/-- A property of the builder state that every builder call keeps holds for
the entity at `addr` after the calls of a DAG handler, whatever they are. -/
theorem run_invariant (Inv : globalVertex → dagExecutePlan → Prop) (fuel addr : Nat)
    (D : List (String × Nat))
    (hstep : ∀ gl de op gl1 de1 err, Inv gl de →
      BuilderOp.result D gl de fuel op = some (gl1, de1, err) → Inv gl1 de1) :
    ∀ (handler : DAGHandler) (g g1 : flow) (err : Option Err),
      handler.run fuel addr g = some (g1, err) → g.dagEntities = D →
      (∃ de, g.heap.get? addr = some de ∧ Inv g.gl de) →
      ∃ de1, g1.heap.get? addr = some de1 ∧ Inv g1.gl de1 := by
  intro handler
  induction handler with
  | ret e =>
    intro g g1 err h _ hinv
    simp only [DAGHandler.run, Option.some.injEq, Prod.mk.injEq] at h
    rw [← h.1]
    exact hinv
  | call op k ih =>
    intro g g1 err h hD hinv
    unfold DAGHandler.run at h
    cases ha : g.applyOp fuel addr op with
    | none => simp [ha] at h
    | some r =>
      obtain ⟨g2, e2⟩ := r
      simp only [ha] at h
      have hD2 : g2.dagEntities = D := by
        rw [(applyOp_frame g g2 fuel addr op e2 ha).1.2.2.2.2.2.1]
        exact hD
      refine ih e2 g2 g1 err h hD2 ?_
      obtain ⟨de, hde, hI⟩ := hinv
      rw [applyOp_eq] at ha
      simp only [hde] at ha
      cases hr : op.result g.dagEntities g.gl de fuel with
      | none => simp [hr] at ha
      | some r =>
        obtain ⟨gl1, de1, err1⟩ := r
        simp only [hr, Option.some.injEq, Prod.mk.injEq] at ha
        obtain ⟨hf, _⟩ := ha
        subst hf
        rw [hD] at hr
        exact ⟨de1, heap_get_set g.heap addr de de1 hde, hstep _ _ _ _ _ _ hI hr⟩
/-! ## Lemmas: plans that contain plans -/

/-- In a heap of finite trees a plan contains plans at lower addresses only. -/
theorem contains_lt (heap : List dagExecutePlan) (htree : PlanTree heap) (a b : Nat)
    (h : Contains heap a b) : b < a := by
  induction h with
  | direct hp hkv ht hd =>
    obtain ⟨c, hc, hlt⟩ := htree _ _ hp _ hkv ht
    rw [hd] at hc
    cases hc
    exact hlt
  | through _ _ ih1 ih2 => omega

/-- Registrations keep the plans of the engine finite trees. -/
theorem registerAll_heapTree (fuel : Nat) :
    ∀ (regs : List (String × DAGHandler)) (f f1 : flow),
      flow.registerAll fuel regs f = some f1 → f.HeapTree → f1.HeapTree := by
  intro regs
  induction regs with
  | nil =>
    intro f f1 h hf
    simp only [flow.registerAll, Option.some.injEq] at h
    rw [← h]
    exact hf
  | cons hd tl ih =>
    intro f f1 h hf
    obtain ⟨name, handler⟩ := hd
    unfold flow.registerAll at h
    cases hr : f.RegisterDAG fuel name handler with
    | none => simp [hr] at h
    | some r =>
      obtain ⟨f2, e⟩ := r
      simp only [hr] at h
      exact ih f2 f1 h (RegisterDAG_heapTree f f2 fuel name handler e hr hf)

/-- The plan `a` of the engine `selfReferring` does not compile: the
compilation of its vertex `self` compiles the plan again. -/
theorem selfReferring_never_compiles :
    ∀ (fuel : Nat) (p e : Path),
      generateRuntime Fixture.selfReferring.heap Fixture.selfReferring.gl fuel 0 p e = none := by
  have hp : Fixture.selfReferring.heap.get? 0
      = some { Name := "a", StartVertex := "x",
               Vertex := [("x", makeNodeVertexInfo), ("self", makeDAGVertexInfo 0)],
               Links := [] } := by decide!
  have hx : (globalVertex.get Fixture.selfReferring.gl "a" "x").map vertexEntity.typ
      = some .vertexNode := by decide!
  have hs : (globalVertex.get Fixture.selfReferring.gl "a" "self").map vertexEntity.typ
      = some .vertexDAG := by decide!
  generalize Fixture.selfReferring.heap = H at *
  generalize Fixture.selfReferring.gl = G at *
  intro fuel
  induction fuel with
  | zero => intro p e; rfl
  | succ n ih =>
    intro p e
    unfold generateRuntime
    simp only [hp]
    cases hgx : globalVertex.get G "a" "x" with
    | none => simp [hgx] at hx
    | some vx =>
      cases hgs : globalVertex.get G "a" "self" with
      | none => simp [hgs] at hs
      | some vs =>
        simp only [hgx, Option.map_some', Option.some.injEq] at hx
        simp only [hgs, Option.map_some', Option.some.injEq] at hs
        simp [generateRunContexts, generateRunContext, hgx, hgs, hx, hs, makeNodeVertexInfo,
          makeDAGVertexInfo, generateNodeRunContext, ih]

/-! ## Lemmas: cycles of links and the walk of the cycle check -/

/-- Reachability along links is transitive. -/
theorem reaches_trans (links : List (String × String)) (a b c : String)
    (h1 : Reaches links a b) (h2 : Reaches links b c) : Reaches links a c := by
  induction h1 with
  | step h => exact .next h h2
  | next h _ ih => exact .next h (ih h2)

/-- A path goes on along the link of its last vertex. -/
theorem reaches_snoc (links : List (String × String)) (a b c : String)
    (h1 : Reaches links a b) (h2 : mapGet links b = some c) : Reaches links a c :=
  reaches_trans links a b c h1 (.step h2)

/-- A path in the links with the new link `frm -> dst` is a path in the old
links, or goes from its source to `frm` and from `dst` to its target there. -/
theorem reaches_mapSet (links : List (String × String)) (frm dst a b : String)
    (h : Reaches (mapSet links frm dst) a b) :
    Reaches links a b ∨
      ((a = frm ∨ Reaches links a frm) ∧ (b = dst ∨ Reaches links dst b)) := by
  induction h with
  | @step a b h1 =>
    by_cases ha : a = frm
    · subst ha
      rw [mapGet_mapSet_same] at h1
      cases h1
      exact Or.inr ⟨Or.inl rfl, Or.inl rfl⟩
    · rw [mapGet_mapSet_ne _ _ _ _ ha] at h1
      exact Or.inl (.step h1)
  | @next a c b h1 _ ih =>
    by_cases ha : a = frm
    · subst ha
      rw [mapGet_mapSet_same] at h1
      cases h1
      rcases ih with h3 | ⟨_, h4⟩
      · exact Or.inr ⟨Or.inl rfl, Or.inr h3⟩
      · exact Or.inr ⟨Or.inl rfl, h4⟩
    · rw [mapGet_mapSet_ne _ _ _ _ ha] at h1
      rcases ih with h3 | ⟨h3, h4⟩
      · exact Or.inl (.next h1 h3)
      · refine Or.inr ⟨Or.inr ?_, h4⟩
        rcases h3 with h3 | h3
        · subst h3
          exact .step h1
        · exact .next h1 h3

/-- A link that `Edge` accepts closes no cycle other than the link from a
vertex to itself. -/
theorem cycles_after_edge (links : List (String × String)) (frm dst : String)
    (hinv : ∀ x, Reaches links x x → mapGet links x = some x)
    (hfrm : mapGet links frm = none) (hno : ¬ Reaches links dst frm) :
    ∀ x, Reaches (mapSet links frm dst) x x → mapGet (mapSet links frm dst) x = some x := by
  intro x hx
  rcases reaches_mapSet links frm dst x x hx with h | ⟨h1, h2⟩
  · have hself := hinv x h
    have hne : x ≠ frm := by
      intro e
      rw [e, hfrm] at hself
      cases hself
    rw [mapGet_mapSet_ne _ _ _ _ hne]
    exact hself
  · rcases h1 with h1 | h1
    · rcases h2 with h2 | h2
      · rw [h1] at h2 ⊢
        rw [mapGet_mapSet_same, ← h2]
      · rw [h1] at h2
        exact absurd h2 hno
    · rcases h2 with h2 | h2
      · rw [h2] at h1
        exact absurd h1 hno
      · exact absurd (reaches_trans links dst x frm h2 h1) hno

/-- The walk of `checkLinkValid` visits a vertex with a link once at most
when it meets no cycle. -/
theorem checkLinkValid_visits (links : List (String × String)) (b : String) :
    ∀ (fuel : Nat) (vs : List String) (c : String), vs.Nodup →
      (∀ v ∈ vs, mapHas links v = true ∧ Reaches links v c) →
      (∀ x, (x = c ∨ Reaches links c x) → ¬ Reaches links x x) →
      links.length + 1 ≤ fuel + vs.length →
      checkLinkValid links fuel c b ≠ none := by
  intro fuel
  induction fuel with
  | zero =>
    intro vs c hnd hvs _ hlen
    have hsub : vs ⊆ links.map Prod.fst := fun v hv => mem_of_mapHas links v (hvs v hv).1
    have hle : vs.length ≤ (links.map Prod.fst).length := (hnd.subperm hsub).length_le
    rw [List.length_map] at hle
    omega
  | succ n ih =>
    intro vs c hnd hvs hno hlen
    unfold checkLinkValid
    cases hget : mapGet links c with
    | none => simp
    | some nxt =>
      by_cases hb : nxt = b
      · simp [hb]
      · simp only [hb, if_false]
        have hc : c ∉ vs := by
          intro hmem
          exact hno c (Or.inl rfl) (hvs c hmem).2
        refine ih (c :: vs) nxt (List.nodup_cons.mpr ⟨hc, hnd⟩) ?_ ?_ ?_
        · intro v hv
          rcases List.mem_cons.mp hv with hv | hv
          · subst hv
            exact ⟨by simp [mapHas, hget], .step hget⟩
          · exact ⟨(hvs v hv).1, reaches_snoc links v c nxt (hvs v hv).2 hget⟩
        · intro x hx
          refine hno x (Or.inr ?_)
          rcases hx with hx | hx
          · subst hx
            exact .step hget
          · exact .next hget hx
        · simp only [List.length_cons]
          omega

/-- The walk of `checkLinkValid` from `a` returns within one iteration more
than there are links when it meets no cycle, and it returns true exactly when
it reaches `b`. -/
theorem checkLinkValid_returns (links : List (String × String)) (a b : String) (fuel : Nat)
    (hno : ∀ x, (x = a ∨ Reaches links a x) → ¬ Reaches links x x)
    (hfuel : links.length + 1 ≤ fuel) :
    ∃ r, checkLinkValid links fuel a b = some r ∧ (r = true ↔ Reaches links a b) := by
  cases h : checkLinkValid links fuel a b with
  | none =>
    exact absurd h (checkLinkValid_visits links b fuel [] a List.nodup_nil
      (fun _ hv => by cases hv) hno (by simpa using hfuel))
  | some r =>
    refine ⟨r, rfl, ?_⟩
    cases r with
    | true => simp [checkLinkValid_true links fuel a b h]
    | false => simp [checkLinkValid_false links fuel a b h]

/-- Every builder call keeps the links free of cycles other than links from a
vertex to itself. -/
theorem result_selfLoopsOnly (D : List (String × Nat)) (gl gl1 : globalVertex)
    (de de1 : dagExecutePlan) (fuel : Nat) (op : BuilderOp) (err : Option Err)
    (hinv : ∀ x, Reaches de.Links x x → mapGet de.Links x = some x)
    (h : op.result D gl de fuel = some (gl1, de1, err)) :
    ∀ x, Reaches de1.Links x x → mapGet de1.Links x = some x := by
  cases err with
  | some e =>
    rw [(result_err D gl gl1 de de1 fuel op e h).2]
    exact hinv
  | none =>
    cases op with
    | Node v hd =>
      simp only [BuilderOp.result, Option.some.injEq] at h
      obtain ⟨_, _, _, _, hde⟩ := Node_inv_ok gl gl1 de de1 v hd h
      rw [hde]
      exact hinv
    | SubDAG v n =>
      simp only [BuilderOp.result, Option.some.injEq] at h
      obtain ⟨_, _, _, _, hde⟩ := SubDAG_inv_ok D gl gl1 de de1 v n h
      rw [hde]
      exact hinv
    | Condition v t e hd =>
      simp only [BuilderOp.result, Option.some.injEq] at h
      obtain ⟨_, _, _, _, _, _, hde⟩ := Condition_inv_ok gl gl1 de de1 v t e hd h
      rw [hde]
      exact hinv
    | Edge frm dst =>
      simp only [BuilderOp.result] at h
      cases hE : dagEntity.Edge gl de fuel frm dst with
      | none => simp [hE] at h
      | some r =>
        obtain ⟨de2, err2⟩ := r
        simp only [hE, Option.some.injEq, Prod.mk.injEq] at h
        obtain ⟨_, h2, h3⟩ := h
        subst h2 h3
        obtain ⟨hfrm, _, _, hwalk, hde⟩ := Edge_inv_ok gl de de2 fuel frm dst hE
        rw [hde]
        exact cycles_after_edge de.Links frm dst hinv hfrm
          (checkLinkValid_false de.Links fuel dst frm hwalk)

/-- The entity that `RegisterDAG` has built, whatever its handler did and
returned: a property of the builder state that holds of the new entity and
that every builder call keeps. -/
theorem RegisterDAG_invariant (Inv : globalVertex → dagExecutePlan → Prop) (f f1 : flow)
    (fuel : Nat) (name : String) (handler : DAGHandler) (err : Option Err)
    (hrun : f.running = true)
    (h : f.RegisterDAG fuel name handler = some (f1, err))
    (h0 : Inv f.gl (newDAGEntity name))
    (hstep : ∀ gl de op gl1 de1 e, Inv gl de →
      BuilderOp.result f.dagEntities gl de fuel op = some (gl1, de1, e) → Inv gl1 de1) :
    ∃ de, f1.heap.get? f.heap.length = some de ∧ Inv f1.gl de := by
  unfold flow.RegisterDAG at h
  simp only [hrun, Bool.not_true, Bool.false_eq_true, if_false] at h
  cases hr : handler.run fuel f.heap.length { f with heap := f.heap ++ [newDAGEntity name] } with
  | none =>
    simp only [hrun] at hr
    rw [hr] at h
    cases h
  | some r =>
    obtain ⟨f2, e2⟩ := r
    have hres := run_invariant Inv fuel f.heap.length f.dagEntities hstep handler _ f2 e2 hr rfl
      ⟨newDAGEntity name, by simp, h0⟩
    simp only [hrun] at hr
    rw [hr] at h
    cases e2 with
    | some e =>
      simp only [Option.some.injEq, Prod.mk.injEq] at h
      rw [← h.1]
      exact hres
    | none =>
      simp only [Option.some.injEq, Prod.mk.injEq] at h
      rw [← h.1]
      exact hres
/-! ## Lemmas: declared names, references and the start vertex -/

/-- An index that keeps every entry keeps every declared name. -/
theorem exists_mono (gl gl1 : globalVertex) (hgl : ∀ k e, mapGet gl k = some e → mapGet gl1 k = some e)
    (name v : String) (h : globalVertex.exists gl name v = true) :
    globalVertex.exists gl1 name v = true := by
  simp only [globalVertex.exists, mapHas] at h ⊢
  cases hg : mapGet gl (globalVertex.formatKey name v) with
  | none => simp [hg] at h
  | some e => simp [hgl _ e hg]

/-- The plan of a new entity uses no name. -/
theorem newDAGEntity_declared (gl : globalVertex) (name : String) :
    (newDAGEntity name).Declared gl := by
  refine ⟨?_, ?_, ?_, ?_⟩
  · intro x y h
    simp [newDAGEntity, mapGet] at h
  · intro kv h
    simp [newDAGEntity] at h
  · intro h
    exact absurd rfl h
  · intro h
    exact absurd rfl h

/-- Every builder call keeps the names of the plan declared. -/
theorem result_declared (D : List (String × Nat)) (gl gl1 : globalVertex)
    (de de1 : dagExecutePlan) (fuel : Nat) (op : BuilderOp) (err : Option Err)
    (hinv : de.Declared gl) (h : op.result D gl de fuel = some (gl1, de1, err)) :
    de1.Declared gl1 := by
  cases err with
  | some e =>
    obtain ⟨h1, h2⟩ := result_err D gl gl1 de de1 fuel op e h
    rw [h1, h2]
    exact hinv
  | none =>
    have hmono := exists_mono gl gl1 (result_frame D gl gl1 de de1 fuel op none h).2 de.Name
    obtain ⟨hL, hV, hS, hN⟩ := hinv
    cases op with
    | Node v hd =>
      simp only [BuilderOp.result, Option.some.injEq] at h
      obtain ⟨hd', _, hk, hgl, hde⟩ := Node_inv_ok gl gl1 de de1 v hd h
      have hv : globalVertex.exists gl1 de.Name v = true := by
        rw [hgl]
        simp [globalVertex.exists, mapHas, mapGet_mapSet_same]
      subst hde
      refine ⟨fun x y hxy => ⟨hmono x (hL x y hxy).1, hmono y (hL x y hxy).2⟩, ?_, ?_, ?_⟩
      · intro kv hkv
        rcases mem_mapSet _ _ _ _ hkv with hkv | hkv
        · exact ⟨hmono _ (hV kv hkv).1, fun hc =>
            ⟨hmono _ ((hV kv hkv).2 hc).1, hmono _ ((hV kv hkv).2 hc).2⟩⟩
        · subst hkv
          exact ⟨hv, fun hc => by simp [makeNodeVertexInfo] at hc⟩
      · intro _
        by_cases hs : de.StartVertex = ""
        · simpa [hs] using hv
        · simpa [hs] using hmono _ (hS hs)
      · intro _
        by_cases hs : de.StartVertex = ""
        · simpa [hs] using hv
        · simpa [hs] using hmono _ (hS hs)
    | SubDAG v n =>
      simp only [BuilderOp.result, Option.some.injEq] at h
      obtain ⟨other, _, hk, hgl, hde⟩ := SubDAG_inv_ok D gl gl1 de de1 v n h
      have hv : globalVertex.exists gl1 de.Name v = true := by
        rw [hgl]
        simp [globalVertex.exists, mapHas, mapGet_mapSet_same]
      subst hde
      refine ⟨fun x y hxy => ⟨hmono x (hL x y hxy).1, hmono y (hL x y hxy).2⟩, ?_, ?_, ?_⟩
      · intro kv hkv
        rcases mem_mapSet _ _ _ _ hkv with hkv | hkv
        · exact ⟨hmono _ (hV kv hkv).1, fun hc =>
            ⟨hmono _ ((hV kv hkv).2 hc).1, hmono _ ((hV kv hkv).2 hc).2⟩⟩
        · subst hkv
          exact ⟨hv, fun hc => by simp [makeDAGVertexInfo] at hc⟩
      · intro _
        by_cases hs : de.StartVertex = ""
        · simpa [hs] using hv
        · simpa [hs] using hmono _ (hS hs)
      · intro _
        by_cases hs : de.StartVertex = ""
        · simpa [hs] using hv
        · simpa [hs] using hmono _ (hS hs)
    | Condition v t e hd =>
      simp only [BuilderOp.result, Option.some.injEq] at h
      obtain ⟨hd', _, ht, he, hk, hgl, hde⟩ := Condition_inv_ok gl gl1 de de1 v t e hd h
      have hv : globalVertex.exists gl1 de.Name v = true := by
        rw [hgl]
        simp [globalVertex.exists, mapHas, mapGet_mapSet_same]
      subst hde
      refine ⟨fun x y hxy => ⟨hmono x (hL x y hxy).1, hmono y (hL x y hxy).2⟩, ?_, ?_, ?_⟩
      · intro kv hkv
        rcases mem_mapSet _ _ _ _ hkv with hkv | hkv
        · exact ⟨hmono _ (hV kv hkv).1, fun hc =>
            ⟨hmono _ ((hV kv hkv).2 hc).1, hmono _ ((hV kv hkv).2 hc).2⟩⟩
        · subst hkv
          exact ⟨hv, fun _ => ⟨hmono _ ht, hmono _ he⟩⟩
      · intro _
        by_cases hs : de.StartVertex = "" ∨ t = de.StartVertex ∨ e = de.StartVertex
        · simpa [if_pos hs] using hv
        · have hs' : de.StartVertex ≠ "" := fun h0 => hs (Or.inl h0)
          simpa [if_neg hs] using hmono _ (hS hs')
      · intro _
        by_cases hs : de.StartVertex = "" ∨ t = de.StartVertex ∨ e = de.StartVertex
        · simpa [if_pos hs] using hv
        · have hs' : de.StartVertex ≠ "" := fun h0 => hs (Or.inl h0)
          simpa [if_neg hs] using hmono _ (hS hs')
    | Edge frm dst =>
      simp only [BuilderOp.result] at h
      cases hE : dagEntity.Edge gl de fuel frm dst with
      | none => simp [hE] at h
      | some r =>
        obtain ⟨de2, err2⟩ := r
        simp only [hE, Option.some.injEq, Prod.mk.injEq] at h
        obtain ⟨h1, h2, h3⟩ := h
        subst h1 h2 h3
        obtain ⟨hfrm, ⟨fv, hfv, _⟩, hdst, _, hde⟩ := Edge_inv_ok gl de de2 fuel frm dst hE
        have hf : globalVertex.exists gl de.Name frm = true := by
          simp only [globalVertex.get] at hfv
          simp [globalVertex.exists, mapHas, hfv]
        subst hde
        refine ⟨?_, hV, ?_, ?_⟩
        · intro x y hxy
          by_cases hx : x = frm
          · subst hx
            rw [mapGet_mapSet_same] at hxy
            cases hxy
            exact ⟨hf, hdst⟩
          · rw [mapGet_mapSet_ne _ _ _ _ hx] at hxy
            exact hL x y hxy
        · intro hne
          by_cases hs : dst = de.StartVertex
          · simpa [hs] using hf
          · simp only [if_neg hs] at hne ⊢
            exact hS hne
        · intro hne
          by_cases hs : dst = de.StartVertex
          · simpa [hs] using hf
          · simp only [if_neg hs] at hne ⊢
            exact hN hne
/-- A name that is not declared has no incoming reference. -/
theorem not_referenced_of_new (gl : globalVertex) (de : dagExecutePlan) (v : String)
    (hinv : de.Declared gl) (hv : globalVertex.exists gl de.Name v = false) :
    ¬ de.Referenced v := by
  obtain ⟨hL, hV, _, _⟩ := hinv
  rintro (⟨x, hx⟩ | ⟨c, info, hc, ht, hs⟩)
  · rw [(hL x v hx).2] at hv
    cases hv
  · have h1 := (hV (c, info) (mapGet_mem _ _ _ hc)).2 ht
    rcases hs with hs | hs
    · rw [← hs, h1.1] at hv
      cases hv
    · rw [← hs, h1.2] at hv
      cases hv

/-- The incoming references after a new vertex that is no Condition has been
filed are those before. -/
theorem referenced_vertex (de : dagExecutePlan) (v s x : String) (info : vertexInfo)
    (hinfo : info.Typ ≠ .vertexCond)
    (h : dagExecutePlan.Referenced
      { de with Vertex := mapSet de.Vertex v info, StartVertex := s } x) :
    de.Referenced x := by
  rcases h with ⟨y, hy⟩ | ⟨c, i, hc, ht, hs⟩
  · exact Or.inl ⟨y, hy⟩
  · have hc' : mapGet (mapSet de.Vertex v info) c = some i := hc
    by_cases hcv : c = v
    · subst hcv
      rw [mapGet_mapSet_same] at hc'
      cases hc'
      exact absurd ht hinfo
    · rw [mapGet_mapSet_ne _ _ _ _ hcv] at hc'
      exact Or.inr ⟨c, i, hc', ht, hs⟩

/-- The incoming references after a Condition has been filed are those
before, and its two successors. -/
theorem referenced_condition (de : dagExecutePlan) (v t f s x : String)
    (h : dagExecutePlan.Referenced
      { de with Vertex := mapSet de.Vertex v (makeCondVertexInfo t f), StartVertex := s } x) :
    de.Referenced x ∨ x = t ∨ x = f := by
  rcases h with ⟨y, hy⟩ | ⟨c, i, hc, ht, hs⟩
  · exact Or.inl (Or.inl ⟨y, hy⟩)
  · have hc' : mapGet (mapSet de.Vertex v (makeCondVertexInfo t f)) c = some i := hc
    by_cases hcv : c = v
    · subst hcv
      rw [mapGet_mapSet_same] at hc'
      cases hc'
      rcases hs with hs | hs
      · exact Or.inr (Or.inl hs.symm)
      · exact Or.inr (Or.inr hs.symm)
    · rw [mapGet_mapSet_ne _ _ _ _ hcv] at hc'
      exact Or.inl (Or.inr ⟨c, i, hc', ht, hs⟩)

/-- The incoming references after a link `frm -> dst` has been recorded are
those before, and `dst`. -/
theorem referenced_edge (de : dagExecutePlan) (frm dst s x : String)
    (h : dagExecutePlan.Referenced
      { de with Links := mapSet de.Links frm dst, StartVertex := s } x) :
    de.Referenced x ∨ x = dst := by
  rcases h with ⟨y, hy⟩ | ⟨c, i, hc, ht, hs⟩
  · have hy' : mapGet (mapSet de.Links frm dst) y = some x := hy
    by_cases hyf : y = frm
    · subst hyf
      rw [mapGet_mapSet_same] at hy'
      cases hy'
      exact Or.inr rfl
    · rw [mapGet_mapSet_ne _ _ _ _ hyf] at hy'
      exact Or.inl (Or.inl ⟨y, hy'⟩)
  · exact Or.inl (Or.inr ⟨c, i, hc, ht, hs⟩)

/-- The incoming references before a link of a vertex without link is
recorded are still there after it. -/
theorem referenced_edge_mono (de : dagExecutePlan) (frm dst s x : String)
    (hfrm : mapGet de.Links frm = none) (h : de.Referenced x) :
    dagExecutePlan.Referenced
      { de with Links := mapSet de.Links frm dst, StartVertex := s } x := by
  rcases h with ⟨y, hy⟩ | ⟨c, i, hc, ht, hs⟩
  · refine Or.inl ⟨y, ?_⟩
    have hyf : y ≠ frm := by
      intro e
      rw [e, hfrm] at hy
      cases hy
    show mapGet (mapSet de.Links frm dst) y = some x
    rw [mapGet_mapSet_ne _ _ _ _ hyf]
    exact hy
  · exact Or.inr ⟨c, i, hc, ht, hs⟩

/-- A builder call keeps the start vertex free of incoming references, apart
from an `Edge(frm, dst)` that returns nil when `dst` is the start vertex and
`frm` is `dst` or has an incoming reference: then `frm` is the start vertex
and has an incoming reference. -/
theorem result_start (D : List (String × Nat)) (gl gl1 : globalVertex)
    (de de1 : dagExecutePlan) (fuel : Nat) (op : BuilderOp) (err : Option Err)
    (hinv : de.Declared gl) (h : op.result D gl de fuel = some (gl1, de1, err))
    (hun : ¬ de.Referenced de.StartVertex) :
    ¬ de1.Referenced de1.StartVertex ∨
      ∃ frm dst, op = .Edge frm dst ∧ err = none ∧ dst = de.StartVertex ∧
        (frm = dst ∨ de.Referenced frm) ∧ de1.StartVertex = frm ∧ de1.Referenced frm := by
  cases err with
  | some e =>
    rw [(result_err D gl gl1 de de1 fuel op e h).2]
    exact Or.inl hun
  | none =>
    cases op with
    | Node v hd =>
      simp only [BuilderOp.result, Option.some.injEq] at h
      obtain ⟨_, _, hk, _, hde⟩ := Node_inv_ok gl gl1 de de1 v hd h
      subst hde
      refine Or.inl (fun hr => ?_)
      have hr' := referenced_vertex de v _ _ makeNodeVertexInfo (by simp [makeNodeVertexInfo]) hr
      by_cases hs : de.StartVertex = ""
      · simp only [if_pos hs] at hr'
        exact not_referenced_of_new gl de v hinv hk hr'
      · simp only [if_neg hs] at hr'
        exact hun hr'
    | SubDAG v n =>
      simp only [BuilderOp.result, Option.some.injEq] at h
      obtain ⟨other, _, hk, _, hde⟩ := SubDAG_inv_ok D gl gl1 de de1 v n h
      subst hde
      refine Or.inl (fun hr => ?_)
      have hr' := referenced_vertex de v _ _ (makeDAGVertexInfo other)
        (by simp [makeDAGVertexInfo]) hr
      by_cases hs : de.StartVertex = ""
      · simp only [if_pos hs] at hr'
        exact not_referenced_of_new gl de v hinv hk hr'
      · simp only [if_neg hs] at hr'
        exact hun hr'
    | Condition v t e hd =>
      simp only [BuilderOp.result, Option.some.injEq] at h
      obtain ⟨_, _, ht, he, hk, _, hde⟩ := Condition_inv_ok gl gl1 de de1 v t e hd h
      subst hde
      refine Or.inl (fun hr => ?_)
      have hr' := referenced_condition de v t e _ _ hr
      by_cases hs : de.StartVertex = "" ∨ t = de.StartVertex ∨ e = de.StartVertex
      · simp only [if_pos hs] at hr'
        rcases hr' with hr' | hr' | hr'
        · exact not_referenced_of_new gl de v hinv hk hr'
        · rw [hr', ht] at hk
          cases hk
        · rw [hr', he] at hk
          cases hk
      · simp only [if_neg hs] at hr'
        rcases hr' with hr' | hr' | hr'
        · exact hun hr'
        · exact hs (Or.inr (Or.inl hr'.symm))
        · exact hs (Or.inr (Or.inr hr'.symm))
    | Edge frm dst =>
      simp only [BuilderOp.result] at h
      cases hE : dagEntity.Edge gl de fuel frm dst with
      | none => simp [hE] at h
      | some r =>
        obtain ⟨de2, err2⟩ := r
        simp only [hE, Option.some.injEq, Prod.mk.injEq] at h
        obtain ⟨h1, h2, h3⟩ := h
        subst h1 h2 h3
        obtain ⟨hfrm, _, _, _, hde⟩ := Edge_inv_ok gl de de2 fuel frm dst hE
        subst hde
        by_cases hs : dst = de.StartVertex
        · by_cases hex : frm = dst ∨ de.Referenced frm
          · refine Or.inr ⟨frm, dst, rfl, rfl, hs, hex, by simp [hs], ?_⟩
            rcases hex with hex | hex
            · refine Or.inl ⟨frm, ?_⟩
              show mapGet (mapSet de.Links frm dst) frm = some frm
              rw [mapGet_mapSet_same, hex]
            · exact referenced_edge_mono de frm dst _ frm hfrm hex
          · refine Or.inl (fun hr => ?_)
            simp only [if_pos hs] at hr
            rcases referenced_edge de frm dst _ frm hr with hr' | hr'
            · exact hex (Or.inr hr')
            · exact hex (Or.inl hr')
        · refine Or.inl (fun hr => ?_)
          simp only [if_neg hs] at hr
          rcases referenced_edge de frm dst _ _ hr with hr' | hr'
          · exact hun hr'
          · exact hs hr'.symm
/-- A vertex that can be reached from the start vertex is the start vertex or
has an incoming reference, and is declared when the names of the plan are. -/
theorem reachable_declared (gl : globalVertex) (d : dagExecutePlan) (hdecl : d.Declared gl)
    (v : String) (hv : d.Reachable v) :
    (v = d.StartVertex ∨ d.Referenced v) ∧
      (d.Vertex ≠ [] → globalVertex.exists gl d.Name v = true) := by
  obtain ⟨hL, hV, _, hN⟩ := hdecl
  induction hv with
  | start => exact ⟨Or.inl rfl, hN⟩
  | @next a b l _ hnext hb _ =>
    unfold dagExecutePlan.visitNext at hnext
    cases hl : mapGet d.Links a with
    | some w =>
      simp only [hl, Option.some.injEq] at hnext
      subst hnext
      have hbw : b = w := by simpa using hb
      subst hbw
      exact ⟨Or.inr (Or.inl ⟨a, hl⟩), fun _ => (hL a b hl).2⟩
    | none =>
      simp only [hl] at hnext
      cases hg : mapGet d.Vertex a with
      | none => simp [hg] at hnext
      | some info =>
        simp only [hg] at hnext
        by_cases ht : info.Typ = .vertexCond
        · simp only [ht, if_true, Option.some.injEq] at hnext
          subst hnext
          have hsucc := (hV (a, info) (mapGet_mem _ _ _ hg)).2 ht
          have hb' : b = info.TrueVertex ∨ b = info.FalseVertex := by simpa using hb
          rcases hb' with hb' | hb'
          · subst hb'
            exact ⟨Or.inr (Or.inr ⟨a, info, hg, ht, Or.inl rfl⟩), fun _ => hsucc.1⟩
          · subst hb'
            exact ⟨Or.inr (Or.inr ⟨a, info, hg, ht, Or.inr rfl⟩), fun _ => hsucc.2⟩
        · simp [ht] at hnext

/-- The DAG `b -> c -> a` with its edges declared in the order `b -> c`,
`c -> a`: the start vertex is `c`, which is the target of the link of `b`,
and a request runs `c` and `a` and never `b`. -/
theorem chainDAG_starts_at_a_referenced_vertex :
    (Fixture.after Fixture.chainFlow).heap.map (fun p => (p.Name, p.StartVertex, p.Links))
      = [("chain", "c", [("b", "c"), ("c", "a")])] ∧
    (Fixture.ticks [1, 2, 3] (Fixture.after Fixture.chainFlow)).calls.map Call.vertex
      = [["chain", "c"], ["chain", "a"]] := by
  constructor <;> decide!

/-! ## Lemmas: the compilation of a plan that agrees with the index -/

/-- A successor name that is empty or in the map resolves. -/
theorem resolveRC_some (m : List (String × runContext)) (name : String)
    (h : name = "" ∨ mapHas m name = true) : ∃ r, resolveRC m name = some r := by
  unfold resolveRC
  by_cases hn : name = ""
  · exact ⟨_, if_pos hn⟩
  · rcases h with h | h
    · exact absurd h hn
    · rw [if_neg hn, if_pos h]
      exact ⟨_, rfl⟩

/-- The delayed visit of a run context whose successor names resolve succeeds. -/
theorem delayVisit_ok (m : List (String × runContext)) (rc : runContext)
    (h : rc.Resolves (mapHas m)) : ∃ rc1, delayVisit m rc = .ok rc1 := by
  cases rc with
  | node n =>
    obtain ⟨h1, h2⟩ := h
    cases hnt : n.nodeType with
    | unset =>
      simp only [delayVisit, hnt]
      exact ⟨_, rfl⟩
    | node =>
      obtain ⟨r, hr⟩ := resolveRC_some m _ (h1 hnt)
      simp only [delayVisit, hnt, hr]
      exact ⟨_, rfl⟩
    | condition =>
      obtain ⟨t, ht⟩ := resolveRC_some m _ (h2 hnt).1
      obtain ⟨f, hf⟩ := resolveRC_some m _ (h2 hnt).2
      simp only [delayVisit, hnt, ht, hf]
      exact ⟨_, rfl⟩
  | dag d =>
    obtain ⟨name, path, rcMap, running, nextRC, nextVertex⟩ := d
    obtain ⟨r, hr⟩ := resolveRC_some m nextVertex h
    simp only [delayVisit, hr]
    exact ⟨_, rfl⟩

/-- The second loop of `generateRuntime` succeeds on run contexts whose
successor names resolve. -/
theorem delayVisits_ok (m : List (String × runContext)) :
    ∀ (l : List (String × runContext)), (∀ kv ∈ l, kv.2.Resolves (mapHas m)) →
      ∃ l1, delayVisits m l = .ok l1 := by
  intro l
  induction l with
  | nil => intro _; exact ⟨[], rfl⟩
  | cons hd tl ih =>
    intro h
    obtain ⟨k, rc⟩ := hd
    obtain ⟨rc1, h1⟩ := delayVisit_ok m rc (h (k, rc) (List.mem_cons_self _ _))
    obtain ⟨tl1, h2⟩ := ih (fun kv hkv => h kv (List.mem_cons_of_mem _ hkv))
    exact ⟨(k, rc1) :: tl1, by simp [delayVisits, h1, h2]⟩

/-- Whether the successor names of a run context resolve depends on the names only. -/
theorem resolves_congr (has has' : String → Bool) (hh : ∀ x, has x = has' x) (rc : runContext)
    (h : rc.Resolves has) : rc.Resolves has' := by
  have he : has = has' := funext hh
  rw [← he]
  exact h

/-- The first loop of `generateRuntime` succeeds on vertices that are in the
index with their type, whose sub-plans compile and whose successor names are
empty or among the names `has`; the successor names of the run contexts it
builds resolve in `has`. -/
theorem generateRunContexts_ok
    (gen : Nat → Path → Path → Option (Outcome dagRuntime))
    (gl : globalVertex) (dtName : String) (links : List (String × String))
    (dagPath entrypoint : Path) (has : String → Bool) :
    ∀ (V : List (String × vertexInfo)) (acc : List (String × runContext)),
      (∀ kv ∈ V, ∃ e, globalVertex.get gl dtName kv.1 = some e ∧ e.typ = kv.2.Typ ∧
        (kv.2.Typ = .vertexNode ∨ kv.2.Typ = .vertexCond ∨
          (kv.2.Typ = .vertexDAG ∧ ∃ a, kv.2.DAG = some a ∧
            ∃ d, gen a dagPath entrypoint = some (.ok d)))) →
      (∀ kv ∈ V, (mapGet links kv.1).getD "" = "" ∨
        has ((mapGet links kv.1).getD "") = true) →
      (∀ kv ∈ V, kv.2.Typ = .vertexCond →
        (kv.2.TrueVertex = "" ∨ has kv.2.TrueVertex = true) ∧
        (kv.2.FalseVertex = "" ∨ has kv.2.FalseVertex = true)) →
      (∀ kv ∈ acc, kv.2.Resolves has) →
      ∃ m, generateRunContexts gen gl dtName links dagPath entrypoint V acc = some (.ok m) ∧
        ∀ kv ∈ m, kv.2.Resolves has := by
  intro V
  induction V with
  | nil =>
    intro acc _ _ _ hacc
    exact ⟨acc, rfl, hacc⟩
  | cons hd tl ih =>
    intro acc hV hL hC hacc
    obtain ⟨vertex, info⟩ := hd
    obtain ⟨e, hget, htyp, hkind⟩ := hV (vertex, info) (List.mem_cons_self _ _)
    have hnext := hL (vertex, info) (List.mem_cons_self _ _)
    have hrest : ∀ rc : runContext, rc.Resolves has →
        ∃ m, generateRunContexts gen gl dtName links dagPath entrypoint tl
            (mapSet acc vertex rc) = some (.ok m) ∧ ∀ kv ∈ m, kv.2.Resolves has := by
      intro rc hrc
      refine ih (mapSet acc vertex rc) (fun kv hkv => hV kv (List.mem_cons_of_mem _ hkv))
        (fun kv hkv => hL kv (List.mem_cons_of_mem _ hkv))
        (fun kv hkv => hC kv (List.mem_cons_of_mem _ hkv)) ?_
      intro kv hkv
      rcases mem_mapSet _ _ _ _ hkv with hkv | hkv
      · exact hacc kv hkv
      · rw [hkv]
        exact hrc
    have htyp' : ¬ e.typ ≠ info.Typ := fun hne => hne htyp
    unfold generateRunContexts
    rcases hkind with hk | hk | ⟨hk, a, ha, d, hd⟩
    · have hk' : info.Typ = .vertexNode := hk
      have hrc : generateRunContext gen gl dtName vertex info ((mapGet links vertex).getD "")
          dagPath entrypoint
          = some (.ok (.node { newNodeRuntime with
              name := vertex, path := Path.AddString dagPath vertex, nodeType := .node,
              nodeHandler := e.handler,
              nodeNextVertex := (mapGet links vertex).getD "" })) := by
        simp [generateRunContext, hget, htyp, hk', generateNodeRunContext]
      rw [hrc]
      refine hrest _ ?_
      exact ⟨fun _ => hnext, fun hc => by cases hc⟩
    · have hk' : info.Typ = .vertexCond := hk
      have hrc : generateRunContext gen gl dtName vertex info ((mapGet links vertex).getD "")
          dagPath entrypoint
          = some (.ok (.node { newNodeRuntime with
              name := vertex, path := Path.AddString dagPath vertex, nodeType := .condition,
              condHandler := e.condHandler, condTrueVertex := info.TrueVertex,
              condFalseVertex := info.FalseVertex })) := by
        simp [generateRunContext, hget, htyp, hk', generateNodeRunContext]
      rw [hrc]
      refine hrest _ ?_
      exact ⟨fun hc => (by cases hc), fun _ => hC (vertex, info) (List.mem_cons_self _ _) hk'⟩
    · have hk' : info.Typ = .vertexDAG := hk
      have ha' : info.DAG = some a := ha
      obtain ⟨n, p, m, running, nrc, nv⟩ := d
      have hrc : generateRunContext gen gl dtName vertex info ((mapGet links vertex).getD "")
          dagPath entrypoint
          = some (.ok (.dag (.mk vertex p m running nrc ((mapGet links vertex).getD "")))) := by
        simp [generateRunContext, hget, htyp, hk', ha', hd]
      rw [hrc]
      exact hrest _ hnext
/-- The compilation, at the empty entrypoint, of a plan whose vertices are in
the index with their type, whose successor names are vertices of the plan,
whose start vertex is one, and whose sub-plans compile, succeeds. -/
theorem generateRuntime_ok (heap : List dagExecutePlan) (gl : globalVertex) (fuel addr : Nat)
    (plan : dagExecutePlan) (hplan : heap.get? addr = some plan)
    (hidx : ∀ kv ∈ plan.Vertex, ∃ e, globalVertex.get gl plan.Name kv.1 = some e ∧
      e.typ = kv.2.Typ ∧
      (kv.2.Typ = .vertexNode ∨ kv.2.Typ = .vertexCond ∨
        (kv.2.Typ = .vertexDAG ∧ ∃ a, kv.2.DAG = some a ∧
          ∀ p, ∃ d, generateRuntime heap gl fuel a p (NewPath []) = some (.ok d))))
    (hlinks : ∀ x y, mapGet plan.Links x = some y → mapHas plan.Vertex y = true)
    (hcond : ∀ kv ∈ plan.Vertex, kv.2.Typ = .vertexCond →
      mapHas plan.Vertex kv.2.TrueVertex = true ∧ mapHas plan.Vertex kv.2.FalseVertex = true)
    (hstart : mapHas plan.Vertex plan.StartVertex = true) :
    ∀ p, ∃ d, generateRuntime heap gl (fuel + 1) addr p (NewPath []) = some (.ok d) := by
  intro p
  obtain ⟨m0, hgen, hres⟩ := generateRunContexts_ok (generateRuntime heap gl fuel) gl plan.Name
    plan.Links (Path.AddString p plan.Name) (Path.Next (NewPath [])) (mapHas plan.Vertex)
    plan.Vertex []
    (by
      intro kv hkv
      obtain ⟨e, h1, h2, h3⟩ := hidx kv hkv
      refine ⟨e, h1, h2, ?_⟩
      rcases h3 with h3 | h3 | ⟨h3, a, ha, hc⟩
      · exact Or.inl h3
      · exact Or.inr (Or.inl h3)
      · exact Or.inr (Or.inr ⟨h3, a, ha, hc _⟩))
    (by
      intro kv _
      cases hl : mapGet plan.Links kv.1 with
      | none => exact Or.inl rfl
      | some y => exact Or.inr (hlinks kv.1 y hl))
    (by
      intro kv hkv hc
      exact ⟨Or.inr (hcond kv hkv hc).1, Or.inr (hcond kv hkv hc).2⟩)
    (by
      intro kv hkv
      cases hkv)
  have hkeys : ∀ x, mapHas m0 x = mapHas plan.Vertex x := by
    intro x
    rw [generateRunContexts_keys _ _ _ _ _ _ _ _ _ hgen x]
    simp [mapHas, mapGet]
  obtain ⟨m1, hdelay⟩ := delayVisits_ok m0 m0
    (fun kv hkv => resolves_congr _ _ (fun x => (hkeys x).symm) kv.2 (hres kv hkv))
  have hsel := (generateRuntime_select heap gl fuel addr p (NewPath []) plan m0 m1 hplan hgen
    hdelay).2
  have hs : selectedVertex plan (NewPath []) = plan.StartVertex := rfl
  rw [hs, if_pos hstart] at hsel
  exact ⟨_, hsel⟩

/-- The plan of a new entity agrees with an index that has no vertex under
its name. -/
theorem newDAGEntity_indexed (gl : globalVertex) (name : String)
    (hfresh : ∀ v, globalVertex.exists gl name v = false) : (newDAGEntity name).Indexed gl := by
  constructor
  · intro v hv
    have h0 : globalVertex.exists gl name v = true := hv
    rw [hfresh v] at h0
    cases h0
  · intro kv hkv
    simp [newDAGEntity] at hkv

/-- A new entry of the index under a DAG name is seen under that name at its
own vertex only. -/
theorem exists_mapSet (gl : globalVertex) (name v x : String) (e : vertexEntity)
    (h : globalVertex.exists (mapSet gl (globalVertex.formatKey name v) e) name x = true) :
    x = v ∨ globalVertex.exists gl name x = true := by
  by_cases hx : x = v
  · exact Or.inl hx
  · right
    have hk : globalVertex.formatKey name x ≠ globalVertex.formatKey name v :=
      fun hk => hx (formatKey_inj name x v hk)
    simp only [globalVertex.exists, mapHas] at h ⊢
    rw [mapGet_mapSet_ne _ _ _ _ hk] at h
    exact h

/-- Every builder call keeps the index and the plan in agreement. -/
theorem result_indexed (D : List (String × Nat)) (gl gl1 : globalVertex)
    (de de1 : dagExecutePlan) (fuel : Nat) (op : BuilderOp) (err : Option Err)
    (hinv : de.Indexed gl) (h : op.result D gl de fuel = some (gl1, de1, err)) :
    de1.Indexed gl1 := by
  cases err with
  | some e =>
    obtain ⟨h1, h2⟩ := result_err D gl gl1 de de1 fuel op e h
    rw [h1, h2]
    exact hinv
  | none =>
    have hgrow := (result_frame D gl gl1 de de1 fuel op none h).2
    obtain ⟨hI, hV⟩ := hinv
    have hold : ∀ kv ∈ de.Vertex, ∃ e, globalVertex.get gl1 de.Name kv.1 = some e ∧
        e.typ = kv.2.Typ ∧
        (kv.2.Typ = .vertexNode ∨ kv.2.Typ = .vertexCond ∨
          (kv.2.Typ = .vertexDAG ∧ ∃ a, kv.2.DAG = some a)) := by
      intro kv hkv
      obtain ⟨e, h1, h2, h3⟩ := hV kv hkv
      exact ⟨e, hgrow _ e h1, h2, h3⟩
    cases op with
    | Node v hd =>
      simp only [BuilderOp.result, Option.some.injEq] at h
      obtain ⟨hd', _, hk, hgl, hde⟩ := Node_inv_ok gl gl1 de de1 v hd h
      subst hde
      constructor
      · intro x hx
        rw [hgl] at hx
        apply (mapHas_mapSet _ _ _ _).mpr
        rcases exists_mapSet gl de.Name v x _ hx with hx | hx
        · exact Or.inl hx
        · exact Or.inr (hI x hx)
      · intro kv hkv
        rcases mem_mapSet _ _ _ _ hkv with hkv | hkv
        · exact hold kv hkv
        · subst hkv
          refine ⟨(⟨v, .vertexNode, some hd', none, none⟩ : vertexEntity), ?_, rfl, Or.inl rfl⟩
          rw [hgl]
          exact mapGet_mapSet_same _ _ _
    | SubDAG v n =>
      simp only [BuilderOp.result, Option.some.injEq] at h
      obtain ⟨other, _, hk, hgl, hde⟩ := SubDAG_inv_ok D gl gl1 de de1 v n h
      subst hde
      constructor
      · intro x hx
        rw [hgl] at hx
        apply (mapHas_mapSet _ _ _ _).mpr
        rcases exists_mapSet gl de.Name v x _ hx with hx | hx
        · exact Or.inl hx
        · exact Or.inr (hI x hx)
      · intro kv hkv
        rcases mem_mapSet _ _ _ _ hkv with hkv | hkv
        · exact hold kv hkv
        · subst hkv
          refine ⟨(⟨v, .vertexDAG, none, some other, none⟩ : vertexEntity), ?_, rfl,
            Or.inr (Or.inr ⟨rfl, other, rfl⟩)⟩
          rw [hgl]
          exact mapGet_mapSet_same _ _ _
    | Condition v t e hd =>
      simp only [BuilderOp.result, Option.some.injEq] at h
      obtain ⟨hd', _, _, _, hk, hgl, hde⟩ := Condition_inv_ok gl gl1 de de1 v t e hd h
      subst hde
      constructor
      · intro x hx
        rw [hgl] at hx
        apply (mapHas_mapSet _ _ _ _).mpr
        rcases exists_mapSet gl de.Name v x _ hx with hx | hx
        · exact Or.inl hx
        · exact Or.inr (hI x hx)
      · intro kv hkv
        rcases mem_mapSet _ _ _ _ hkv with hkv | hkv
        · exact hold kv hkv
        · subst hkv
          refine ⟨(⟨v, .vertexCond, none, none, some hd'⟩ : vertexEntity), ?_, rfl,
            Or.inr (Or.inl rfl)⟩
          rw [hgl]
          exact mapGet_mapSet_same _ _ _
    | Edge frm dst =>
      simp only [BuilderOp.result] at h
      cases hE : dagEntity.Edge gl de fuel frm dst with
      | none => simp [hE] at h
      | some r =>
        obtain ⟨de2, err2⟩ := r
        simp only [hE, Option.some.injEq, Prod.mk.injEq] at h
        obtain ⟨h1, h2, h3⟩ := h
        subst h1 h2 h3
        obtain ⟨_, _, _, _, hde⟩ := Edge_inv_ok gl de de2 fuel frm dst hE
        subst hde
        exact ⟨hI, hV⟩

/-- The launch of a request whose plan compiles, by a running engine where
the request is not resident, on a store that returns no error. -/
theorem RunDAG_ok (f : flow) (fuel : Nat) (dagName requestID : String) (params : Data)
    (addr : Nat) (dr : dagRuntime)
    (hrunning : f.running = true) (hreg : f.getDAG dagName = some addr)
    (hgen : generateRuntime f.heap f.gl fuel addr (NewPath []) (NewPath []) = some (.ok dr))
    (hnew : f.hasExecutePlan requestID = false) (hstore : f.store.mockErr = none) :
    ∃ f0, f.RunDAG fuel dagName requestID params = some (f0, .ok ()) ∧
      f0.batchRunner.get requestID
        = some (newContextRunner requestID (some (.dag dr)) params) := by
  have hex' : mapHas f.batchRunner.runners requestID = false := hnew
  refine ⟨{ f with
      store := { f.store with
        m := mapSet f.store.m (memStore.fullKey DAGPlanPath requestID) (.plan f.heap addr) },
      batchRunner := { f.batchRunner with
        runners := mapSet f.batchRunner.runners requestID
          (newContextRunner requestID (some (.dag dr)) params) } }, ?_, ?_⟩
  · simp only [flow.RunDAG, hrunning, hreg, hnew, flow.launchDAG, hgen, flow.savePlan,
      memStore.Set, hstore, flow.startExecutePlan, batchRunner.add, hex', Option.map_none',
      Bool.not_true, Bool.false_eq_true, if_false]
  · simp [batchRunner.get, mapGet_mapSet_same]

/-- What a `RegisterDAG` that returns nil leaves: the DAG is registered at
the address of the new entity, and the engine runs as before. -/
theorem RegisterDAG_ok_getDAG (f f1 : flow) (fuel : Nat) (name : String) (handler : DAGHandler)
    (hrun : f.running = true) (h : f.RegisterDAG fuel name handler = some (f1, none)) :
    f1.getDAG name = some f.heap.length ∧ f1.running = true ∧ f1.store = f.store ∧
      f1.batchRunner = f.batchRunner := by
  unfold flow.RegisterDAG at h
  simp only [hrun, Bool.not_true, Bool.false_eq_true, if_false] at h
  cases hr : handler.run fuel f.heap.length { f with heap := f.heap ++ [newDAGEntity name] } with
  | none =>
    simp only [hrun] at hr
    rw [hr] at h
    cases h
  | some r =>
    obtain ⟨f2, e2⟩ := r
    obtain ⟨hs, _, _⟩ := run_frame fuel f.heap.length handler _ f2 e2 hr
    simp only [hrun] at hr
    rw [hr] at h
    cases e2 with
    | some e => simp at h
    | none =>
      simp only [Option.some.injEq, Prod.mk.injEq, and_true] at h
      rw [← h]
      obtain ⟨h1, h2, _, _, h5, _, _⟩ := hs
      exact ⟨by simp [flow.getDAG, mapGet_mapSet_same], h1.trans hrun, h2, h5⟩
/-- The plan `outer` of the engine `overEmpty` does not compile: its vertex
`sub` runs a plan without vertex, which has no start vertex to stand at. -/
theorem overEmpty_never_compiles :
    ∀ (fuel : Nat) (p e : Path) (d : dagRuntime),
      generateRuntime Fixture.overEmpty.heap Fixture.overEmpty.gl fuel 1 p e ≠ some (.ok d) := by
  have hp0 : Fixture.overEmpty.heap.get? 0
      = some { Name := "empty", StartVertex := "", Vertex := [], Links := [] } := by decide!
  have hp1 : Fixture.overEmpty.heap.get? 1
      = some { Name := "outer", StartVertex := "sub",
               Vertex := [("sub", makeDAGVertexInfo 0)], Links := [] } := by decide!
  have hs : (globalVertex.get Fixture.overEmpty.gl "outer" "sub").map vertexEntity.typ
      = some .vertexDAG := by decide!
  generalize Fixture.overEmpty.heap = H at *
  generalize Fixture.overEmpty.gl = G at *
  intro fuel p e d
  cases hgs : globalVertex.get G "outer" "sub" with
  | none => simp [hgs] at hs
  | some vs =>
    simp only [hgs, Option.map_some', Option.some.injEq] at hs
    cases fuel with
    | zero => simp [generateRuntime]
    | succ n =>
      cases n with
      | zero =>
        unfold generateRuntime
        simp only [hp1]
        simp [generateRunContexts, generateRunContext, hgs, hs, makeDAGVertexInfo,
          generateRuntime]
      | succ k =>
        have hinner : ∀ q e1, ∃ err, generateRuntime H G (k + 1) 0 q e1 = some (.error err) := by
          intro q e1
          unfold generateRuntime
          simp only [hp0, generateRunContexts, delayVisits]
          simp [mapHas, mapGet]
        obtain ⟨err, herr⟩ := hinner (Path.AddString p "outer") (Path.Next e)
        unfold generateRuntime
        simp only [hp1]
        simp [generateRunContexts, generateRunContext, hgs, hs, makeDAGVertexInfo, herr]

/-- An entry that a failed registration left in the index lets a later
registration under the same name record an edge to a vertex its plan does not
have: `RegisterDAG` accepts the DAG, and `RunDAG` fails with `NotFound`. -/
theorem stale_index_entry_breaks_compilation :
    ((Fixture.registered Fixture.engine "test" Fixture.leakDAG).RegisterDAG 8 "test"
        Fixture.edgeToXDAG).map Prod.snd = some none ∧
    ((Fixture.registered (Fixture.registered Fixture.engine "test" Fixture.leakDAG) "test"
        Fixture.edgeToXDAG).RunDAG 8 "test" "r1" []).map Prod.snd
      = some (.error (.trace (.trace (.trace (.kind .NotFound "x"))))) ∧
    (Fixture.engine.RegisterDAG 8 "test" Fixture.edgeToXDAG).map Prod.snd
      = some (some (.trace (.trace (.kind .NotFound "x")))) := by
  refine ⟨?_, ?_, ?_⟩ <;> decide!

/-! ## Lemmas: what `ReloadRequests` lists -/

/-- A call of `rerunPlan` keeps the store and the runners of the other
requests, and it files a runner for the request only when the store has a
rerun context for it. -/
theorem rerunPlan_runners (f f1 : flow) (fuel : Nat) (requestID : String) (out : Outcome Unit)
    (h : f.rerunPlan fuel requestID = some (f1, out)) :
    f1.store = f.store ∧
    (∀ k, k ≠ requestID →
      mapGet f1.batchRunner.runners k = mapGet f.batchRunner.runners k) ∧
    (mapHas f1.batchRunner.runners requestID = true →
      mapHas f.batchRunner.runners requestID = true ∨
        mapHas f.store.m (memStore.fullKey RunContextPath requestID) = true) := by
  rw [rerunPlan_eq] at h
  by_cases hex : f.batchRunner.exists requestID = true
  · simp only [hex, if_true, Option.some.injEq, Prod.mk.injEq] at h
    obtain ⟨hf, _⟩ := h
    subst hf
    exact ⟨rfl, fun _ _ => rfl, fun hh => Or.inl hh⟩
  · simp only [hex, if_false] at h
    cases hout : f.rerunOutcome fuel requestID with
    | none => simp [hout] at h
    | some o =>
      cases o with
      | panic msg =>
        simp only [hout, Bool.false_eq_true, if_false, Option.some.injEq, Prod.mk.injEq] at h
        obtain ⟨hf, _⟩ := h
        subst hf
        exact ⟨rfl, fun _ _ => rfl, fun hh => Or.inl hh⟩
      | error e =>
        simp only [hout, Bool.false_eq_true, if_false, Option.some.injEq, Prod.mk.injEq] at h
        obtain ⟨hf, _⟩ := h
        subst hf
        exact ⟨rfl, fun _ _ => rfl, fun hh => Or.inl hh⟩
      | ok r =>
        simp only [hout, Bool.false_eq_true, if_false, Option.some.injEq, Prod.mk.injEq] at h
        obtain ⟨hf, _⟩ := h
        subst hf
        refine ⟨rfl, fun k hk => mapGet_mapSet_ne _ _ _ _ hk, fun _ => Or.inr ?_⟩
        unfold flow.rerunOutcome flow.loadPlan memStore.Get at hout
        simp only [mapHas]
        cases hp : mapGet f.store.m (memStore.fullKey DAGPlanPath requestID) with
        | none => cases hm : f.store.mockErr <;> simp [hp, hm] at hout
        | some b =>
          cases hc : mapGet f.store.m (memStore.fullKey RunContextPath requestID) with
          | some c => rfl
          | none =>
            cases hm : f.store.mockErr <;> cases b <;> simp [hp, hm, hc] at hout

/-- The iteration of `reloadPlans` keeps the store, gives the map of errors
one entry for every listed id, and files a runner only for a listed id of
which the store has a rerun context. -/
theorem reloadEach_keys (fuel : Nat) :
    ∀ (ids : List String) (g g1 : flow) (errs : List (String × Option Err))
      (out : Outcome (List (String × Option Err))),
      flow.reloadEach fuel ids g errs = some (g1, out) →
      g1.store = g.store ∧
      (∀ k, mapHas g1.batchRunner.runners k = true →
        mapHas g.batchRunner.runners k = true ∨
          (k ∈ ids ∧ mapHas g.store.m (memStore.fullKey RunContextPath k) = true)) ∧
      ∀ errs1, out = .ok errs1 →
        ∀ k, mapHas errs1 k = true ↔ (mapHas errs k = true ∨ k ∈ ids) := by
  intro ids
  induction ids with
  | nil =>
    intro g g1 errs out h
    simp only [flow.reloadEach, Option.some.injEq, Prod.mk.injEq] at h
    obtain ⟨hg, ho⟩ := h
    subst hg ho
    refine ⟨rfl, fun k hk => Or.inl hk, ?_⟩
    intro errs1 he k
    cases he
    simp
  | cons id tl ih =>
    intro g g1 errs out h
    simp only [flow.reloadEach] at h
    cases hr : g.rerunPlan fuel id with
    | none => simp [hr] at h
    | some res =>
      obtain ⟨g0, o⟩ := res
      obtain ⟨hs0, hother, hself⟩ := rerunPlan_runners g g0 fuel id o hr
      have hrun0 : ∀ k, mapHas g0.batchRunner.runners k = true →
          mapHas g.batchRunner.runners k = true ∨
            (k = id ∧ mapHas g.store.m (memStore.fullKey RunContextPath k) = true) := by
        intro k hk
        by_cases hkid : k = id
        · subst hkid
          rcases hself hk with h1 | h1
          · exact Or.inl h1
          · exact Or.inr ⟨rfl, h1⟩
        · left
          simp only [mapHas] at hk ⊢
          rw [← hother k hkid]
          exact hk
      have step : ∀ entry, flow.reloadEach fuel tl g0 (mapSet errs id entry) = some (g1, out) →
          g1.store = g.store ∧
          (∀ k, mapHas g1.batchRunner.runners k = true →
            mapHas g.batchRunner.runners k = true ∨
              (k ∈ id :: tl ∧ mapHas g.store.m (memStore.fullKey RunContextPath k) = true)) ∧
          ∀ errs1, out = .ok errs1 →
            ∀ k, mapHas errs1 k = true ↔ (mapHas errs k = true ∨ k ∈ id :: tl) := by
        intro entry h2
        obtain ⟨h3, h4, h5⟩ := ih g0 g1 _ out h2
        refine ⟨h3.trans hs0, ?_, ?_⟩
        · intro k hk
          rcases h4 k hk with h6 | ⟨h6, h7⟩
          · rcases hrun0 k h6 with h8 | ⟨h8, h9⟩
            · exact Or.inl h8
            · exact Or.inr ⟨by rw [h8]; exact List.mem_cons_self _ _, h9⟩
          · exact Or.inr ⟨List.mem_cons_of_mem _ h6, by rw [← hs0]; exact h7⟩
        · intro errs1 he k
          rw [h5 errs1 he k, mapHas_mapSet, List.mem_cons]
          by_cases hkid : k = id
          · simp [hkid]
          · have hne : ¬ id = k := fun e => hkid e.symm
            simp [hkid, hne]
      cases o with
      | panic r =>
        simp only [hr, Option.some.injEq, Prod.mk.injEq] at h
        obtain ⟨hg, ho⟩ := h
        subst hg ho
        refine ⟨hs0, ?_, ?_⟩
        · intro k hk
          rcases hrun0 k hk with h8 | ⟨h8, h9⟩
          · exact Or.inl h8
          · exact Or.inr ⟨by rw [h8]; exact List.mem_cons_self _ _, h9⟩
        · intro errs1 he
          cases he
      | error err =>
        simp only [hr] at h
        exact step _ h
      | ok u =>
        simp only [hr] at h
        exact step _ h
/-! ## Lemmas: the JSON form of a plan -/

/-- The sorted keys of a map are distinct. -/
theorem sortedKeys_nodup {α : Type} (m : List (String × α)) : (sortedKeys m).Nodup :=
  (List.perm_insertionSort _ _).nodup_iff.mpr (List.nodup_dedup _)

/-- The sorted keys of a map are in order. -/
theorem sortedKeys_sorted {α : Type} (m : List (String × α)) :
    (sortedKeys m).Sorted (fun a b => a ≤ b) :=
  List.sorted_insertionSort _ _

/-- The sorted keys of a map are its keys. -/
theorem mem_sortedKeys {α : Type} (m : List (String × α)) (k : String) :
    k ∈ sortedKeys m ↔ k ∈ m.map Prod.fst := by
  unfold sortedKeys
  rw [(List.perm_insertionSort _ _).mem_iff, List.mem_dedup]

/-- A map whose keys are sorted and distinct has these keys as its sorted keys. -/
theorem sortedKeys_of_sorted {α : Type} (m : List (String × α))
    (hs : (m.map Prod.fst).Sorted (fun a b => a ≤ b)) (hn : (m.map Prod.fst).Nodup) :
    sortedKeys m = m.map Prod.fst := by
  unfold sortedKeys
  rw [List.dedup_eq_self.mpr hn]
  exact List.Sorted.insertionSort_eq hs

/-- A map has no sorted key exactly when it has no entry. -/
theorem sortedKeys_eq_nil {α : Type} (m : List (String × α)) : sortedKeys m = [] ↔ m = [] := by
  constructor
  · intro h
    cases m with
    | nil => rfl
    | cons hd tl =>
      have : hd.1 ∈ sortedKeys (hd :: tl) := (mem_sortedKeys _ _).mpr (by simp)
      rw [h] at this
      cases this
  · intro h
    subst h
    rfl

/-- The assignments `m[k] = v` for distinct new keys add the entries at the end. -/
theorem foldl_mapSet_new {α : Type} :
    ∀ (ents : List (String × α)) (m0 : List (String × α)),
      (ents.map Prod.fst).Nodup → (∀ e ∈ ents, mapHas m0 e.1 = false) →
      ents.foldl (fun acc e => mapSet acc e.1 e.2) m0 = m0 ++ ents := by
  intro ents
  induction ents with
  | nil => intro m0 _ _; simp
  | cons e tl ih =>
    intro m0 hn hnew
    simp only [List.map_cons, List.nodup_cons] at hn
    simp only [List.foldl_cons]
    rw [mapSet_of_not_has m0 e.1 e.2 (hnew e (List.mem_cons_self _ _))]
    rw [ih (m0 ++ [(e.1, e.2)]) hn.2]
    · simp
    · intro x hx
      have h1 := hnew x (List.mem_cons_of_mem _ hx)
      have hne : x.1 ≠ e.1 := by
        intro heq
        exact hn.1 (heq ▸ List.mem_map_of_mem Prod.fst hx)
      cases hh : mapHas (m0 ++ [(e.1, e.2)]) x.1 with
      | false => rfl
      | true =>
        have hmem := mem_of_mapHas _ _ hh
        simp only [List.map_append, List.map_cons, List.map_nil, List.mem_append,
          List.mem_singleton] at hmem
        rcases hmem with h2 | h2
        · have := (mapHas_false_iff_not_mem m0 x.1).mp h1
          exact absurd h2 this
        · exact absurd h2 hne

/-- A key that is the name of a field matches that field. -/
theorem matchField_of_mem (names : List String) (k : String) (h : k ∈ names) :
    matchField names k = some k := by
  unfold matchField
  rw [if_pos h]

/-- Decoding the members of a `vertexInfo` one part after the other. -/
theorem decodeVertexInfo_append
    (dec : JSON → dagExecutePlan → List dagExecutePlan →
      Option (List dagExecutePlan × dagExecutePlan)) :
    ∀ (l1 l2 : List (String × JSON)) (info : vertexInfo) (H : List dagExecutePlan),
      decodeVertexInfo dec (l1 ++ l2) info H =
        match decodeVertexInfo dec l1 info H with
        | none => none
        | some (H1, i1) => decodeVertexInfo dec l2 i1 H1 := by
  intro l1
  induction l1 with
  | nil => intro l2 info H; rfl
  | cons hd tl ih =>
    intro l2 info H
    obtain ⟨k, v⟩ := hd
    simp only [List.cons_append, decodeVertexInfo]
    cases matchField ["Type", "TrueVertex", "FalseVertex", "DAG"] k with
    | none => exact ih _ _ _
    | some field =>
      simp only
      by_cases h1 : field = "Type"
      · simp only [h1, if_true]
        cases v with
        | num n =>
          simp only
          cases vertexType.ofCode n with
          | none => rfl
          | some t => exact ih _ _ _
        | str s => rfl
        | obj ms => rfl
      · simp only [h1, if_false]
        by_cases h2 : field = "TrueVertex"
        · simp only [h2, if_true]
          cases v with
          | num n => rfl
          | str s => exact ih _ _ _
          | obj ms => rfl
        · simp only [h2, if_false]
          by_cases h3 : field = "FalseVertex"
          · simp only [h3, if_true]
            cases v with
            | num n => rfl
            | str s => exact ih _ _ _
            | obj ms => rfl
          · simp only [h3, if_false]
            cases info.DAG with
            | none =>
              simp only
              cases dec v zeroPlan H with
              | none => rfl
              | some r => exact ih _ _ _
            | some a =>
              simp only
              cases H.get? a with
              | none => rfl
              | some old =>
                simp only
                cases dec v old H with
                | none => rfl
                | some r => exact ih _ _ _

/-- Decoding the members of a plan one part after the other. -/
theorem decodePlanMembers_append
    (dec : JSON → dagExecutePlan → List dagExecutePlan →
      Option (List dagExecutePlan × dagExecutePlan)) :
    ∀ (l1 l2 : List (String × JSON)) (plan : dagExecutePlan) (H : List dagExecutePlan),
      decodePlanMembers dec (l1 ++ l2) plan H =
        match decodePlanMembers dec l1 plan H with
        | none => none
        | some (H1, p1) => decodePlanMembers dec l2 p1 H1 := by
  intro l1
  induction l1 with
  | nil => intro l2 plan H; rfl
  | cons hd tl ih =>
    intro l2 plan H
    obtain ⟨k, v⟩ := hd
    simp only [List.cons_append, decodePlanMembers]
    cases matchField ["Name", "StartVertex", "Vertex", "Links"] k with
    | none => exact ih _ _ _
    | some field =>
      simp only
      by_cases h1 : field = "Name"
      · simp only [h1, if_true]
        cases v with
        | num n => rfl
        | str s => exact ih _ _ _
        | obj ms => rfl
      · simp only [h1, if_false]
        by_cases h2 : field = "StartVertex"
        · simp only [h2, if_true]
          cases v with
          | num n => rfl
          | str s => exact ih _ _ _
          | obj ms => rfl
        · simp only [h2, if_false]
          by_cases h3 : field = "Vertex"
          · simp only [h3, if_true]
            cases v with
            | num n => rfl
            | str s => rfl
            | obj ms =>
              simp only
              cases decodeVertexMap dec ms plan.Vertex H with
              | none => rfl
              | some r => exact ih _ _ _
          · simp only [h3, if_false]
            cases v with
            | num n => rfl
            | str s => rfl
            | obj ms =>
              simp only
              cases decodeLinks ms plan.Links with
              | none => rfl
              | some r => exact ih _ _ _

/-- A heap is an initial part of the heap with one more plan. -/
theorem prefix_snoc {α : Type} (l : List α) (a : α) : l <+: l ++ [a] := List.prefix_append _ _

/-- A plan of an initial part of a heap is at the same address of the heap. -/
theorem get_of_prefix {α : Type} (l1 l2 : List α) (h : l1 <+: l2) (i : Nat) (a : α)
    (hi : l1.get? i = some a) : l2.get? i = some a := by
  obtain ⟨t, rfl⟩ := h
  have hlt : i < l1.length := by
    by_contra hge
    rw [List.get?_eq_none.mpr (by omega)] at hi
    cases hi
  simp only [List.get?_eq_getElem?] at hi ⊢
  rw [List.getElem?_append_left hlt]
  exact hi

/-- The plan added at the end of a heap is at the address that is the length
of the heap, in every heap that begins with them. -/
theorem get_snoc_of_prefix {α : Type} (l l2 : List α) (a : α) (h : l ++ [a] <+: l2) :
    l2.get? l.length = some a :=
  get_of_prefix (l ++ [a]) l2 h l.length a (by simp [List.get?_eq_getElem?])

/-- The members of a `vertexInfo` without the member `DAG` decode to its
fields. -/
theorem decodeVertexInfo_fields
    (dec : JSON → dagExecutePlan → List dagExecutePlan →
      Option (List dagExecutePlan × dagExecutePlan))
    (info : vertexInfo) (H : List dagExecutePlan) :
    decodeVertexInfo dec
      (omitempty "Type" (decide (info.Typ = .unset)) (.num info.Typ.code) ++
        omitempty "TrueVertex" (decide (info.TrueVertex = "")) (.str info.TrueVertex) ++
        omitempty "FalseVertex" (decide (info.FalseVertex = "")) (.str info.FalseVertex))
      zeroInfo H
      = some (H, { info with DAG := none }) := by
  obtain ⟨t, tv, fv, d⟩ := info
  cases t <;> by_cases h1 : tv = "" <;> by_cases h2 : fv = "" <;>
    simp [omitempty, decodeVertexInfo, matchField, zeroInfo, vertexType.code, vertexType.ofCode,
      h1, h2]

/-- What `Unserialize` makes of the output of `Serialize` for a `vertexInfo`. -/
theorem encodeVertexInfo_roundTrip (enc : Nat → Option JSON)
    (dec : JSON → dagExecutePlan → List dagExecutePlan →
      Option (List dagExecutePlan × dagExecutePlan))
    (enc2 : List dagExecutePlan → Nat → Option JSON) (hrt : RoundTrip enc dec enc2)
    (info : vertexInfo) (j : JSON) (h : encodeVertexInfo enc info = some j)
    (H0 : List dagExecutePlan) :
    ∃ H1 info1 ms, j = .obj ms ∧ decodeVertexInfo dec ms zeroInfo H0 = some (H1, info1) ∧
      H0 <+: H1 ∧ ∀ H2, H1 <+: H2 → encodeVertexInfo (enc2 H2) info1 = some j := by
  unfold encodeVertexInfo at h
  cases hd : info.DAG with
  | none =>
    simp only [hd, Option.some.injEq] at h
    refine ⟨H0, { info with DAG := none }, _, h.symm, decodeVertexInfo_fields dec info H0,
      List.prefix_refl _, ?_⟩
    intro H2 _
    rw [← h]
    simp [encodeVertexInfo]
  | some a =>
    simp only [hd] at h
    cases hj : enc a with
    | none => simp [hj] at h
    | some jd =>
      simp only [hj, Option.some.injEq] at h
      obtain ⟨H1, q, hdec, hpre, hre⟩ := hrt a jd hj H0
      refine ⟨H1 ++ [q], { info with DAG := some H1.length }, _, h.symm, ?_,
        hpre.trans (prefix_snoc H1 q), ?_⟩
      · rw [decodeVertexInfo_append, decodeVertexInfo_fields dec info H0]
        simp [decodeVertexInfo, matchField, hdec]
      · intro H2 hH2
        have hq : H2.get? H1.length = some q := get_snoc_of_prefix H1 H2 q hH2
        have hj2 := hre H2 H1.length ((prefix_snoc H1 q).trans hH2) hq
        rw [← h]
        simp [encodeVertexInfo, hj2]

/-- What `Unserialize` makes of the output of `Serialize` for the map of
vertices: one new `vertexInfo` for every key, in the order of the keys, that
encodes as the one it was decoded from. -/
theorem encodeMap_roundTrip (enc : Nat → Option JSON)
    (dec : JSON → dagExecutePlan → List dagExecutePlan →
      Option (List dagExecutePlan × dagExecutePlan))
    (enc2 : List dagExecutePlan → Nat → Option JSON) (hrt : RoundTrip enc dec enc2)
    (m : List (String × vertexInfo)) :
    ∀ (keys : List String) (vs : List (String × JSON)),
      encodeMap (encodeVertexInfo enc) m keys = some vs →
      ∀ (m0 : List (String × vertexInfo)) (H0 : List dagExecutePlan),
        ∃ (H1 : List dagExecutePlan) (ents : List (String × vertexInfo)),
          decodeVertexMap dec vs m0 H0
            = some (H1, ents.foldl (fun acc e => mapSet acc e.1 e.2) m0) ∧
          H0 <+: H1 ∧ ents.map Prod.fst = keys ∧
          ∀ H2, H1 <+: H2 → ∀ m1 : List (String × vertexInfo),
            (∀ e ∈ ents, mapGet m1 e.1 = some e.2) →
            encodeMap (encodeVertexInfo (enc2 H2)) m1 keys = some vs := by
  intro keys
  induction keys with
  | nil =>
    intro vs h m0 H0
    simp only [encodeMap, Option.some.injEq] at h
    subst h
    exact ⟨H0, [], rfl, List.prefix_refl _, rfl, fun _ _ _ _ => rfl⟩
  | cons k tl ih =>
    intro vs h m0 H0
    simp only [encodeMap] at h
    cases hg : mapGet m k with
    | none => simp [hg] at h
    | some v =>
      cases hj : encodeVertexInfo enc v with
      | none => simp [hg, hj] at h
      | some j =>
        cases hrest : encodeMap (encodeVertexInfo enc) m tl with
        | none => simp [hg, hj, hrest] at h
        | some rest =>
          simp only [hg, hj, hrest, Option.some.injEq] at h
          subst h
          obtain ⟨H1a, info1, ms, hjms, hdec, hpre, hre⟩ :=
            encodeVertexInfo_roundTrip enc dec enc2 hrt v j hj H0
          obtain ⟨H1, ents, hdec2, hpre2, hkeys, hre2⟩ := ih rest hrest (mapSet m0 k info1) H1a
          refine ⟨H1, (k, info1) :: ents, ?_, hpre.trans hpre2, by simp [hkeys], ?_⟩
          · subst hjms
            simp only [decodeVertexMap, hdec, hdec2, List.foldl_cons]
          · intro H2 hH2 m1 hm1
            have h1 : mapGet m1 k = some info1 := hm1 (k, info1) (List.mem_cons_self _ _)
            have h2 := hre H2 (hpre2.trans hH2)
            have h3 := hre2 H2 hH2 m1 (fun e he => hm1 e (List.mem_cons_of_mem _ he))
            simp only [encodeMap, h1, h2, h3]

/-- What `Unserialize` makes of the output of `Serialize` for the map of
links. -/
theorem decodeLinks_map (L : List (String × String)) :
    ∀ (keys : List String) (m0 : List (String × String)),
      decodeLinks (keys.map (fun k => (k, JSON.str ((mapGet L k).getD "")))) m0
        = some ((keys.map (fun k => (k, (mapGet L k).getD ""))).foldl
            (fun acc e => mapSet acc e.1 e.2) m0) := by
  intro keys
  induction keys with
  | nil => intro m0; rfl
  | cons k tl ih =>
    intro m0
    simp only [List.map_cons, decodeLinks, List.foldl_cons]
    exact ih _

/-- The members `Name` and `StartVertex` of a plan decode to the two fields. -/
theorem decodePlanMembers_names
    (dec : JSON → dagExecutePlan → List dagExecutePlan →
      Option (List dagExecutePlan × dagExecutePlan))
    (name start : String) (H : List dagExecutePlan) :
    decodePlanMembers dec
      (omitempty "Name" (decide (name = "")) (.str name) ++
        omitempty "StartVertex" (decide (start = "")) (.str start)) zeroPlan H
      = some (H, { zeroPlan with Name := name, StartVertex := start }) := by
  by_cases h1 : name = "" <;> by_cases h2 : start = "" <;>
    simp [omitempty, decodePlanMembers, matchField, zeroPlan, h1, h2]

/-- What `Unserialize` makes of the output of `Serialize` for a plan: a plan
with the same name and start vertex and the two maps in the order of their
keys, that encodes as the plan it was decoded from. -/
theorem encodePlan_roundTrip (enc : Nat → Option JSON)
    (dec : JSON → dagExecutePlan → List dagExecutePlan →
      Option (List dagExecutePlan × dagExecutePlan))
    (enc2 : List dagExecutePlan → Nat → Option JSON) (hrt : RoundTrip enc dec enc2)
    (plan : dagExecutePlan) (j : JSON) (h : encodePlan enc plan = some j)
    (H0 : List dagExecutePlan) :
    ∃ H1 q ms, j = .obj ms ∧ decodePlanMembers dec ms zeroPlan H0 = some (H1, q) ∧
      H0 <+: H1 ∧ ∀ H2, H1 <+: H2 → encodePlan (enc2 H2) q = some j := by
  unfold encodePlan at h
  cases hv : encodeMap (encodeVertexInfo enc) plan.Vertex (sortedKeys plan.Vertex) with
  | none => simp [hv] at h
  | some vs =>
    simp only [hv, Option.some.injEq] at h
    obtain ⟨H1, ents, hdec, hpre, hkeys, hre⟩ :=
      encodeMap_roundTrip enc dec enc2 hrt plan.Vertex _ vs hv [] H0
    have hnd : (ents.map Prod.fst).Nodup := by rw [hkeys]; exact sortedKeys_nodup _
    have hents : ents.foldl (fun acc e => mapSet acc e.1 e.2) [] = ents := by
      rw [foldl_mapSet_new ents [] hnd (fun _ _ => rfl)]
      rfl
    rw [hents] at hdec
    have hsk : sortedKeys ents = sortedKeys plan.Vertex := by
      rw [sortedKeys_of_sorted ents (by rw [hkeys]; exact sortedKeys_sorted _) hnd, hkeys]
    have hempty : ents.isEmpty = plan.Vertex.isEmpty := by
      cases hp : plan.Vertex with
      | nil =>
        have : sortedKeys plan.Vertex = [] := by rw [hp]; rfl
        rw [this] at hkeys
        cases ents with
        | nil => rfl
        | cons e tl => simp at hkeys
      | cons e tl =>
        cases ents with
        | nil =>
          have h0 : sortedKeys plan.Vertex = [] := by rw [← hkeys]; rfl
          rw [(sortedKeys_eq_nil _).mp h0] at hp
          cases hp
        | cons e1 tl1 => rfl
    let links : List (String × String) :=
      (sortedKeys plan.Links).map (fun k => (k, (mapGet plan.Links k).getD ""))
    have hlk : links.map Prod.fst = sortedKeys plan.Links := by
      simp only [links, List.map_map]
      exact List.map_id'' (fun _ => rfl) _
    have hlnd : (links.map Prod.fst).Nodup := by rw [hlk]; exact sortedKeys_nodup _
    have hlinks : links.foldl (fun acc e => mapSet acc e.1 e.2) [] = links := by
      rw [foldl_mapSet_new links [] hlnd (fun _ _ => rfl)]
      rfl
    have hlsk : sortedKeys links = sortedKeys plan.Links := by
      rw [sortedKeys_of_sorted links (by rw [hlk]; exact sortedKeys_sorted _) hlnd, hlk]
    have hlempty : links.isEmpty = plan.Links.isEmpty := by
      cases hp : plan.Links with
      | nil => simp [links, hp, sortedKeys]
      | cons e tl =>
        cases hl : links with
        | nil =>
          have h0 : sortedKeys plan.Links = [] := by rw [← hlk, hl]; rfl
          rw [(sortedKeys_eq_nil _).mp h0] at hp
          cases hp
        | cons e1 tl1 => rfl
    have hlval : (sortedKeys plan.Links).map
        (fun k => (k, JSON.str ((mapGet links k).getD "")))
        = (sortedKeys plan.Links).map
            (fun k => (k, JSON.str ((mapGet plan.Links k).getD ""))) := by
      apply List.map_congr_left
      intro k hk
      have hmem : (k, (mapGet plan.Links k).getD "") ∈ links :=
        List.mem_map.mpr ⟨k, hk, rfl⟩
      rw [mapGet_of_mem_nodup links k _ hlnd hmem]
      rfl
    let q : dagExecutePlan :=
      { Name := plan.Name, StartVertex := plan.StartVertex, Vertex := ents, Links := links }
    refine ⟨H1, q, _, h.symm, ?_, hpre, ?_⟩
    · rw [List.append_assoc, List.append_assoc, ← List.append_assoc (omitempty "Name" _ _),
        decodePlanMembers_append, decodePlanMembers_names dec plan.Name plan.StartVertex H0]
      simp only
      rw [decodePlanMembers_append]
      have hV : decodePlanMembers dec (omitempty "Vertex" plan.Vertex.isEmpty (.obj vs))
          { zeroPlan with Name := plan.Name, StartVertex := plan.StartVertex } H0
          = some (H1, { Name := plan.Name, StartVertex := plan.StartVertex, Vertex := ents,
                        Links := [] }) := by
        cases hp : plan.Vertex.isEmpty with
        | true =>
          have hp' : plan.Vertex = [] := List.isEmpty_iff.mp hp
          have hk0 : sortedKeys plan.Vertex = [] := by rw [hp']; rfl
          rw [hk0] at hv hkeys
          simp only [encodeMap, Option.some.injEq] at hv
          subst hv
          have he0 : ents = [] := by
            cases ents with
            | nil => rfl
            | cons e tl => simp at hkeys
          subst he0
          simp only [decodeVertexMap, Option.some.injEq, Prod.mk.injEq] at hdec
          simp [omitempty, decodePlanMembers, matchField, zeroPlan, hdec.1]
        | false =>
          simp [omitempty, decodePlanMembers, matchField, zeroPlan, hdec]
      rw [hV]
      simp only
      cases hp : plan.Links.isEmpty with
      | true =>
        have hp' : plan.Links = [] := List.isEmpty_iff.mp hp
        have hl0 : links = [] := by simp [links, hp', sortedKeys]
        simp [omitempty, decodePlanMembers, matchField, q, hl0]
      | false =>
        have hdl := decodeLinks_map plan.Links (sortedKeys plan.Links) []
        rw [hlinks] at hdl
        simp [omitempty, decodePlanMembers, matchField, q, hdl]
    · intro H2 hH2
      have hmap := hre H2 hH2 ents (fun e he => mapGet_of_mem_nodup ents e.1 e.2 hnd he)
      rw [← h]
      simp only [encodePlan, q, hsk, hmap, hempty, hlsk, hlval, hlempty]

/-- With the same bound on the nesting, `Unserialize` reads what `Serialize`
writes, and `Serialize` writes the same for the plan it returns. -/
theorem Serialize_roundTrip (H : List dagExecutePlan) :
    ∀ fuel : Nat, RoundTrip (Serialize H fuel) (decodePlan fuel) (fun H2 => Serialize H2 fuel) := by
  intro fuel
  induction fuel with
  | zero =>
    intro a j h
    simp [Serialize] at h
  | succ n ih =>
    intro a j h H0
    rw [Serialize] at h
    cases hp : H.get? a with
    | none =>
      rw [hp] at h
      cases h
    | some plan =>
      rw [hp] at h
      simp only at h
      obtain ⟨H1, q, ms, hj, hdec, hpre, hre⟩ :=
        encodePlan_roundTrip (Serialize H n) (decodePlan n) (fun H2 => Serialize H2 n) ih plan j
          h H0
      refine ⟨H1, q, ?_, hpre, ?_⟩
      · subst hj
        simp only [decodePlan, hdec]
      · intro H2 c hH2 hc
        show Serialize H2 (n + 1) c = some j
        rw [Serialize, hc]
        exact hre H2 hH2

/-- More fuel does not change what the encoding of a map writes. -/
theorem encodeMap_mono {α : Type} (enc enc1 : α → Option JSON) (m : List (String × α))
    (hsub : ∀ kv ∈ m, ∀ j, enc kv.2 = some j → enc1 kv.2 = some j) :
    ∀ (keys : List String) (vs : List (String × JSON)),
      encodeMap enc m keys = some vs → encodeMap enc1 m keys = some vs := by
  intro keys
  induction keys with
  | nil => intro vs h; exact h
  | cons k tl ih =>
    intro vs h
    simp only [encodeMap] at h ⊢
    cases hg : mapGet m k with
    | none => simp [hg] at h
    | some v =>
      cases hj : enc v with
      | none => simp [hg, hj] at h
      | some j =>
        cases hrest : encodeMap enc m tl with
        | none => simp [hg, hj, hrest] at h
        | some rest =>
          simp only [hg, hj, hrest] at h
          simp only [hsub (k, v) (mapGet_mem m k v hg) j hj, ih rest hrest]
          exact h

/-- More fuel does not change what the encoding of a `vertexInfo` writes. -/
theorem encodeVertexInfo_mono (enc enc1 : Nat → Option JSON) (info : vertexInfo)
    (hsub : ∀ a j, info.DAG = some a → enc a = some j → enc1 a = some j) (j : JSON)
    (h : encodeVertexInfo enc info = some j) : encodeVertexInfo enc1 info = some j := by
  unfold encodeVertexInfo at h ⊢
  cases hd : info.DAG with
  | none =>
    simp only [hd] at h ⊢
    exact h
  | some a =>
    simp only [hd] at h ⊢
    cases hj : enc a with
    | none => simp [hj] at h
    | some jd =>
      simp only [hj] at h
      simp only [hsub a jd hd hj]
      exact h

/-- More fuel does not change what `Serialize` writes. -/
theorem Serialize_mono (H : List dagExecutePlan) :
    ∀ (fuel a : Nat) (j : JSON), Serialize H fuel a = some j →
      ∀ fuel1, fuel ≤ fuel1 → Serialize H fuel1 a = some j := by
  intro fuel
  induction fuel with
  | zero =>
    intro a j h
    simp [Serialize] at h
  | succ n ih =>
    intro a j h fuel1 hle
    obtain ⟨n1, rfl⟩ : ∃ n1, fuel1 = n1 + 1 := ⟨fuel1 - 1, by omega⟩
    rw [Serialize] at h ⊢
    cases hp : H.get? a with
    | none =>
      rw [hp] at h
      cases h
    | some plan =>
      rw [hp] at h
      simp only at h ⊢
      unfold encodePlan at h ⊢
      cases hv : encodeMap (encodeVertexInfo (Serialize H n)) plan.Vertex
          (sortedKeys plan.Vertex) with
      | none => simp [hv] at h
      | some vs =>
        have hv1 := encodeMap_mono (encodeVertexInfo (Serialize H n))
          (encodeVertexInfo (Serialize H n1)) plan.Vertex
          (fun kv _ j hj => encodeVertexInfo_mono _ _ kv.2
            (fun b jb _ hb => ih b jb hb n1 (by omega)) j hj) _ vs hv
        simp only [hv] at h
        simp only [hv1]
        exact h

/-- More fuel does not change what the decoding of a `vertexInfo` returns. -/
theorem decodeVertexInfo_mono
    (dec dec1 : JSON → dagExecutePlan → List dagExecutePlan →
      Option (List dagExecutePlan × dagExecutePlan))
    (hsub : ∀ j p H r, dec j p H = some r → dec1 j p H = some r) :
    ∀ (ms : List (String × JSON)) (info : vertexInfo) (H : List dagExecutePlan)
      (r : List dagExecutePlan × vertexInfo),
      decodeVertexInfo dec ms info H = some r → decodeVertexInfo dec1 ms info H = some r := by
  intro ms
  induction ms with
  | nil => intro info H r h; exact h
  | cons hd tl ih =>
    intro info H r h
    obtain ⟨k, v⟩ := hd
    simp only [decodeVertexInfo] at h ⊢
    cases hm : matchField ["Type", "TrueVertex", "FalseVertex", "DAG"] k with
    | none =>
      simp only [hm] at h ⊢
      exact ih _ _ _ h
    | some field =>
      simp only [hm] at h ⊢
      by_cases h1 : field = "Type"
      · simp only [h1, if_true] at h ⊢
        cases v with
        | num n =>
          simp only at h ⊢
          cases ho : vertexType.ofCode n with
          | none => simp [ho] at h
          | some t =>
            simp only [ho] at h ⊢
            exact ih _ _ _ h
        | str s => simp at h
        | obj ms => simp at h
      · simp only [h1, if_false] at h ⊢
        by_cases h2 : field = "TrueVertex"
        · simp only [h2, if_true] at h ⊢
          cases v with
          | num n => simp at h
          | str s => exact ih _ _ _ h
          | obj ms => simp at h
        · simp only [h2, if_false] at h ⊢
          by_cases h3 : field = "FalseVertex"
          · simp only [h3, if_true] at h ⊢
            cases v with
            | num n => simp at h
            | str s => exact ih _ _ _ h
            | obj ms => simp at h
          · simp only [h3, if_false] at h ⊢
            cases hd : info.DAG with
            | none =>
              simp only [hd] at h ⊢
              cases hdec : dec v zeroPlan H with
              | none => simp [hdec] at h
              | some r1 =>
                simp only [hdec] at h
                simp only [hsub v zeroPlan H r1 hdec]
                exact ih _ _ _ h
            | some a =>
              simp only [hd] at h ⊢
              cases hold : H.get? a with
              | none =>
                rw [hold] at h
                cases h
              | some old =>
                rw [hold] at h
                simp only at h ⊢
                cases hdec : dec v old H with
                | none => simp [hdec] at h
                | some r1 =>
                  simp only [hdec] at h
                  simp only [hsub v old H r1 hdec]
                  exact ih _ _ _ h

/-- More fuel does not change what the decoding of the map of vertices returns. -/
theorem decodeVertexMap_mono
    (dec dec1 : JSON → dagExecutePlan → List dagExecutePlan →
      Option (List dagExecutePlan × dagExecutePlan))
    (hsub : ∀ j p H r, dec j p H = some r → dec1 j p H = some r) :
    ∀ (ms : List (String × JSON)) (m : List (String × vertexInfo)) (H : List dagExecutePlan)
      (r : List dagExecutePlan × List (String × vertexInfo)),
      decodeVertexMap dec ms m H = some r → decodeVertexMap dec1 ms m H = some r := by
  intro ms
  induction ms with
  | nil => intro m H r h; exact h
  | cons hd tl ih =>
    intro m H r h
    obtain ⟨k, v⟩ := hd
    simp only [decodeVertexMap] at h ⊢
    cases v with
    | num n => simp at h
    | str s => simp at h
    | obj members =>
      simp only at h ⊢
      cases hi : decodeVertexInfo dec members zeroInfo H with
      | none => simp [hi] at h
      | some r1 =>
        simp only [hi] at h
        simp only [decodeVertexInfo_mono dec dec1 hsub members zeroInfo H r1 hi]
        exact ih _ _ _ h

/-- More fuel does not change what the decoding of the members of a plan
returns. -/
theorem decodePlanMembers_mono
    (dec dec1 : JSON → dagExecutePlan → List dagExecutePlan →
      Option (List dagExecutePlan × dagExecutePlan))
    (hsub : ∀ j p H r, dec j p H = some r → dec1 j p H = some r) :
    ∀ (ms : List (String × JSON)) (plan : dagExecutePlan) (H : List dagExecutePlan)
      (r : List dagExecutePlan × dagExecutePlan),
      decodePlanMembers dec ms plan H = some r → decodePlanMembers dec1 ms plan H = some r := by
  intro ms
  induction ms with
  | nil => intro plan H r h; exact h
  | cons hd tl ih =>
    intro plan H r h
    obtain ⟨k, v⟩ := hd
    simp only [decodePlanMembers] at h ⊢
    cases hm : matchField ["Name", "StartVertex", "Vertex", "Links"] k with
    | none =>
      simp only [hm] at h ⊢
      exact ih _ _ _ h
    | some field =>
      simp only [hm] at h ⊢
      by_cases h1 : field = "Name"
      · simp only [h1, if_true] at h ⊢
        cases v with
        | num n => simp at h
        | str s => exact ih _ _ _ h
        | obj ms => simp at h
      · simp only [h1, if_false] at h ⊢
        by_cases h2 : field = "StartVertex"
        · simp only [h2, if_true] at h ⊢
          cases v with
          | num n => simp at h
          | str s => exact ih _ _ _ h
          | obj ms => simp at h
        · simp only [h2, if_false] at h ⊢
          by_cases h3 : field = "Vertex"
          · simp only [h3, if_true] at h ⊢
            cases v with
            | num n => simp at h
            | str s => simp at h
            | obj members =>
              simp only at h ⊢
              cases hmap : decodeVertexMap dec members plan.Vertex H with
              | none => simp [hmap] at h
              | some r1 =>
                simp only [hmap] at h
                simp only [decodeVertexMap_mono dec dec1 hsub members plan.Vertex H r1 hmap]
                exact ih _ _ _ h
          · simp only [h3, if_false] at h ⊢
            cases v with
            | num n => simp at h
            | str s => simp at h
            | obj members =>
              simp only at h ⊢
              cases hl : decodeLinks members plan.Links with
              | none => simp [hl] at h
              | some r1 =>
                simp only [hl] at h ⊢
                exact ih _ _ _ h

/-- More fuel does not change what the decoding of a plan returns. -/
theorem decodePlan_mono :
    ∀ (fuel : Nat) (j : JSON) (p : dagExecutePlan) (H : List dagExecutePlan)
      (r : List dagExecutePlan × dagExecutePlan), decodePlan fuel j p H = some r →
      ∀ fuel1, fuel ≤ fuel1 → decodePlan fuel1 j p H = some r := by
  intro fuel
  induction fuel with
  | zero =>
    intro j p H r h
    simp [decodePlan] at h
  | succ n ih =>
    intro j p H r h fuel1 hle
    obtain ⟨n1, rfl⟩ : ∃ n1, fuel1 = n1 + 1 := ⟨fuel1 - 1, by omega⟩
    simp only [decodePlan] at h ⊢
    cases j with
    | num n => simp at h
    | str s => simp at h
    | obj members =>
      simp only at h ⊢
      exact decodePlanMembers_mono (decodePlan n) (decodePlan n1)
        (fun j1 p1 H1 r1 h1 => ih j1 p1 H1 r1 h1 n1 (by omega)) members p H r h

/-- More fuel does not change what `Unserialize` returns. -/
theorem Unserialize_mono (fuel : Nat) (j : JSON) (r : List dagExecutePlan × Nat)
    (h : Unserialize fuel j = some r) (fuel1 : Nat) (hle : fuel ≤ fuel1) :
    Unserialize fuel1 j = some r := by
  unfold Unserialize at h ⊢
  cases hd : decodePlan fuel j zeroPlan [] with
  | none => simp [hd] at h
  | some r1 =>
    simp only [hd] at h
    simp only [decodePlan_mono fuel j zeroPlan [] r1 hd fuel1 hle]
    exact h

/-- The round trip of `Serialize` and `Unserialize`: when `Serialize` writes
`j` for a plan, `Unserialize` of `j` returns a plan for which `Serialize`
writes `j` again, with the same fuel and with any more. -/
theorem Serialize_Unserialize (H : List dagExecutePlan) (fuel a : Nat) (j : JSON)
    (h : Serialize H fuel a = some j) :
    ∃ H1 q, (∀ fuel1, fuel ≤ fuel1 → Unserialize fuel1 j = some (H1, q)) ∧
      ∀ fuel1, fuel ≤ fuel1 → Serialize H1 fuel1 q = some j := by
  obtain ⟨H1, q, hdec, _, hre⟩ := Serialize_roundTrip H fuel a j h []
  have hq : (H1 ++ [q]).get? H1.length = some q := by simp [List.get?_eq_getElem?]
  have hun : Unserialize fuel j = some (H1 ++ [q], H1.length) := by
    simp only [Unserialize, hdec]
  refine ⟨H1 ++ [q], H1.length, fun fuel1 hle => Unserialize_mono fuel j _ hun fuel1 hle,
    fun fuel1 hle => ?_⟩
  exact Serialize_mono _ fuel _ j (hre (H1 ++ [q]) H1.length (prefix_snoc H1 q) hq) fuel1 hle

/-- The encoding of a map returns when the encoding of the value of every key
does. -/
theorem encodeMap_returns {α : Type} (enc : α → Option JSON) (m : List (String × α)) :
    ∀ keys : List String,
      (∀ k ∈ keys, ∃ v, mapGet m k = some v ∧ ∃ j, enc v = some j) →
      ∃ vs, encodeMap enc m keys = some vs := by
  intro keys
  induction keys with
  | nil => intro _; exact ⟨[], rfl⟩
  | cons k tl ih =>
    intro h
    obtain ⟨v, hv, j, hj⟩ := h k (List.mem_cons_self _ _)
    obtain ⟨rest, hrest⟩ := ih (fun x hx => h x (List.mem_cons_of_mem _ hx))
    exact ⟨(k, j) :: rest, by simp only [encodeMap, hv, hj, hrest]⟩

/-- `Serialize` returns for every plan of a heap of finite trees of plans, with
any fuel above the address of the plan. -/
theorem Serialize_returns (H : List dagExecutePlan) (ht : PlanTree H)
    (hty : ∀ i plan, H.get? i = some plan → plan.Typed) :
    ∀ fuel a : Nat, a < H.length → a < fuel → ∃ j, Serialize H fuel a = some j := by
  intro fuel
  induction fuel with
  | zero => intro a _ h; omega
  | succ n ih =>
    intro a ha hfuel
    obtain ⟨plan, hp⟩ : ∃ plan, H.get? a = some plan := ⟨_, List.get?_eq_get ha⟩
    rw [Serialize, hp]
    simp only
    obtain ⟨vs, hvs⟩ := encodeMap_returns (encodeVertexInfo (Serialize H n))
      plan.Vertex (sortedKeys plan.Vertex) (by
        intro k hk
        have hmem : k ∈ plan.Vertex.map Prod.fst := (mem_sortedKeys _ k).mp hk
        cases hg : mapGet plan.Vertex k with
        | none =>
          have := (mapHas_false_iff_not_mem plan.Vertex k).mp (by rw [mapHas, hg]; rfl)
          exact absurd hmem this
        | some v =>
          refine ⟨v, rfl, ?_⟩
          have hin := mapGet_mem _ k v hg
          unfold encodeVertexInfo
          cases hd : v.DAG with
          | none => exact ⟨_, rfl⟩
          | some b =>
            have htyp := hty a _ hp (k, v) hin b hd
            obtain ⟨b1, hb1, hlt⟩ := ht a _ hp (k, v) hin htyp
            have hbb : b1 = b := by
              have hd1 : v.DAG = some b1 := hb1
              rw [hd] at hd1
              exact (Option.some.inj hd1).symm
            subst hbb
            obtain ⟨jb, hjb⟩ := ih b1 (by omega) (by omega)
            simp only [hjb]
            exact ⟨_, rfl⟩)
    simp only [encodePlan, hvs]
    exact ⟨_, rfl⟩

/-- A new entity has no pointer to a plan. -/
theorem newDAGEntity_typed (name : String) : (newDAGEntity name).Typed := by
  intro kv hkv
  simp [newDAGEntity] at hkv

/-- Every builder call keeps the pointers to plans in vertices of kind DAG. -/
theorem result_typed (D : List (String × Nat)) (gl gl1 : globalVertex)
    (de de1 : dagExecutePlan) (fuel : Nat) (op : BuilderOp) (err : Option Err)
    (hinv : de.Typed) (h : op.result D gl de fuel = some (gl1, de1, err)) : de1.Typed := by
  cases err with
  | some e =>
    rw [(result_err D gl gl1 de de1 fuel op e h).2]
    exact hinv
  | none =>
    have key : ∀ (v : String) (info : vertexInfo) (start : String),
        (∀ b, info.DAG = some b → info.Typ = .vertexDAG) →
        ({ de with Vertex := mapSet de.Vertex v info, StartVertex := start }).Typed := by
      intro v info start hinfo kv hkv b hb
      rcases mem_mapSet de.Vertex v info kv hkv with h1 | h1
      · exact hinv kv h1 b hb
      · subst h1
        exact hinfo b hb
    cases op with
    | Node v hd =>
      simp only [BuilderOp.result, Option.some.injEq] at h
      obtain ⟨_, _, _, _, hde⟩ := Node_inv_ok gl gl1 de de1 v hd h
      rw [hde]
      exact key v makeNodeVertexInfo _ (fun b hb => by simp [makeNodeVertexInfo] at hb)
    | SubDAG v n =>
      simp only [BuilderOp.result, Option.some.injEq] at h
      obtain ⟨other, _, _, _, hde⟩ := SubDAG_inv_ok D gl gl1 de de1 v n h
      rw [hde]
      exact key v (makeDAGVertexInfo other) _ (fun _ _ => rfl)
    | Condition v t e hd =>
      simp only [BuilderOp.result, Option.some.injEq] at h
      obtain ⟨_, _, _, _, _, _, hde⟩ := Condition_inv_ok gl gl1 de de1 v t e hd h
      rw [hde]
      exact key v (makeCondVertexInfo t e) _ (fun b hb => by simp [makeCondVertexInfo] at hb)
    | Edge frm dst =>
      simp only [BuilderOp.result] at h
      cases hE : dagEntity.Edge gl de fuel frm dst with
      | none => simp [hE] at h
      | some r =>
        obtain ⟨de2, e2⟩ := r
        simp only [hE, Option.some.injEq, Prod.mk.injEq] at h
        obtain ⟨_, h2, h3⟩ := h
        subst h2 h3
        obtain ⟨_, _, _, _, hde⟩ := Edge_inv_ok gl de de2 fuel frm dst hE
        rw [hde]
        exact hinv

/-- `RegisterDAG` keeps the pointers to plans in vertices of kind DAG, in
every plan of the engine, whatever its handler does and returns. -/
theorem RegisterDAG_typed (f f1 : flow) (fuel : Nat) (name : String) (handler : DAGHandler)
    (err : Option Err) (h : f.RegisterDAG fuel name handler = some (f1, err))
    (hf : ∀ i plan, f.heap.get? i = some plan → plan.Typed) :
    ∀ i plan, f1.heap.get? i = some plan → plan.Typed := by
  by_cases hrun : f.running = true
  · obtain ⟨d, hd, hdt⟩ := RegisterDAG_invariant (fun _ de => de.Typed) f f1 fuel name handler
      err hrun h (newDAGEntity_typed name)
      (fun gl de op gl1 de1 e hinv hres => result_typed f.dagEntities gl gl1 de de1 fuel op e
        hinv hres)
    unfold flow.RegisterDAG at h
    simp only [hrun, Bool.not_true, Bool.false_eq_true, if_false] at h
    cases hr : handler.run fuel f.heap.length { f with heap := f.heap ++ [newDAGEntity name] } with
    | none =>
      simp only [hrun] at hr
      rw [hr] at h
      cases h
    | some r =>
      obtain ⟨f2, e2⟩ := r
      obtain ⟨hs, _, hother⟩ := run_frame fuel f.heap.length handler _ f2 e2 hr
      simp only [hrun] at hr
      rw [hr] at h
      have hheap : f1.heap = f2.heap := by
        cases e2 with
        | some e =>
          simp only [Option.some.injEq, Prod.mk.injEq] at h
          rw [← h.1]
        | none =>
          simp only [Option.some.injEq, Prod.mk.injEq] at h
          rw [← h.1]
      intro i plan hi
      by_cases hia : i = f.heap.length
      · subst hia
        rw [hd] at hi
        cases hi
        exact hdt
      · rw [hheap, hother i hia] at hi
        have hi' : (f.heap ++ [newDAGEntity name]).get? i = some plan := hi
        have hlt : i < f.heap.length := by
          have hlt1 : i < (f.heap ++ [newDAGEntity name]).length := by
            by_contra hge
            rw [List.get?_eq_none.mpr (by omega)] at hi'
            cases hi'
          simp at hlt1
          omega
        have : (f.heap ++ [newDAGEntity name]).get? i = f.heap.get? i := by
          simp [List.get?_eq_getElem?, List.getElem?_append_left hlt]
        rw [this] at hi'
        exact hf i plan hi'
  · have hrun' : f.running = false := by simpa using hrun
    unfold flow.RegisterDAG at h
    simp only [hrun', Bool.not_false, if_true, Option.some.injEq, Prod.mk.injEq] at h
    rw [← h.1]
    exact hf

/-- Registrations keep the pointers to plans in vertices of kind DAG. -/
theorem registerAll_typed (fuel : Nat) :
    ∀ (regs : List (String × DAGHandler)) (f f1 : flow),
      flow.registerAll fuel regs f = some f1 →
      (∀ i plan, f.heap.get? i = some plan → plan.Typed) →
      ∀ i plan, f1.heap.get? i = some plan → plan.Typed := by
  intro regs
  induction regs with
  | nil =>
    intro f f1 h hf
    simp only [flow.registerAll, Option.some.injEq] at h
    rw [← h]
    exact hf
  | cons hd tl ih =>
    intro f f1 h hf
    obtain ⟨name, handler⟩ := hd
    unfold flow.registerAll at h
    cases hr : f.RegisterDAG fuel name handler with
    | none => simp [hr] at h
    | some r =>
      obtain ⟨f2, e⟩ := r
      simp only [hr] at h
      exact ih f2 f1 h (RegisterDAG_typed f f2 fuel name handler e hr hf)

/-- The plan `a` of the engine `selfReferring` has no JSON form: the encoding
of its vertex `self` encodes the plan again. -/
theorem selfReferring_never_serializes :
    ∀ fuel : Nat, Serialize Fixture.selfReferring.heap fuel 0 = none := by
  have hp : Fixture.selfReferring.heap.get? 0
      = some { Name := "a", StartVertex := "x",
               Vertex := [("x", makeNodeVertexInfo), ("self", makeDAGVertexInfo 0)],
               Links := [] } := by decide!
  have hk : sortedKeys [("x", makeNodeVertexInfo), ("self", makeDAGVertexInfo 0)]
      = ["self", "x"] := by decide!
  generalize Fixture.selfReferring.heap = H at *
  intro fuel
  induction fuel with
  | zero => rfl
  | succ n ih =>
    rw [Serialize, hp]
    simp only [encodePlan, hk, encodeMap, mapGet]
    simp [encodeVertexInfo, makeDAGVertexInfo, ih]
/-- The plan that `Unserialize` returns has its maps in the order of the keys:
for the plan of `retryDAG`, whose vertices were declared in the order `work`,
`done`, `again`, it is another value than the plan, with the same output of
`Serialize`. -/
theorem Unserialize_sorts_the_maps :
    ((Fixture.after Fixture.retryFlow).heap.get? 0).map
        (fun p => p.Vertex.map Prod.fst) = some ["work", "done", "again"] ∧
    ((Serialize (Fixture.after Fixture.retryFlow).heap 8 0).bind (Unserialize 8)).map
        (fun r => (r.1.get? r.2).map (fun p => p.Vertex.map Prod.fst))
      = some (some ["again", "done", "work"]) ∧
    ((Serialize (Fixture.after Fixture.retryFlow).heap 8 0).bind (Unserialize 8)).bind
        (fun r => Serialize r.1 8 r.2)
      = Serialize (Fixture.after Fixture.retryFlow).heap 8 0 ∧
    (Serialize (Fixture.after Fixture.retryFlow).heap 8 0).isSome = true := by
  refine ⟨by decide!, by decide!, by decide!, by decide!⟩

/-- What `Unserialize` does with a text that `Serialize` does not write: a key
is matched to a field without regard to case, a member that matches no field
is skipped, and a second member for `DAG` is decoded into the plan of the
first. -/
theorem Unserialize_matches_keys_without_case :
    (Unserialize 8 (.obj [("name", .str "n"), ("other", .num 3),
        ("Vertex", .obj [("v", .obj [("DAG", .obj [("Name", .str "a")]),
          ("dag", .obj [("StartVertex", .str "s")])])])])).map
      (fun r => (r.2, r.1))
      = some (1, [{ Name := "a", StartVertex := "s", Vertex := [], Links := [] },
          { Name := "n", StartVertex := "",
            Vertex := [("v", { Typ := .unset, TrueVertex := "", FalseVertex := "",
                               DAG := some 0 })],
            Links := [] }]) ∧
    Unserialize 8 (.obj [("Name", .num 1)]) = none := by
  refine ⟨by decide!, by decide!⟩

/-! ## Lemmas: the start vertex after a sequence of builder calls -/

/-- The computed test for an incoming reference agrees with `Referenced`. -/
theorem hasReference_iff (dt : dagExecutePlan) (v : String) :
    dt.hasReference v = true ↔ dt.Referenced v := by
  unfold dagExecutePlan.hasReference dagExecutePlan.Referenced
  simp only [Bool.or_eq_true, List.any_eq_true, decide_eq_true_eq, Bool.and_eq_true]
  constructor
  · rintro (⟨kv, _, h⟩ | ⟨kv, _, ⟨h1, h2⟩, h3⟩)
    · exact Or.inl ⟨kv.1, h⟩
    · exact Or.inr ⟨kv.1, kv.2, h1, h2, h3⟩
  · rintro (⟨x, h⟩ | ⟨c, info, h1, h2, h3⟩)
    · exact Or.inl ⟨(x, v), mapGet_mem _ _ _ h, h⟩
    · exact Or.inr ⟨(c, info), mapGet_mem _ _ _ h1, ⟨h1, h2⟩, h3⟩

/-- A property of the builder state that every builder call keeps when the
call passes a test holds for the entity at `addr` after the calls of a DAG
handler all of whose calls pass the test. -/
theorem run_invariant_guarded (Inv : globalVertex → dagExecutePlan → Prop)
    (q : dagExecutePlan → Option Err → BuilderOp → Bool) (fuel addr : Nat)
    (D : List (String × Nat))
    (hstep : ∀ gl de op gl1 de1 err, Inv gl de →
      BuilderOp.result D gl de fuel op = some (gl1, de1, err) → q de err op = true →
      Inv gl1 de1) :
    ∀ (handler : DAGHandler) (g g1 : flow) (err : Option Err),
      handler.run fuel addr g = some (g1, err) → g.dagEntities = D →
      handler.everyCall q fuel addr g = true →
      (∃ de, g.heap.get? addr = some de ∧ Inv g.gl de) →
      ∃ de1, g1.heap.get? addr = some de1 ∧ Inv g1.gl de1 := by
  intro handler
  induction handler with
  | ret e =>
    intro g g1 err h _ _ hinv
    simp only [DAGHandler.run, Option.some.injEq, Prod.mk.injEq] at h
    rw [← h.1]
    exact hinv
  | call op k ih =>
    intro g g1 err h hD hq hinv
    unfold DAGHandler.run at h
    unfold DAGHandler.everyCall at hq
    cases ha : g.applyOp fuel addr op with
    | none => simp [ha] at h
    | some r =>
      obtain ⟨g2, e2⟩ := r
      simp only [ha] at h
      simp only [ha, Bool.and_eq_true] at hq
      have hD2 : g2.dagEntities = D := by
        rw [(applyOp_frame g g2 fuel addr op e2 ha).1.2.2.2.2.2.1]
        exact hD
      refine ih e2 g2 g1 err h hD2 hq.2 ?_
      obtain ⟨de, hde, hI⟩ := hinv
      have hq1 : q de e2 op = true := by
        have := hq.1
        rw [hde] at this
        exact this
      rw [applyOp_eq] at ha
      simp only [hde] at ha
      cases hr : op.result g.dagEntities g.gl de fuel with
      | none => simp [hr] at ha
      | some r =>
        obtain ⟨gl1, de1, err1⟩ := r
        simp only [hr, Option.some.injEq, Prod.mk.injEq] at ha
        obtain ⟨hf, he⟩ := ha
        subst hf he
        rw [hD] at hr
        exact ⟨de1, heap_get_set g.heap addr de de1 hde, hstep _ _ _ _ _ _ hI hr hq1⟩

/-- The entity that `RegisterDAG` has built by calls that all pass a test: a
property of the builder state that holds of the new entity and that every
builder call that passes the test keeps. -/
theorem RegisterDAG_invariant_guarded (Inv : globalVertex → dagExecutePlan → Prop)
    (q : dagExecutePlan → Option Err → BuilderOp → Bool) (f f1 : flow)
    (fuel : Nat) (name : String) (handler : DAGHandler) (err : Option Err)
    (hrun : f.running = true)
    (h : f.RegisterDAG fuel name handler = some (f1, err))
    (hq : handler.everyCall q fuel f.heap.length (f.withNewEntity name) = true)
    (h0 : Inv f.gl (newDAGEntity name))
    (hstep : ∀ gl de op gl1 de1 e, Inv gl de →
      BuilderOp.result f.dagEntities gl de fuel op = some (gl1, de1, e) → q de e op = true →
      Inv gl1 de1) :
    ∃ de, f1.heap.get? f.heap.length = some de ∧ Inv f1.gl de := by
  unfold flow.RegisterDAG at h
  simp only [hrun, Bool.not_true, Bool.false_eq_true, if_false] at h
  cases hr : handler.run fuel f.heap.length { f with heap := f.heap ++ [newDAGEntity name] } with
  | none =>
    simp only [hrun] at hr
    rw [hr] at h
    cases h
  | some r =>
    obtain ⟨f2, e2⟩ := r
    have hres := run_invariant_guarded Inv q fuel f.heap.length f.dagEntities hstep handler _ f2
      e2 hr rfl hq ⟨newDAGEntity name, by simp, h0⟩
    simp only [hrun] at hr
    rw [hr] at h
    cases e2 with
    | some e =>
      simp only [Option.some.injEq, Prod.mk.injEq] at h
      rw [← h.1]
      exact hres
    | none =>
      simp only [Option.some.injEq, Prod.mk.injEq] at h
      rw [← h.1]
      exact hres

/-- A builder call that is not an `Edge` onto a referenced vertex keeps the
start vertex without an incoming reference. -/
theorem result_start_guarded (D : List (String × Nat)) (gl gl1 : globalVertex)
    (de de1 : dagExecutePlan) (fuel : Nat) (op : BuilderOp) (err : Option Err)
    (hinv : de.Declared gl) (h : op.result D gl de fuel = some (gl1, de1, err))
    (hun : ¬ de.Referenced de.StartVertex)
    (hq : op.movesStartOntoReferenced de err = false) :
    ¬ de1.Referenced de1.StartVertex := by
  rcases result_start D gl gl1 de de1 fuel op err hinv h hun with
    h1 | ⟨frm, dst, h2, h3, h4, h5, _⟩
  · exact h1
  · subst h2 h3
    have h6 : de.hasReference frm = true ∨ frm = dst := by
      rcases h5 with h5 | h5
      · exact Or.inr h5
      · exact Or.inl ((hasReference_iff de frm).mpr h5)
    have : BuilderOp.movesStartOntoReferenced de none (.Edge frm dst) = true := by
      simp only [BuilderOp.movesStartOntoReferenced, Option.isNone_none, h4, decide_True,
        Bool.true_and, Bool.or_eq_true, decide_eq_true_eq]
      rcases h6 with h6 | h6
      · exact Or.inr h6
      · exact Or.inl (h6.trans h4)
    rw [this] at hq
    cases hq

/-- The edges of `lastFirstDAG` and the edge of `retryDAG` move the start
vertex onto a vertex with an incoming reference; no call of `singleDAG` does. -/
theorem calls_that_move_the_start_onto_a_referenced_vertex :
    DAGHandler.everyCall (fun de err op => !op.movesStartOntoReferenced de err) 8 0
        Fixture.lastFirstDAG (Fixture.engine.withNewEntity "chain") = false ∧
    DAGHandler.everyCall (fun de err op => !op.movesStartOntoReferenced de err) 8 0
        Fixture.retryDAG (Fixture.engine.withNewEntity "retry") = false ∧
    DAGHandler.everyCall (fun de err op => !op.movesStartOntoReferenced de err) 8 0
        Fixture.singleDAG (Fixture.engine.withNewEntity "test") = true := by
  refine ⟨by decide!, by decide!, by decide!⟩

/-! ## The claims -/

open Fixture

/-- Claim C1 (the code at the failing input): on a DAG that declares one node
`a`, `Edge(a, a)` returns nil for every handler and every positive fuel, and
records the link `a -> a`: following `Links` from `a` returns to `a`. -/
theorem C1_edge_self_loop_is_accepted (h : NodeHandler) (fuel : Nat) :
    (dagEntity.Node newGlobalVertex (newDAGEntity "test") "a" (some h)).2.2 = none ∧
    ∃ de,
      dagEntity.Edge (dagEntity.Node newGlobalVertex (newDAGEntity "test") "a" (some h)).1
        (dagEntity.Node newGlobalVertex (newDAGEntity "test") "a" (some h)).2.1
        (fuel + 1) "a" "a" = some (de, none) ∧
      mapGet de.Links "a" = some "a" := by
  refine ⟨rfl, _, rfl, rfl⟩

/-- Claim C2 (the code at the failing input, the DAGs of TestSubDAGFlow): after
the first tick the request is Running inside the sub-DAG and its rerun context
has the entrypoint `test2.test1.node2`; compiling the plan `test2` with that
entrypoint returns a runtime for no fuel, and `ReloadRequests` on a restarted
engine reports `NotFound` for the request and creates no runner.  The same
restart on the linear DAG alone (TestRerunFlow) resumes at `node2`. -/
theorem C2_reload_fails_inside_a_subdag :
    (exec subDAGFlow engine).isSome = true ∧
    observe (after subDAGFlow) "test-require-id"
      = some ⟨.Running, some ["test2", "test1", "node2"], [], none, 0⟩ ∧
    ((after subDAGFlow).batchRunner.get "test-require-id").map contextRunner.exportRerunContext
      = some (.ok (some { Status := .Running, Entrypoint := ["test2", "test1", "node2"],
                          Data := [] })) ∧
    (after subDAGFlow).getDAG "test2" = some 1 ∧
    (∀ fuel dr, generateRuntime (after subDAGFlow).heap (after subDAGFlow).gl fuel 1 (NewPath [])
        ["test2", "test1", "node2"] ≠ some (.ok dr)) ∧
    reloadErrs (restart (after subDAGFlow)
        [.RegisterDAG "test1" singleDAG, .RegisterDAG "test2" subDAG])
      = some (some [("test-require-id",
          some (.trace (.trace (.kind .NotFound "test1"))))]) ∧
    observe (reloaded (restart (after subDAGFlow)
        [.RegisterDAG "test1" singleDAG, .RegisterDAG "test2" subDAG])) "test-require-id"
      = none ∧
    reloadErrs (restart (after singleFlow) [.RegisterDAG "test" singleDAG])
      = some (some [("test-require-id", none)]) ∧
    observe (reloaded (restart (after singleFlow) [.RegisterDAG "test" singleDAG]))
        "test-require-id"
      = some ⟨.Pending, some ["test", "node2"], [], none, 0⟩ := by
  refine ⟨by decide!, by decide!, by decide!, by decide!, ?_, by decide!, by decide!,
    by decide!, by decide!⟩
  intro fuel dr h
  have h2 : (generateRuntime (after subDAGFlow).heap (after subDAGFlow).gl 2 1 (NewPath [])
      ["test2", "test1", "node2"]).map Outcome.isOk = some false := by decide!
  have h3 := generateRuntime_mono_le _ _ fuel (max fuel 2) _ _ _ _ (le_max_left _ _) h
  cases h4 : generateRuntime (after subDAGFlow).heap (after subDAGFlow).gl 2 1 (NewPath [])
      ["test2", "test1", "node2"] with
  | none => rw [h4] at h2; cases h2
  | some x =>
    have h5 := generateRuntime_mono_le _ _ 2 (max fuel 2) _ _ _ _ (le_max_right _ _) h4
    rw [h3] at h5
    cases h5
    rw [h4] at h2
    cases h2

/-- Claim C3 (the code at the failing input): on every paused runner
`setNextStatus(Retrying)`, the body of `ResumeRequest`, returns nil and leaves
the status Paused, and the next `runOnce` returns at `canRun` with nothing
changed.  In the scenario of the spec (launch the linear DAG, tick, pause,
tick, resume, two ticks) the request stays Paused at `node3` and no handler
runs after the resume. -/
theorem C3_resume_does_not_restart_a_paused_runner :
    (∀ (r : contextRunner) (w : World) (now : Int),
      (({ r with runningStatus := .Paused } : contextRunner).setNextStatus .Retrying).2 = none ∧
      (({ r with runningStatus := .Paused } : contextRunner).setNextStatus .Retrying).1.runningStatus
        = .Paused ∧
      (({ r with runningStatus := .Paused } : contextRunner).setNextStatus .Retrying).1.runOnce w now
        = ((({ r with runningStatus := .Paused } : contextRunner).setNextStatus .Retrying).1, w, .ok ())) ∧
    (exec [.RegisterDAG "test" singleDAG, .RunDAG "test" "r1" [], .RunOnce 1, .PauseRequest "r1",
           .RunOnce 2, .ResumeRequest "r1"] engine).isSome = true ∧
    observe (after [.RegisterDAG "test" singleDAG, .RunDAG "test" "r1" [], .RunOnce 1,
                    .PauseRequest "r1", .RunOnce 2, .ResumeRequest "r1"]) "r1"
      = some ⟨.Paused, some ["test", "node3"], [], none, 0⟩ ∧
    observe (after [.RegisterDAG "test" singleDAG, .RunDAG "test" "r1" [], .RunOnce 1,
                    .PauseRequest "r1", .RunOnce 2, .ResumeRequest "r1", .RunOnce 3, .RunOnce 4]) "r1"
      = some ⟨.Paused, some ["test", "node3"], [], none, 0⟩ ∧
    (after [.RegisterDAG "test" singleDAG, .RunDAG "test" "r1" [], .RunOnce 1,
            .PauseRequest "r1", .RunOnce 2, .ResumeRequest "r1", .RunOnce 3, .RunOnce 4]).calls
      = [⟨"r1", ["test", "node1"], []⟩, ⟨"r1", ["test", "node2"], []⟩] := by
  refine ⟨fun r w now => ?_, by decide!, by decide!, by decide!, by decide!⟩
  refine ⟨by simp [contextRunner.setNextStatus, canSetStatus], by simp [contextRunner.setNextStatus, canSetStatus], ?_⟩
  apply runOnce_of_not_canRun
  apply canRun_false_of_paused
  simp [contextRunner.setNextStatus, canSetStatus]

/-- Claim C4 as stated fails: after `PauseRequest` has returned nil on the pending
request of the linear DAG, the next tick invokes the handler of `node1` and
moves the request to `node2`. -/
theorem C4_tick_after_pause_runs_a_handler :
    (exec [.RegisterDAG "test" singleDAG, .RunDAG "test" "r1" [], .PauseRequest "r1"]
      engine).isSome = true ∧
    observe (after [.RegisterDAG "test" singleDAG, .RunDAG "test" "r1" [], .PauseRequest "r1"]) "r1"
      = some ⟨.Pending, some ["test", "node1"], [], none, 0⟩ ∧
    (after [.RegisterDAG "test" singleDAG, .RunDAG "test" "r1" [], .PauseRequest "r1"]).calls = [] ∧
    observe (after [.RegisterDAG "test" singleDAG, .RunDAG "test" "r1" [], .PauseRequest "r1",
                    .RunOnce 1]) "r1"
      = some ⟨.Paused, some ["test", "node2"], [], none, 0⟩ ∧
    (after [.RegisterDAG "test" singleDAG, .RunDAG "test" "r1" [], .PauseRequest "r1",
            .RunOnce 1]).calls = [⟨"r1", ["test", "node1"], []⟩] := by
  refine ⟨by decide!, by decide!, by decide!, by decide!, by decide!⟩

/-- Claim C4, amended: on a runner that can run (on its top-level runtime `d`),
`setNextStatus(Paused)` returns nil; the next step still runs, and when it
succeeds with a successor other than `Termination` the runner is Paused on the
runtime after the step with the output of the step as data, and from then on
every `runOnce` changes nothing. -/
theorem C4_pause_applies_after_one_more_step (r : contextRunner) (w : World) (now : Int)
    (d d1 : dagRuntime) (path : Path) (fc2 : flowContext) (calls1 : List Call)
    (nextRC : RCRef) (output : Data)
    (hrun : r.canRun now = true)
    (hrc : r.runningRC = some (.dag d)) (htop : d.nextRC = .Termination)
    (hpath : d.getPath = some path)
    (hstep : d.runOnce (r.fc.startRecord now path r.currentData) w.calls r.currentData
      = (d1, fc2, calls1, .ok (nextRC, output)))
    (hnext : nextRC ≠ .Termination) :
    (r.setNextStatus .Paused).2 = none ∧
    nextRC = .self ∧
    ((r.setNextStatus .Paused).1.runOnce w now).1.runningStatus = .Paused ∧
    ((r.setNextStatus .Paused).1.runOnce w now).1.runningRC = some (.dag d1) ∧
    ((r.setNextStatus .Paused).1.runOnce w now).1.currentData = output ∧
    ((r.setNextStatus .Paused).1.runOnce w now).2.1.calls = calls1 ∧
    ∀ (w' : World) (now' : Int), ((r.setNextStatus .Paused).1.runOnce w now).1.runOnce w' now'
      = (((r.setNextStatus .Paused).1.runOnce w now).1, w', .ok ()) := by
  have hself : nextRC = .self := by
    rcases dagRuntime_runOnce_ref d d1 _ fc2 _ calls1 _ output nextRC hstep with h | h
    · rw [htop] at h
      exact absurd h hnext
    · exact h
  have hpath' : (runContext.dag d).getPath = some path := by
    simpa [runContext.getPath] using hpath
  have hstep' : (runContext.dag d).runOnce (r.fc.startRecord now path r.currentData) w.calls
      r.currentData = (.dag d1, fc2, calls1, .ok (nextRC, output)) := by
    simp [runContext.runOnce, hstep]
  have hcan : canSetStatus r.runningStatus .Paused = true := by
    simp only [contextRunner.canRun] at hrun
    split at hrun
    · rename_i h
      rcases h with h | h | h <;> simp [canSetStatus, h]
    · simp at hrun
  have hset : r.setNextStatus .Paused = ({ r with nextStatus := .Paused }, none) := by
    simp [contextRunner.setNextStatus, hcan]
  have hrun1 : ({ r with nextStatus := .Paused } : contextRunner).canRun now = true := by
    simpa [contextRunner.canRun] using hrun
  have hres : (({ r with nextStatus := .Paused } : contextRunner).runOnce w now).1.runningStatus = .Paused ∧
      (({ r with nextStatus := .Paused } : contextRunner).runOnce w now).1.runningRC = some (.dag d1) ∧
      (({ r with nextStatus := .Paused } : contextRunner).runOnce w now).1.currentData = output ∧
      (({ r with nextStatus := .Paused } : contextRunner).runOnce w now).2.1.calls = calls1 := by
    rw [runOnce_ok _ w now _ _ path fc2 calls1 nextRC output hrun1 hrc hpath' hstep']
    simp [hnext, contextRunner.assignNextStatus, canSetStatus]
  rw [hset]
  refine ⟨rfl, hself, hres.1, hres.2.1, hres.2.2.1, hres.2.2.2, ?_⟩
  intro w' now'
  exact runOnce_of_not_canRun _ _ _ (canRun_false_of_paused _ _ hres.1)

/-- The amended claim C4 on the pending runner of the DAG `node1 -> node2`. -/
theorem C4_pause_applies_after_one_more_step_witness :
    (pendingRunner "r1").canRun 1 = true ∧
    (((pendingRunner "r1").setNextStatus .Paused).1.runOnce world 1).1.runningStatus = .Paused ∧
    ∀ (w' : World) (now' : Int),
      (((pendingRunner "r1").setNextStatus .Paused).1.runOnce world 1).1.runOnce w' now'
        = ((((pendingRunner "r1").setNextStatus .Paused).1.runOnce world 1).1, w', .ok ()) :=
  have h := C4_pause_applies_after_one_more_step (pendingRunner "r1") world 1 linearDAGRuntime
    _ ["test", "node1"] _ _ .self [] (by decide!) rfl rfl (by decide!)
    (step_eta _ _ (by decide!)) (by decide)
  ⟨by decide!, h.2.2.1, h.2.2.2.2.2.2⟩

/-- Claim C5: `contextRunner.runOnce` on a paused runner changes neither the
runner nor the store nor the log of invocations; `batchRunner.runOnce` leaves
a paused runner resident and as it is, adds no invocation of its request and
leaves its persisted rerun context as it was. -/
theorem C5_paused_runner_is_not_advanced (b : batchRunner) (w : World)
    (now maxRunAmount : Int) (key : String) (r : contextRunner)
    (hfiled : b.Filed) (hget : b.get key = some r) (hpaused : r.runningStatus = .Paused) :
    r.runOnce w now = (r, w, .ok ()) ∧
    (b.runOnce w now maxRunAmount).1.get key = some r ∧
    (b.runOnce w now maxRunAmount).2.1.calls.filter (fun c => decide (c.requestID = key))
      = w.calls.filter (fun c => decide (c.requestID = key)) ∧
    ((b.runOnce w now maxRunAmount).2.1.store.Get RunContextPath key).1
      = (w.store.Get RunContextPath key).1 := by
  have hcan := canRun_false_of_paused r now hpaused
  refine ⟨runOnce_of_not_canRun r w now hcan, ?_⟩
  have hget' : mapGet b.runners key = some r := hget
  have H : ∀ kr ∈ b.runners, kr.2.canRun now = true → kr.2.fc.requestID ≠ key := by
    intro kr hkr hrun e
    have h1 : kr.1 = key := (hfiled.1 kr hkr).symm.trans e
    have h2 : mapGet b.runners kr.1 = some kr.2 := mapGet_of_mem_nodup _ _ _ hfiled.2 hkr
    rw [h1, hget'] at h2
    cases h2
    rw [hcan] at hrun
    cases hrun
  have hd := dispatch_get now maxRunAmount key r hcan b.runners 0 w hget'
  have hf := dispatch_frame now maxRunAmount key b.runners 0 w H
  unfold batchRunner.runOnce
  by_cases hlen : b.runners.length = 0
  · simp only [hlen, if_true]
    exact ⟨hget, trivial, trivial⟩
  · simp only [hlen, if_false]
    rcases hdisp : batchRunner.dispatch now maxRunAmount b.runners 0 w with ⟨runners1, w1, out⟩
    rw [hdisp] at hd hf
    simp only at hd hf
    cases out with
    | ok u =>
      refine ⟨?_, hf.2, ?_⟩
      · apply mapGet_filter _ _ _ _ hd
        simp [contextRunner.tryCheckCanRemove, hpaused]
      · simpa [memStore.Get] using hf.1
    | error e => exact ⟨hd, hf.2, by simpa [memStore.Get] using hf.1⟩
    | panic msg => exact ⟨hd, hf.2, by simpa [memStore.Get] using hf.1⟩

/-- Claim C5 on a scheduler with a paused and a pending request. -/
theorem C5_paused_runner_is_not_advanced_witness :
    batch.Filed ∧ batch.get "r1" = some (pausedRunner "r1") ∧
    (batch.runOnce world 1 100000).1.get "r1" = some (pausedRunner "r1") ∧
    (batch.runOnce world 1 100000).2.1.calls.filter (fun c => decide (c.requestID = "r1")) = [] :=
  have hf : batch.Filed := by
    constructor
    · intro kr hkr
      simp only [batch, List.mem_cons, List.mem_singleton, List.not_mem_nil, or_false] at hkr
      rcases hkr with h | h <;> subst h <;> rfl
    · decide
  have h := C5_paused_runner_is_not_advanced batch world 1 100000 "r1" (pausedRunner "r1")
    hf rfl rfl
  ⟨hf, rfl, h.2.1, h.2.2.1⟩

/-- Claim C6: when the current vertex is a vertex of the top-level DAG and its
handler returns the error `e`, the step sets the status by the kind of `e`
(Retrying with `nextRunTime = now + b` for `NewRetryError(cause, b)`, Fatal,
Paused, Failed for every other error), keeps the data and the current vertex
(only its failure counter grows) and sets `lastErr` to the traced error. -/
theorem C6_top_level_error_classification (r : contextRunner) (w : World) (now : Int)
    (name : String) (path : Path) (rcMap : List (String × runContext)) (running : String)
    (nextRC : RCRef) (nextVertex : String) (n : nodeRuntime) (e : Err) (calls1 : List Call)
    (hrun : r.canRun now = true)
    (hrc : r.runningRC = some (.dag (.mk name path rcMap running nextRC nextVertex)))
    (hvertex : mapGet rcMap running = some (.node n))
    (hhandler : n.runHandler
        (((r.fc.startRecord now n.path r.currentData).enter name).1.enter n.name).1
        w.calls r.currentData = (calls1, .error e)) :
    (r.runOnce w now).1.runningStatus =
      (match e with
       | .retry _ _ => StatusType.Retrying
       | .fatal _ => StatusType.Fatal
       | .pause _ => StatusType.Paused
       | _ => StatusType.Failed) ∧
    (∀ msg b, e = NewRetryError msg b → (r.runOnce w now).1.nextRunTime = now + b) ∧
    (r.runOnce w now).1.currentData = r.currentData ∧
    (r.runOnce w now).1.lastErr = some (.trace e) ∧
    (r.runOnce w now).1.runningRC =
      some (.dag (.mk name path
        (mapSet rcMap running (.node { n with FailedTimes := n.FailedTimes + 1 }))
        running nextRC nextVertex)) ∧
    ((r.runOnce w now).1.runningRC.bind runContext.getPath) = some n.path ∧
    (r.runOnce w now).2.2 = .ok () := by
  have hpath : (runContext.dag (.mk name path rcMap running nextRC nextVertex)).getPath
      = some n.path := by
    simp [runContext.getPath, dagRuntime.getPath, getPathRunning_of_get _ _ _ hvertex]
  have hE1 := enter_startRecord r.fc now n.path r.currentData name
  have hE2 := enter_enter_startRecord r.fc now n.path r.currentData name n.name
  have hnode : (runContext.node n).runOnce
      ((r.fc.startRecord now n.path r.currentData).enter name).1 w.calls r.currentData
      = (.node { n with FailedTimes := n.FailedTimes + 1 },
         (((r.fc.startRecord now n.path r.currentData).enter name).1.enter n.name).1.exit,
         calls1, .error e) := by
    simp only [runContext.runOnce, nodeRuntime.runOnce]
    rw [show ((r.fc.startRecord now n.path r.currentData).enter name).1.enter n.name
      = ((((r.fc.startRecord now n.path r.currentData).enter name).1.enter n.name).1, true) from
      Prod.ext rfl hE2]
    simp only [hhandler]
  have hstep : (runContext.dag (.mk name path rcMap running nextRC nextVertex)).runOnce
      (r.fc.startRecord now n.path r.currentData) w.calls r.currentData
      = (.dag (.mk name path
          (mapSet rcMap running (.node { n with FailedTimes := n.FailedTimes + 1 }))
          running nextRC nextVertex),
         ((((r.fc.startRecord now n.path r.currentData).enter name).1.enter n.name).1.exit).exit,
         calls1, .error (.trace e)) := by
    simp only [runContext.runOnce, dagRuntime.runOnce]
    rw [show (r.fc.startRecord now n.path r.currentData).enter name
      = (((r.fc.startRecord now n.path r.currentData).enter name).1, true) from
      Prod.ext rfl hE1]
    simp only [runRunning_of_get _ _ _ _ _ _ hvertex, hnode]
  rw [runOnce_error r w now _ _ _ _ _ _ hrun hrc hpath hstep]
  have hget : getPathRunning
      (mapSet rcMap running (.node { n with FailedTimes := n.FailedTimes + 1 })) running
      = some n.path := by
    rw [getPathRunning_of_get _ _ _ (mapGet_mapSet_same _ _ _)]
    simp [runContext.getPath]
  refine ⟨?_, ?_, ?_, ?_, ?_, ?_, rfl⟩
  · cases e <;> simp [contextRunner.checkOnError, Err.Unwrap]
  · intro msg b he
    subst he
    simp [contextRunner.checkOnError, Err.Unwrap, NewRetryError]
  · cases e <;> simp [contextRunner.checkOnError, Err.Unwrap]
  · cases e <;> simp [contextRunner.checkOnError, Err.Unwrap]
  · cases e <;> simp [contextRunner.checkOnError, Err.Unwrap]
  · cases e <;>
      simp [contextRunner.checkOnError, Err.Unwrap, runContext.getPath, dagRuntime.getPath, hget]

/-- Claim C6 on a vertex whose handler returns a retry error with backoff 90. -/
theorem C6_top_level_error_classification_witness :
    (newContextRunner "r1" (some (failingRuntime (NewRetryError "retry" 90))) []).canRun 1 = true ∧
    ((newContextRunner "r1" (some (failingRuntime (NewRetryError "retry" 90))) []).runOnce
        world 1).1.runningStatus = .Retrying ∧
    ((newContextRunner "r1" (some (failingRuntime (NewRetryError "retry" 90))) []).runOnce
        world 1).1.nextRunTime = 1 + 90 :=
  have h := C6_top_level_error_classification
    (newContextRunner "r1" (some (failingRuntime (NewRetryError "retry" 90))) []) world 1
    "test" ["test"] [("A", .node (nodeRT "A" "" (failNode (NewRetryError "retry" 90))))] "A"
    .Termination "" (nodeRT "A" "" (failNode (NewRetryError "retry" 90)))
    (NewRetryError "retry" 90) [⟨"r1", ["test", "A"], []⟩]
    (by decide!) rfl rfl (by decide!)
  ⟨by decide!, h.1, h.2.1 "retry" 90 rfl⟩

/-- Claim C7 (the code at the failing input): the DAG `outer` runs the DAG
`inner` as a sub-DAG, whose only vertex returns a retry, fatal or pause
error.  The step ends with status Failed and `nextRunTime` unchanged in all
three cases, and the tick removes the request; the same retry error on the
top level gives Retrying with `nextRunTime = now + backoff`. -/
theorem C7_error_inside_a_subdag_is_classified_failed :
    (exec [.RegisterDAG "inner" (failDAG (NewRetryError "retry" 90)), .RegisterDAG "outer" outerDAG,
           .RunDAG "outer" "r1" []] engine).isSome = true ∧
    observeStep (after [.RegisterDAG "inner" (failDAG (NewRetryError "retry" 90)),
                        .RegisterDAG "outer" outerDAG, .RunDAG "outer" "r1" []]) "r1" 1
      = some ⟨.Failed, some ["outer", "inner", "A"], [],
              some (.trace (.trace (NewRetryError "retry" 90))), 0⟩ ∧
    observeStep (after [.RegisterDAG "inner" (failDAG (NewFatalError "fatal")),
                        .RegisterDAG "outer" outerDAG, .RunDAG "outer" "r1" []]) "r1" 1
      = some ⟨.Failed, some ["outer", "inner", "A"], [],
              some (.trace (.trace (NewFatalError "fatal"))), 0⟩ ∧
    observeStep (after [.RegisterDAG "inner" (failDAG (NewPauseError "pause")),
                        .RegisterDAG "outer" outerDAG, .RunDAG "outer" "r1" []]) "r1" 1
      = some ⟨.Failed, some ["outer", "inner", "A"], [],
              some (.trace (.trace (NewPauseError "pause"))), 0⟩ ∧
    observe (after [.RegisterDAG "inner" (failDAG (NewRetryError "retry" 90)),
                    .RegisterDAG "outer" outerDAG, .RunDAG "outer" "r1" [], .RunOnce 1]) "r1"
      = none ∧
    observeStep (after [.RegisterDAG "inner" (failDAG (NewRetryError "retry" 90)),
                        .RunDAG "inner" "r1" []]) "r1" 1
      = some ⟨.Retrying, some ["inner", "A"], [], some (.trace (NewRetryError "retry" 90)), 91⟩ := by
  refine ⟨by decide!, by decide!, by decide!, by decide!, by decide!, by decide!⟩

/-- Claim C8 (the code at the failing input): after a first step that fails the
runner is Fatal and the store has no rerun context of the request; after a
second step that fails the runner is Retrying and the stored rerun context
still has the status Running of the step before. -/
theorem C8_failed_step_does_not_persist_the_rerun_context :
    (exec [.RegisterDAG "test" (failDAG (NewFatalError "fatal")), .RunDAG "test" "r1" [],
           .RunOnce 1] engine).isSome = true ∧
    observe (after [.RegisterDAG "test" (failDAG (NewFatalError "fatal")), .RunDAG "test" "r1" [],
                    .RunOnce 1]) "r1"
      = some ⟨.Fatal, some ["test", "A"], [], some (.trace (NewFatalError "fatal")), 0⟩ ∧
    ((after [.RegisterDAG "test" (failDAG (NewFatalError "fatal")), .RunDAG "test" "r1" [],
             .RunOnce 1]).store.Get RunContextPath "r1").1 = none ∧
    (exec [.RegisterDAG "test" (thenFailDAG (NewRetryError "retry" 90)), .RunDAG "test" "r1" [],
           .RunOnce 1, .RunOnce 2] engine).isSome = true ∧
    observe (after [.RegisterDAG "test" (thenFailDAG (NewRetryError "retry" 90)),
                    .RunDAG "test" "r1" [], .RunOnce 1, .RunOnce 2]) "r1"
      = some ⟨.Retrying, some ["test", "B"], [], some (.trace (NewRetryError "retry" 90)), 92⟩ ∧
    ((after [.RegisterDAG "test" (thenFailDAG (NewRetryError "retry" 90)), .RunDAG "test" "r1" [],
             .RunOnce 1, .RunOnce 2]).store.Get RunContextPath "r1").1
      = some (.rerun { Status := .Running, Entrypoint := ["test", "B"], Data := [] }) := by
  refine ⟨by decide!, by decide!, by decide!, by decide!, by decide!, by decide!⟩

/-- Claim C9: after a step in which the top-level runtime `d` of the runner
returns a successor, either the successor is not `Termination`, and then the
store holds under the request id the rerun context made of the runner's status
after the pending transition, the path of the new current vertex and the
output of the step; or it is `Termination`, and then the status is Finished
and the key is absent.  In both cases the call returns the error of the
store, if any, traced twice. -/
theorem C9_rerun_context_after_successful_step (r : contextRunner) (w : World) (now : Int)
    (d d1 : dagRuntime) (path : Path) (fc2 : flowContext) (calls1 : List Call)
    (nextRC : RCRef) (output : Data)
    (hrun : r.canRun now = true)
    (hrc : r.runningRC = some (.dag d)) (htop : d.nextRC = .Termination)
    (hpath : d.getPath = some path)
    (hstep : d.runOnce (r.fc.startRecord now path r.currentData) w.calls r.currentData
      = (d1, fc2, calls1, .ok (nextRC, output))) :
    (nextRC ≠ .Termination → ∀ p, d1.getPath = some p →
      nextRC = .self ∧
      (r.runOnce w now).1.runningStatus =
        (match r.nextStatus with
         | .Paused => StatusType.Paused
         | .Retrying => StatusType.Retrying
         | .Fatal => StatusType.Fatal
         | _ => StatusType.Running) ∧
      (r.runOnce w now).1.runningRC = some (.dag d1) ∧
      (r.runOnce w now).1.currentData = output ∧
      ((r.runOnce w now).2.1.store.Get RunContextPath r.fc.requestID).1 =
        some (.rerun { Status := (r.runOnce w now).1.runningStatus, Entrypoint := p,
                       Data := output }) ∧
      (r.runOnce w now).2.2 = traceOutcome (traceResult w.store.mockErr)) ∧
    (nextRC = .Termination →
      (r.runOnce w now).1.runningStatus = .Finished ∧
      (r.runOnce w now).1.runningRC = none ∧
      ((r.runOnce w now).2.1.store.Get RunContextPath r.fc.requestID).1 = none ∧
      (r.runOnce w now).2.2 = traceOutcome (traceResult w.store.mockErr)) := by
  have hpath' : (runContext.dag d).getPath = some path := by
    simpa [runContext.getPath] using hpath
  have hstep' : (runContext.dag d).runOnce (r.fc.startRecord now path r.currentData) w.calls
      r.currentData = (.dag d1, fc2, calls1, .ok (nextRC, output)) := by
    simp [runContext.runOnce, hstep]
  have hid : fc2.requestID = r.fc.requestID := by
    have hf := (runContext_runOnce_frame.2.1 d (r.fc.startRecord now path r.currentData)
      w.calls r.currentData).1
    rw [hstep] at hf
    simpa [flowContext.startRecord] using hf
  rw [runOnce_ok r w now _ _ path fc2 calls1 nextRC output hrun hrc hpath' hstep']
  constructor
  · intro hne p hp
    have hself : nextRC = .self := by
      rcases dagRuntime_runOnce_ref d d1 _ fc2 _ calls1 _ output nextRC hstep with h | h
      · rw [htop] at h
        exact absurd h hne
      · exact h
    simp only [hne, if_false]
    refine ⟨hself, assignNextStatus_running _ rfl, ?_, ?_, ?_, ?_⟩
    · rw [assignNextStatus_runningRC]
    · rw [assignNextStatus_currentData]
    rotate_left
    · rw [saveContext_result_some _ _ (.dag d1) p (by rw [assignNextStatus_runningRC])
        (by simpa [runContext.getPath] using hp), endRecord_mockErr]
    · have h := saveContext_get_some
        (({ r with runningStatus := .Running, lastRunTime := now,
                   fc := (fc2.endRecord w.store now output none).1, currentData := output,
                   runningRC := some (.dag d1) } : contextRunner).assignNextStatus)
        (fc2.endRecord w.store now output none).2 (.dag d1) p
        (by rw [assignNextStatus_runningRC]) (by simpa [runContext.getPath] using hp)
      rw [assignNextStatus_fc, assignNextStatus_currentData] at h
      simpa [endRecord_requestID, hid] using h
  · intro he
    subst he
    simp only [if_true]
    refine ⟨assignNextStatus_finished _ rfl, ?_, ?_, ?_⟩
    · rw [assignNextStatus_runningRC]
    rotate_left
    · rw [saveContext_result_none _ _ (by rw [assignNextStatus_runningRC]), endRecord_mockErr]
    · have h := saveContext_get_none
        (({ r with runningStatus := .Finished, lastRunTime := now,
                   fc := (fc2.endRecord w.store now output none).1, currentData := output,
                   runningRC := none } : contextRunner).assignNextStatus)
        (fc2.endRecord w.store now output none).2
        (by rw [assignNextStatus_runningRC])
      rw [assignNextStatus_fc] at h
      simpa [endRecord_requestID, hid] using h

/-- Claim C9 on the first step of the pending runner of `node1 -> node2`. -/
theorem C9_rerun_context_after_successful_step_witness :
    (pendingRunner "r1").canRun 1 = true ∧
    (((pendingRunner "r1").runOnce world 1).2.1.store.Get RunContextPath "r1").1 =
      some (.rerun { Status := .Running, Entrypoint := ["test", "node2"], Data := [] }) :=
  have h := (C9_rerun_context_after_successful_step (pendingRunner "r1") world 1
    linearDAGRuntime _ ["test", "node1"] _ _ .self [] (by decide!) rfl rfl (by decide!)
    (step_eta _ _ (by decide!))).1 (by decide) ["test", "node2"] (by decide!)
  ⟨by decide!, by
    have h4 := h.2.2.2.2.1
    rw [h.2.1] at h4
    exact h4⟩

/-- Claim C10 as stated fails: after a successful `RunDAG` of the linear DAG the
store holds the plan of the request and no rerun context, and
`ReloadRequests` on a restarted engine reports nothing and creates no runner. -/
theorem C10_launched_request_is_lost_on_restart :
    (exec [.RegisterDAG "test" singleDAG, .RunDAG "test" "r1" []] engine).isSome = true ∧
    ((after [.RegisterDAG "test" singleDAG, .RunDAG "test" "r1" []]).store.Get
        DAGPlanPath "r1").1.isSome = true ∧
    ((after [.RegisterDAG "test" singleDAG, .RunDAG "test" "r1" []]).store.Get
        RunContextPath "r1").1 = none ∧
    reloadErrs (restart (after [.RegisterDAG "test" singleDAG, .RunDAG "test" "r1" []])
        [.RegisterDAG "test" singleDAG]) = some none ∧
    observe (reloaded (restart (after [.RegisterDAG "test" singleDAG, .RunDAG "test" "r1" []])
        [.RegisterDAG "test" singleDAG])) "r1" = none := by
  refine ⟨by decide!, by decide!, by decide!, by decide!, by decide!⟩

/-- Claim C10, amended: a successful `RunDAG` stores the plan of the DAG under
the request id, leaves every entry of the rerun-context keyspace as it was,
and files a Pending runner on the compiled runtime.  So when `ReloadRequests`
returns on a new engine that shares the store, its map of errors has an entry
for the request exactly when the store had a rerun context under the request
id before `RunDAG` was called, and only then does the new engine have a runner
for the request. -/
theorem C10_RunDAG_stores_the_plan_only (f f' : flow) (fuel : Nat)
    (dagName requestID : String) (params : Data)
    (h : f.RunDAG fuel dagName requestID params = some (f', .ok ())) :
    ∃ dag, f.getDAG dagName = some dag ∧
      (f'.store.Get DAGPlanPath requestID).1 = some (.plan f.heap dag) ∧
      (∀ id, (f'.store.Get RunContextPath id).1 = (f.store.Get RunContextPath id).1) ∧
      (∃ dr, generateRuntime f.heap f.gl fuel dag (NewPath []) (NewPath []) = some (.ok dr) ∧
        f'.batchRunner.get requestID
          = some (newContextRunner requestID (some (.dag dr)) params)) ∧
      ∀ (g g1 : flow) (fuel1 : Nat) (errs : Option (List (String × Option Err)))
        (err : Option Err),
        g.store = f'.store → g.batchRunner.runners = [] →
        g.ReloadRequests fuel1 = some (g1, .ok (errs, err)) →
        (mapHas (errs.getD []) requestID = true ↔
          ((f.store.Get RunContextPath requestID).1).isSome = true) ∧
        ((g1.batchRunner.get requestID).isSome = true →
          ((f.store.Get RunContextPath requestID).1).isSome = true) := by
  have main : ∃ dag, f.getDAG dagName = some dag ∧
      f'.store.m = mapSet f.store.m (memStore.fullKey DAGPlanPath requestID) (.plan f.heap dag) ∧
      ∃ dr, generateRuntime f.heap f.gl fuel dag (NewPath []) (NewPath []) = some (.ok dr) ∧
        f'.batchRunner.get requestID
          = some (newContextRunner requestID (some (.dag dr)) params) := by
    by_cases hr : f.running = true
    swap
    · simp [flow.RunDAG, hr] at h
    cases hdag : f.getDAG dagName with
    | none => simp [flow.RunDAG, hr, hdag] at h
    | some dag =>
      by_cases hex : f.hasExecutePlan requestID = true
      · simp [flow.RunDAG, hr, hdag, hex] at h
      have hex' : mapHas f.batchRunner.runners requestID = false := by
        simpa [flow.hasExecutePlan, batchRunner.exists] using hex
      cases hm : f.store.mockErr with
      | some e =>
        cases hgen : generateRuntime f.heap f.gl fuel dag (NewPath []) (NewPath []) with
        | none => simp [flow.RunDAG, hr, hdag, hex, flow.launchDAG, hgen] at h
        | some out =>
          cases out <;>
            simp [flow.RunDAG, hr, hdag, hex, flow.launchDAG, hgen, flow.savePlan, memStore.Set,
              flow.removePlan, memStore.Remove, hm] at h
      | none =>
        cases hgen : generateRuntime f.heap f.gl fuel dag (NewPath []) (NewPath []) with
        | none => simp [flow.RunDAG, hr, hdag, hex, flow.launchDAG, hgen] at h
        | some out =>
          cases out with
          | panic r =>
            simp [flow.RunDAG, hr, hdag, hex, flow.launchDAG, hgen] at h
          | error e =>
            simp [flow.RunDAG, hr, hdag, hex, flow.launchDAG, hgen, flow.removePlan,
              memStore.Remove, hm] at h
          | ok dr =>
            simp [flow.RunDAG, hr, hdag, hex, flow.launchDAG, hgen, flow.savePlan, memStore.Set,
              hm, flow.startExecutePlan, batchRunner.add, hex'] at h
            subst h
            refine ⟨dag, rfl, rfl, dr, hgen, ?_⟩
            simp [batchRunner.get, mapGet_mapSet_same]
  obtain ⟨dag, hdag, hm, hdr⟩ := main
  have hkeep : ∀ id, (f'.store.Get RunContextPath id).1 = (f.store.Get RunContextPath id).1 := by
    intro id
    simp only [memStore.Get, hm]
    exact mapGet_mapSet_ne _ _ _ _ (fullKey_rerun_ne_plan _ _)
  refine ⟨dag, hdag, ?_, hkeep, hdr, ?_⟩
  · simp only [memStore.Get, hm]
    exact mapGet_mapSet_same _ _ _
  · intro g g1 fuel1 errs err hstore hnew hreload
    obtain ⟨errs0, heach, herrs, _⟩ := ReloadRequests_ok g g1 fuel1 errs err hreload
    obtain ⟨_, hrunners, hlisted⟩ := reloadEach_keys fuel1 _ g g1 [] (.ok errs0) heach
    have hmem : requestID ∈ g.store.matchedKeys RunContextPath ↔
        ((f.store.Get RunContextPath requestID).1).isSome = true := by
      rw [mem_matchedKeys, hstore, ← hkeep requestID]
      rfl
    constructor
    · rw [herrs, hlisted errs0 rfl requestID, hmem]
      simp [mapHas, mapGet]
    · intro hhas
      rcases hrunners requestID hhas with h1 | ⟨h1, _⟩
      · rw [hnew] at h1
        simp [mapHas, mapGet] at h1
      · exact hmem.mp h1

/-- The amended claim C10 on the linear DAG of the tests: `RunDAG` returns nil
and stores the plan, the store has no rerun context for the request, and
`ReloadRequests` on a new engine on that store returns without an entry for
the request and files no runner for it. -/
theorem C10_RunDAG_stores_the_plan_only_witness :
    ∃ f', (after [.RegisterDAG "test" singleDAG]).RunDAG 8 "test" "r1" [] = some (f', .ok ()) ∧
      (f'.store.Get DAGPlanPath "r1").1
        = some (.plan (after [.RegisterDAG "test" singleDAG]).heap 0) ∧
      (f'.store.Get RunContextPath "r1").1 = none ∧
      ∃ g1 errs err,
        (newFlow f'.store [] 100000 false).ReloadRequests 8 = some (g1, .ok (errs, err)) ∧
        mapHas (errs.getD []) "r1" = false ∧ g1.batchRunner.get "r1" = none := by
  obtain ⟨f', hf'⟩ := launch_eta ((after [.RegisterDAG "test" singleDAG]).RunDAG 8 "test" "r1" [])
    (by decide!)
  obtain ⟨dag, hdag, hplan, hrerun, _, hreload⟩ :=
    C10_RunDAG_stores_the_plan_only (after [.RegisterDAG "test" singleDAG]) f' 8 "test" "r1" [] hf'
  have hd : (after [.RegisterDAG "test" singleDAG]).getDAG "test" = some 0 := by decide!
  have hnone : ((after [.RegisterDAG "test" singleDAG]).store.Get RunContextPath "r1").1 = none := by
    decide!
  have hkeys0 : ((after [.RegisterDAG "test" singleDAG]).RunDAG 8 "test" "r1" []).map
      (fun p => p.1.store.matchedKeys RunContextPath) = some [] := by decide!
  have hkeys : f'.store.matchedKeys RunContextPath = [] := by
    rw [hf'] at hkeys0
    simpa using hkeys0
  have hret : (newFlow f'.store [] 100000 false).ReloadRequests 8
      = some (newFlow f'.store [] 100000 false, .ok (none, f'.store.mockErr.map Err.trace)) := by
    simp [flow.ReloadRequests, newFlow, hkeys, flow.reloadEach]
  rw [hd] at hdag
  cases hdag
  refine ⟨f', hf', hplan, ?_, _, _, _, hret, ?_⟩
  · rw [hrerun]
    exact hnone
  · obtain ⟨h1, h2⟩ := hreload (newFlow f'.store [] 100000 false) _ 8 _ _ rfl rfl hret
    rw [hnone] at h1 h2
    constructor
    · rfl
    · cases hh : (newFlow f'.store [] 100000 false).batchRunner.get "r1" with
      | none => rfl
      | some r =>
        rw [hh] at h2
        exact absurd (h2 rfl) (by simp)

/-- Claim C11 (what holds of linear DAGs, and the failing input).  An engine
that runs at least one node per tick, has no resident request and a store
that returns no error; a chain `vs` of vertices whose handlers return data on
every input; ticks at the clock readings `ts`, all after the zero time.  When
the DAG is registered by the calls `Node` for every vertex, first to last, and
then `Edge` from every vertex to the next, under distinct names that are not
empty, `RegisterDAG` and `RunDAG` return nil and after the ticks the log of
invocations is the log before, followed by one invocation for each of the
first `ts.length` vertices of the chain (all of them when there are more
ticks than vertices), in the order of the chain, the first on the launch
parameters and every other on the output of the one before it.  The same
holds for `RunDAG` on every registered plan of a linear DAG whose start
vertex is the head of the chain.  At the failing input (the linear DAG
`a -> b -> c` declared by the calls `Node` for `c`, `b`, `a`, then
`Edge(a, b)`, `Edge(b, c)`, registered as `chain` on the engine of the tests)
every call returns nil, the plan has the links `a -> b` and `b -> c` and the
start vertex `b`, and the ticks invoke `b` and then `c`: the first tick does
not invoke the head `a`, and no tick ever does. -/
theorem C11_linear_dag_runs_from_its_start_vertex (f : flow) (fuel : Nat)
    (dagName requestID : String) (params : Data)
    (vs : List (String × NodeHandler)) (ts : List Int)
    (hrunning : f.running = true) (hidle : f.batchRunner.runners = [])
    (hstore : f.store.mockErr = none) (hconc : 1 ≤ f.concurrency)
    (hok : ∀ v ∈ vs, ∀ ctx input, ∃ out, v.2 ctx input = .ok out)
    (hts : ∀ t ∈ ts, 0 < t) :
    (vs ≠ [] → (vs.map Prod.fst).Nodup → (∀ v ∈ vs, v.1 ≠ "") →
      (∀ v ∈ vs, globalVertex.exists f.gl dagName v.1 = false) →
      ∃ f1 f0 added,
        f.RegisterDAG (fuel + 1) dagName (linearDAG vs) = some (f1, none) ∧
        f1.RunDAG (fuel + 1) dagName requestID params = some (f0, .ok ()) ∧
        (ticks ts f0).calls
          = chainCalls requestID dagName (vs.take ts.length) params f.calls ∧
        (ticks ts f0).calls = f.calls ++ added ∧
        added.map Call.vertex = (vs.take ts.length).map (fun v => [dagName, v.1]) ∧
        ∀ c ∈ added, c.requestID = requestID) ∧
    (∀ addr plan, f.getDAG dagName = some addr → f.heap.get? addr = some plan →
      LinearPlan f.gl plan vs →
      ∃ f0 added, f.RunDAG (fuel + 1) dagName requestID params = some (f0, .ok ()) ∧
        (ticks ts f0).calls
          = chainCalls requestID plan.Name (vs.take ts.length) params f.calls ∧
        (ticks ts f0).calls = f.calls ++ added ∧
        added.map Call.vertex = (vs.take ts.length).map (fun v => [plan.Name, v.1]) ∧
        ∀ c ∈ added, c.requestID = requestID) ∧
    ((engine.RegisterDAG 8 "chain" lastFirstDAG).map Prod.snd = some none ∧
      (exec lastFirstFlow engine).isSome = true ∧
      (after lastFirstFlow).heap.map
          (fun p => (p.Name, p.StartVertex, p.Links, p.Vertex.map Prod.fst))
        = [("chain", "b", [("a", "b"), ("b", "c")], ["c", "b", "a"])] ∧
      (ticks [1] (after lastFirstFlow)).calls = [⟨"r1", ["chain", "b"], []⟩] ∧
      (ticks [1, 2, 3, 4] (after lastFirstFlow)).calls
        = [⟨"r1", ["chain", "b"], []⟩, ⟨"r1", ["chain", "c"], []⟩]) := by
  refine ⟨?_, ?_, by decide!, by decide!, by decide!, by decide!, by decide!⟩
  · intro hne hnd hnames hfresh
    obtain ⟨f1, addr, plan, hreg, hget, hplan, hname, hlin, hr1, hs1, hc1, hcc1, hb1⟩ :=
      RegisterDAG_linear f fuel dagName vs hrunning hne hnd hnames hfresh
    obtain ⟨f0, added, hrun, h1, h2, h3, h4⟩ := linear_plan_run f1 fuel dagName requestID params
      addr plan vs ts hr1 hget hplan hlin (by rw [hb1]; exact hidle) (by rw [hs1]; exact hstore)
      (by rw [hcc1]; exact hconc) hok hts
    rw [hname, hc1] at h1
    rw [hc1] at h2
    rw [hname] at h3
    exact ⟨f1, f0, added, hreg, hrun, h1, h2, h3, h4⟩
  · intro addr plan hreg hplan hlin
    exact linear_plan_run f fuel dagName requestID params addr plan vs ts hrunning hreg hplan
      hlin hidle hstore hconc hok hts

/-- Claim C11 on TestSingleFlow: four ticks invoke `node1`, `node2` and `node3` once each. -/
theorem C11_linear_dag_runs_from_its_start_vertex_witness :
    ∃ f1 f0, engine.RegisterDAG 8 "test" singleDAG = some (f1, none) ∧
      f1.RunDAG 8 "test" "test-require-id" [] = some (f0, .ok ()) ∧
      (ticks [1, 2, 3, 4] f0).calls
        = [⟨"test-require-id", ["test", "node1"], []⟩, ⟨"test-require-id", ["test", "node2"], []⟩,
           ⟨"test-require-id", ["test", "node3"], []⟩] := by
  obtain ⟨f1, f0, added, hreg, hrun, hcalls, _⟩ := (C11_linear_dag_runs_from_its_start_vertex
    engine 7 "test" "test-require-id" []
    [("node1", okNode), ("node2", okNode), ("node3", okNode)] [1, 2, 3, 4]
    rfl rfl rfl (by decide)
    (by
      intro v hv ctx input
      simp only [List.mem_cons, List.mem_singleton, List.not_mem_nil, or_false] at hv
      rcases hv with h | h | h <;> subst h <;> exact ⟨input, rfl⟩)
    (by decide)).1 (by simp) (by decide)
    (by
      intro v hv
      simp only [List.mem_cons, List.mem_singleton, List.not_mem_nil, or_false] at hv
      rcases hv with h | h | h <;> subst h <;> decide)
    (by
      intro v hv
      simp only [List.mem_cons, List.mem_singleton, List.not_mem_nil, or_false] at hv
      rcases hv with h | h | h <;> subst h <;> rfl)
  refine ⟨f1, f0, hreg, hrun, ?_⟩
  rw [hcalls]
  rfl

/-- Claim C12 as stated fails: in TestSingleFlow the third tick runs `node3`,
the last vertex, and leaves the runner Finished; when the tick has returned
`GetRequestStatus` fails with `NotFound`, also after a fourth tick. -/
theorem C12_finished_request_is_not_found :
    (exec [.RegisterDAG "test" singleDAG, .RunDAG "test" "test-require-id" [], .RunOnce 1,
           .RunOnce 2, .RunOnce 3, .RunOnce 4] engine).isSome = true ∧
    observeStep (after [.RegisterDAG "test" singleDAG, .RunDAG "test" "test-require-id" [],
                        .RunOnce 1, .RunOnce 2]) "test-require-id" 3
      = some ⟨.Finished, none, [], none, 0⟩ ∧
    (after [.RegisterDAG "test" singleDAG, .RunDAG "test" "test-require-id" [], .RunOnce 1,
            .RunOnce 2, .RunOnce 3]).calls
      = [⟨"test-require-id", ["test", "node1"], []⟩, ⟨"test-require-id", ["test", "node2"], []⟩,
         ⟨"test-require-id", ["test", "node3"], []⟩] ∧
    reportedStatus (after [.RegisterDAG "test" singleDAG, .RunDAG "test" "test-require-id" [],
                           .RunOnce 1, .RunOnce 2]) "test-require-id" = .inl .Running ∧
    reportedStatus (after [.RegisterDAG "test" singleDAG, .RunDAG "test" "test-require-id" [],
                           .RunOnce 1, .RunOnce 2, .RunOnce 3]) "test-require-id"
      = .inr (.kind .NotFound "test-require-id") ∧
    reportedStatus (after [.RegisterDAG "test" singleDAG, .RunDAG "test" "test-require-id" [],
                           .RunOnce 1, .RunOnce 2, .RunOnce 3, .RunOnce 4]) "test-require-id"
      = .inr (.kind .NotFound "test-require-id") := by
  refine ⟨by decide!, by decide!, by decide!, by decide!, by decide!, by decide!⟩

/-- Claim C12, amended: after a tick that returns nil `GetRequestStatus`
reports Finished for no request; the request whose runner the dispatch loop of
the tick has left Finished is not resident any more, and `GetRequestStatus`
fails with `NotFound` for it after the tick and after any later ticks. -/
theorem C12_finished_runner_is_swept (f : flow) (now : Int) (requestID : String)
    (r1 : contextRunner) (later : List Int)
    (hfiled : f.batchRunner.Filed)
    (hok : (f.RunOnce now).2 = .ok ())
    (hlast : mapGet (batchRunner.dispatch now f.concurrency f.batchRunner.runners 0
        { store := f.store, calls := f.calls }).1 requestID = some r1)
    (hfin : r1.runningStatus = .Finished) :
    (∀ id s, (f.RunOnce now).1.GetRequestStatus id = .ok s → s.Status ≠ .Finished) ∧
    (f.RunOnce now).1.batchRunner.exists requestID = false ∧
    (ticks later (f.RunOnce now).1).GetRequestStatus requestID
      = .error (.kind .NotFound requestID) := by
  have hok' : (f.batchRunner.runOnce { store := f.store, calls := f.calls } now
      f.concurrency).2.2 = .ok () := hok
  have hr := batchRunner_runOnce_runners _ _ _ _ hok'
  have hb : (f.RunOnce now).1.batchRunner
      = (f.batchRunner.runOnce { store := f.store, calls := f.calls } now f.concurrency).1 := rfl
  have hnd := (Filed_of_forall₂ _ _
    (dispatch_keys now f.concurrency f.batchRunner.runners 0 { store := f.store, calls := f.calls })
    hfiled).2
  have hnone : (f.RunOnce now).1.batchRunner.get requestID = none := by
    rw [hb]
    simp only [batchRunner.get]
    rw [hr]
    apply mapGet_filter_none _ _ _ _ hnd hlast
    simp [contextRunner.tryCheckCanRemove, hfin]
  refine ⟨?_, ?_, ?_⟩
  · intro id s hs hst
    simp only [flow.GetRequestStatus] at hs
    cases hget : (f.RunOnce now).1.batchRunner.get id with
    | none => rw [hget] at hs; cases hs
    | some cr =>
      rw [hget] at hs
      simp only [Except.ok.injEq] at hs
      subst hs
      simp only at hst
      rw [hb] at hget
      simp only [batchRunner.get] at hget
      rw [hr] at hget
      have hmem : (id, cr) ∈ (batchRunner.dispatch now f.concurrency f.batchRunner.runners 0
          { store := f.store, calls := f.calls }).1.filter (fun kr => !kr.2.tryCheckCanRemove) :=
        mapGet_mem _ _ _ hget
      have := (List.mem_filter.mp hmem).2
      simp [contextRunner.tryCheckCanRemove, hst] at this
  · simp only [batchRunner.exists, mapHas]
    rw [show mapGet (f.RunOnce now).1.batchRunner.runners requestID = none from hnone]
    rfl
  · have := ticks_get_none later requestID _ hnone
    simp only [flow.GetRequestStatus, this]

/-- The amended claim C12 on the third tick of TestSingleFlow. -/
theorem C12_finished_runner_is_swept_witness :
    (singleFlowTwoTicks.RunOnce 3).2 = .ok () ∧
    (ticks [4] (singleFlowTwoTicks.RunOnce 3).1).GetRequestStatus "test-require-id"
      = .error (.kind .NotFound "test-require-id") := by
  have hok : (singleFlowTwoTicks.RunOnce 3).2 = .ok () := by decide!
  have hsome : (mapGet (batchRunner.dispatch 3 singleFlowTwoTicks.concurrency
      singleFlowTwoTicks.batchRunner.runners 0
      { store := singleFlowTwoTicks.store, calls := singleFlowTwoTicks.calls }).1
      "test-require-id").map contextRunner.runningStatus = some .Finished := by decide!
  have hfiled : singleFlowTwoTicks.batchRunner.Filed := by
    unfold batchRunner.Filed
    decide!
  cases hget : mapGet (batchRunner.dispatch 3 singleFlowTwoTicks.concurrency
      singleFlowTwoTicks.batchRunner.runners 0
      { store := singleFlowTwoTicks.store, calls := singleFlowTwoTicks.calls }).1
      "test-require-id" with
  | none => rw [hget] at hsome; cases hsome
  | some r1 =>
    rw [hget] at hsome
    have hfin : r1.runningStatus = .Finished := by simpa using hsome
    exact ⟨hok, (C12_finished_runner_is_swept singleFlowTwoTicks 3 "test-require-id" r1 [4]
      hfiled hok hget hfin).2.2⟩

/-- Claim C13: a step of a sub-DAG runtime `d` whose current child `rc`
returns a successor `succ` with the data `data`.  When `succ` is
`Termination` the step returns the `nextRC` of `d` with `data`; otherwise the
current child of `d` becomes the successor (the vertex `succ` names, or the
child itself when it returned itself) and the step returns `d` itself with
`data`.  In each case the step has appended one invocation to the log. -/
theorem C13_subdag_step (d : dagRuntime) (fc : flowContext) (calls : List Call) (input : Data)
    (rc rc1 : runContext) (fc2 : flowContext) (calls1 : List Call) (succ : RCRef) (data : Data)
    (henter : (fc.enter d.name).2 = true)
    (hchild : mapGet d.rcMap d.runningRC = some rc)
    (hstep : rc.runOnce (fc.enter d.name).1 calls input = (rc1, fc2, calls1, .ok (succ, data))) :
    (succ = .Termination →
      d.runOnce fc calls input
        = (.mk d.name d.path (mapSet d.rcMap d.runningRC rc1) d.runningRC d.nextRC d.nextVertex,
           fc2.exit, calls1, .ok (d.nextRC, data))) ∧
    (∀ next, succ = .vertex next →
      d.runOnce fc calls input
        = (.mk d.name d.path (mapSet d.rcMap d.runningRC rc1) next d.nextRC d.nextVertex,
           fc2.exit, calls1, .ok (.self, data))) ∧
    (succ = .self →
      d.runOnce fc calls input
        = (.mk d.name d.path (mapSet d.rcMap d.runningRC rc1) d.runningRC d.nextRC d.nextVertex,
           fc2.exit, calls1, .ok (.self, data))) ∧
    ∃ c, calls1 = calls ++ [c] := by
  obtain ⟨name, path, rcMap, running, nextRC, nextVertex⟩ := d
  simp only [dagRuntime.name, dagRuntime.rcMap, dagRuntime.runningRC, dagRuntime.path,
    dagRuntime.nextRC, dagRuntime.nextVertex] at henter hchild hstep ⊢
  have hE : fc.enter name = ((fc.enter name).1, true) := Prod.ext rfl henter
  have hR := runRunning_of_get rcMap running rc (fc.enter name).1 calls input hchild
  rw [hstep] at hR
  simp only at hR
  have hcall := runContext_runOnce_ok_call.1 rc (fc.enter name).1 calls input
    ⟨(succ, data), by rw [hstep]⟩
  rw [hstep] at hcall
  refine ⟨?_, ?_, ?_, hcall⟩
  · intro hs
    subst hs
    unfold dagRuntime.runOnce
    rw [hE]
    simp only [hR]
  · intro next hs
    subst hs
    unfold dagRuntime.runOnce
    rw [hE]
    simp only [hR]
  · intro hs
    subst hs
    unfold dagRuntime.runOnce
    rw [hE]
    simp only [hR]

/-- Claim C13 on the runtime of `node1 -> node2` at `node1`: the step returns the runtime itself. -/
theorem C13_subdag_step_witness :
    (((newFlowContext "r1").startRecord 1 ["test", "node1"] []).enter linearDAGRuntime.name).2
      = true ∧
    (linearDAGRuntime.runOnce ((newFlowContext "r1").startRecord 1 ["test", "node1"] []) [] []).2.2.2
      = .ok (.self, []) ∧
    (linearDAGRuntime.runOnce ((newFlowContext "r1").startRecord 1 ["test", "node1"] [])
      [] []).1.runningRC = "node2" :=
  have h := C13_subdag_step linearDAGRuntime ((newFlowContext "r1").startRecord 1 ["test", "node1"] [])
    [] [] (.node (nodeRT "node1" "node2" okNode)) _ _ _ (.vertex "node2") [] (by decide) rfl
    (step_eta _ _ (by decide!))
  ⟨by decide, by rw [h.2.1 "node2" rfl], by rw [h.2.1 "node2" rfl]; rfl⟩

/-- Claim C14 as stated fails: in scenario S6 (`outer` is `X -> sub`, `sub`
runs the DAG `inner`, which is `A -> B -> C`) the four ticks store the trace
records under the keys `outer.X`, `outer.sub.A`, `outer.sub.B` and
`outer.sub.C`; no record is stored under `outer.sub.inner.A`. -/
theorem C14_record_key_has_no_dag_name :
    (exec (nestedFlow ++ [.RunOnce 1, .RunOnce 2, .RunOnce 3, .RunOnce 4]) engine).isSome = true ∧
    (after (nestedFlow ++ [.RunOnce 1, .RunOnce 2, .RunOnce 3, .RunOnce 4])).store.matchedKeys
        (recordSavePath "r1")
      = ["outer.X", "outer.sub.A", "outer.sub.B", "outer.sub.C"] ∧
    ((after (nestedFlow ++ [.RunOnce 1, .RunOnce 2])).store.Get (recordSavePath "r1")
        "outer.sub.A").1
      = some (.record { Path := ["outer", "inner", "A"], Vertex := ["outer", "sub", "A"],
                        StartTime := 2, EndTime := 2, Error := none, Input := [],
                        Output := [] }) ∧
    ((after (nestedFlow ++ [.RunOnce 1, .RunOnce 2, .RunOnce 3, .RunOnce 4])).store.Get
        (recordSavePath "r1") "outer.sub.inner.A").1 = none := by
  refine ⟨by decide!, by decide!, by decide!, by decide!⟩

/-- Claim C14, amended: a step of a runner that returns stores its trace
record under the record prefix of the request, with the key that joins by
dots the names the step has entered, from the name of the top-level runtime
down to the name of the vertex; and in a runtime that `generateRuntime`
returns the top-level name is the name of the plan and every run context
inside, sub-DAG or node, carries the name of the vertex it is filed under. -/
theorem C14_record_key_joins_the_entered_names (r : contextRunner) (w : World) (now : Int)
    (rc : runContext) (path : Path)
    (hrun : r.canRun now = true) (hrc : r.runningRC = some rc)
    (hpath : rc.getPath = some path)
    (hret : ∀ msg,
      (rc.runOnce (r.fc.startRecord now path r.currentData) w.calls r.currentData).2.2.2
        ≠ .panic msg) :
    (∃ addr rec, rc.vertexAddress = some addr ∧
      (r.runOnce w now).1.fc.rcRecord = some rec ∧ rec.Path = path ∧ rec.Vertex = addr ∧
      ((r.runOnce w now).2.1.store.Get (recordSavePath r.fc.requestID)
          (String.intercalate "." addr)).1 = some (.record rec)) ∧
    ∀ (heap : List dagExecutePlan) (gl : globalVertex) (fuel dt : Nat) (p e : Path)
      (d : dagRuntime), generateRuntime heap gl fuel dt p e = some (.ok d) →
      d.NamedMap ∧ ∃ plan, heap.get? dt = some plan ∧ d.name = plan.Name := by
  refine ⟨?_, generateRuntime_named⟩
  have hP := runContext_runOnce_path.1 rc (r.fc.startRecord now path r.currentData) w.calls
    r.currentData
  have hF := (runContext_runOnce_frame.1 rc (r.fc.startRecord now path r.currentData) w.calls
    r.currentData).1
  rcases hstep : rc.runOnce (r.fc.startRecord now path r.currentData) w.calls r.currentData
    with ⟨rc1, fc2, calls1, out⟩
  rw [hstep] at hP hF hret
  simp only at hret hF
  obtain ⟨hrec, hp⟩ := hP
  obtain ⟨addr, haddr, hexec⟩ := hp hret
  simp only [flowContext.startRecord, List.nil_append] at hrec hexec hF
  cases out with
  | panic msg => exact absurd rfl (hret msg)
  | error err =>
    rw [runOnce_error r w now rc rc1 path fc2 calls1 err hrun hrc hpath hstep]
    have hE := endRecord_get fc2 w.store now [] (some err) _ hrec
    rw [hexec, hF] at hE
    rw [checkOnError_fc]
    exact ⟨addr, _, haddr, hE.1, rfl, rfl, by simpa [memStore.Get] using hE.2⟩
  | ok res =>
    obtain ⟨nextRC, output⟩ := res
    rw [runOnce_ok r w now rc rc1 path fc2 calls1 nextRC output hrun hrc hpath hstep]
    have hE := endRecord_get fc2 w.store now output none _ hrec
    rw [hexec, hF] at hE
    rw [assignNextStatus_fc]
    refine ⟨addr, _, haddr, hE.1, rfl, rfl, ?_⟩
    simp only [memStore.Get]
    rw [saveContext_record]
    exact hE.2

/-- The amended claim C14 on the first step of the pending runner of `node1 -> node2`. -/
theorem C14_record_key_joins_the_entered_names_witness :
    (pendingRunner "r1").canRun 1 = true ∧
    ∃ rec, (((pendingRunner "r1").runOnce world 1).2.1.store.Get (recordSavePath "r1")
        "test.node1").1 = some (.record rec) ∧ rec.Vertex = ["test", "node1"] := by
  have hout : (linearRuntime.runOnce ((pendingRunner "r1").fc.startRecord 1 ["test", "node1"]
      (pendingRunner "r1").currentData) world.calls (pendingRunner "r1").currentData).2.2.2
      = .ok (.self, []) := by decide!
  obtain ⟨addr, rec, haddr, _, _, hv, hget⟩ :=
    (C14_record_key_joins_the_entered_names (pendingRunner "r1") world 1 linearRuntime
      ["test", "node1"] (by decide!) rfl (by decide!)
      (fun msg h => by rw [hout] at h; cases h)).1
  have ha : linearRuntime.vertexAddress = some ["test", "node1"] := by decide!
  rw [ha] at haddr
  cases haddr
  exact ⟨by decide!, rec, hget, hv⟩

/-- Claim C15: each of `PauseRequest`, `ResumeRequest` and `TerminateRequest`
fails with `NotFound` exactly when the request is not resident.  On a
resident runner `cr`, pause and resume return nil exactly when the status is
Pending, Retrying, Paused or Running, terminate returns nil exactly when it is
not Finished; a call that returns nil sets the pending next-status and nothing
else, and every other call fails with `Forbidden` and leaves the runner as it
was. -/
theorem C15_status_request_acceptance (f : flow) (requestID : String) (s : StatusType)
    (hs : s = .Paused ∨ s = .Retrying ∨ s = .Fatal) :
    (f.PauseRequest requestID = f.setExecutePlanStatus requestID .Paused ∧
     f.ResumeRequest requestID = f.setExecutePlanStatus requestID .Retrying ∧
     f.TerminateRequest requestID = f.setExecutePlanStatus requestID .Fatal) ∧
    ((∃ msg, (f.setExecutePlanStatus requestID s).2 = some (.kind .NotFound msg)) ↔
      f.batchRunner.exists requestID = false) ∧
    ∀ cr, f.batchRunner.get requestID = some cr →
      ((f.setExecutePlanStatus requestID s).2 = none ↔
        if s = .Fatal then cr.runningStatus ≠ .Finished
        else cr.runningStatus = .Pending ∨ cr.runningStatus = .Retrying ∨
          cr.runningStatus = .Paused ∨ cr.runningStatus = .Running) ∧
      ((f.setExecutePlanStatus requestID s).2 = none →
        (f.setExecutePlanStatus requestID s).1.batchRunner.get requestID
          = some { cr with nextStatus := s }) ∧
      ((f.setExecutePlanStatus requestID s).2 ≠ none →
        (∃ msg, (f.setExecutePlanStatus requestID s).2 = some (.kind .Forbidden msg)) ∧
        (f.setExecutePlanStatus requestID s).1.batchRunner.get requestID = some cr) := by
  refine ⟨⟨rfl, rfl, rfl⟩, ?_, ?_⟩
  · cases hget : f.batchRunner.get requestID with
    | none =>
      have hex : f.batchRunner.exists requestID = false := by
        simp only [batchRunner.exists, mapHas]
        rw [show mapGet f.batchRunner.runners requestID = none from hget]
        rfl
      simp [flow.setExecutePlanStatus, hget, hex]
    | some cr =>
      have hex : f.batchRunner.exists requestID = true := by
        simp only [batchRunner.exists, mapHas]
        rw [show mapGet f.batchRunner.runners requestID = some cr from hget]
        rfl
      simp only [flow.setExecutePlanStatus, hget, hex]
      constructor
      · rintro ⟨msg, h⟩
        simp only [contextRunner.setNextStatus] at h
        split at h <;> simp at h
      · intro h
        cases h
  · intro cr hget
    have hcases : canSetStatus cr.runningStatus s = true ∨ canSetStatus cr.runningStatus s = false := by
      cases canSetStatus cr.runningStatus s <;> simp
    simp only [flow.setExecutePlanStatus, hget, contextRunner.setNextStatus]
    rcases hcases with hc | hc
    · simp only [hc, Bool.not_true, Bool.false_eq_true, if_false, true_iff, ne_eq,
        not_true_eq_false, false_implies, and_true, forall_true_left]
      refine ⟨?_, ?_⟩
      · rcases hs with h | h | h <;> subst h <;>
          cases hst : cr.runningStatus <;> simp [canSetStatus, hst] at hc ⊢
      · exact mapGet_mapSet_same _ _ _
    · simp only [hc, Bool.not_false, if_true]
      refine ⟨?_, ?_, ?_⟩
      · simp only [reduceCtorEq, false_iff]
        rcases hs with h | h | h <;> subst h <;>
          cases hst : cr.runningStatus <;> simp [canSetStatus, hst] at hc ⊢
      · intro h
        cases h
      · intro _
        refine ⟨⟨_, rfl⟩, ?_⟩
        have := mapGet_mapSet_same f.batchRunner.runners requestID cr
        exact this

/-- Claim C15 on the paused request `r1` of `batchFlow`: `PauseRequest` returns nil. -/
theorem C15_status_request_acceptance_witness :
    batchFlow.batchRunner.get "r1" = some (pausedRunner "r1") ∧
    (batchFlow.PauseRequest "r1").2 = none ∧
    (batchFlow.PauseRequest "r1").1.batchRunner.get "r1"
      = some { pausedRunner "r1" with nextStatus := .Paused } :=
  have h := C15_status_request_acceptance batchFlow "r1" .Paused (Or.inl rfl)
  have h1 : (batchFlow.setExecutePlanStatus "r1" .Paused).2 = none :=
    (h.2.2 (pausedRunner "r1") rfl).1.mpr (by simp [pausedRunner])
  ⟨rfl, h1, (h.2.2 (pausedRunner "r1") rfl).2.1 h1⟩

/-- Claim C16: `setNextStatus(s)` for `s` Paused, Retrying or Fatal has
returned nil on the runner `r0` and left the runner `r`, which can run.  After
the next step of `r` on its top-level runtime `d` that returns a successor,
either the successor is `d` itself, now `d1` on its next vertex, and then the
status is `s`, the runner is on `d1` and no transition is pending; or it is
`Termination`, and then the status is Finished, the runner has no runtime left
and no transition is pending. -/
theorem C16_pending_transition_after_successful_step (r0 r : contextRunner) (s : StatusType)
    (w : World) (now : Int)
    (d d1 : dagRuntime) (path : Path) (fc2 : flowContext) (calls1 : List Call)
    (nextRC : RCRef) (output : Data)
    (hs : s = .Paused ∨ s = .Retrying ∨ s = .Fatal)
    (hset : r0.setNextStatus s = (r, none))
    (hrun : r.canRun now = true)
    (hrc : r.runningRC = some (.dag d)) (htop : d.nextRC = .Termination)
    (hpath : d.getPath = some path)
    (hstep : d.runOnce (r.fc.startRecord now path r.currentData) w.calls r.currentData
      = (d1, fc2, calls1, .ok (nextRC, output))) :
    r.nextStatus = s ∧
    (nextRC ≠ .Termination →
      nextRC = .self ∧
      (r.runOnce w now).1.runningStatus = s ∧
      (r.runOnce w now).1.runningRC = some (.dag d1) ∧
      (r.runOnce w now).1.nextStatus = .None) ∧
    (nextRC = .Termination →
      (r.runOnce w now).1.runningStatus = .Finished ∧
      (r.runOnce w now).1.runningRC = none ∧
      (r.runOnce w now).1.nextStatus = .None) := by
  have hnext : r.nextStatus = s := by
    simp only [contextRunner.setNextStatus] at hset
    split at hset
    · cases hset
    · cases hset
      rfl
  have hpath' : (runContext.dag d).getPath = some path := by
    simpa [runContext.getPath] using hpath
  have hstep' : (runContext.dag d).runOnce (r.fc.startRecord now path r.currentData) w.calls
      r.currentData = (.dag d1, fc2, calls1, .ok (nextRC, output)) := by
    simp [runContext.runOnce, hstep]
  rw [runOnce_ok r w now _ _ path fc2 calls1 nextRC output hrun hrc hpath' hstep']
  refine ⟨hnext, ?_, ?_⟩
  · intro hne
    have hself : nextRC = .self := by
      rcases dagRuntime_runOnce_ref d d1 _ fc2 _ calls1 _ output nextRC hstep with h | h
      · rw [htop] at h
        exact absurd h hne
      · exact h
    refine ⟨hself, ?_⟩
    rcases hs with h | h | h <;> subst h <;>
      simp [hne, contextRunner.assignNextStatus, canSetStatus, hnext]
  · intro he
    subst he
    rcases hs with h | h | h <;> subst h <;>
      simp [contextRunner.assignNextStatus, canSetStatus, hnext]

/-- Claim C16 on the pending runner of `node1 -> node2` after `setNextStatus(Fatal)`. -/
theorem C16_pending_transition_after_successful_step_witness :
    ((pendingRunner "r1").setNextStatus .Fatal).2 = none ∧
    ((pendingRunner "r1").setNextStatus .Fatal).1.canRun 1 = true ∧
    (((pendingRunner "r1").setNextStatus .Fatal).1.runOnce world 1).1.runningStatus = .Fatal ∧
    (((pendingRunner "r1").setNextStatus .Fatal).1.runOnce world 1).1.nextStatus = .None :=
  have h := C16_pending_transition_after_successful_step (pendingRunner "r1")
    ((pendingRunner "r1").setNextStatus .Fatal).1 .Fatal world 1 linearDAGRuntime
    _ ["test", "node1"] _ _ .self [] (Or.inr (Or.inr rfl)) (Prod.ext rfl (by decide))
    (by decide!) rfl rfl (by decide!) (step_eta _ _ (by decide!))
  ⟨by decide, by decide!, (h.2.1 (by decide)).2.1, (h.2.1 (by decide)).2.2.2⟩

/-- Claim C17 (the code at the failing input): `TerminateRequest` (or
`PauseRequest`) has left a transition pending on a runner whose current
vertex, a vertex of the top-level DAG, then returns a retry error.  After the
step the status is Retrying, not the requested one, and the transition is
still pending; in the engine, the request whose only handler returns
`RetryError(90)` is Retrying after `TerminateRequest` and a tick at time 1,
and the tick at time 92 invokes the handler again. -/
theorem C17_failed_step_keeps_the_transition_pending :
    (∀ (r : contextRunner) (w : World) (now : Int) (s : StatusType)
        (name : String) (path : Path) (rcMap : List (String × runContext)) (running : String)
        (nextRC : RCRef) (nextVertex : String) (n : nodeRuntime) (cause : String) (b : Int)
        (calls1 : List Call),
      s = .Paused ∨ s = .Retrying ∨ s = .Fatal →
      r.nextStatus = s →
      r.canRun now = true →
      r.runningRC = some (.dag (.mk name path rcMap running nextRC nextVertex)) →
      mapGet rcMap running = some (.node n) →
      n.runHandler (((r.fc.startRecord now n.path r.currentData).enter name).1.enter n.name).1
        w.calls r.currentData = (calls1, .error (NewRetryError cause b)) →
      (r.runOnce w now).1.runningStatus = .Retrying ∧
      (r.runOnce w now).1.nextStatus = s) ∧
    (exec [.RegisterDAG "test" (failDAG (NewRetryError "retry" 90)), .RunDAG "test" "r1" []]
      engine).isSome = true ∧
    ((after [.RegisterDAG "test" (failDAG (NewRetryError "retry" 90)),
             .RunDAG "test" "r1" []]).TerminateRequest "r1").2 = none ∧
    ((((after [.RegisterDAG "test" (failDAG (NewRetryError "retry" 90)),
               .RunDAG "test" "r1" []]).TerminateRequest "r1").1.RunOnce 1).1.batchRunner.get
        "r1").map (fun r => (r.runningStatus, r.nextStatus)) = some (.Retrying, .Fatal) ∧
    (((((after [.RegisterDAG "test" (failDAG (NewRetryError "retry" 90)),
                .RunDAG "test" "r1" []]).TerminateRequest "r1").1.RunOnce 1).1.RunOnce 92).1.batchRunner.get
        "r1").map (fun r => (r.runningStatus, r.nextStatus)) = some (.Retrying, .Fatal) ∧
    ((((after [.RegisterDAG "test" (failDAG (NewRetryError "retry" 90)),
               .RunDAG "test" "r1" []]).TerminateRequest "r1").1.RunOnce 1).1.RunOnce 92).1.calls
      = [⟨"r1", ["test", "A"], []⟩, ⟨"r1", ["test", "A"], []⟩] := by
  refine ⟨?_, by decide!, by decide!, by decide!, by decide!, by decide!⟩
  intro r w now s name path rcMap running nextRC nextVertex n cause b calls1 hs hnext hrun hrc
    hvertex hhandler
  have hpath : (runContext.dag (.mk name path rcMap running nextRC nextVertex)).getPath
      = some n.path := by
    simp [runContext.getPath, dagRuntime.getPath, getPathRunning_of_get _ _ _ hvertex]
  have hE1 := enter_startRecord r.fc now n.path r.currentData name
  have hE2 := enter_enter_startRecord r.fc now n.path r.currentData name n.name
  have hnode : (runContext.node n).runOnce
      ((r.fc.startRecord now n.path r.currentData).enter name).1 w.calls r.currentData
      = (.node { n with FailedTimes := n.FailedTimes + 1 },
         (((r.fc.startRecord now n.path r.currentData).enter name).1.enter n.name).1.exit,
         calls1, .error (NewRetryError cause b)) := by
    simp only [runContext.runOnce, nodeRuntime.runOnce]
    rw [show ((r.fc.startRecord now n.path r.currentData).enter name).1.enter n.name
      = ((((r.fc.startRecord now n.path r.currentData).enter name).1.enter n.name).1, true) from
      Prod.ext rfl hE2]
    simp only [hhandler]
  have hstep : (runContext.dag (.mk name path rcMap running nextRC nextVertex)).runOnce
      (r.fc.startRecord now n.path r.currentData) w.calls r.currentData
      = (.dag (.mk name path
          (mapSet rcMap running (.node { n with FailedTimes := n.FailedTimes + 1 }))
          running nextRC nextVertex),
         ((((r.fc.startRecord now n.path r.currentData).enter name).1.enter n.name).1.exit).exit,
         calls1, .error (.trace (NewRetryError cause b))) := by
    simp only [runContext.runOnce, dagRuntime.runOnce]
    rw [show (r.fc.startRecord now n.path r.currentData).enter name
      = (((r.fc.startRecord now n.path r.currentData).enter name).1, true) from
      Prod.ext rfl hE1]
    simp only [runRunning_of_get _ _ _ _ _ _ hvertex, hnode]
  rw [runOnce_error r w now _ _ _ _ _ _ hrun hrc hpath hstep]
  simp [contextRunner.checkOnError, Err.Unwrap, NewRetryError, hnext]

/-- Claim C18 as stated fails: the runner whose handler returned
`RetryError(90)` in the step at time 1 is Retrying with `nextRunTime` 91, and
`canRun` is false at time 91 and true at time 92. -/
theorem C18_not_runnable_at_next_run_time :
    ((newContextRunner "r1" (some (failingRuntime (NewRetryError "retry" 90))) []).runOnce
        world 1).1.runningStatus = .Retrying ∧
    ((newContextRunner "r1" (some (failingRuntime (NewRetryError "retry" 90))) []).runOnce
        world 1).1.nextRunTime = 91 ∧
    ((newContextRunner "r1" (some (failingRuntime (NewRetryError "retry" 90))) []).runOnce
        world 1).1.canRun 91 = false ∧
    ((newContextRunner "r1" (some (failingRuntime (NewRetryError "retry" 90))) []).runOnce
        world 1).1.canRun 92 = true := by
  refine ⟨by decide!, by decide!, by decide!, by decide!⟩

/-- Claim C18, amended: `canRun` at clock reading `now` is true exactly when
the status is Pending, Running or Retrying and `now` is after `nextRunTime`;
after `checkOnError` at time `t` on an error that unwraps to a retry error
with backoff `b`, `canRun` is true exactly at the times after `t + b`. -/
theorem C18_canRun_iff_strictly_after (r : contextRunner) (now : Int) :
    (r.canRun now = true ↔
      (r.runningStatus = .Pending ∨ r.runningStatus = .Running ∨ r.runningStatus = .Retrying) ∧
        r.nextRunTime < now) ∧
    ∀ (err : Err) (cause : String) (b t : Int), err.Unwrap = some (.retry cause b) →
      ((r.checkOnError err t).runningStatus = .Retrying ∧
       (r.checkOnError err t).nextRunTime = t + b ∧
       ((r.checkOnError err t).canRun now = true ↔ t + b < now)) := by
  constructor
  · simp only [contextRunner.canRun]
    split
    · rename_i h
      simp [h]
    · rename_i h
      simp [h]
  · intro err cause b t he
    simp [contextRunner.checkOnError, he, contextRunner.canRun]

/-- The amended claim C18 on the pending runner after a retry error with backoff 90 at time 1. -/
theorem C18_canRun_iff_strictly_after_witness :
    (Err.trace (NewRetryError "retry" 90)).Unwrap = some (.retry "retry" 90) ∧
    ((pendingRunner "r1").checkOnError (.trace (NewRetryError "retry" 90)) 1).canRun 92 = true :=
  have h := (C18_canRun_iff_strictly_after (pendingRunner "r1") 92).2
    (.trace (NewRetryError "retry" 90)) "retry" 90 1 rfl
  ⟨rfl, h.2.2.mpr (by decide)⟩

/-- Claim C19: after a call of `batchRunner.runOnce` that returns nil no
resident runner is Failed or Finished, and a runner that the dispatch loop has
left Pending, Running, Retrying, Paused or Fatal is resident under its key;
the dispatch loop keeps the keys of the runners that were resident before. -/
theorem C19_sweep_removes_failed_and_finished (b : batchRunner) (w : World)
    (now maxRunAmount : Int)
    (hok : (b.runOnce w now maxRunAmount).2.2 = .ok ()) :
    (∀ kr ∈ (b.runOnce w now maxRunAmount).1.runners,
      kr.2.runningStatus ≠ .Failed ∧ kr.2.runningStatus ≠ .Finished) ∧
    (batchRunner.dispatch now maxRunAmount b.runners 0 w).1.map Prod.fst
      = b.runners.map Prod.fst ∧
    ∀ key r1, mapGet (batchRunner.dispatch now maxRunAmount b.runners 0 w).1 key = some r1 →
      (r1.runningStatus = .Pending ∨ r1.runningStatus = .Running ∨
        r1.runningStatus = .Retrying ∨ r1.runningStatus = .Paused ∨
        r1.runningStatus = .Fatal) →
      (b.runOnce w now maxRunAmount).1.get key = some r1 := by
  have hr := batchRunner_runOnce_runners b w now maxRunAmount hok
  refine ⟨?_, dispatch_map_fst _ _ _ _ _, ?_⟩
  · intro kr hkr
    rw [hr] at hkr
    have := (List.mem_filter.mp hkr).2
    simp only [contextRunner.tryCheckCanRemove, Bool.not_eq_true'] at this
    constructor
    · intro h
      simp [h] at this
    · intro h
      simp [h] at this
  · intro key r1 hget hst
    simp only [batchRunner.get]
    rw [hr]
    apply mapGet_filter _ _ _ _ hget
    rcases hst with h | h | h | h | h <;> simp [contextRunner.tryCheckCanRemove, h]

/-- Claim C19 on the scheduler `batch`: the paused request stays resident. -/
theorem C19_sweep_removes_failed_and_finished_witness :
    (batch.runOnce world 1 100000).2.2 = .ok () ∧
    (batch.runOnce world 1 100000).1.get "r1" = some (pausedRunner "r1") :=
  have hok : (batch.runOnce world 1 100000).2.2 = .ok () := by decide!
  have h := C19_sweep_removes_failed_and_finished batch world 1 100000 hok
  ⟨hok, h.2.2 "r1" (pausedRunner "r1")
    (dispatch_get 1 100000 "r1" (pausedRunner "r1") rfl batch.runners 0 world rfl)
    (Or.inr (Or.inr (Or.inr (Or.inl rfl))))⟩

/-- Claim C20: in a tick with `maxRunAmount` not negative, the dispatch loop
calls `r.runOnce` on at most `maxRunAmount` runners, each of them resident and
able to run, and leaves every other runner as it is; when the tick returns
nil, their number is the smaller of `maxRunAmount` and the number of resident
runners that can run. -/
theorem C20_dispatch_runs_at_most_maxRunAmount (b : batchRunner) (w : World)
    (now maxRunAmount : Int) (hmax : 0 ≤ maxRunAmount) :
    ((batchRunner.dispatched now maxRunAmount b.runners 0 w).length : Int) ≤ maxRunAmount ∧
    ((b.runOnce w now maxRunAmount).2.2 = .ok () →
      ((batchRunner.dispatched now maxRunAmount b.runners 0 w).length : Int)
        = min maxRunAmount (b.runners.countP (fun kr => kr.2.canRun now))) ∧
    (∀ key ∈ batchRunner.dispatched now maxRunAmount b.runners 0 w,
      ∃ r, (key, r) ∈ b.runners ∧ r.canRun now = true) ∧
    List.Forall₂
      (fun a a' => a.1 = a'.1 ∧
        (a.1 ∉ batchRunner.dispatched now maxRunAmount b.runners 0 w → a' = a))
      b.runners (batchRunner.dispatch now maxRunAmount b.runners 0 w).1 := by
  have h := dispatched_length now maxRunAmount b.runners 0 w hmax
  simp only [sub_zero] at h
  refine ⟨h.1, ?_, ?_, dispatch_untouched _ _ _ _ _⟩
  · intro hok
    rw [batchRunner_runOnce_outcome] at hok
    exact h.2 hok
  · exact dispatched_mem now maxRunAmount b.runners 0 w

/-- Claim C20 on two pending requests and `maxRunAmount` 1: one runner is run. -/
theorem C20_dispatch_runs_at_most_maxRunAmount_witness :
    (0 : Int) ≤ 1 ∧ (pendingBatch.runOnce world 1 1).2.2 = .ok () ∧
    ((batchRunner.dispatched 1 1 pendingBatch.runners 0 world).length : Int)
      = min 1 (pendingBatch.runners.countP (fun kr => kr.2.canRun 1)) ∧
    pendingBatch.runners.countP (fun kr => kr.2.canRun 1) = 2 :=
  have hok : (pendingBatch.runOnce world 1 1).2.2 = .ok () := by decide!
  have h := C20_dispatch_runs_at_most_maxRunAmount pendingBatch world 1 1 (by decide)
  ⟨by decide, hok, h.2.1 hok, by decide!⟩

/-- Claim C21: a tick of the engine in synchronous mode at clock reading `now`.
With a store that returns the error `e`, every tick that runs a step whose
run context returns a successor (the step `saveContext` then writes or
removes the rerun context of) returns `e`, traced by `saveContext`, by
`contextRunner.runOnce` and twice by `batchRunner.runOnce`, unless the tick
panics.  Every error a tick returns is that error of the store: no error
that a handler returns is returned by the tick, and with a store that returns
no error a tick returns nil (or panics), whatever the state a failing tick
left.  A tick does not close the engine.  In TestFailCondition the first tick
returns nil, the four ticks with the failing store return an error, and the
tick after `setError = nil` returns nil. -/
theorem C21_store_errors_reach_the_caller (f : flow) (now : Int) :
    (∀ e, f.store.mockErr = some e →
      ∀ s ∈ batchRunner.steps now f.concurrency f.batchRunner.runners 0
          { store := f.store, calls := f.calls },
        ∀ rc path rc1 fc2 calls1 nextRC output,
          s.2.1.runningRC = some rc → rc.getPath = some path →
          rc.runOnce (s.2.1.fc.startRecord now path s.2.1.currentData) s.2.2.calls
              s.2.1.currentData = (rc1, fc2, calls1, .ok (nextRC, output)) →
          (f.RunOnce now).2 = .error (.trace (.trace (.trace (.trace e)))) ∨
            ∃ msg, (f.RunOnce now).2 = .panic msg) ∧
    (∀ x, (f.RunOnce now).2 = .error x →
      ∃ e, f.store.mockErr = some e ∧ x = .trace (.trace (.trace (.trace e)))) ∧
    (f.store.mockErr = none →
      (f.RunOnce now).2 = .ok () ∨ ∃ msg, (f.RunOnce now).2 = .panic msg) ∧
    ((f.RunOnce now).1.running = f.running ∧ (f.RunOnce now).1.dagEntities = f.dagEntities ∧
      (f.RunOnce now).1.store.mockErr = f.store.mockErr) ∧
    (tickOutcomes [1] failConditionFlow = [.ok ()] ∧
      (tickOutcomes [2, 3, 4, 5]
          (withStoreErr (ticks [1] failConditionFlow) (some (.kind .plain "set error")))).map
        Outcome.isOk = [false, false, false, false] ∧
      tickOutcomes [6]
          (withStoreErr
            (ticks [2, 3, 4, 5]
              (withStoreErr (ticks [1] failConditionFlow) (some (.kind .plain "set error"))))
            none) = [.ok ()]) := by
  have hout : (f.RunOnce now).2
      = (batchRunner.dispatch now f.concurrency f.batchRunner.runners 0
          { store := f.store, calls := f.calls }).2.2 := by
    rw [← batchRunner_runOnce_outcome]
    rfl
  have herr : ∀ x, (f.RunOnce now).2 = .error x →
      ∃ e, f.store.mockErr = some e ∧ x = .trace (.trace (.trace (.trace e))) := by
    intro x hx
    rw [hout] at hx
    obtain ⟨s, hs, y, hy, hxy⟩ := (steps_outcome now f.concurrency f.batchRunner.runners 0
      { store := f.store, calls := f.calls }).2 x hx
    obtain ⟨e, he, hye⟩ := runOnce_error_store s.2.1 s.2.2 now y hy
    have hm := ((steps_outcome now f.concurrency f.batchRunner.runners 0
      { store := f.store, calls := f.calls }).1 s hs).1
    rw [hm] at he
    exact ⟨e, he, by rw [hxy, hye]⟩
  refine ⟨?_, herr, ?_, ?_, ?_⟩
  · intro e hmock s hs rc path rc1 fc2 calls1 nextRC output hrc hpath hstep
    obtain ⟨hm, herr1, hpanic1⟩ := (steps_outcome now f.concurrency f.batchRunner.runners 0
      { store := f.store, calls := f.calls }).1 s hs
    have hrun := ((steps_mem now f.concurrency f.batchRunner.runners 0
      { store := f.store, calls := f.calls }).1 s hs).2
    rcases runOnce_store_fails s.2.1 s.2.2 now rc rc1 path fc2 calls1 nextRC output e hrun hrc
      hpath hstep (by rw [hm]; exact hmock) with h | ⟨msg, h⟩
    · left
      rw [hout]
      exact herr1 _ h
    · right
      exact ⟨msg, by rw [hout]; exact hpanic1 msg h⟩
  · intro hmock
    cases hres : (f.RunOnce now).2 with
    | ok u => exact Or.inl rfl
    | panic msg => exact Or.inr ⟨msg, rfl⟩
    | error x =>
      obtain ⟨e, he, _⟩ := herr x hres
      rw [hmock] at he
      cases he
  · refine ⟨rfl, rfl, ?_⟩
    have hb := batchRunner_runOnce_store f.batchRunner { store := f.store, calls := f.calls } now
      f.concurrency
    exact hb
  · refine ⟨by decide!, by decide!, by decide!⟩

/-- Claim C21 on TestFailCondition: the second tick, with the failing store,
runs `node2` and returns the error of the store. -/
theorem C21_store_errors_reach_the_caller_witness :
    ((withStoreErr (ticks [1] failConditionFlow) (some (.kind .plain "set error"))).RunOnce 2).2
      = .error (.trace (.trace (.trace (.trace (.kind .plain "set error"))))) := by
  have hres : (((withStoreErr (ticks [1] failConditionFlow)
      (some (.kind .plain "set error"))).RunOnce 2).2).isOk = false := by decide!
  cases hout : ((withStoreErr (ticks [1] failConditionFlow)
      (some (.kind .plain "set error"))).RunOnce 2).2 with
  | ok u => rw [hout] at hres; cases hres
  | panic msg =>
    exfalso
    have hnp : (match ((withStoreErr (ticks [1] failConditionFlow)
        (some (.kind .plain "set error"))).RunOnce 2).2 with
      | .panic _ => true
      | _ => false) = false := by decide!
    rw [hout] at hnp
    cases hnp
  | error x =>
    obtain ⟨e, he, hx⟩ := (C21_store_errors_reach_the_caller
      (withStoreErr (ticks [1] failConditionFlow) (some (.kind .plain "set error"))) 2).2.1 x hout
    have he' : e = .kind .plain "set error" := by
      have : (withStoreErr (ticks [1] failConditionFlow)
        (some (.kind .plain "set error"))).store.mockErr = some (.kind .plain "set error") := rfl
      rw [this] at he
      exact (Option.some.inj he).symm
    rw [hx, he']

/-- Claim C23: on a running engine, `RunDAG` fails with `NotFound` when no DAG
is registered as `dagName`, and with `AlreadyExists` when the DAG is
registered and `requestID` is resident in the scheduler; a closed engine
answers `MethodNotAllowed` before both checks.  In the three cases the call
returns for every fuel and leaves the engine as it was: no runner is added,
the resident runners and the store are unchanged. -/
theorem C23_RunDAG_refusals (f : flow) (fuel : Nat) (dagName requestID : String)
    (params : Data) :
    (f.running = true → f.getDAG dagName = none →
      f.RunDAG fuel dagName requestID params = some (f, .error (.kind .NotFound ""))) ∧
    (f.running = true → f.getDAG dagName ≠ none → f.batchRunner.exists requestID = true →
      f.RunDAG fuel dagName requestID params
        = some (f, .error (.kind .AlreadyExists requestID))) ∧
    (f.running = false →
      f.RunDAG fuel dagName requestID params
        = some (f, .error (.kind .MethodNotAllowed "not running"))) ∧
    (f.getDAG dagName = none ∨ f.batchRunner.exists requestID = true →
      ∃ e, f.RunDAG fuel dagName requestID params = some (f, .error e)) := by
  have h1 : f.running = true → f.getDAG dagName = none →
      f.RunDAG fuel dagName requestID params = some (f, .error (.kind .NotFound "")) := by
    intro hrun hdag
    simp [flow.RunDAG, hrun, hdag]
  have h2 : f.running = true → f.getDAG dagName ≠ none →
      f.batchRunner.exists requestID = true →
      f.RunDAG fuel dagName requestID params
        = some (f, .error (.kind .AlreadyExists requestID)) := by
    intro hrun hdag hres
    cases hd : f.getDAG dagName with
    | none => exact absurd hd hdag
    | some dag => simp [flow.RunDAG, hrun, hd, flow.hasExecutePlan, hres]
  have h3 : f.running = false →
      f.RunDAG fuel dagName requestID params
        = some (f, .error (.kind .MethodNotAllowed "not running")) := by
    intro hrun
    simp [flow.RunDAG, hrun]
  refine ⟨h1, h2, h3, ?_⟩
  intro hcase
  by_cases hrun : f.running = true
  · by_cases hdag : f.getDAG dagName = none
    · exact ⟨_, h1 hrun hdag⟩
    · have hres : f.batchRunner.exists requestID = true := by
        rcases hcase with h | h
        · exact absurd h hdag
        · exact h
      exact ⟨_, h2 hrun hdag hres⟩
  · have hrun' : f.running = false := by simpa using hrun
    exact ⟨_, h3 hrun'⟩

/-- Claim C23 on TestSingleFlow after its first tick: a second `RunDAG` of the
resident request fails with `AlreadyExists`, and `RunDAG` of a DAG that was
never registered fails with `NotFound`. -/
theorem C23_RunDAG_refusals_witness :
    (after singleFlow).RunDAG 8 "test" "test-require-id" []
      = some (after singleFlow, .error (.kind .AlreadyExists "test-require-id")) ∧
    (after singleFlow).RunDAG 8 "other" "r2" []
      = some (after singleFlow, .error (.kind .NotFound "")) :=
  have h := C23_RunDAG_refusals (after singleFlow) 8 "test" "test-require-id" []
  have h' := C23_RunDAG_refusals (after singleFlow) 8 "other" "r2" []
  ⟨h.2.1 (by decide!) (by decide!) (by decide!), h'.1 (by decide!) (by decide!)⟩

/-- Claim C24: `Close` on a running engine whose scheduler files every runner
under its request id.  When the call returns (no panic inside `saveContext`),
the engine is closed and every resident runner is as before but with status
Paused.  When it returns nil, the store has returned no error on a runner and,
for every resident runner with a current vertex, the entry of its request
under `/run_context/` is the rerun context with status Paused, the path of
that vertex and the data of the runner.  `Close` on a closed engine returns
nil and changes nothing. -/
theorem C24_close_pauses_and_persists (f : flow) (hfiled : f.batchRunner.Filed) :
    (f.running = true → (∀ msg, f.Close.2 ≠ .panic msg) →
      f.Close.1.running = false ∧
      f.Close.1.batchRunner.runners
        = f.batchRunner.runners.map (fun kr => (kr.1, { kr.2 with runningStatus := .Paused })) ∧
      (∀ kr ∈ f.Close.1.batchRunner.runners, kr.2.runningStatus = .Paused)) ∧
    (f.running = true → f.Close.2 = .ok () →
      (f.batchRunner.runners ≠ [] → f.store.mockErr = none) ∧
      ∀ kr ∈ f.Close.1.batchRunner.runners,
        kr.2.runningStatus = .Paused ∧
        ∀ rc p, kr.2.runningRC = some rc → rc.getPath = some p →
          (f.Close.1.store.Get RunContextPath kr.1).1
            = some (.rerun { Status := .Paused, Entrypoint := p, Data := kr.2.currentData })) ∧
    (f.running = false → f.Close = (f, .ok ())) := by
  have hclose : f.running = true →
      f.Close = ({ f with running := false,
                          batchRunner := { f.batchRunner with
                            runners := (batchRunner.stopEach f.batchRunner.runners f.store none).1 },
                          store := (batchRunner.stopEach f.batchRunner.runners f.store none).2.1 },
                 (batchRunner.stopEach f.batchRunner.runners f.store none).2.2) := by
    intro hrun
    simp [flow.Close, hrun, batchRunner.stopWait]
  have hpaused : f.running = true → (∀ msg, f.Close.2 ≠ .panic msg) →
      f.Close.1.batchRunner.runners
        = f.batchRunner.runners.map
            (fun kr => (kr.1, { kr.2 with runningStatus := .Paused })) := by
    intro hrun hret
    rw [hclose hrun] at hret ⊢
    exact stopEach_runners _ _ _ hret
  refine ⟨?_, ?_, ?_⟩
  · intro hrun hret
    refine ⟨by rw [hclose hrun], hpaused hrun hret, ?_⟩
    intro kr hkr
    rw [hpaused hrun hret] at hkr
    obtain ⟨kr0, _, rfl⟩ := List.mem_map.mp hkr
    rfl
  · intro hrun hok
    have hret : ∀ msg, f.Close.2 ≠ .panic msg := by
      intro msg h
      rw [hok] at h
      cases h
    have hok' : (batchRunner.stopEach f.batchRunner.runners f.store none).2.2 = .ok () := by
      rw [hclose hrun] at hok
      exact hok
    have hsaved := stopEach_ok_saved f.batchRunner.runners f.store none hfiled.1 hfiled.2 hok'
    constructor
    · intro hne
      cases hl : f.batchRunner.runners with
      | nil => exact absurd hl hne
      | cons hd tl => exact (hsaved hd (by rw [hl]; exact List.mem_cons_self _ _)).1
    · intro kr hkr
      rw [hpaused hrun hret] at hkr
      obtain ⟨kr0, hkr0, rfl⟩ := List.mem_map.mp hkr
      refine ⟨rfl, fun rc p hrc hp => ?_⟩
      have := (hsaved kr0 hkr0).2 rc p hrc hp
      rw [hclose hrun]
      exact this
  · intro hrun
    simp [flow.Close, hrun]

/-- Claim C24 on TestSingleFlow after its first tick: `Close` returns nil and
leaves the request Paused at `test.node2` in the scheduler and in the store. -/
theorem C24_close_pauses_and_persists_witness :
    (after singleFlow).Close.2 = .ok () ∧
    observe (after singleFlow).Close.1 "test-require-id"
      = some { status := .Paused, path := some ["test", "node2"], data := [], lastErr := none,
               nextRunTime := 0 } ∧
    ((after singleFlow).Close.1.store.Get RunContextPath "test-require-id").1
      = some (.rerun { Status := .Paused, Entrypoint := ["test", "node2"], Data := [] }) := by
  have hfiled : (after singleFlow).batchRunner.Filed := by
    unfold batchRunner.Filed
    decide!
  have hok : (after singleFlow).Close.2 = .ok () := by decide!
  have hobs : observe (after singleFlow).Close.1 "test-require-id"
      = some { status := .Paused, path := some ["test", "node2"], data := [], lastErr := none,
               nextRunTime := 0 } := by decide!
  refine ⟨hok, hobs, ?_⟩
  have h := (C24_close_pauses_and_persists (after singleFlow) hfiled).2.1 (by decide!) hok
  simp only [observe, batchRunner.get] at hobs
  cases hget : mapGet (after singleFlow).Close.1.batchRunner.runners "test-require-id" with
  | none => rw [hget] at hobs; cases hobs
  | some r1 =>
    rw [hget] at hobs
    simp only [Option.map_some', Option.some.injEq, observeRunner, Observation.mk.injEq] at hobs
    obtain ⟨_, hpath, hdata, _⟩ := hobs
    cases hrc : r1.runningRC with
    | none => rw [hrc] at hpath; cases hpath
    | some rc =>
      rw [hrc] at hpath
      have := (h.2 ("test-require-id", r1) (mapGet_mem _ _ _ hget)).2 rc ["test", "node2"] hrc
        hpath
      rw [hdata] at this
      exact this

/-- Claim C25: `ReloadRequests` on a store whose keys are distinct (it is a Go
map).  The request ids it lists are the keys with a value under
`/run_context/`.  When every stored plan is a finite tree (as the plans that
`RunDAG` stores are), the call returns its map for every fuel above the heaps
of the stored plans.  The map it
returns has one entry per listed id, in the order of the listing, and is nil
exactly when no id is listed; the second result is the error of the store,
traced; the engine changes in its runner map only, and only at listed ids.
For a listed id that is resident the entry is `AlreadyExists` (traced) and its
runner is untouched; for one that is not resident and has no plan under
`/dag/`, with a store that returns no error, the entry is `NotFound` (traced
by `rerunPlan` and `reloadPlans`) and no runner is created; the entry is nil
exactly when the request was not resident and is resident afterwards; and
every id that is not resident is handled as `rerunPlan` alone handles it on
the engine before the call. -/
theorem C25_reload_reports_every_request (f : flow) (fuel : Nat)
    (hkeys : (f.store.m.map Prod.fst).Nodup) :
    (∀ id, id ∈ f.store.matchedKeys RunContextPath ↔
      mapHas f.store.m (memStore.fullKey RunContextPath id) = true) ∧
    (f.store.PlanTrees →
      ∀ fuel1, f.store.planBound ≤ fuel1 →
        ∃ f1 errs err, f.ReloadRequests fuel1 = some (f1, .ok (errs, err))) ∧
    (∀ f1 errs err, f.ReloadRequests fuel = some (f1, .ok (errs, err)) →
      (errs.getD []).map Prod.fst = f.store.matchedKeys RunContextPath ∧
      (errs = none ↔ f.store.matchedKeys RunContextPath = []) ∧
      err = f.store.mockErr.map Err.trace ∧
      f1 = { f with batchRunner :=
              { f.batchRunner with runners := f1.batchRunner.runners } } ∧
      (∀ k, k ∉ f.store.matchedKeys RunContextPath →
        f1.batchRunner.get k = f.batchRunner.get k) ∧
      ∀ id ∈ f.store.matchedKeys RunContextPath,
        (f.batchRunner.exists id = true →
          mapGet (errs.getD []) id = some (some (.trace (.kind .AlreadyExists id))) ∧
          f1.batchRunner.get id = f.batchRunner.get id) ∧
        (f.batchRunner.exists id = false → f.store.mockErr = none →
          mapHas f.store.m (memStore.fullKey DAGPlanPath id) = false →
          mapGet (errs.getD []) id = some (some (.trace (.trace (.kind .NotFound id)))) ∧
          f1.batchRunner.get id = none) ∧
        (mapGet (errs.getD []) id = some none ↔
          f.batchRunner.exists id = false ∧ f1.batchRunner.exists id = true) ∧
        (f.batchRunner.exists id = false →
          ∃ f2 out, f.rerunPlan fuel id = some (f2, out) ∧
            f1.batchRunner.get id = f2.batchRunner.get id ∧
            ((out = .ok () ∧ mapGet (errs.getD []) id = some none) ∨
              ∃ e, out = .error e ∧ mapGet (errs.getD []) id = some (some (.trace e))))) := by
  refine ⟨mem_matchedKeys f.store RunContextPath, ?_, ?_⟩
  · intro htree fuel1 hfuel
    obtain ⟨g1, errs1, h⟩ := reloadEach_returns f fuel1
      (fun id => rerunOutcome_returns f fuel1 id htree hfuel)
      (f.store.matchedKeys RunContextPath) f [] rfl rfl
    refine ⟨g1, if errs1.length = 0 then none else some errs1,
      f.store.mockErr.map Err.trace, ?_⟩
    simp only [flow.ReloadRequests, h]
  · intro f1 errs err hres
    have hnd := matchedKeys_nodup f.store RunContextPath hkeys
    obtain ⟨errs0, heach, herrs, herr⟩ : ∃ errs0,
        flow.reloadEach fuel (f.store.matchedKeys RunContextPath) f [] = some (f1, .ok errs0) ∧
        errs = (if errs0.length = 0 then none else some errs0) ∧
        err = f.store.mockErr.map Err.trace := by
      unfold flow.ReloadRequests at hres
      cases heach : flow.reloadEach fuel (f.store.matchedKeys RunContextPath) f [] with
      | none => simp [heach] at hres
      | some res =>
        obtain ⟨g, out⟩ := res
        cases out with
        | panic r => simp [heach] at hres
        | error e => simp [heach] at hres
        | ok errs0 =>
          simp only [heach, Option.some.injEq, Prod.mk.injEq, Outcome.ok.injEq] at hres
          obtain ⟨hg, he1, he2⟩ := hres
          subst hg
          exact ⟨errs0, rfl, he1.symm, he2.symm⟩
    have hgetD : errs.getD [] = errs0 := by
      rw [herrs]
      by_cases hlen : errs0.length = 0
      · simp [hlen, List.length_eq_zero.mp hlen]
      · simp [hlen]
    obtain ⟨hg, hk, hother, hids⟩ := reloadEach_spec fuel _ f f1 [] errs0 hnd
      (fun id _ => rfl) heach
    rw [hgetD]
    refine ⟨by simpa using hk, ?_, herr, hg, fun k hk' => (hother k hk').2, ?_⟩
    · rw [herrs]
      constructor
      · intro hnone
        by_cases hlen : errs0.length = 0
        · have : errs0 = [] := List.length_eq_zero.mp hlen
          rw [this] at hk
          simpa using hk.symm
        · simp [hlen] at hnone
      · intro hnil
        rw [hnil] at hk
        have : errs0 = [] := by simpa using hk
        simp [this]
    · intro id hid
      obtain ⟨hres1, hres2⟩ := hids id hid
      refine ⟨hres1, ?_, ?_, ?_⟩
      · intro hex hme hplan
        have hout : f.rerunOutcome fuel id = some (.error (.trace (.kind .NotFound id))) := by
          have hget : mapGet f.store.m (memStore.fullKey DAGPlanPath id) = none := by
            simpa [mapHas] using hplan
          simp [flow.rerunOutcome, flow.loadPlan, memStore.Get, hme, hget]
        rcases hres2 hex with ⟨r, h1, _⟩ | ⟨e, h1, h2, h3⟩
        · rw [hout] at h1
          cases h1
        · rw [hout] at h1
          cases h1
          exact ⟨h2, h3⟩
      · constructor
        · intro hentry
          by_cases hex : f.batchRunner.exists id = true
          · rw [(hres1 hex).1] at hentry
            cases hentry
          · have hex' : f.batchRunner.exists id = false := by simpa using hex
            refine ⟨hex', ?_⟩
            rcases hres2 hex' with ⟨r, _, _, h3⟩ | ⟨e, _, h2, _⟩
            · simp [batchRunner.exists, mapHas, h3]
            · rw [h2] at hentry
              cases hentry
        · rintro ⟨hex, hex1⟩
          rcases hres2 hex with ⟨r, _, h2, _⟩ | ⟨e, _, _, h3⟩
          · exact h2
          · simp [batchRunner.exists, mapHas, h3] at hex1
      · intro hex
        rw [rerunPlan_eq, if_neg (by simp [hex])]
        rcases hres2 hex with ⟨r, h1, h2, h3⟩ | ⟨e, h1, h2, h3⟩
        · rw [h1]
          refine ⟨_, _, rfl, ?_, Or.inl ⟨rfl, h2⟩⟩
          simp only [batchRunner.get]
          rw [h3, mapGet_mapSet_same]
        · rw [h1]
          refine ⟨_, _, rfl, ?_, Or.inr ⟨e, rfl, h2⟩⟩
          simp only [batchRunner.get]
          rw [h3]
          have hno : mapHas f.batchRunner.runners id = false := hex
          cases hget : mapGet f.batchRunner.runners id with
          | none => rfl
          | some r0 => simp [mapHas, hget] at hno

/-- Claim C25 on TestRerunFlow: after the restart, `ReloadRequests` returns
the map with the one entry `test-require-id`, whose error is nil. -/
theorem C25_reload_reports_every_request_witness :
    reloadErrs (restart (after singleFlow) [.RegisterDAG "test" singleDAG])
      = some (some [("test-require-id", none)]) := by
  have hkeys : ((restart (after singleFlow) [.RegisterDAG "test" singleDAG]).store.m.map
      Prod.fst).Nodup := by decide!
  have hlist : (restart (after singleFlow) [.RegisterDAG "test" singleDAG]).store.matchedKeys
      RunContextPath = ["test-require-id"] := by decide!
  have hsome : (reloadErrs (restart (after singleFlow) [.RegisterDAG "test" singleDAG])).isSome
      = true := by decide!
  have hafter : (reloaded (restart (after singleFlow)
      [.RegisterDAG "test" singleDAG])).batchRunner.exists "test-require-id" = true := by decide!
  have hbefore : (restart (after singleFlow)
      [.RegisterDAG "test" singleDAG]).batchRunner.exists "test-require-id" = false := by decide!
  have hthm := (C25_reload_reports_every_request
    (restart (after singleFlow) [.RegisterDAG "test" singleDAG]) 8 hkeys).2.2
  generalize restart (after singleFlow) [.RegisterDAG "test" singleDAG] = g at *
  cases hres : g.ReloadRequests 8 with
  | none =>
    rw [reloadErrs, hres] at hsome
    cases hsome
  | some res =>
    obtain ⟨f1, out⟩ := res
    cases out with
    | panic r =>
      rw [reloadErrs, hres] at hsome
      cases hsome
    | error e =>
      rw [reloadErrs, hres] at hsome
      cases hsome
    | ok pair =>
      obtain ⟨errs, err⟩ := pair
      rw [reloaded, hres] at hafter
      obtain ⟨hk, hnone, _, _, _, hids⟩ := hthm f1 errs err hres
      rw [hlist] at hk hnone hids
      have hentry := (hids "test-require-id" (List.mem_singleton.mpr rfl)).2.2.1.mpr
        ⟨hbefore, hafter⟩
      rw [reloadErrs, hres]
      cases errs with
      | none => exact absurd (hnone.mp rfl) (List.cons_ne_nil _ _)
      | some l =>
        cases l with
        | nil => cases hk
        | cons hd tl =>
          obtain ⟨k, v⟩ := hd
          have hk1 : k = "test-require-id" := (List.cons.inj hk).1
          have hk2 : tl = [] := List.map_eq_nil_iff.mp (List.cons.inj hk).2
          subst hk1 hk2
          have hv : v = none := by
            have h0 : mapGet [("test-require-id", v)] "test-require-id" = some v := by
              simp [mapGet]
            have h1 : mapGet [("test-require-id", v)] "test-require-id" = some none := hentry
            rw [h0] at h1
            exact Option.some.inj h1
          subst hv
          rfl

/-- Claim C26: the compilation of the plan at address `dt` with an entrypoint
path.  When `generateRuntime` returns a runtime, its current vertex is the
second segment of the entrypoint when the path has one and the start vertex
of the plan otherwise, that name is a vertex of the plan, and the runtime has
a run context for every vertex of the plan and for no other name.  When the
name is not a vertex of the plan, `generateRuntime` returns no runtime.  For a
plan that compiles at a path `e1`, the compilation at every entrypoint that
agrees with `e1` after the second segment returns the same runtime with the
selected vertex as current vertex when that name is a vertex of the plan, and
fails with `NotFound` when it is not. -/
theorem C26_entrypoint_selects_current_vertex (heap : List dagExecutePlan) (gl : globalVertex)
    (fuel dt : Nat) (parentDAGPath entrypoint : Path) (plan : dagExecutePlan)
    (hplan : heap.get? dt = some plan) :
    (∀ d, generateRuntime heap gl (fuel + 1) dt parentDAGPath entrypoint = some (.ok d) →
      d.runningRC = selectedVertex plan entrypoint ∧
      mapHas plan.Vertex (selectedVertex plan entrypoint) = true ∧
      (∀ x, mapHas d.rcMap x = mapHas plan.Vertex x)) ∧
    (mapHas plan.Vertex (selectedVertex plan entrypoint) = false →
      ∀ d, generateRuntime heap gl (fuel + 1) dt parentDAGPath entrypoint ≠ some (.ok d)) ∧
    (∀ e1 d1, Path.Next (Path.Next e1) = Path.Next (Path.Next entrypoint) →
      generateRuntime heap gl (fuel + 1) dt parentDAGPath e1 = some (.ok d1) →
      generateRuntime heap gl (fuel + 1) dt parentDAGPath entrypoint =
        if mapHas plan.Vertex (selectedVertex plan entrypoint) = true then
          some (.ok (.mk d1.name d1.path d1.rcMap (selectedVertex plan entrypoint)
            d1.nextRC d1.nextVertex))
        else some (.error (.kind .NotFound (selectedVertex plan entrypoint)))) := by
  have hfirst : ∀ d, generateRuntime heap gl (fuel + 1) dt parentDAGPath entrypoint
      = some (.ok d) →
      d.runningRC = selectedVertex plan entrypoint ∧
      mapHas plan.Vertex (selectedVertex plan entrypoint) = true ∧
      (∀ x, mapHas d.rcMap x = mapHas plan.Vertex x) := by
    intro d hok
    obtain ⟨m0, m1, hgen, hdelay⟩ :=
      generateRuntime_ok_loops heap gl fuel dt parentDAGPath entrypoint plan d hplan hok
    obtain ⟨hkeys, hsel⟩ :=
      generateRuntime_select heap gl fuel dt parentDAGPath entrypoint plan m0 m1 hplan hgen hdelay
    rw [hsel] at hok
    by_cases hv : mapHas plan.Vertex (selectedVertex plan entrypoint) = true
    · simp only [hv, if_true, Option.some.injEq, Outcome.ok.injEq] at hok
      subst hok
      exact ⟨rfl, hv, hkeys⟩
    · simp [hv] at hok
  refine ⟨hfirst, ?_, ?_⟩
  · intro hv d hok
    have := (hfirst d hok).2.1
    rw [hv] at this
    cases this
  · intro e1 d1 htail hok1
    obtain ⟨m0, m1, hgen, hdelay⟩ :=
      generateRuntime_ok_loops heap gl fuel dt parentDAGPath e1 plan d1 hplan hok1
    obtain ⟨_, hsel1⟩ :=
      generateRuntime_select heap gl fuel dt parentDAGPath e1 plan m0 m1 hplan hgen hdelay
    rw [hsel1] at hok1
    have hd1 : d1 = .mk plan.Name (Path.AddString parentDAGPath plan.Name) m1
        (selectedVertex plan e1) .Termination "" := by
      by_cases hv : mapHas plan.Vertex (selectedVertex plan e1) = true
      · simp only [hv, if_true, Option.some.injEq, Outcome.ok.injEq] at hok1
        exact hok1.symm
      · simp [hv] at hok1
    rw [generateRunContexts_next heap gl fuel plan.Name plan.Links _ _ _ htail] at hgen
    obtain ⟨_, hsel⟩ :=
      generateRuntime_select heap gl fuel dt parentDAGPath entrypoint plan m0 m1 hplan hgen hdelay
    rw [hsel, hd1]
    rfl

/-- Claim C26 on TestFlowEntrypoint: the plan `node1 -> node2 -> node3` of the
DAG `test` compiles at the entrypoint `test.node2` with `node2` as current
vertex, and does not compile at `test.node9`. -/
theorem C26_entrypoint_selects_current_vertex_witness :
    (∃ d, generateRuntime (after [.RegisterDAG "test" singleDAG]).heap
        (after [.RegisterDAG "test" singleDAG]).gl 8 0 [] ["test", "node2"] = some (.ok d) ∧
      d.runningRC = "node2") ∧
    generateRuntime (after [.RegisterDAG "test" singleDAG]).heap
        (after [.RegisterDAG "test" singleDAG]).gl 8 0 [] ["test", "node9"]
      = some (.error (.kind .NotFound "node9")) := by
  obtain ⟨f1, addr, plan, hreg, hget, hplan, _, hlin, _⟩ := RegisterDAG_linear engine 7 "test"
    [("node1", okNode), ("node2", okNode), ("node3", okNode)] rfl (by simp) (by decide)
    (by
      intro v hv
      simp only [List.mem_cons, List.mem_singleton, List.not_mem_nil, or_false] at hv
      rcases hv with h | h | h <;> subst h <;> decide)
    (by
      intro v hv
      simp only [List.mem_cons, List.mem_singleton, List.not_mem_nil, or_false] at hv
      rcases hv with h | h | h <;> subst h <;> rfl)
  have hf1 : after [.RegisterDAG "test" singleDAG] = f1 := by
    have : engine.RegisterDAG 8 "test" singleDAG = some (f1, none) := hreg
    simp [after, exec, this]
  have haddr : addr = 0 := by
    have h0 : f1.getDAG "test" = some 0 := by rw [← hf1]; decide!
    rw [hget] at h0
    exact Option.some.inj h0
  subst haddr
  rw [hf1]
  obtain ⟨m, hcompiled, _⟩ := generateRuntime_linear f1.heap f1.gl 7 0 plan _ hplan hlin
  have hplan' : plan = ⟨"test", "node1",
      [("node1", makeNodeVertexInfo), ("node2", makeNodeVertexInfo),
       ("node3", makeNodeVertexInfo)],
      [("node1", "node2"), ("node2", "node3")]⟩ := by
    have h0 : f1.heap.get? 0 = some ⟨"test", "node1",
      [("node1", makeNodeVertexInfo), ("node2", makeNodeVertexInfo),
       ("node3", makeNodeVertexInfo)],
      [("node1", "node2"), ("node2", "node3")]⟩ := by rw [← hf1]; decide!
    rw [hplan] at h0
    exact Option.some.inj h0
  have h2 := (C26_entrypoint_selects_current_vertex f1.heap f1.gl 7 0 [] ["test", "node2"] plan
    hplan).2.2 [] _ rfl hcompiled
  have h9 := (C26_entrypoint_selects_current_vertex f1.heap f1.gl 7 0 [] ["test", "node9"] plan
    hplan).2.2 [] _ rfl hcompiled
  subst hplan'
  exact ⟨⟨_, h2, rfl⟩, h9⟩

/-- Claim C27: a Node or Condition vertex `n` whose handler panics with the
value `msg`.  When the depth guard lets the step in, `nodeRuntime.runOnce`
returns (no panic leaves it) the `FatalError` whose message is `panic on`, the
dotted names of the current vertex, a colon and `msg`; the invocation is
made once, the failure counter grows by one and the success counter stays.
When `n` is the current vertex of the top-level DAG `name` of a runner that
can run, the step of the runner returns nil and leaves the status Fatal, the
last error that `FatalError` (traced), and the vertex current. -/
theorem C27_handler_panic_becomes_fatal (n : nodeRuntime) (msg : String)
    (hkind : n.nodeType = .node ∨ n.nodeType = .condition) :
    (∀ (fc : flowContext) (calls : List Call) (input : Data),
      (fc.enter n.name).2 = true →
      (n.nodeType = .node → ∃ h, n.nodeHandler = some h ∧
        h { requestID := fc.requestID, currentVertex := fc.executePath ++ [n.name],
            history := calls } input = .panic msg) →
      (n.nodeType = .condition → ∃ h, n.condHandler = some h ∧
        h { requestID := fc.requestID, currentVertex := fc.executePath ++ [n.name],
            history := calls } input = .panic msg) →
      n.runOnce fc calls input =
        ({ n with FailedTimes := n.FailedTimes + 1 }, (fc.enter n.name).1.exit,
          calls ++ [{ requestID := fc.requestID, vertex := fc.executePath ++ [n.name],
                      input := input }],
          .error (NewFatalError ("panic on " ++
            String.intercalate "." (fc.executePath ++ [n.name]) ++ ": " ++ msg)))) ∧
    (∀ (r : contextRunner) (w : World) (now : Int) (name : String) (path : Path)
      (rcMap : List (String × runContext)) (running : String) (nextRC : RCRef)
      (nextVertex : String),
      r.canRun now = true →
      r.runningRC = some (.dag (.mk name path rcMap running nextRC nextVertex)) →
      mapGet rcMap running = some (.node n) →
      (n.nodeType = .node → ∃ h, n.nodeHandler = some h ∧
        h { requestID := r.fc.requestID, currentVertex := [name, n.name],
            history := w.calls } r.currentData = .panic msg) →
      (n.nodeType = .condition → ∃ h, n.condHandler = some h ∧
        h { requestID := r.fc.requestID, currentVertex := [name, n.name],
            history := w.calls } r.currentData = .panic msg) →
      (r.runOnce w now).2.2 = .ok () ∧
      (r.runOnce w now).1.runningStatus = .Fatal ∧
      (r.runOnce w now).1.lastErr = some (.trace (NewFatalError ("panic on " ++
        String.intercalate "." [name, n.name] ++ ": " ++ msg))) ∧
      (r.runOnce w now).1.currentData = r.currentData ∧
      (r.runOnce w now).1.runningRC =
        some (.dag (.mk name path
          (mapSet rcMap running (.node { n with FailedTimes := n.FailedTimes + 1 }))
          running nextRC nextVertex)) ∧
      (r.runOnce w now).2.1.calls
        = w.calls ++ [{ requestID := r.fc.requestID, vertex := [name, n.name],
                        input := r.currentData }]) := by
  have hhandler : ∀ (fc1 : flowContext) (calls : List Call) (input : Data),
      (n.nodeType = .node → ∃ h, n.nodeHandler = some h ∧
        h { requestID := fc1.requestID, currentVertex := fc1.executePath,
            history := calls } input = .panic msg) →
      (n.nodeType = .condition → ∃ h, n.condHandler = some h ∧
        h { requestID := fc1.requestID, currentVertex := fc1.executePath,
            history := calls } input = .panic msg) →
      n.runHandler fc1 calls input =
        (calls ++ [{ requestID := fc1.requestID, vertex := fc1.executePath, input := input }],
          .error (NewFatalError ("panic on " ++ String.intercalate "." fc1.executePath ++
            ": " ++ msg))) := by
    intro fc1 calls input hnode hcond
    rcases hkind with hk | hk
    · obtain ⟨h, hh, hp⟩ := hnode hk
      simp [nodeRuntime.runHandler, hk, hh, hp, flowContext.GetCurrentVertex]
    · obtain ⟨h, hh, hp⟩ := hcond hk
      simp [nodeRuntime.runHandler, hk, hh, hp, flowContext.GetCurrentVertex]
  refine ⟨?_, ?_⟩
  · intro fc calls input henter hnode hcond
    have hpath : (fc.enter n.name).1.executePath = fc.executePath ++ [n.name] := by
      have := enter_executePath fc n.name henter
      simpa [Path.AddString] using this
    have hid : (fc.enter n.name).1.requestID = fc.requestID := enter_requestID fc n.name
    have hh := hhandler (fc.enter n.name).1 calls input
      (by rw [hid, hpath]; exact hnode) (by rw [hid, hpath]; exact hcond)
    rw [hid, hpath] at hh
    simp only [nodeRuntime.runOnce]
    rw [show fc.enter n.name = ((fc.enter n.name).1, true) from Prod.ext rfl henter]
    simp only [hh]
  · intro r w now name path rcMap running nextRC nextVertex hrun hrc hvertex hnode hcond
    obtain ⟨hid, hpath⟩ :=
      enter_enter_startRecord_ctx r.fc now n.path r.currentData name n.name
    have hh := hhandler
      (((r.fc.startRecord now n.path r.currentData).enter name).1.enter n.name).1
      w.calls r.currentData (by rw [hid, hpath]; exact hnode) (by rw [hid, hpath]; exact hcond)
    rw [hid, hpath] at hh
    rw [runOnce_top_level_error r w now name path rcMap running nextRC nextVertex n _ _ hrun hrc
      hvertex hh]
    simp [contextRunner.checkOnError, Err.Unwrap, NewFatalError]

/-- Claim C27 on a pending request whose only vertex `A` panics with `boom`. -/
theorem C27_handler_panic_becomes_fatal_witness :
    ((newContextRunner "r1" (some (panickingRuntime "boom")) []).runOnce world 1).2.2 = .ok () ∧
    ((newContextRunner "r1" (some (panickingRuntime "boom")) []).runOnce
        world 1).1.runningStatus = .Fatal ∧
    ((newContextRunner "r1" (some (panickingRuntime "boom")) []).runOnce world 1).1.lastErr
      = some (.trace (.fatal "panic on test.A: boom")) :=
  have h := (C27_handler_panic_becomes_fatal (nodeRT "A" "" (panicNode "boom")) "boom"
    (Or.inl rfl)).2 (newContextRunner "r1" (some (panickingRuntime "boom")) []) world 1
    "test" ["test"] [("A", .node (nodeRT "A" "" (panicNode "boom")))] "A" .Termination ""
    (by decide!) rfl rfl (fun _ => ⟨panicNode "boom", rfl, rfl⟩)
    (fun hc => absurd hc (by decide))
  ⟨h.1, h.2.1, h.2.2.1⟩

/-- Claim C28, counterexample: on the engine of the tests, `RegisterDAG("a",
...)` of the one node `x` returns nil and `Serialize` has an output for the
registered plan; `GetDAG("a")` returns the registered entity, and
`SubDAG("self", "a")` on it returns nil.  The plan `a`, produced by these
builder calls, then holds a pointer to itself, and `Serialize` has no output
for it, whatever the fuel (`json.Marshal` returns an error for a value that
contains itself). -/
theorem C28_plan_that_contains_itself_has_no_JSON_form :
    (engine.RegisterDAG 8 "a" nodeXDAG).map Prod.snd = some none ∧
    Serialize (registered engine "a" nodeXDAG).heap 8 0
      = some (.obj [("Name", .str "a"), ("StartVertex", .str "x"),
          ("Vertex", .obj [("x", .obj [("Type", .num 1)])])]) ∧
    (registered engine "a" nodeXDAG).GetDAG "a" = some 0 ∧
    ((registered engine "a" nodeXDAG).applyOp 8 0 (.SubDAG "self" "a")).map Prod.snd
      = some none ∧
    selfReferring.GetDAG "a" = some 0 ∧
    (selfReferring.heap.get? 0).map dagExecutePlan.Vertex
      = some [("x", makeNodeVertexInfo), ("self", makeDAGVertexInfo 0)] ∧
    ∀ fuel : Nat, Serialize selfReferring.heap fuel 0 = none := by
  refine ⟨by decide!, by decide!, by decide!, by decide!, by decide!, by decide!, ?_⟩
  exact selfReferring_never_serializes

/-- Claim C28, amended: after every sequence of `RegisterDAG` calls on a new
engine (each with the builder calls its handler makes on the DAG it is given),
every registered DAG is a plan of the engine, and for every plan of the
engine, with the plans its sub-DAG vertices point to nested to any depth,
`Serialize` has an output `j` (the same for every fuel above the address of
the plan), `Unserialize` of `j` returns a plan `q`, and `Serialize` of `q` has
the output `j`.  For the plans of any heap: whenever `Serialize` has an output
`j` for a plan, `Unserialize` of `j` returns a plan for which `Serialize` has
the output `j`. -/
theorem C28_serialized_plan_round_trip (store : memStore) (calls : List Call)
    (maxNodeConcurrency : Int) (fuel : Nat) (regs : List (String × DAGHandler)) (f1 : flow)
    (h : flow.registerAll fuel regs (newFlow store calls maxNodeConcurrency false) = some f1) :
    (∀ name a, f1.GetDAG name = some a → a < f1.heap.length) ∧
    (∀ a, a < f1.heap.length →
      ∃ j H q, (∀ fuel1, a < fuel1 → Serialize f1.heap fuel1 a = some j) ∧
        (∀ fuel1, a < fuel1 → Unserialize fuel1 j = some (H, q)) ∧
        ∀ fuel1, a < fuel1 → Serialize H fuel1 q = some j) ∧
    ∀ (heap : List dagExecutePlan) (fuel0 a : Nat) (j : JSON),
      Serialize heap fuel0 a = some j →
      ∃ H q, (∀ fuel1, fuel0 ≤ fuel1 → Unserialize fuel1 j = some (H, q)) ∧
        ∀ fuel1, fuel0 ≤ fuel1 → Serialize H fuel1 q = some j := by
  have ht : f1.HeapTree :=
    registerAll_heapTree fuel regs _ f1 h (newFlow_heapTree store calls maxNodeConcurrency false)
  have hty : ∀ i plan, f1.heap.get? i = some plan → plan.Typed :=
    registerAll_typed fuel regs _ f1 h (by
      intro i plan hi
      simp [newFlow] at hi)
  refine ⟨ht.2, ?_, fun heap fuel0 a j hj => Serialize_Unserialize heap fuel0 a j hj⟩
  intro a ha
  obtain ⟨j, hj⟩ := Serialize_returns f1.heap ht.1 hty (a + 1) a ha (by omega)
  obtain ⟨H, q, hun, hre⟩ := Serialize_Unserialize f1.heap (a + 1) a j hj
  exact ⟨j, H, q, fun fuel1 hf => Serialize_mono f1.heap (a + 1) a j hj fuel1 (by omega),
    fun fuel1 hf => hun fuel1 (by omega), fun fuel1 hf => hre fuel1 (by omega)⟩

/-- Claim C28, amended, on scenario S6 (the DAG `inner`, then the DAG `outer`
with a sub-DAG vertex that runs `inner`): the output of `Serialize` for the
plan `outer` has the plan `inner` inside it, every map with its keys sorted
and every empty field left out; `Unserialize` of it returns a plan, and
`Serialize` of that plan has the same output. -/
theorem C28_serialized_plan_round_trip_witness :
    ∃ f1 j H q, flow.registerAll 8 [("inner", innerDAG), ("outer", outerXDAG)] engine = some f1 ∧
      f1.GetDAG "outer" = some 1 ∧
      Serialize f1.heap 8 1 = some j ∧
      j = .obj [("Name", .str "outer"), ("StartVertex", .str "X"),
            ("Vertex", .obj [("X", .obj [("Type", .num 1)]),
              ("sub", .obj [("Type", .num 3),
                ("DAG", .obj [("Name", .str "inner"), ("StartVertex", .str "A"),
                  ("Vertex", .obj [("A", .obj [("Type", .num 1)]),
                    ("B", .obj [("Type", .num 1)]), ("C", .obj [("Type", .num 1)])]),
                  ("Links", .obj [("A", .str "B"), ("B", .str "C")])])])]),
            ("Links", .obj [("X", .str "sub")])] ∧
      Unserialize 8 j = some (H, q) ∧ Serialize H 8 q = some j := by
  have hget : ((flow.registerAll 8 [("inner", innerDAG), ("outer", outerXDAG)] engine).map
      (fun g => g.GetDAG "outer")) = some (some 1) := by decide!
  have hlen : ((flow.registerAll 8 [("inner", innerDAG), ("outer", outerXDAG)] engine).map
      (fun g => g.heap.length)) = some 2 := by decide!
  have hser : ((flow.registerAll 8 [("inner", innerDAG), ("outer", outerXDAG)] engine).map
      (fun g => Serialize g.heap 8 1))
      = some (some (.obj [("Name", .str "outer"), ("StartVertex", .str "X"),
            ("Vertex", .obj [("X", .obj [("Type", .num 1)]),
              ("sub", .obj [("Type", .num 3),
                ("DAG", .obj [("Name", .str "inner"), ("StartVertex", .str "A"),
                  ("Vertex", .obj [("A", .obj [("Type", .num 1)]),
                    ("B", .obj [("Type", .num 1)]), ("C", .obj [("Type", .num 1)])]),
                  ("Links", .obj [("A", .str "B"), ("B", .str "C")])])])]),
            ("Links", .obj [("X", .str "sub")])])) := by decide!
  cases hres : flow.registerAll 8 [("inner", innerDAG), ("outer", outerXDAG)] engine with
  | none =>
    rw [hres] at hget
    cases hget
  | some f1 =>
    rw [hres] at hget hlen hser
    simp only [Option.map_some', Option.some.injEq] at hget hlen hser
    obtain ⟨j, H, q, h1, h2, h3⟩ :=
      (C28_serialized_plan_round_trip NewMemStore [] 100000 8 _ f1 hres).2.1 1 (by omega)
    have hj := h1 8 (by omega)
    rw [hser] at hj
    exact ⟨f1, j, H, q, rfl, hget, by rw [hser, hj], (Option.some.inj hj).symm,
      h2 8 (by omega), h3 8 (by omega)⟩

/-- Claim C29 (the code on every builder state, and at the failing input).
`Edge(from, to)` fails with `AlreadyExists` when `from` has an outgoing edge;
otherwise with `NotFound` when the index of vertices has no `from` under this
DAG; otherwise with `BadRequest` when `from` is a Condition; otherwise with
`NotFound` when the index has no `to`.  When none of these holds, the call
fails with `Forbidden` exactly when `from` can be reached from `to` along one
or more links (and it then returns, given the fuel of the path), a call that
returns nil has recorded `Links[from] = to` and has made `from` the start
vertex if `to` was, and every failing call leaves the plan as it was.  The
edge from a vertex to itself closes a cycle and is accepted all the same:
`Edge(a, a)` returns nil and records `a -> a`.  At the failing input
(`failRegFlow.testDAG` after the declaration of `node1` and `node2`),
`Edge("node1", "node1")` returns nil, and after it `Edge("node2", "node1")`
returns for no fuel. -/
theorem C29_edge_outcomes (gl : globalVertex) (de : dagExecutePlan) (fuel : Nat)
    (frm dst : String) :
    (∀ link, mapGet de.Links frm = some link →
      dagEntity.Edge gl de fuel frm dst
        = some (de, some (.kind .AlreadyExists (frm ++ " to " ++ link)))) ∧
    (mapGet de.Links frm = none → globalVertex.get gl de.Name frm = none →
      dagEntity.Edge gl de fuel frm dst = some (de, some (.kind .NotFound frm))) ∧
    (∀ v, mapGet de.Links frm = none → globalVertex.get gl de.Name frm = some v →
      (v.typ = .vertexCond →
        dagEntity.Edge gl de fuel frm dst = some (de, some (.kind .BadRequest frm))) ∧
      (v.typ ≠ .vertexCond → globalVertex.exists gl de.Name dst = false →
        dagEntity.Edge gl de fuel frm dst = some (de, some (.kind .NotFound dst))) ∧
      (v.typ ≠ .vertexCond → globalVertex.exists gl de.Name dst = true →
        (Reaches de.Links dst frm →
          ∃ n, ∀ fuel1, n ≤ fuel1 →
            dagEntity.Edge gl de fuel1 frm dst
              = some (de, some (.kind .Forbidden (dst ++ " -> " ++ frm)))) ∧
        (∀ de1 err, dagEntity.Edge gl de fuel frm dst = some (de1, some err) →
          Reaches de.Links dst frm ∧ de1 = de ∧
            err = .kind .Forbidden (dst ++ " -> " ++ frm)) ∧
        (∀ de1, dagEntity.Edge gl de fuel frm dst = some (de1, none) →
          ¬ Reaches de.Links dst frm ∧ mapGet de1.Links frm = some dst ∧
            de1.Links = mapSet de.Links frm dst ∧ de1.Vertex = de.Vertex ∧
            de1.Name = de.Name ∧
            de1.StartVertex = (if dst = de.StartVertex then frm else de.StartVertex)) ∧
        (dst = frm →
          ∃ de1, dagEntity.Edge gl de (fuel + 1) frm dst = some (de1, none) ∧
            mapGet de1.Links frm = some frm))) ∧
    ((∃ de1, dagEntity.Edge twoNodes.1 twoNodes.2 (fuel + 1) "node1" "node1" = some (de1, none) ∧
        twoNodesLooped.2 = de1 ∧ mapGet de1.Links "node1" = some "node1") ∧
      dagEntity.Edge twoNodesLooped.1 twoNodesLooped.2 fuel "node2" "node1" = none) := by
  refine ⟨?_, ?_, ?_, ?_⟩
  · intro link hlink
    simp [dagEntity.Edge, hlink]
  · intro hlink hget
    simp [dagEntity.Edge, hlink, hget]
  · intro v hlink hget
    refine ⟨?_, ?_, ?_⟩
    · intro hcond
      simp [dagEntity.Edge, hlink, hget, hcond]
    · intro hcond hdst
      simp [dagEntity.Edge, hlink, hget, hcond, hdst]
    · intro hcond hdst
      have hedge : ∀ fuel1, dagEntity.Edge gl de fuel1 frm dst
          = (match checkLinkValid de.Links fuel1 dst frm with
             | none => none
             | some true => some (de, some (.kind .Forbidden (dst ++ " -> " ++ frm)))
             | some false =>
               some (if dst = de.StartVertex then
                       { de with Links := mapSet de.Links frm dst, StartVertex := frm }
                     else { de with Links := mapSet de.Links frm dst }, none)) := by
        intro fuel1
        simp only [dagEntity.Edge, hlink, hget, hcond, hdst, if_false, Bool.not_true,
          Bool.false_eq_true]
      refine ⟨?_, ?_, ?_, ?_⟩
      · intro hreach
        obtain ⟨n, hn⟩ := checkLinkValid_of_reaches de.Links dst frm hreach
        refine ⟨n, fun fuel1 hf => ?_⟩
        rw [hedge, hn fuel1 hf]
      · intro de1 err hres
        rw [hedge] at hres
        cases hc : checkLinkValid de.Links fuel dst frm with
        | none => simp [hc] at hres
        | some b =>
          cases b with
          | true =>
            simp only [hc, Option.some.injEq, Prod.mk.injEq] at hres
            exact ⟨checkLinkValid_true _ _ _ _ hc, hres.1.symm, hres.2.symm⟩
          | false => simp [hc] at hres
      · intro de1 hres
        rw [hedge] at hres
        cases hc : checkLinkValid de.Links fuel dst frm with
        | none => simp [hc] at hres
        | some b =>
          cases b with
          | true => simp [hc] at hres
          | false =>
            simp only [hc, Option.some.injEq, Prod.mk.injEq, and_true] at hres
            subst hres
            refine ⟨checkLinkValid_false _ _ _ _ hc, ?_, ?_, ?_, ?_, ?_⟩ <;>
              by_cases hs : dst = de.StartVertex <;> simp [hs, mapGet_mapSet_same]
      · intro hself
        subst hself
        rw [hedge]
        simp only [checkLinkValid, hlink]
        refine ⟨_, rfl, ?_⟩
        by_cases hs : dst = de.StartVertex <;> simp [hs, mapGet_mapSet_same]
  · refine ⟨⟨_, rfl, rfl, rfl⟩, ?_⟩
    have hwalk := checkLinkValid_self_loop twoNodesLooped.2.Links "node1" "node2" rfl (by decide)
      fuel
    have hlink : mapGet twoNodesLooped.2.Links "node2" = none := rfl
    simp only [dagEntity.Edge, hlink]
    have hget : globalVertex.get twoNodesLooped.1 twoNodesLooped.2.Name "node2"
        = some { name := "node2", typ := .vertexNode, handler := some okNode, dag := none,
                 condHandler := none } := rfl
    have hdst : globalVertex.exists twoNodesLooped.1 twoNodesLooped.2.Name "node1" = true := rfl
    simp only [hget, hdst, hwalk]
    simp

/-- Claim C29 on `failRegFlow.testDAG` after `Edge("node1", "node2")`: the
same call again fails with `AlreadyExists`. -/
theorem C29_edge_outcomes_witness :
    dagEntity.Edge twoNodesLinked.1 twoNodesLinked.2 8 "node1" "node2"
      = some (twoNodesLinked.2, some (.kind .AlreadyExists "node1 to node2")) :=
  (C29_edge_outcomes twoNodesLinked.1 twoNodesLinked.2 8 "node1" "node2").1 "node2" rfl

/-- Claim C30 (what holds of `Node`, and the failing input).  On every builder
state (the index of vertices `gl` and the plan `de`), `Node(name, nil)` fails
with `BadRequest`; `Node(name, h)` fails with `AlreadyExists` when the index
has a vertex `name` under the name of this DAG, which is the case whenever
`name` is a vertex of the plan and the index holds the vertices of the plan;
when the index has no such vertex it returns nil, `name` is a vertex of the
plan of kind Node, the index has it as a Node with the handler `h`, the other
vertices and the links are as before and `name` is the start vertex if there
was none.  A call that fails leaves the index and the plan as they were.
At the failing inputs the index has the name although no vertex of that name
was declared in the DAG.  First: the registration of `leakDAG` as `test` on
the engine of the tests fails and leaves `x` in the index; then the new DAG
`test`, which has no vertex, refuses `Node("x", h)` with `AlreadyExists`.
Second: after the DAG `a.b` with the one node `c` is registered, the new DAG
`a`, which has no vertex, refuses `Node("b.c", h)` with `AlreadyExists`; on
the engine of the tests the same registration returns nil. -/
theorem C30_node_declaration_checks_the_index (gl : globalVertex) (de : dagExecutePlan)
    (name : String) :
    dagEntity.Node gl de name none = (gl, de, some (.kind .BadRequest name)) ∧
    (∀ h, globalVertex.exists gl de.Name name = true →
      dagEntity.Node gl de name (some h)
        = (gl, de, some (.trace (.kind .AlreadyExists name)))) ∧
    ((∀ v, mapHas de.Vertex v = true → globalVertex.exists gl de.Name v = true) →
      mapHas de.Vertex name = true →
      ∀ h, dagEntity.Node gl de name (some h)
        = (gl, de, some (.trace (.kind .AlreadyExists name)))) ∧
    (∀ h, globalVertex.exists gl de.Name name = false →
      ∃ gl1 de1, dagEntity.Node gl de name (some h) = (gl1, de1, none) ∧
        mapGet de1.Vertex name = some makeNodeVertexInfo ∧
        (∀ v, v ≠ name → mapGet de1.Vertex v = mapGet de.Vertex v) ∧
        de1.Links = de.Links ∧ de1.Name = de.Name ∧
        de1.StartVertex = (if de.StartVertex = "" then name else de.StartVertex) ∧
        globalVertex.get gl1 de.Name name
          = some { name := name, typ := .vertexNode, handler := some h, dag := none,
                   condHandler := none } ∧
        (∀ k, k ≠ globalVertex.formatKey de.Name name → mapGet gl1 k = mapGet gl k)) ∧
    (∀ handler gl1 de1 err, dagEntity.Node gl de name handler = (gl1, de1, some err) →
      gl1 = gl ∧ de1 = de) ∧
    ((engine.RegisterDAG 8 "test" leakDAG).map Prod.snd
        = some (some (.trace (.trace (.kind .NotFound "nope")))) ∧
      (registered engine "test" leakDAG).GetDAG "test" = none ∧
      mapHas (newDAGEntity "test").Vertex "x" = false ∧
      (dagEntity.Node (registered engine "test" leakDAG).gl (newDAGEntity "test") "x"
          (some okNode)).2.2 = some (.trace (.kind .AlreadyExists "x")) ∧
      (dagEntity.Node engine.gl (newDAGEntity "test") "x" (some okNode)).2.2 = none) ∧
    ((engine.RegisterDAG 8 "a.b" nodeCDAG).map Prod.snd = some none ∧
      mapHas (newDAGEntity "a").Vertex "b.c" = false ∧
      (dagEntity.Node (registered engine "a.b" nodeCDAG).gl (newDAGEntity "a") "b.c"
          (some okNode)).2.2 = some (.trace (.kind .AlreadyExists "b.c")) ∧
      ((registered engine "a.b" nodeCDAG).RegisterDAG 8 "a" nodeBCDAG).map Prod.snd
        = some (some (.trace (.trace (.trace (.kind .AlreadyExists "b.c"))))) ∧
      (engine.RegisterDAG 8 "a" nodeBCDAG).map Prod.snd = some none) := by
  have hexists : ∀ h, globalVertex.exists gl de.Name name = true →
      dagEntity.Node gl de name (some h)
        = (gl, de, some (.trace (.kind .AlreadyExists name))) := by
    intro h hex
    simp only [globalVertex.exists] at hex
    simp [dagEntity.Node, globalVertex.register, hex]
  refine ⟨rfl, hexists, fun hinv hv h => hexists h (hinv name hv), ?_, ?_,
    ⟨by decide!, by decide!, by decide, by decide!, by decide!⟩,
    ⟨by decide!, by decide, by decide!, by decide!, by decide!⟩⟩
  · intro h hex
    simp only [globalVertex.exists] at hex
    refine ⟨mapSet gl (globalVertex.formatKey de.Name name)
        { name := name, typ := .vertexNode, handler := some h, dag := none,
          condHandler := none },
      (if de.StartVertex = "" then
          { de with Vertex := mapSet de.Vertex name makeNodeVertexInfo, StartVertex := name }
        else { de with Vertex := mapSet de.Vertex name makeNodeVertexInfo }), ?_, ?_, ?_, ?_, ?_,
      ?_, ?_, ?_⟩
    · simp only [dagEntity.Node, globalVertex.register, hex, Bool.false_eq_true, if_false]
    · by_cases hs : de.StartVertex = "" <;> simp [hs, mapGet_mapSet_same]
    · intro v hv
      by_cases hs : de.StartVertex = "" <;> simp [hs, mapGet_mapSet_ne _ _ _ _ hv]
    · by_cases hs : de.StartVertex = "" <;> simp [hs]
    · by_cases hs : de.StartVertex = "" <;> simp [hs]
    · by_cases hs : de.StartVertex = "" <;> simp [hs]
    · simp [globalVertex.get, mapGet_mapSet_same]
    · intro k hk
      exact mapGet_mapSet_ne _ _ _ _ hk
  · intro handler gl1 de1 err hres
    cases handler with
    | none =>
      simp only [dagEntity.Node, Prod.mk.injEq] at hres
      exact ⟨hres.1.symm, hres.2.1.symm⟩
    | some h =>
      by_cases hex : mapHas gl (globalVertex.formatKey de.Name name) = true
      · simp only [dagEntity.Node, globalVertex.register, hex, if_true, Prod.mk.injEq] at hres
        exact ⟨hres.1.symm, hres.2.1.symm⟩
      · simp only [dagEntity.Node, globalVertex.register, hex, if_false, Bool.false_eq_true,
          Prod.mk.injEq] at hres
        exact absurd hres.2.2 (by simp)

/-- Claim C30 at the first failing input: after the failed registration of
`leakDAG` as `test`, the new DAG `test` has no vertex `x`, and
`Node("x", h)` on it fails with `AlreadyExists` and changes nothing. -/
theorem C30_node_declaration_checks_the_index_witness :
    mapHas (newDAGEntity "test").Vertex "x" = false ∧
    dagEntity.Node (registered engine "test" leakDAG).gl (newDAGEntity "test") "x" (some okNode)
      = ((registered engine "test" leakDAG).gl, newDAGEntity "test",
          some (.trace (.kind .AlreadyExists "x"))) :=
  ⟨by decide,
    (C30_node_declaration_checks_the_index (registered engine "test" leakDAG).gl
      (newDAGEntity "test") "x").2.1 okNode (by decide!)⟩

/-- Claim C31 (what holds of `Condition`, and the failing input).  On every
builder state (the index of vertices `gl` and the plan `de`),
`Condition(name, t, f, h)` with a handler `h` fails with `NotFound` when the
index has no vertex `t` under the name of this DAG, and when it has `t` but no
vertex `f`; in both cases the index and the plan stay as they were.  A call
that returns nil found both `t` and `f` in the index before it declared
`name`, so neither of them is `name`; after it `name` is a vertex of the plan
of kind Condition with the successors `t` and `f`, the index has it as a
Condition with the handler `h`, and the other vertices and the links are as
before.  When both successors are in the index, the call returns nil exactly
when the index has no vertex `name` yet.  At the failing input the index has
a successor that was never declared in the DAG: the registration of `leakDAG`
as `test` on the engine of the tests fails and leaves `x` in the index; then
`RegisterDAG("test", ...)` of the calls `Node("a", h)` and
`Condition("k", "x", "a", c)` returns nil, the registered plan has the
vertices `a` and `k` only, with `x` recorded as the true successor of `k`, and
`RunDAG` fails with `NotFound` for `x`.  On the engine of the tests the same
registration fails with `NotFound` for `x`. -/
theorem C31_condition_declaration_checks_the_index (gl : globalVertex) (de : dagExecutePlan)
    (name t f : String) (h : BooleanHandler) :
    (globalVertex.exists gl de.Name t = false →
      dagEntity.Condition gl de name t f (some h) = (gl, de, some (.kind .NotFound t))) ∧
    (globalVertex.exists gl de.Name t = true → globalVertex.exists gl de.Name f = false →
      dagEntity.Condition gl de name t f (some h) = (gl, de, some (.kind .NotFound f))) ∧
    (∀ gl1 de1, dagEntity.Condition gl de name t f (some h) = (gl1, de1, none) →
      globalVertex.exists gl de.Name t = true ∧ globalVertex.exists gl de.Name f = true ∧
      t ≠ name ∧ f ≠ name ∧
      mapGet de1.Vertex name
        = some { Typ := .vertexCond, TrueVertex := t, FalseVertex := f, DAG := none } ∧
      (∀ v, v ≠ name → mapGet de1.Vertex v = mapGet de.Vertex v) ∧
      de1.Links = de.Links ∧ de1.Name = de.Name ∧
      globalVertex.get gl1 de.Name name
        = some { name := name, typ := .vertexCond, handler := none, dag := none,
                 condHandler := some h } ∧
      (∀ k, k ≠ globalVertex.formatKey de.Name name → mapGet gl1 k = mapGet gl k)) ∧
    (globalVertex.exists gl de.Name t = true → globalVertex.exists gl de.Name f = true →
      ((∃ gl1 de1, dagEntity.Condition gl de name t f (some h) = (gl1, de1, none)) ↔
        globalVertex.exists gl de.Name name = false)) ∧
    ((engine.RegisterDAG 8 "test" leakDAG).map Prod.snd
        = some (some (.trace (.trace (.kind .NotFound "nope")))) ∧
      ((registered engine "test" leakDAG).RegisterDAG 8 "test" condOnXDAG).map Prod.snd
        = some none ∧
      (registered (registered engine "test" leakDAG) "test" condOnXDAG).GetDAG "test"
        = some 1 ∧
      ((registered (registered engine "test" leakDAG) "test" condOnXDAG).heap.get? 1).map
          dagExecutePlan.Vertex
        = some [("a", makeNodeVertexInfo), ("k", makeCondVertexInfo "x" "a")] ∧
      ((registered (registered engine "test" leakDAG) "test" condOnXDAG).RunDAG 8 "test" "r1"
          []).map Prod.snd
        = some (.error (.trace (.trace (.trace (.kind .NotFound "x"))))) ∧
      (engine.RegisterDAG 8 "test" condOnXDAG).map Prod.snd
        = some (some (.trace (.trace (.kind .NotFound "x"))))) := by
  refine ⟨?_, ?_, ?_, ?_, by decide!, by decide!, by decide!, by decide!, by decide!,
    by decide!⟩
  · intro ht
    simp [dagEntity.Condition, ht]
  · intro ht hf
    simp [dagEntity.Condition, ht, hf]
  · intro gl1 de1 hres
    obtain ⟨hd, hhd, ht, hf, hk, hgl, hde⟩ :=
      Condition_inv_ok gl gl1 de de1 name t f (some h) hres
    cases hhd
    refine ⟨ht, hf, ?_, ?_, ?_, ?_, ?_, ?_, ?_, ?_⟩
    · intro e
      rw [e, hk] at ht
      cases ht
    · intro e
      rw [e, hk] at hf
      cases hf
    · rw [hde]
      exact mapGet_mapSet_same _ _ _
    · intro v hv
      rw [hde]
      exact mapGet_mapSet_ne _ _ _ _ hv
    · rw [hde]
    · rw [hde]
    · rw [hgl]
      exact mapGet_mapSet_same _ _ _
    · intro k hk'
      rw [hgl]
      exact mapGet_mapSet_ne _ _ _ _ hk'
  · intro ht hf
    constructor
    · rintro ⟨gl1, de1, hres⟩
      obtain ⟨_, _, _, _, hk, _, _⟩ := Condition_inv_ok gl gl1 de de1 name t f (some h) hres
      exact hk
    · intro hk
      simp only [globalVertex.exists] at hk
      have h3 : (dagEntity.Condition gl de name t f (some h)).2.2 = none := by
        simp only [dagEntity.Condition, ht, hf, globalVertex.register, hk, Bool.not_true,
          Bool.false_eq_true, if_false]
      exact ⟨(dagEntity.Condition gl de name t f (some h)).1,
        (dagEntity.Condition gl de name t f (some h)).2.1, Prod.ext rfl (Prod.ext rfl h3)⟩

/-- Claim C31 at the failing input: after the failed registration of `leakDAG`
as `test`, on the new DAG `test` with the one node `a`, the plan has no vertex
`x` and `Condition("k", "x", "a", c)` returns nil. -/
theorem C31_condition_declaration_checks_the_index_witness :
    mapHas (dagEntity.Node (registered engine "test" leakDAG).gl (newDAGEntity "test") "a"
        (some okNode)).2.1.Vertex "x" = false ∧
    ∃ gl1 de1,
      dagEntity.Condition
          (dagEntity.Node (registered engine "test" leakDAG).gl (newDAGEntity "test") "a"
            (some okNode)).1
          (dagEntity.Node (registered engine "test" leakDAG).gl (newDAGEntity "test") "a"
            (some okNode)).2.1
          "k" "x" "a" (some (constCond true))
        = (gl1, de1, none) :=
  ⟨by decide!,
    ((C31_condition_declaration_checks_the_index
      (dagEntity.Node (registered engine "test" leakDAG).gl (newDAGEntity "test") "a"
        (some okNode)).1
      (dagEntity.Node (registered engine "test" leakDAG).gl (newDAGEntity "test") "a"
        (some okNode)).2.1
      "k" "x" "a" (constCond true)).2.2.2.1 (by decide!) (by decide!)).mpr (by decide!)⟩

/-- Claim C32, counterexample: the DAG `retry` declares the nodes `work` and
`done`, the Condition `again` with the successors `work` and `done`, and the
edge `work -> again`; every call returns nil and `RegisterDAG` accepts it.
Its start vertex is `work`, which is the true successor of the Condition
`again`: the start vertex has an incoming reference.  (Every vertex of this
DAG has one; the request runs `work`, `again`, `work`, `again`, `done`.) -/
theorem C32_start_vertex_of_a_loop_is_referenced :
    (engine.RegisterDAG 8 "retry" retryDAG).map Prod.snd = some none ∧
    (after retryFlow).heap.map (fun p => (p.Name, p.StartVertex, p.Links))
      = [("retry", "work", [("work", "again")])] ∧
    (∃ plan, (after retryFlow).heap.get? 0 = some plan ∧ plan.Vertex ≠ [] ∧
      mapGet plan.Vertex "again" = some (makeCondVertexInfo "work" "done") ∧
      plan.Referenced plan.StartVertex) ∧
    (ticks [1, 2, 3, 4, 5] (after retryFlow)).calls.map Call.vertex
      = [["retry", "work"], ["retry", "again"], ["retry", "work"], ["retry", "again"],
         ["retry", "done"]] := by
  have hp : (after retryFlow).heap.get? 0
      = some { Name := "retry", StartVertex := "work",
               Vertex := [("work", makeNodeVertexInfo), ("done", makeNodeVertexInfo),
                          ("again", makeCondVertexInfo "work" "done")],
               Links := [("work", "again")] } := by decide!
  refine ⟨by decide!, by decide!, ⟨_, hp, by simp, by decide, ?_⟩, by decide!⟩
  exact Or.inr ⟨"again", makeCondVertexInfo "work" "done", by decide, rfl, Or.inl rfl⟩

/-- Claim C32, amended.  One builder call on an entity that agrees with the
index of vertices (the names the plan uses are in the index under the name of
the DAG, and the index has no other vertex under that name), whatever the
call returns: the entity agrees with the index afterwards and the start
vertex is a vertex of the plan once the plan has a vertex; and when the start
vertex had no incoming reference before the call it has none after it,
provided the call is not an `Edge(frm, dst)` that returns nil with `dst` the
start vertex and `frm` either `dst` itself or a vertex with an incoming
reference.  Every entity that `RegisterDAG` has built, whatever its handler
did and returned, on an engine whose index had no vertex under the name of
the DAG, agrees with the index and has its start vertex among its vertices
once it has one; when none of the calls of the handler was such an `Edge`,
the start vertex has no incoming reference.  A new entity has no reference at
all. -/
theorem C32_start_vertex_after_a_builder_call (f f1 : flow) (fuel addr : Nat) (op : BuilderOp)
    (err : Option Err) (de : dagExecutePlan)
    (h : f.applyOp fuel addr op = some (f1, err)) (hde : f.heap.get? addr = some de)
    (hdecl : de.Declared f.gl) (hidx : de.Indexed f.gl) :
    (∃ de1, f1.heap.get? addr = some de1 ∧ de1.Declared f1.gl ∧ de1.Indexed f1.gl ∧
      (de1.Vertex ≠ [] → mapHas de1.Vertex de1.StartVertex = true) ∧
      (¬ de.Referenced de.StartVertex →
        (∀ frm dst, op = .Edge frm dst → err = none → dst = de.StartVertex →
          frm ≠ dst ∧ ¬ de.Referenced frm) →
        ¬ de1.Referenced de1.StartVertex)) ∧
    (∀ (g g1 : flow) (fuel0 : Nat) (name : String) (handler : DAGHandler) (e : Option Err),
      g.running = true → (∀ v, globalVertex.exists g.gl name v = false) →
      g.RegisterDAG fuel0 name handler = some (g1, e) →
      ∃ d, g1.heap.get? g.heap.length = some d ∧ d.Declared g1.gl ∧ d.Indexed g1.gl ∧
        (d.Vertex ≠ [] → mapHas d.Vertex d.StartVertex = true) ∧
        (handler.everyCall (fun de0 err0 op0 => !op0.movesStartOntoReferenced de0 err0) fuel0
            g.heap.length (g.withNewEntity name) = true →
          ¬ d.Referenced d.StartVertex)) ∧
    ∀ name v, ¬ (newDAGEntity name).Referenced v := by
  have hnew : ∀ name v, ¬ (newDAGEntity name).Referenced v := by
    rintro name v (⟨x, hx⟩ | ⟨c, info, hc, _, _⟩)
    · simp [newDAGEntity, mapGet] at hx
    · simp [newDAGEntity, mapGet] at hc
  refine ⟨?_, ?_, hnew⟩
  · rw [applyOp_eq] at h
    simp only [hde] at h
    cases hr : op.result f.dagEntities f.gl de fuel with
    | none => simp [hr] at h
    | some r =>
      obtain ⟨gl1, de1, err1⟩ := r
      simp only [hr, Option.some.injEq, Prod.mk.injEq] at h
      obtain ⟨hf, he⟩ := h
      subst hf he
      have hd1 := result_declared f.dagEntities f.gl gl1 de de1 fuel op err1 hdecl hr
      have hi1 := result_indexed f.dagEntities f.gl gl1 de de1 fuel op err1 hidx hr
      refine ⟨de1, heap_get_set f.heap addr de de1 hde, hd1, hi1,
        fun hne => hi1.1 _ (hd1.2.2.2 hne), ?_⟩
      intro hun hop
      rcases result_start f.dagEntities f.gl gl1 de de1 fuel op err1 hdecl hr hun with
        h1 | ⟨frm, dst, h2, h3, h4, h5, _⟩
      · exact h1
      · obtain ⟨h6, h7⟩ := hop frm dst h2 h3 h4
        rcases h5 with h5 | h5
        · exact absurd h5 h6
        · exact absurd h5 h7
  · intro g g1 fuel0 name handler e hrun hfresh hreg
    obtain ⟨d, hd, hdecl1, hidx1⟩ := RegisterDAG_invariant
      (fun gl de => de.Declared gl ∧ de.Indexed gl) g g1 fuel0 name handler e hrun hreg
      ⟨newDAGEntity_declared g.gl name, newDAGEntity_indexed g.gl name hfresh⟩
      (fun gl de op gl1 de1 e1 hinv hres =>
        ⟨result_declared g.dagEntities gl gl1 de de1 fuel0 op e1 hinv.1 hres,
          result_indexed g.dagEntities gl gl1 de de1 fuel0 op e1 hinv.2 hres⟩)
    refine ⟨d, hd, hdecl1, hidx1, fun hne => hidx1.1 _ (hdecl1.2.2.2 hne), ?_⟩
    intro hq
    obtain ⟨d2, hd2, _, hun2⟩ := RegisterDAG_invariant_guarded
      (fun gl de => de.Declared gl ∧ ¬ de.Referenced de.StartVertex)
      (fun de0 err0 op0 => !op0.movesStartOntoReferenced de0 err0) g g1 fuel0 name handler e
      hrun hreg hq ⟨newDAGEntity_declared g.gl name, hnew name _⟩
      (fun gl de op gl1 de1 e1 hinv hres hq1 =>
        ⟨result_declared g.dagEntities gl gl1 de de1 fuel0 op e1 hinv.1 hres,
          result_start_guarded g.dagEntities gl gl1 de de1 fuel0 op e1 hinv.1 hres hinv.2
            (by simpa using hq1)⟩)
    rw [hd] at hd2
    cases hd2
    exact hun2

/-- Claim C32, amended, on `singleDAG.testDAG`.  Its first call on the new
entity `test`, `Node("node1", h)`, returns nil; afterwards the start vertex is
a vertex of the plan and has no incoming reference.  None of its calls is an
`Edge` onto a vertex with an incoming reference, and the start vertex of the
registered plan has no incoming reference. -/
theorem C32_start_vertex_after_a_builder_call_witness :
    (∃ f1 de1, flow.applyOp { engine with heap := [newDAGEntity "test"] } 8 0
        (.Node "node1" (some okNode)) = some (f1, none) ∧
      f1.heap.get? 0 = some de1 ∧ mapHas de1.Vertex de1.StartVertex = true ∧
      ¬ de1.Referenced de1.StartVertex) ∧
    ∃ g1 d, engine.RegisterDAG 8 "test" singleDAG = some (g1, none) ∧
      g1.heap.get? 0 = some d ∧ d.StartVertex = "node1" ∧ ¬ d.Referenced d.StartVertex := by
  have hok : (flow.applyOp { engine with heap := [newDAGEntity "test"] } 8 0
      (.Node "node1" (some okNode))).map Prod.snd = some none := by decide!
  have hne : (flow.applyOp { engine with heap := [newDAGEntity "test"] } 8 0
      (.Node "node1" (some okNode))).map
        (fun p => (p.1.heap.get? 0).map (fun d => decide (d.Vertex ≠ [])))
      = some (some true) := by decide!
  have hreg : (engine.RegisterDAG 8 "test" singleDAG).map Prod.snd = some none := by decide!
  have hstart : (engine.RegisterDAG 8 "test" singleDAG).map
      (fun p => (p.1.heap.get? 0).map dagExecutePlan.StartVertex) = some (some "node1") := by
    decide!
  have hq : DAGHandler.everyCall (fun de0 err0 op0 => !op0.movesStartOntoReferenced de0 err0) 8
      engine.heap.length singleDAG (engine.withNewEntity "test") = true := by decide!
  cases hres : flow.applyOp { engine with heap := [newDAGEntity "test"] } 8 0
      (.Node "node1" (some okNode)) with
  | none =>
    rw [hres] at hok
    cases hok
  | some r =>
    obtain ⟨f1, e⟩ := r
    rw [hres] at hok hne
    simp only [Option.map_some', Option.some.injEq] at hok
    subst hok
    obtain ⟨⟨de1, h1, _, _, h3, h4⟩, hseq, h6⟩ :=
      C32_start_vertex_after_a_builder_call { engine with heap := [newDAGEntity "test"] } f1 8 0
        (.Node "node1" (some okNode)) none (newDAGEntity "test") hres rfl
        (newDAGEntity_declared _ "test") (newDAGEntity_indexed _ "test" (fun _ => rfl))
    have hne1 : de1.Vertex ≠ [] := by
      simp only [Option.map_some', Option.some.injEq] at hne
      have h1' : f1.heap.get? 0 = some de1 := h1
      rw [h1'] at hne
      simpa using hne
    refine ⟨⟨f1, de1, rfl, h1, h3 hne1, h4 (h6 "test" _) ?_⟩, ?_⟩
    · intro frm dst hop
      cases hop
    · cases hres2 : engine.RegisterDAG 8 "test" singleDAG with
      | none =>
        rw [hres2] at hreg
        cases hreg
      | some r2 =>
        obtain ⟨g1, e2⟩ := r2
        rw [hres2] at hreg hstart
        simp only [Option.map_some', Option.some.injEq] at hreg hstart
        subst hreg
        obtain ⟨d, hd, _, _, _, hun⟩ := hseq engine g1 8 "test" singleDAG none rfl (fun _ => rfl)
          hres2
        have hd0 : g1.heap.get? 0 = some d := hd
        rw [hd0] at hstart
        simp only [Option.map_some', Option.some.injEq] at hstart
        exact ⟨g1, d, rfl, hd0, hstart, hun hq⟩

/-- Claim C33, counterexample: the DAG `two` declares the nodes `a`, `b`, `c`
and `d` and the edges `a -> b` and `c -> d`; every call returns nil and
`RegisterDAG` accepts it.  Its start vertex is `a`.  The vertex `c` is
declared and is the source of an edge, and it cannot be reached from the
start vertex. -/
theorem C33_vertex_of_an_edge_need_not_be_reachable :
    (engine.RegisterDAG 8 "two" twoChainsDAG).map Prod.snd = some none ∧
    ∃ plan, (registered engine "two" twoChainsDAG).heap.get? 0 = some plan ∧
      plan.StartVertex = "a" ∧ mapHas plan.Vertex "c" = true ∧
      globalVertex.exists (registered engine "two" twoChainsDAG).gl "two" "c" = true ∧
      mapGet plan.Links "c" = some "d" ∧ ¬ plan.Reachable "c" := by
  have hp : (registered engine "two" twoChainsDAG).heap.get? 0 = some twoChainsPlan := by
    decide!
  refine ⟨by decide!, _, hp, rfl, by decide, by decide!, by decide, ?_⟩
  have key : ∀ v, twoChainsPlan.Reachable v → v = "a" ∨ v = "b" := by
    intro v hv
    induction hv with
    | start => exact Or.inl rfl
    | @next x y l _ hnext hy ih =>
      rcases ih with ih | ih
      · subst ih
        have hvis : twoChainsPlan.visitNext "a" = some ["b"] := by decide
        rw [hvis] at hnext
        cases hnext
        exact Or.inr (by simpa using hy)
      · subst ih
        have hvis : twoChainsPlan.visitNext "b" = none := by decide
        rw [hvis] at hnext
        cases hnext
  intro hc
  rcases key "c" hc with h | h
  · exact absurd h (by decide)
  · exact absurd h (by decide)

/-- Claim C33, amended: the plan of a DAG that `RegisterDAG` has built,
whatever its handler did, on a running engine whose index of vertices had no
vertex under the name of the DAG when the call began.  Every vertex that can
be reached from the start vertex (along links and the successors of
Conditions) is the start vertex itself or the target of a link or a successor
of a Condition, and it is a vertex of the plan once the plan has a vertex. -/
theorem C33_reachable_vertices_are_declared (g g1 : flow) (fuel : Nat) (name : String)
    (handler : DAGHandler) (e : Option Err) (hrun : g.running = true)
    (hfresh : ∀ v, globalVertex.exists g.gl name v = false)
    (hreg : g.RegisterDAG fuel name handler = some (g1, e)) :
    ∃ d, g1.heap.get? g.heap.length = some d ∧
      ∀ v, d.Reachable v →
        (v = d.StartVertex ∨ d.Referenced v) ∧
          (d.Vertex ≠ [] → mapHas d.Vertex v = true) := by
  obtain ⟨d, hd, hdecl, hidx⟩ := RegisterDAG_invariant
    (fun gl de => de.Declared gl ∧ de.Indexed gl) g g1 fuel name handler e hrun hreg
    ⟨newDAGEntity_declared g.gl name, newDAGEntity_indexed g.gl name hfresh⟩
    (fun gl de op gl1 de1 e1 hinv hres =>
      ⟨result_declared g.dagEntities gl gl1 de de1 fuel op e1 hinv.1 hres,
        result_indexed g.dagEntities gl gl1 de de1 fuel op e1 hinv.2 hres⟩)
  refine ⟨d, hd, fun v hv => ?_⟩
  obtain ⟨h1, h2⟩ := reachable_declared g1.gl d hdecl v hv
  exact ⟨h1, fun hne => hidx.1 v (h2 hne)⟩

/-- Claim C33, amended, on `singleDAG.testDAG` (`node1 -> node2 -> node3`):
the vertex `node2` can be reached from the start vertex; it is the target of
a link and a vertex of the plan. -/
theorem C33_reachable_vertices_are_declared_witness :
    ∃ d, (registered engine "test" singleDAG).heap.get? 0 = some d ∧
      d.Reachable "node2" ∧ d.Referenced "node2" ∧ mapHas d.Vertex "node2" = true := by
  have hp : (registered engine "test" singleDAG).heap.get? 0 = some singlePlan := by decide!
  have hok : (engine.RegisterDAG 8 "test" singleDAG).map (fun p => p.2.isNone) = some true := by
    decide!
  cases hres : engine.RegisterDAG 8 "test" singleDAG with
  | none =>
    rw [hres] at hok
    cases hok
  | some r =>
    obtain ⟨g1, e⟩ := r
    obtain ⟨d, hd, hall⟩ := C33_reachable_vertices_are_declared engine g1 8 "test" singleDAG e
      rfl (fun _ => rfl) hres
    have hg1 : registered engine "test" singleDAG = g1 := by rw [registered, hres]
    rw [hg1] at hp ⊢
    have hd0 : g1.heap.get? 0 = some d := hd
    rw [hp] at hd0
    cases hd0
    have hreach : singlePlan.Reachable "node2" :=
      .next (a := "node1") (l := ["node2"]) .start (by decide) (by simp)
    obtain ⟨h1, h2⟩ := hall "node2" hreach
    refine ⟨_, hp, hreach, ?_, h2 (by simp [singlePlan])⟩
    rcases h1 with h1 | h1
    · exact absurd h1 (by decide)
    · exact h1

/-- Claim C34: the maintenance of `StartVertex` on every builder state.  A
`Node(v)` or `SubDAG(v)` that returns nil leaves `v` as the start vertex when
none was set (`StartVertex == ""`) and the start vertex as it was otherwise; a
`Condition(v, t, f)` that returns nil makes `v` the start vertex when none was
set or when the start vertex was `t` or `f`, and leaves it as it was otherwise;
an `Edge(from, to)` that returns nil makes `from` the start vertex when the
start vertex was `to`, and leaves it as it was otherwise; every call that fails
leaves the start vertex as it was. -/
theorem C34_start_vertex_maintenance (dagEntities : List (String × Nat)) (gl : globalVertex)
    (de : dagExecutePlan) (fuel : Nat) :
    (∀ v handler gl1 de1, dagEntity.Node gl de v handler = (gl1, de1, none) →
      de1.StartVertex = (if de.StartVertex = "" then v else de.StartVertex)) ∧
    (∀ v dagName gl1 de1, dagEntity.SubDAG dagEntities gl de v dagName = (gl1, de1, none) →
      de1.StartVertex = (if de.StartVertex = "" then v else de.StartVertex)) ∧
    (∀ v t f handler gl1 de1, dagEntity.Condition gl de v t f handler = (gl1, de1, none) →
      de1.StartVertex
        = (if de.StartVertex = "" ∨ t = de.StartVertex ∨ f = de.StartVertex then v
           else de.StartVertex)) ∧
    (∀ frm dst de1, dagEntity.Edge gl de fuel frm dst = some (de1, none) →
      de1.StartVertex = (if dst = de.StartVertex then frm else de.StartVertex)) ∧
    (∀ v handler gl1 de1 err, dagEntity.Node gl de v handler = (gl1, de1, some err) →
      de1.StartVertex = de.StartVertex) ∧
    (∀ v dagName gl1 de1 err,
      dagEntity.SubDAG dagEntities gl de v dagName = (gl1, de1, some err) →
      de1.StartVertex = de.StartVertex) ∧
    (∀ v t f handler gl1 de1 err,
      dagEntity.Condition gl de v t f handler = (gl1, de1, some err) →
      de1.StartVertex = de.StartVertex) ∧
    (∀ frm dst de1 err, dagEntity.Edge gl de fuel frm dst = some (de1, some err) →
      de1.StartVertex = de.StartVertex) := by
  refine ⟨?_, ?_, ?_, ?_, ?_, ?_, ?_, ?_⟩
  · intro v handler gl1 de1 h
    obtain ⟨_, _, _, _, hde⟩ := Node_inv_ok gl gl1 de de1 v handler h
    rw [hde]
  · intro v dagName gl1 de1 h
    obtain ⟨_, _, _, _, hde⟩ := SubDAG_inv_ok dagEntities gl gl1 de de1 v dagName h
    rw [hde]
  · intro v t f handler gl1 de1 h
    obtain ⟨_, _, _, _, _, _, hde⟩ := Condition_inv_ok gl gl1 de de1 v t f handler h
    rw [hde]
  · intro frm dst de1 h
    obtain ⟨_, _, _, _, hde⟩ := Edge_inv_ok gl de de1 fuel frm dst h
    rw [hde]
  · intro v handler gl1 de1 err h
    rw [(Node_inv_err gl gl1 de de1 v handler err h).2]
  · intro v dagName gl1 de1 err h
    rw [(SubDAG_inv_err dagEntities gl gl1 de de1 v dagName err h).2]
  · intro v t f handler gl1 de1 err h
    rw [(Condition_inv_err gl gl1 de de1 v t f handler err h).2]
  · intro frm dst de1 err h
    rw [Edge_inv_err gl de de1 fuel frm dst err h]

/-- Claim C34 on `failRegFlow.testDAG` after the declaration of `node1` and
`node2`, where `node1` is the start vertex: `Edge("node2", "node1")` returns
nil and makes `node2` the start vertex. -/
theorem C34_start_vertex_maintenance_witness :
    ∃ de1, dagEntity.Edge twoNodes.1 twoNodes.2 8 "node2" "node1" = some (de1, none) ∧
      twoNodes.2.StartVertex = "node1" ∧ de1.StartVertex = "node2" :=
  ⟨_, rfl, rfl,
    ((C34_start_vertex_maintenance [] twoNodes.1 twoNodes.2 8).2.2.2.1 "node2" "node1" _
      rfl).trans rfl⟩

/-- Claim C35 (what holds of the cycle check, and the failing input).  The
links of every DAG that `RegisterDAG` has built, whatever its handler did,
have no cycle other than a link from a vertex to itself (the link that
`Edge(a, a)` records).  On links without such a cycle, a walk of
`checkLinkValid` that meets no vertex with a link to itself returns within
one iteration more than there are links (it follows `|Links|` links at most),
and returns true exactly when it reaches its target.  A walk that starts on a
vertex `a` with a link to itself, for another target, returns for no fuel.
At the failing input (`failRegFlow.testDAG` after the declaration of `node1`
and `node2`) `Edge("node1", "node1")` returns nil; after it the walk from
`node1` for `node2` does not return, and neither does `Edge("node2",
"node1")`. -/
theorem C35_cycle_check_termination (links : List (String × String)) (a b : String)
    (fuel : Nat) :
    (∀ (f f1 : flow) (fuel0 : Nat) (name : String) (handler : DAGHandler) (err : Option Err),
      f.running = true → f.RegisterDAG fuel0 name handler = some (f1, err) →
      ∃ de, f1.heap.get? f.heap.length = some de ∧
        ∀ x, Reaches de.Links x x → mapGet de.Links x = some x) ∧
    ((∀ x, Reaches links x x → mapGet links x = some x) →
      (∀ x, (x = a ∨ Reaches links a x) → mapGet links x ≠ some x) →
      links.length + 1 ≤ fuel →
      ∃ r, checkLinkValid links fuel a b = some r ∧ (r = true ↔ Reaches links a b)) ∧
    (mapGet links a = some a → a ≠ b → checkLinkValid links fuel a b = none) ∧
    ((∃ de1, dagEntity.Edge twoNodes.1 twoNodes.2 (fuel + 1) "node1" "node1" = some (de1, none) ∧
        twoNodesLooped.2 = de1) ∧
      checkLinkValid twoNodesLooped.2.Links fuel "node1" "node2" = none ∧
      dagEntity.Edge twoNodesLooped.1 twoNodesLooped.2 fuel "node2" "node1" = none) := by
  refine ⟨?_, ?_, ?_, ⟨_, rfl, rfl⟩, ?_, ?_⟩
  · intro f f1 fuel0 name handler err hrun h
    exact RegisterDAG_invariant
      (fun _ de => ∀ x, Reaches de.Links x x → mapGet de.Links x = some x)
      f f1 fuel0 name handler err hrun h
      (by
        intro x hx
        cases hx with
        | step h1 => simp [newDAGEntity, mapGet] at h1
        | next h1 _ => simp [newDAGEntity, mapGet] at h1)
      (fun gl de op gl1 de1 e hinv hres =>
        result_selfLoopsOnly f.dagEntities gl gl1 de de1 fuel0 op e hinv hres)
  · intro hinv hno hfuel
    exact checkLinkValid_returns links a b fuel
      (fun x hx hcyc => hno x hx (hinv x hcyc)) hfuel
  · intro hloop hab
    exact checkLinkValid_self_loop links a b hloop hab fuel
  · exact checkLinkValid_self_loop twoNodesLooped.2.Links "node1" "node2" rfl (by decide) fuel
  · have hwalk := checkLinkValid_self_loop twoNodesLooped.2.Links "node1" "node2" rfl
      (by decide) fuel
    have hlink : mapGet twoNodesLooped.2.Links "node2" = none := rfl
    have hget : globalVertex.get twoNodesLooped.1 twoNodesLooped.2.Name "node2"
        = some { name := "node2", typ := .vertexNode, handler := some okNode, dag := none,
                 condHandler := none } := rfl
    have hdst : globalVertex.exists twoNodesLooped.1 twoNodesLooped.2.Name "node1" = true := rfl
    simp only [dagEntity.Edge, hlink, hget, hdst, hwalk]
    simp

/-- Claim C35 on `failRegFlow.testDAG` after `Edge("node1", "node2")`: the
links have no cycle, and the walk from `node2` for `node1` (the check of
`Edge("node1", "node2")` made again) returns false within two iterations. -/
theorem C35_cycle_check_termination_witness :
    ∃ r, checkLinkValid twoNodesLinked.2.Links 2 "node2" "node1" = some r ∧
      (r = true ↔ Reaches twoNodesLinked.2.Links "node2" "node1") :=
  (C35_cycle_check_termination twoNodesLinked.2.Links "node2" "node1" 2).2.1
    (by
      intro x hx
      exfalso
      have hl : twoNodesLinked.2.Links = [("node1", "node2")] := rfl
      rw [hl] at hx
      have key : ∀ u v, Reaches [("node1", "node2")] u v → u = "node1" ∧ v = "node2" := by
        intro u v h
        induction h with
        | @step p q h1 =>
          by_cases hp : p = "node1"
          · subst hp
            simp [mapGet] at h1
            exact ⟨rfl, h1.symm⟩
          · simp [mapGet, Ne.symm hp] at h1
        | @next p c q h1 _ ih =>
          by_cases hp : p = "node1"
          · exact ⟨hp, ih.2⟩
          · simp [mapGet, Ne.symm hp] at h1
      obtain ⟨h1, h2⟩ := key x x hx
      rw [h1] at h2
      exact absurd h2 (by decide))
    (by
      intro x hx
      have hl : twoNodesLinked.2.Links = [("node1", "node2")] := rfl
      rw [hl] at hx ⊢
      rcases hx with hx | hx
      · subst hx
        simp [mapGet]
      · cases hx with
        | step h1 => simp [mapGet] at h1
        | next h1 _ => simp [mapGet] at h1)
    (by
      have hl : twoNodesLinked.2.Links = [("node1", "node2")] := rfl
      rw [hl]
      simp)

/-- Claim C36, counterexample: on the engine of the tests, `RegisterDAG("a",
...)` of the one node `x` returns nil, `GetDAG("a")` returns the registered
entity, and `SubDAG("self", "a")` on it returns nil.  The registered plan `a`
then has the sub-DAG vertex `self` that refers to the plan `a` itself, its
compilation does not return for any fuel, and neither does `RunDAG("a", ...)`. -/
theorem C36_getDAG_lets_a_plan_contain_itself :
    (engine.RegisterDAG 8 "a" nodeXDAG).map Prod.snd = some none ∧
    (registered engine "a" nodeXDAG).GetDAG "a" = some 0 ∧
    ((registered engine "a" nodeXDAG).applyOp 8 0 (.SubDAG "self" "a")).map Prod.snd
      = some none ∧
    selfReferring.GetDAG "a" = some 0 ∧
    Contains selfReferring.heap 0 0 ∧
    (∀ (fuel : Nat) (p e : Path),
      generateRuntime selfReferring.heap selfReferring.gl fuel 0 p e = none) ∧
    ∀ fuel : Nat, selfReferring.RunDAG fuel "a" "r1" [] = none := by
  have hp : selfReferring.heap.get? 0
      = some { Name := "a", StartVertex := "x",
               Vertex := [("x", makeNodeVertexInfo), ("self", makeDAGVertexInfo 0)],
               Links := [] } := by decide!
  have hget : selfReferring.getDAG "a" = some 0 := by decide!
  have hrun : selfReferring.running = true := by decide!
  have hnew : selfReferring.hasExecutePlan "r1" = false := by decide!
  refine ⟨by decide!, by decide!, by decide!, hget, ?_, selfReferring_never_compiles, ?_⟩
  · exact @Contains.direct selfReferring.heap 0 0 _ ("self", makeDAGVertexInfo 0) hp (by simp)
      rfl rfl
  · intro fuel
    have hc := selfReferring_never_compiles fuel (NewPath []) (NewPath [])
    generalize selfReferring = g at *
    simp only [flow.RunDAG, hrun, hget, hnew, flow.launchDAG, hc, Bool.not_true,
      Bool.false_eq_true, if_false]

/-- Claim C36, amended: after every sequence of `RegisterDAG` calls on a new
engine (each with the builder calls its handler makes on the DAG it is given),
no plan of the engine contains itself through sub-DAG vertices: a plan
contains plans at lower addresses only, the addresses of the registered DAGs
are in the heap, and so the compilation of every registered plan returns
(without panic) for every fuel above its address, at every entrypoint. -/
theorem C36_registered_plans_are_finite_trees (store : memStore) (calls : List Call)
    (maxNodeConcurrency : Int) (fuel : Nat) (regs : List (String × DAGHandler)) (f1 : flow)
    (h : flow.registerAll fuel regs (newFlow store calls maxNodeConcurrency false) = some f1) :
    (∀ a b, Contains f1.heap a b → b < a) ∧
    (∀ a, ¬ Contains f1.heap a a) ∧
    ∀ name a, f1.GetDAG name = some a →
      a < f1.heap.length ∧
      ∀ (fuel1 : Nat) (p e : Path), a < fuel1 →
        ∃ out, generateRuntime f1.heap f1.gl fuel1 a p e = some out ∧
          ∀ msg, out ≠ .panic msg := by
  have ht : f1.HeapTree :=
    registerAll_heapTree fuel regs _ f1 h (newFlow_heapTree store calls maxNodeConcurrency false)
  refine ⟨contains_lt f1.heap ht.1, ?_, ?_⟩
  · intro a hc
    exact Nat.lt_irrefl a (contains_lt f1.heap ht.1 a a hc)
  · intro name a hget
    have hlt : a < f1.heap.length := ht.2 name a hget
    exact ⟨hlt, fun fuel1 p e hf => generateRuntime_returns f1.heap f1.gl ht.1 fuel1 a p e hf hlt⟩

/-- Claim C36, amended, on scenario S6 (the DAG `inner`, then the DAG `outer`
with a sub-DAG vertex that runs `inner`): both registrations return, `outer`
is the plan at address 1, and it does not contain itself. -/
theorem C36_registered_plans_are_finite_trees_witness :
    ((flow.registerAll 8 [("inner", innerDAG), ("outer", outerXDAG)] engine).map
      (fun g => g.GetDAG "outer")) = some (some 1) ∧
    ¬ Contains
      ((flow.registerAll 8 [("inner", innerDAG), ("outer", outerXDAG)] engine).getD engine).heap
      1 1 := by
  have hget : ((flow.registerAll 8 [("inner", innerDAG), ("outer", outerXDAG)] engine).map
      (fun g => g.GetDAG "outer")) = some (some 1) := by decide!
  refine ⟨hget, ?_⟩
  cases hres : flow.registerAll 8 [("inner", innerDAG), ("outer", outerXDAG)] engine with
  | none =>
    rw [hres] at hget
    cases hget
  | some f1 =>
    exact (C36_registered_plans_are_finite_trees NewMemStore [] 100000 8 _ f1 hres).2.1 1

/-- Claim C37, counterexample: `RegisterDAG` accepts the DAG `empty`, whose
handler declares nothing, and then the DAG `outer`, which declares the one
vertex `sub` that runs `empty`.  The plan `outer` compiles for no fuel, and
`RunDAG("outer", "r1")` on the new engine fails with `NotFound`: the plan
`empty` has no start vertex to stand at. -/
theorem C37_accepted_dag_over_an_empty_dag_does_not_compile :
    (engine.RegisterDAG 8 "empty" emptyDAG).map Prod.snd = some none ∧
    ((registered engine "empty" emptyDAG).RegisterDAG 8 "outer" overEmptyDAG).map Prod.snd
      = some none ∧
    overEmpty.GetDAG "outer" = some 1 ∧
    (overEmpty.heap.get? 1).map dagExecutePlan.Vertex = some [("sub", makeDAGVertexInfo 0)] ∧
    (∀ (fuel : Nat) (d : dagRuntime),
      generateRuntime overEmpty.heap overEmpty.gl fuel 1 (NewPath []) (NewPath [])
        ≠ some (.ok d)) ∧
    (overEmpty.RunDAG 8 "outer" "r1" []).map Prod.snd
      = some (.error (.trace (.trace (.trace (.trace (.kind .NotFound "")))))) := by
  refine ⟨by decide!, by decide!, by decide!, by decide!, ?_, by decide!⟩
  intro fuel d
  exact overEmpty_never_compiles fuel (NewPath []) (NewPath []) d

/-- Claim C37, amended: a DAG that `RegisterDAG` accepted on a running engine
whose index of vertices had no vertex under the name of the DAG when the call
began.  The DAG is registered with the plan its handler built; the source and
the target of every link and the two successors of every Condition are
vertices of the plan, every vertex of the plan is in the index with the type
the plan gives it, and the start vertex is a vertex of the plan once there is
one.  When the plan has a vertex and the plans its sub-DAG vertices refer to
compile at the empty entrypoint, the plan compiles at the empty entrypoint,
and `RunDAG` with a request id that is not resident, on a store that returns
no error, returns nil. -/
theorem C37_fresh_registration_compiles (f f1 : flow) (fuel : Nat) (name : String)
    (handler : DAGHandler) (hrun : f.running = true)
    (hreg : f.RegisterDAG fuel name handler = some (f1, none))
    (hfresh : ∀ v, globalVertex.exists f.gl name v = false) :
    ∃ addr plan, f1.GetDAG name = some addr ∧ f1.heap.get? addr = some plan ∧
      plan.Name = name ∧
      (∀ x y, mapGet plan.Links x = some y →
        mapHas plan.Vertex x = true ∧ mapHas plan.Vertex y = true) ∧
      (∀ kv ∈ plan.Vertex, kv.2.Typ = .vertexCond →
        mapHas plan.Vertex kv.2.TrueVertex = true ∧
        mapHas plan.Vertex kv.2.FalseVertex = true) ∧
      (∀ kv ∈ plan.Vertex, ∃ e, globalVertex.get f1.gl name kv.1 = some e ∧
        e.typ = kv.2.Typ) ∧
      (plan.Vertex ≠ [] → mapHas plan.Vertex plan.StartVertex = true) ∧
      (plan.Vertex ≠ [] → ∀ fuel1,
        (∀ kv ∈ plan.Vertex, kv.2.Typ = .vertexDAG → ∀ a, kv.2.DAG = some a →
          ∀ p, ∃ d, generateRuntime f1.heap f1.gl fuel1 a p (NewPath []) = some (.ok d)) →
        (∀ p, ∃ d, generateRuntime f1.heap f1.gl (fuel1 + 1) addr p (NewPath [])
          = some (.ok d)) ∧
        ∀ requestID params, f1.hasExecutePlan requestID = false → f1.store.mockErr = none →
          ∃ f2, f1.RunDAG (fuel1 + 1) name requestID params = some (f2, .ok ())) := by
  obtain ⟨plan, hplan, hname, hdecl, hidx⟩ := RegisterDAG_invariant
    (fun gl de => de.Name = name ∧ de.Declared gl ∧ de.Indexed gl) f f1 fuel name handler none
    hrun hreg ⟨rfl, newDAGEntity_declared f.gl name, newDAGEntity_indexed f.gl name hfresh⟩
    (fun gl de op gl1 de1 e1 hinv hres =>
      ⟨(result_frame f.dagEntities gl gl1 de de1 fuel op e1 hres).1.trans hinv.1,
        result_declared f.dagEntities gl gl1 de de1 fuel op e1 hinv.2.1 hres,
        result_indexed f.dagEntities gl gl1 de de1 fuel op e1 hinv.2.2 hres⟩)
  obtain ⟨hget, hrun1, _, _⟩ := RegisterDAG_ok_getDAG f f1 fuel name handler hrun hreg
  obtain ⟨hL, hV, _, hN⟩ := hdecl
  obtain ⟨hI, hT⟩ := hidx
  have hlinks : ∀ x y, mapGet plan.Links x = some y →
      mapHas plan.Vertex x = true ∧ mapHas plan.Vertex y = true :=
    fun x y hxy => ⟨hI x (hL x y hxy).1, hI y (hL x y hxy).2⟩
  have hcond : ∀ kv ∈ plan.Vertex, kv.2.Typ = .vertexCond →
      mapHas plan.Vertex kv.2.TrueVertex = true ∧
      mapHas plan.Vertex kv.2.FalseVertex = true :=
    fun kv hkv hc => ⟨hI _ ((hV kv hkv).2 hc).1, hI _ ((hV kv hkv).2 hc).2⟩
  have hstart : plan.Vertex ≠ [] → mapHas plan.Vertex plan.StartVertex = true :=
    fun hne => hI _ (hN hne)
  refine ⟨f.heap.length, plan, hget, hplan, hname, hlinks, hcond, ?_, hstart, ?_⟩
  · intro kv hkv
    obtain ⟨e, h1, h2, _⟩ := hT kv hkv
    rw [hname] at h1
    exact ⟨e, h1, h2⟩
  · intro hne fuel1 hsub
    have hcomp := generateRuntime_ok f1.heap f1.gl fuel1 f.heap.length plan hplan
      (by
        intro kv hkv
        obtain ⟨e, h1, h2, h3⟩ := hT kv hkv
        refine ⟨e, h1, h2, ?_⟩
        rcases h3 with h3 | h3 | ⟨h3, a, ha⟩
        · exact Or.inl h3
        · exact Or.inr (Or.inl h3)
        · exact Or.inr (Or.inr ⟨h3, a, ha, hsub kv hkv h3 a ha⟩))
      (fun x y hxy => (hlinks x y hxy).2) hcond (hstart hne)
    refine ⟨hcomp, ?_⟩
    intro requestID params hnew hstore
    obtain ⟨dr, hdr⟩ := hcomp (NewPath [])
    obtain ⟨f2, h2, _⟩ := RunDAG_ok f1 (fuel1 + 1) name requestID params f.heap.length dr hrun1
      hget hdr hnew hstore
    exact ⟨f2, h2⟩

/-- Claim C37, amended, on TestSingleFlow: `RegisterDAG("test", ...)` of
`singleDAG.testDAG` on the new engine returns nil, and `RunDAG("test",
"test-require-id")` returns nil afterwards. -/
theorem C37_fresh_registration_compiles_witness :
    (engine.RegisterDAG 8 "test" singleDAG).map Prod.snd = some none ∧
    ∃ f2, (registered engine "test" singleDAG).RunDAG 9 "test" "test-require-id" []
      = some (f2, .ok ()) := by
  have hok : (engine.RegisterDAG 8 "test" singleDAG).map Prod.snd = some none := by decide!
  have hp : (registered engine "test" singleDAG).heap.get? 0 = some singlePlan := by decide!
  have hnew : (registered engine "test" singleDAG).hasExecutePlan "test-require-id" = false := by
    decide!
  have hstore : (registered engine "test" singleDAG).store.mockErr = none := by decide!
  have hget0 : (registered engine "test" singleDAG).GetDAG "test" = some 0 := by decide!
  refine ⟨hok, ?_⟩
  cases hres : engine.RegisterDAG 8 "test" singleDAG with
  | none =>
    rw [hres] at hok
    cases hok
  | some r =>
    obtain ⟨g1, e⟩ := r
    rw [hres] at hok
    simp only [Option.map_some', Option.some.injEq] at hok
    subst hok
    have hg1 : registered engine "test" singleDAG = g1 := by rw [registered, hres]
    rw [hg1] at hp hnew hstore hget0 ⊢
    obtain ⟨addr, plan, hget, hplan, _, _, _, _, _, hrunDAG⟩ :=
      C37_fresh_registration_compiles engine g1 8 "test" singleDAG rfl hres (fun _ => rfl)
    rw [hget0] at hget
    cases hget
    have haddr : g1.heap.get? 0 = some plan := hplan
    rw [hp] at haddr
    cases haddr
    refine (hrunDAG (by simp [singlePlan]) 8 ?_).2 "test-require-id" [] hnew hstore
    intro kv hkv ht
    simp only [singlePlan, List.mem_cons, List.mem_singleton, List.not_mem_nil, or_false] at hkv
    rcases hkv with hkv | hkv | hkv <;> subst hkv <;> simp [makeNodeVertexInfo] at ht

/-- Claim C38 (what holds of a failed registration, and the failing input).  A
call of `RegisterDAG` that returns an error leaves the table of registered
DAGs, the store and the scheduler as they were, and keeps every entry the
index of vertices had; it does not take back the entries its handler added.
At the failing input (a handler that declares the node `x` and then fails on
`Edge("x", "nope")`, registered as `test` on the engine of the tests) the call
returns `NotFound` and the index has the vertex `x` under `test` afterwards,
which it had not before; a later `RegisterDAG("test", ...)` of the one node
`x` fails with `AlreadyExists`, while the same call on the engine that never
saw the failed call returns nil. -/
theorem C38_failed_registration_keeps_its_vertices (f f1 : flow) (fuel : Nat) (name : String)
    (handler : DAGHandler) (err : Err)
    (h : f.RegisterDAG fuel name handler = some (f1, some err)) :
    (f1.dagEntities = f.dagEntities ∧ f1.running = f.running ∧ f1.store = f.store ∧
      f1.batchRunner = f.batchRunner ∧
      ∀ k e, mapGet f.gl k = some e → mapGet f1.gl k = some e) ∧
    ((engine.RegisterDAG 8 "test" leakDAG).map Prod.snd
        = some (some (.trace (.trace (.kind .NotFound "nope")))) ∧
      globalVertex.exists engine.gl "test" "x" = false ∧
      globalVertex.exists (registered engine "test" leakDAG).gl "test" "x" = true ∧
      ((registered engine "test" leakDAG).RegisterDAG 8 "test" nodeXDAG).map Prod.snd
        = some (some (.trace (.trace (.trace (.kind .AlreadyExists "x"))))) ∧
      (engine.RegisterDAG 8 "test" nodeXDAG).map Prod.snd = some none) := by
  refine ⟨?_, by decide!, by decide!, by decide!, by decide!, by decide!⟩
  unfold flow.RegisterDAG at h
  by_cases hrun : f.running = true
  · simp only [hrun, Bool.not_true, Bool.false_eq_true, if_false] at h
    cases hr : handler.run fuel f.heap.length { f with heap := f.heap ++ [newDAGEntity name] } with
    | none =>
      simp only [hrun] at hr
      rw [hr] at h
      cases h
    | some r =>
      obtain ⟨f2, e2⟩ := r
      obtain ⟨hs, hg, _⟩ := run_frame fuel f.heap.length handler _ f2 e2 hr
      simp only [hrun] at hr
      rw [hr] at h
      cases e2 with
      | none => simp at h
      | some e =>
        simp only [Option.some.injEq, Prod.mk.injEq] at h
        rw [← h.1]
        obtain ⟨h1, h2, _, _, h5, h6, _⟩ := hs
        exact ⟨h6, h1, h2, h5, hg⟩
  · have hrun' : f.running = false := by simpa using hrun
    simp only [hrun', Bool.not_false, if_true, Option.some.injEq, Prod.mk.injEq] at h
    rw [← h.1]
    exact ⟨rfl, rfl, rfl, rfl, fun _ _ hk => hk⟩

/-- Claim C38 at the failing input: the failed registration of `leakDAG` as
`test` leaves no DAG registered, and the one entry it added to the empty index
of the engine stays. -/
theorem C38_failed_registration_keeps_its_vertices_witness :
    (registered engine "test" leakDAG).dagEntities = engine.dagEntities ∧
    (registered engine "test" leakDAG).gl.map Prod.fst = ["test.x"] := by
  have hsome : (engine.RegisterDAG 8 "test" leakDAG).map (fun p => p.2.isSome) = some true := by
    decide!
  have hgl : (registered engine "test" leakDAG).gl.map Prod.fst = ["test.x"] := by decide!
  refine ⟨?_, hgl⟩
  cases hres : engine.RegisterDAG 8 "test" leakDAG with
  | none =>
    rw [hres] at hsome
    cases hsome
  | some r =>
    obtain ⟨f1, e⟩ := r
    cases e with
    | none =>
      rw [hres] at hsome
      cases hsome
    | some err =>
      rw [registered, hres]
      exact (C38_failed_registration_keeps_its_vertices engine f1 8 "test" leakDAG err hres).1.1

/-- Claim C39: `ReloadRequests` on a store whose keys are distinct (it is a Go
map), for a request that is not resident, whose rerun context `reRC` the store
returns, and whose stored plan compiles at the entrypoint of `reRC`.  The call
files for the request the runner that `newContextRunner` builds on the
compiled runtime: its status is `Pending` and its `nextRunTime` is zero
whatever `reRC.Status` is, its data is `reRC.Data`, its runtime stands at the
vertex that `reRC.Entrypoint` selects, and the entry of the request in the
returned map is nil.  The runner can run at every clock reading after zero,
so a request stored as `Paused` or `Fatal` runs again on the first tick after
the reload. -/
theorem C39_reload_makes_the_runner_pending (f f1 : flow) (fuel : Nat)
    (errs : Option (List (String × Option Err))) (err : Option Err) (id : String)
    (reRC : flowRerunContext) (heap : List dagExecutePlan) (root : Nat) (dr : dagRuntime)
    (hkeys : (f.store.m.map Prod.fst).Nodup)
    (hres : f.ReloadRequests fuel = some (f1, .ok (errs, err)))
    (hnew : f.batchRunner.exists id = false)
    (hrc : f.store.Get RunContextPath id = (some (.rerun reRC), none))
    (hplan : f.store.Get DAGPlanPath id = (some (.plan heap root), none))
    (hcompile : generateRuntime heap f.gl fuel root (NewPath []) reRC.Entrypoint
      = some (.ok dr)) :
    ∃ r plan, f1.batchRunner.get id = some r ∧ mapGet (errs.getD []) id = some none ∧
      r = newContextRunner id (some (.dag dr)) reRC.Data ∧
      r.runningStatus = .Pending ∧ r.nextRunTime = 0 ∧ r.nextStatus = .None ∧
      r.currentData = reRC.Data ∧ r.runningRC = some (.dag dr) ∧
      heap.get? root = some plan ∧ dr.runningRC = selectedVertex plan reRC.Entrypoint ∧
      ∀ now : Int, 0 < now → r.canRun now = true := by
  obtain ⟨errs0, heach, hgetD, _⟩ := ReloadRequests_ok f f1 fuel errs err hres
  have hnd := matchedKeys_nodup f.store RunContextPath hkeys
  have hmem : id ∈ f.store.matchedKeys RunContextPath := by
    rw [mem_matchedKeys]
    simp only [memStore.Get, Prod.mk.injEq] at hrc
    simp [mapHas, hrc.1]
  obtain ⟨_, _, _, hids⟩ := reloadEach_spec fuel _ f f1 [] errs0 hnd (fun _ _ => rfl) heach
  have hout : f.rerunOutcome fuel id
      = some (.ok (newContextRunner id (some (.dag dr)) reRC.Data)) := by
    unfold flow.rerunOutcome flow.loadPlan
    rw [hplan]
    simp only
    rw [hrc]
    simp only
    rw [hcompile]
  obtain ⟨plan, hp, hrun, _, _⟩ :=
    generateRuntime_ok_running heap f.gl fuel root (NewPath []) reRC.Entrypoint dr hcompile
  rw [hgetD]
  rcases (hids id hmem).2 hnew with ⟨r, h1, h2, h3⟩ | ⟨e, h1, _, _⟩
  · rw [hout] at h1
    simp only [Option.some.injEq, Outcome.ok.injEq] at h1
    subst h1
    refine ⟨_, plan, h3, h2, rfl, rfl, rfl, rfl, rfl, rfl, hp, hrun, ?_⟩
    intro now hnow
    simp [contextRunner.canRun, newContextRunner, hnow]
  · rw [hout] at h1
    cases h1
/-- Claim C39 on TestRerunFlow with a pause asked for before the first tick:
the store holds the rerun context with status `Paused` at `test.node2`; after
the restart `ReloadRequests` files a runner that is `Pending` with
`nextRunTime` zero, and it can run at the clock reading 1. -/
theorem C39_reload_makes_the_runner_pending_witness :
    (restart (after pausedFlow) [.RegisterDAG "test" singleDAG]).store.Get RunContextPath
        "test-require-id"
      = (some (.rerun { Status := .Paused, Entrypoint := ["test", "node2"], Data := [] }),
         none) ∧
    ∃ r, (reloaded (restart (after pausedFlow)
          [.RegisterDAG "test" singleDAG])).batchRunner.get "test-require-id" = some r ∧
      r.runningStatus = .Pending ∧ r.nextRunTime = 0 ∧ r.canRun 1 = true := by
  have hkeys : ((restart (after pausedFlow) [.RegisterDAG "test" singleDAG]).store.m.map
      Prod.fst).Nodup := by decide!
  have hnew : (restart (after pausedFlow)
      [.RegisterDAG "test" singleDAG]).batchRunner.exists "test-require-id" = false := by decide!
  have hrc : (restart (after pausedFlow) [.RegisterDAG "test" singleDAG]).store.Get
      RunContextPath "test-require-id"
      = (some (.rerun { Status := .Paused, Entrypoint := ["test", "node2"], Data := [] }),
         none) := by decide!
  have hplan : (restart (after pausedFlow) [.RegisterDAG "test" singleDAG]).store.Get
      DAGPlanPath "test-require-id"
      = (some (.plan (after [.RegisterDAG "test" singleDAG]).heap 0), none) := by decide!
  have hcomp : (generateRuntime (after [.RegisterDAG "test" singleDAG]).heap
      (restart (after pausedFlow) [.RegisterDAG "test" singleDAG]).gl 8 0 (NewPath [])
      ["test", "node2"]).map Outcome.isOk = some true := by decide!
  have hsome : ((restart (after pausedFlow) [.RegisterDAG "test" singleDAG]).ReloadRequests
      8).map (fun p => p.2.isOk) = some true := by decide!
  have hthm := fun f1 errs err dr =>
    C39_reload_makes_the_runner_pending
      (restart (after pausedFlow) [.RegisterDAG "test" singleDAG]) f1 8 errs err
      "test-require-id" { Status := .Paused, Entrypoint := ["test", "node2"], Data := [] }
      (after [.RegisterDAG "test" singleDAG]).heap 0 dr hkeys
  refine ⟨hrc, ?_⟩
  generalize restart (after pausedFlow) [.RegisterDAG "test" singleDAG] = g at *
  generalize (after [.RegisterDAG "test" singleDAG]).heap = H at *
  cases hres : g.ReloadRequests 8 with
  | none =>
    rw [hres] at hsome
    cases hsome
  | some res =>
    obtain ⟨f1, out⟩ := res
    cases out with
    | panic r =>
      rw [hres] at hsome
      cases hsome
    | error e =>
      rw [hres] at hsome
      cases hsome
    | ok pair =>
      obtain ⟨errs, err⟩ := pair
      cases hc : generateRuntime H g.gl 8 0 (NewPath []) ["test", "node2"] with
      | none =>
        rw [hc] at hcomp
        cases hcomp
      | some o =>
        cases o with
        | panic r =>
          rw [hc] at hcomp
          cases hcomp
        | error e =>
          rw [hc] at hcomp
          cases hcomp
        | ok dr =>
          obtain ⟨r, _, h1, _, _, h2, h3, _, _, _, _, _, h4⟩ :=
            hthm f1 errs err dr hres hnew hrc hplan hc
          rw [reloaded, hres]
          exact ⟨r, h1, h2, h3, h4 1 (by decide)⟩

/-- Claim C40 (the step of a sub-DAG runtime, and the failing input).  A step
of a `dagRuntime` that hands back something else than the runtime itself (its
child has signalled `Termination`) hands back its successor `nextRC` and
leaves `runningRC` where it was, at the inner vertex that has just run: the
next entry resumes there.  At the failing input the DAG `inner` is `A -> B`;
the DAG `outer` starts at the sub-DAG vertex `sub` (which runs `inner`), goes
on to the Condition `again`, and from there back to `sub` the first time and
to `done` afterwards.  The request `r1` enters `sub` twice.  The first entry
runs `A` and `B`; the second entry runs `B` only: after the third tick the
current vertex is `B` of the inner DAG, and the handler of `A` is invoked
once in the whole request. -/
theorem C40_second_entry_resumes_at_last_vertex (d d1 : dagRuntime) (fc fc1 : flowContext)
    (calls calls1 : List Call) (input data : Data) (ref : RCRef) :
    (d.runOnce fc calls input = (d1, fc1, calls1, .ok (ref, data)) → ref ≠ .self →
      ref = d.nextRC ∧ d1.runningRC = d.runningRC) ∧
    ((after loopFlow).heap.map (fun p => (p.Name, p.StartVertex, p.Links))
        = [("inner", "A", [("A", "B")]), ("outer", "sub", [("sub", "again")])] ∧
      (ticks [1, 2, 3] (after loopFlow)).calls.map Call.vertex
        = [["outer", "sub", "A"], ["outer", "sub", "B"], ["outer", "again"]] ∧
      (observe (ticks [1, 2, 3] (after loopFlow)) "r1").map Observation.path
        = some (some ["outer", "inner", "B"]) ∧
      (ticks [1, 2, 3, 4, 5, 6] (after loopFlow)).calls.map Call.vertex
        = [["outer", "sub", "A"], ["outer", "sub", "B"], ["outer", "again"],
           ["outer", "sub", "B"], ["outer", "again"], ["outer", "done"]] ∧
      reportedStatus (ticks [1, 2, 3, 4, 5, 6] (after loopFlow)) "r1"
        = .inr (.kind .NotFound "r1")) := by
  refine ⟨?_, by decide!, by decide!, by decide!, by decide!, by decide!⟩
  intro h href
  obtain ⟨name, path, rcMap, running, nextRC, nextVertex⟩ := d
  unfold dagRuntime.runOnce at h
  rcases hE : fc.enter name with ⟨fcE, b⟩
  rw [hE] at h
  cases b with
  | false => simp at h
  | true =>
    simp only at h
    rcases hR : runRunning rcMap running fcE calls input with ⟨m1, fcR, callsR, out⟩
    rw [hR] at h
    cases out with
    | error e => simp at h
    | panic r => simp at h
    | ok res =>
      obtain ⟨r, dt⟩ := res
      cases r with
      | Termination =>
        simp only [Prod.mk.injEq, Outcome.ok.injEq] at h
        obtain ⟨h1, _, _, h4, _⟩ := h
        rw [← h1]
        exact ⟨h4.symm, rfl⟩
      | vertex nx =>
        simp only [Prod.mk.injEq, Outcome.ok.injEq] at h
        exact absurd h.2.2.2.1.symm href
      | self =>
        simp only [Prod.mk.injEq, Outcome.ok.injEq] at h
        exact absurd h.2.2.2.1.symm href

/-- Claim C40 on the runtime of a sub-DAG vertex that stands at `node2`, the
last vertex of its inner DAG: the step runs `node2`, hands back the successor
`after`, and the runtime still stands at `node2`. -/
theorem C40_second_entry_resumes_at_last_vertex_witness :
    ∃ d1 fc1 calls1,
      lastVertexRuntime.runOnce (newFlowContext "r1") [] []
        = (d1, fc1, calls1, .ok (.vertex "after", [])) ∧
      d1.runningRC = "node2" :=
  ⟨_, _, _, rfl,
    ((C40_second_entry_resumes_at_last_vertex lastVertexRuntime _ (newFlowContext "r1") _ [] _
      [] [] (.vertex "after")).1 rfl (by decide)).2⟩

end Workflow
